import Mathlib

set_option autoImplicit false

namespace Mystic

/-! ## Go maps

A Go map is represented by the list of its entries, in the order in which a
`range` loop over the map visits them.  The keys of a map are pairwise
distinct; Go leaves the iteration order unspecified, so every statement about a
map is made for an arbitrary order of its entries. -/

/-- A Go `map[K]V`: its entries in iteration order. -/
abbrev GoMap (κ ν : Type) := List (κ × ν)

namespace GoMap

variable {κ ν : Type} [DecidableEq κ]

/-- The comma-ok index expression `v, ok := m[k]`. -/
def lookup : GoMap κ ν → κ → Option ν
  | [], _ => none
  | (k', v) :: rest, k => if k' = k then some v else lookup rest k

/-- The index expression `m[k]`, with `zero` the zero value of the element type. -/
def get (m : GoMap κ ν) (k : κ) (zero : ν) : ν := (lookup m k).getD zero

/-- The assignment `m[k] = v`. -/
def set : GoMap κ ν → κ → ν → GoMap κ ν
  | [], k, v => [(k, v)]
  | (k', v') :: rest, k, v => if k' = k then (k', v) :: rest else (k', v') :: set rest k v

/-- The keys of a map, in iteration order. -/
def keys (m : GoMap κ ν) : List κ := m.map Prod.fst

/-- The values of a map, in iteration order. -/
def values (m : GoMap κ ν) : List ν := m.map Prod.snd

end GoMap

/-! ## Package `square` -/

/-- The struct `MysticSquare3`. -/
structure MysticSquare3 where
  state : GoMap Int Int
  strState : String
deriving DecidableEq, Repr

/-- The error value made by `fmt.Errorf("invalid state %v", state)`. -/
structure GoError where
  format : String
  state : GoMap Int Int
deriving DecidableEq, Repr

/-- The closure `find` of `ValidateState`, scanning from slice index `idx`. -/
def ValidateState.findFrom : List Int → Int → Int → Int
  | [], _, _ => -1
  | val :: rest, value, idx => if value = val then idx else ValidateState.findFrom rest value (idx + 1)

/-- The closure `find` of `ValidateState`: index of the first occurrence, or -1. -/
def ValidateState.find (A : List Int) (value : Int) : Int :=
  ValidateState.findFrom A value 0

/-- The closure `remove` of `ValidateState`: `append(A[:idx], A[idx+1:]...)`. -/
def ValidateState.remove (A : List Int) (value : Int) : List Int :=
  let idx := ValidateState.find A value
  if 0 ≤ idx ∧ idx < (A.length : Int) then A.take idx.toNat ++ A.drop (idx.toNat + 1) else A

/-- The method `ValidateState`. -/
def MysticSquare3.ValidateState (square : MysticSquare3) : Bool :=
  let validTilePositions : List Int := List.replicate 9 0
  let validTileValues : List Int := List.replicate 9 0
  let board := square.state
  if board.length ≠ validTilePositions.length then false
  else
    let filled : List Int × List Int :=
      (List.range' 1 9).foldl
        (fun acc i => (acc.1.set (i - 1) (i : Int), acc.2.set (i - 1) (i : Int)))
        (validTilePositions, validTileValues)
    let erased : List Int × List Int :=
      board.foldl
        (fun acc kv => (ValidateState.remove acc.1 kv.1, ValidateState.remove acc.2 kv.2))
        filled
    let allKeysFound := decide (erased.1.length = 0)
    let allValuesFound := decide (erased.2.length = 0)
    allKeysFound && allValuesFound

/-- The `range` loop of `FindEmptySpace`, with its `break`. -/
def FindEmptySpace.loop : GoMap Int Int → Int
  | [] => -1
  | (key, val) :: rest => if val = 9 then key else FindEmptySpace.loop rest

/-- The method `FindEmptySpace`. -/
def MysticSquare3.FindEmptySpace (square : MysticSquare3) : Int :=
  FindEmptySpace.loop square.state

/-- The method `MapKeyToNewKey`. -/
def MysticSquare3.MapKeyToNewKey (_square : MysticSquare3) : GoMap Int (GoMap String Int) :=
  [ (1, [("down", 4), ("right", 2)]),
    (2, [("down", 5), ("left", 1), ("right", 3)]),
    (3, [("down", 6), ("left", 2)]),
    (4, [("up", 1), ("down", 7), ("right", 5)]),
    (5, [("up", 2), ("down", 8), ("left", 4), ("right", 6)]),
    (6, [("up", 3), ("down", 9), ("left", 5)]),
    (7, [("up", 4), ("right", 8)]),
    (8, [("up", 5), ("left", 7), ("right", 9)]),
    (9, [("up", 6), ("left", 8)]) ]

/-- The two maps that are alive while a move runs: the receiver's map and the
freshly made result map. -/
structure MoveMaps where
  oldSquare : GoMap Int Int
  newSquare : GoMap Int Int
deriving DecidableEq, Repr

/-- The statements that the four moves share once the target cell `newSpace`
is known: `make` the result map, copy the receiver's map into it entry by
entry, then swap two cells of the result. -/
def swapInCopy (state : GoMap Int Int) (blankSpace newSpace : Int) : MoveMaps :=
  let maps : MoveMaps := { oldSquare := state, newSquare := [] }
  let maps := maps.oldSquare.foldl
    (fun mm kv => { mm with newSquare := GoMap.set mm.newSquare kv.1 kv.2 }) maps
  let temp := GoMap.get maps.newSquare blankSpace 0
  let maps := { maps with
    newSquare := GoMap.set maps.newSquare blankSpace (GoMap.get maps.newSquare newSpace 0) }
  let maps := { maps with newSquare := GoMap.set maps.newSquare newSpace temp }
  maps

/-- The method `MoveUp`; `none` is the nil map. -/
def MysticSquare3.MoveUp (square : MysticSquare3) : Option (GoMap Int Int) :=
  if square.ValidateState then
    let blankSpace := square.FindEmptySpace
    let boardMapping := square.MapKeyToNewKey
    match GoMap.lookup boardMapping blankSpace with
    | some spaceMapping =>
      match GoMap.lookup spaceMapping "up" with
      | some newSpace => some (swapInCopy square.state blankSpace newSpace).newSquare
      | none => none
    | none => none
  else none

/-- The method `MoveDown`; `none` is the nil map. -/
def MysticSquare3.MoveDown (square : MysticSquare3) : Option (GoMap Int Int) :=
  if square.ValidateState then
    let blankSpace := square.FindEmptySpace
    let boardMapping := square.MapKeyToNewKey
    match GoMap.lookup boardMapping blankSpace with
    | some spaceMapping =>
      match GoMap.lookup spaceMapping "down" with
      | some newSpace => some (swapInCopy square.state blankSpace newSpace).newSquare
      | none => none
    | none => none
  else none

/-- The method `MoveLeft`; `none` is the nil map. -/
def MysticSquare3.MoveLeft (square : MysticSquare3) : Option (GoMap Int Int) :=
  if square.ValidateState then
    let blankSpace := square.FindEmptySpace
    let boardMapping := square.MapKeyToNewKey
    match GoMap.lookup boardMapping blankSpace with
    | some spaceMapping =>
      match GoMap.lookup spaceMapping "left" with
      | some newSpace => some (swapInCopy square.state blankSpace newSpace).newSquare
      | none => none
    | none => none
  else none

/-- The method `MoveRight`; `none` is the nil map. -/
def MysticSquare3.MoveRight (square : MysticSquare3) : Option (GoMap Int Int) :=
  if square.ValidateState then
    let blankSpace := square.FindEmptySpace
    let boardMapping := square.MapKeyToNewKey
    match GoMap.lookup boardMapping blankSpace with
    | some spaceMapping =>
      match GoMap.lookup spaceMapping "right" with
      | some newSpace => some (swapInCopy square.state blankSpace newSpace).newSquare
      | none => none
    | none => none
  else none

/-- The function `strconv.Itoa`. -/
def Itoa (i : Int) : String := toString i

/-- The closure `buildRow` of `buildMysticSquare3StateString`. -/
def buildRow (squareState : GoMap Int Int) (row : Int) : String :=
  let c1 := Itoa (GoMap.get squareState (1 + 3 * (row - 1)) 0)
  let c2 := Itoa (GoMap.get squareState (2 + 3 * (row - 1)) 0)
  let c3 := Itoa (GoMap.get squareState (3 + 3 * (row - 1)) 0)
  let c1 := if c1 = "9" then " " else c1
  let c2 := if c2 = "9" then " " else c2
  let c3 := if c3 = "9" then " " else c3
  c1 ++ " " ++ c2 ++ " " ++ c3

/-- The function `buildMysticSquare3StateString`. -/
def buildMysticSquare3StateString (state : GoMap Int Int) : String :=
  if (MysticSquare3.mk state "").ValidateState then
    let squareState := state
    let row1 := buildRow squareState 1
    let row2 := buildRow squareState 2
    let row3 := buildRow squareState 3
    row1 ++ "\n" ++ row2 ++ "\n" ++ row3
  else "Invalid State"

/-- The function `NewMysticSquare3`: the pointer returned (`none` is nil) and the error. -/
def NewMysticSquare3 (state : GoMap Int Int) : Option MysticSquare3 × Option GoError :=
  let newSquare : MysticSquare3 :=
    { state := state, strState := buildMysticSquare3StateString state }
  if !newSquare.ValidateState then (none, some ⟨"invalid state %v", state⟩)
  else (some newSquare, none)

/-- A value of the interface type `MysticSquare`, as the repository makes
them: the nil interface, or a value that holds a `*MysticSquare3`. The pointer
held may be the nil pointer (`ptr none`); such a value is not the nil
interface, and comparing it with `nil` gives false. -/
inductive MysticSquare where
  | nil
  | ptr (p : Option MysticSquare3)
deriving DecidableEq, Repr

/-- The function `NewMysticSquare`: the pointer and the error that
`NewMysticSquare3` returns are assigned to the results, the first of which has
the interface type, so that it holds the pointer whatever the pointer is. -/
def NewMysticSquare (state : GoMap Int Int) : MysticSquare × Option GoError :=
  (MysticSquare.ptr (NewMysticSquare3 state).1, (NewMysticSquare3 state).2)

/-- The method `State`. -/
def MysticSquare3.State (square : MysticSquare3) : String := square.strState

/-- The method `RealState`. -/
def MysticSquare3.RealState (square : MysticSquare3) : GoMap Int Int :=
  square.state.foldl (fun copy kv => GoMap.set copy kv.1 kv.2) []

/-! ## Package `run`: the scenarios and the heuristic -/

/-- The function `easy`: the initial and the target state. -/
def easy : GoMap Int Int × GoMap Int Int :=
  ([(1, 9), (2, 1), (3, 2), (4, 4), (5, 6), (6, 3), (7, 7), (8, 5), (9, 8)],
   [(1, 1), (2, 2), (3, 3), (4, 4), (5, 5), (6, 6), (7, 7), (8, 8), (9, 9)])

/-- The function `hard`: the initial and the target state. -/
def hard : GoMap Int Int × GoMap Int Int :=
  ([(1, 8), (2, 7), (3, 6), (4, 5), (5, 9), (6, 4), (7, 3), (8, 2), (9, 1)],
   [(1, 1), (2, 2), (3, 3), (4, 4), (5, 9), (6, 5), (7, 6), (8, 7), (9, 8)])

/-- The function `noPath`: the initial and the target state. -/
def noPath : GoMap Int Int × GoMap Int Int :=
  ([(1, 2), (2, 1), (3, 3), (4, 4), (5, 5), (6, 6), (7, 7), (8, 8), (9, 9)],
   [(1, 1), (2, 2), (3, 3), (4, 4), (5, 5), (6, 6), (7, 7), (8, 8), (9, 9)])

/-- The innermost loop of `manhattanDistance`: scan one row of the target for
`currentValue`, starting at column `targetColumn`.  Returns the distance
and the flag `valueFound`.  Rows and columns range over 0..2, so the float
arithmetic of the source is exact and the sum stays far below the int range. -/
def manhattanDistance.scanColumns (currentValue currentRow currentColumn targetRow : Int) :
    List Int → Int → Int → Int × Bool
  | [], _, distance => (distance, false)
  | searchTargetValue :: rest, targetColumn, distance =>
    if searchTargetValue = currentValue then
      (distance + (|currentRow - targetRow| + |currentColumn - targetColumn|), true)
    else
      manhattanDistance.scanColumns currentValue currentRow currentColumn targetRow
        rest (targetColumn + 1) distance

/-- The loop of `manhattanDistance` over the rows of the target, starting at row `targetRow`. -/
def manhattanDistance.scanRows (currentValue currentRow currentColumn : Int) :
    List (List Int) → Int → Int → Bool → Int
  | [], _, distance, _ => distance
  | row :: rest, targetRow, distance, valueFound =>
    if valueFound then distance
    else
      let r := manhattanDistance.scanColumns currentValue currentRow currentColumn targetRow
        row 0 distance
      manhattanDistance.scanRows currentValue currentRow currentColumn rest (targetRow + 1) r.1 r.2

/-- The body of the double loop of `manhattanDistance` over the cells of the
current state: what one cell adds to the distance. -/
def manhattanDistance.visitCell (targetState : List (List Int)) (currentRow currentColumn : Nat)
    (currentValue distance : Int) : Int :=
  let targetValue := (targetState.getD currentRow []).getD currentColumn 0
  if targetValue ≠ currentValue ∧ currentValue ≠ 9 then
    manhattanDistance.scanRows currentValue currentRow currentColumn targetState 0 distance false
  else distance

/-- The loop of `manhattanDistance` over the columns of one row of the current state. -/
def manhattanDistance.loopColumns (targetState : List (List Int)) (currentRow : Nat) :
    List Int → Nat → Int → Int
  | [], _, distance => distance
  | currentValue :: rest, currentColumn, distance =>
    manhattanDistance.loopColumns targetState currentRow rest (currentColumn + 1)
      (manhattanDistance.visitCell targetState currentRow currentColumn currentValue distance)

/-- The loop of `manhattanDistance` over the rows of the current state. -/
def manhattanDistance.loopRows (targetState : List (List Int)) :
    List (List Int) → Nat → Int → Int
  | [], _, distance => distance
  | row :: rest, currentRow, distance =>
    manhattanDistance.loopRows targetState rest (currentRow + 1)
      (manhattanDistance.loopColumns targetState currentRow row 0 distance)

/-- The rows built by the first loop of `manhattanDistance`. -/
def manhattanDistance.rows (sq : MysticSquare3) : List (List Int) :=
  (List.range 3).map fun i =>
    [GoMap.get sq.RealState (1 + 3 * (i : Int)) 0, GoMap.get sq.RealState (2 + 3 * (i : Int)) 0,
      GoMap.get sq.RealState (3 + 3 * (i : Int)) 0]

/-- The function `manhattanDistance`; an error is a panic. -/
def manhattanDistance (current target : MysticSquare3) : Except String Int :=
  if !current.ValidateState then
    .error "passed an invalid state to manhattan distance function"
  else if !target.ValidateState then
    .error "passed an invalid state to manhattan distance function"
  else if current.RealState.length ≠ target.RealState.length then
    .error "State size missmatch"
  else
    let currentState := manhattanDistance.rows current
    let targetState := manhattanDistance.rows target
    .ok (manhattanDistance.loopRows targetState currentState 0 0)

/-! ## Vocabulary of the specification -/

/-- The positions, and the values, of the grid. -/
def tiles : List Int := [1, 2, 3, 4, 5, 6, 7, 8, 9]

/-- The mapping is a bijection on 1..9: its keys are exactly 1..9 and every
value 1..9 occurs exactly once among its values. -/
def IsBijection19 (m : GoMap Int Int) : Prop :=
  (∀ k ∈ GoMap.keys m, k ∈ tiles) ∧ (∀ k ∈ tiles, k ∈ GoMap.keys m) ∧
    ∀ v ∈ tiles, (GoMap.values m).count v = 1

instance IsBijection19.decidable (m : GoMap Int Int) : Decidable (IsBijection19 m) := by
  unfold IsBijection19; infer_instance

/-- The contents of the grid, read in row-major order (position 1 first). -/
def cells (m : GoMap Int Int) : List Int := tiles.map fun k => GoMap.get m k 0

/-- A square as the constructor makes it: a valid map, and the key computed from it. -/
def IsState (s : MysticSquare3) : Prop :=
  s.ValidateState = true ∧ s.strState = buildMysticSquare3StateString s.state

instance IsState.decidable (s : MysticSquare3) : Decidable (IsState s) := by
  unfold IsState; infer_instance

/-- The adjacency of the grid: `q` is the neighbour of `p` in one of the four directions. -/
def Adj (p q : Int) : Prop :=
  (q = p - 3 ∧ p ∉ [1, 2, 3]) ∨ (q = p + 3 ∧ p ∉ [7, 8, 9]) ∨
    (q = p - 1 ∧ p ∉ [1, 4, 7]) ∨ (q = p + 1 ∧ p ∉ [3, 6, 9])

instance Adj.decidable (p q : Int) : Decidable (Adj p q) := by
  unfold Adj; infer_instance

/-- One legal move: `b` is the state built from a non-absent result of one of
the four moves of `a`. -/
def LegalMove (a b : MysticSquare3) : Prop :=
  ∃ r, (a.MoveUp = some r ∨ a.MoveDown = some r ∨ a.MoveLeft = some r ∨ a.MoveRight = some r) ∧
    NewMysticSquare r = (MysticSquare.ptr (some b), none)

/-- A sequence of `n` legal moves leads from `s` to `x`. -/
inductive MovesIn : Nat → MysticSquare3 → MysticSquare3 → Prop
  | zero (s : MysticSquare3) : MovesIn 0 s s
  | succ {n : Nat} {s u v : MysticSquare3} : MovesIn n s u → LegalMove u v → MovesIn (n + 1) s v

/-- The four directions in which the blank slides. -/
inductive Direction
  | left
  | right
  | up
  | down
deriving DecidableEq, Repr

/-- The move of a state in a direction, and the state built from its result. -/
def slide (s : MysticSquare3) (d : Direction) : Option MysticSquare3 :=
  let r := match d with
    | .left => s.MoveLeft
    | .right => s.MoveRight
    | .up => s.MoveUp
    | .down => s.MoveDown
  match r with
  | some m =>
    match NewMysticSquare m with
    | (MysticSquare.ptr (some sq), none) => some sq
    | _ => none
  | none => none

/-- A sequence of slides, none of which may be absent. -/
def slides : MysticSquare3 → List Direction → Option MysticSquare3
  | s, [] => some s
  | s, d :: ds =>
    match slide s d with
    | some s' => slides s' ds
    | none => none

/-- A sequence of `n` legal moves transforms `s` into the arrangement of `t`. -/
def Reaches (n : Nat) (s t : MysticSquare3) : Prop :=
  ∃ x, MovesIn n s x ∧ x.State = t.State

/-- The row (0..2) of a position 1..9. -/
def rowOf (q : Int) : Int := (q - 1) / 3

/-- The column (0..2) of a position 1..9. -/
def colOf (q : Int) : Int := (q - 1) % 3

/-- The grid distance between two positions. -/
def gridDist (a b : Int) : Int := |rowOf a - rowOf b| + |colOf a - colOf b|

/-- The position at which the map holds the value `v` (0 when it holds it nowhere). -/
def posOf (m : GoMap Int Int) (v : Int) : Int :=
  (tiles.find? fun k => GoMap.get m k 0 = v).getD 0

/-- What the tile `v`, standing at position `k`, is away from its place in `t`;
the blank counts for nothing. -/
def cellCost (t : GoMap Int Int) (k v : Int) : Int :=
  if v = 9 then 0 else gridDist k (posOf t v)

/-- The Manhattan sum, cell by cell of the current state. -/
def mdCells (s t : GoMap Int Int) : Int :=
  (tiles.map fun k => cellCost t k (GoMap.get s k 0)).sum

/-- The character that stands for a cell value in the key. -/
def cellChar (v : Int) : Char := if v = 9 then ' ' else Char.ofNat (48 + v.toNat)

/-- The map `r` is the map `m` with the contents of the cells `p` and `q` exchanged;
every other key is as in `m`. -/
def IsSwapOf (m r : GoMap Int Int) (p q : Int) : Prop :=
  ∀ k, GoMap.lookup r k =
    if k = p then GoMap.lookup m q else if k = q then GoMap.lookup m p else GoMap.lookup m k

/-! ## Package `datastructures`: the FIFO queue -/

/-- The type `Queue`: a slice of squares. -/
abbrev Queue := List MysticSquare3

/-- The result of a `Process` call: the item, the flag, and the queue after the call. -/
structure Processed (ι κ : Type) where
  current : Option ι
  hasItem : Bool
  queue : κ

/-- The function `NewMysticSquareQueue`. -/
def NewMysticSquareQueue : Queue := []

/-- The method `Queue.Pop`: the item `old[0]` and the queue `old[1:n]`; `none` is the
panic of indexing an empty slice. -/
def Queue.Pop (q : Queue) : Option (MysticSquare3 × Queue) :=
  match q with
  | [] => none
  | item :: rest => some (item, rest)

/-- The method `Queue.Push`. -/
def Queue.Push (q : Queue) (item : MysticSquare3) : Queue := q ++ [item]

/-- The method `Queue.Len`. -/
def Queue.Len (q : Queue) : Nat := q.length

/-- The method `Queue.Empty`. -/
def Queue.Empty (q : Queue) : Bool := decide (Queue.Len q = 0)

/-- The method `Queue.Process`. -/
def Queue.Process (q : Queue) : Processed MysticSquare3 Queue :=
  let hasItem := !Queue.Empty q
  if hasItem then
    match Queue.Pop q with
    | some (data, q') => { current := some data, hasItem := hasItem, queue := q' }
    | none => { current := none, hasItem := false, queue := q }
  else { current := none, hasItem := hasItem, queue := q }

/-! ## Package `datastructures`: the priority queue

The items live in a memory of their own; a `*MysticSquareItem` is the position of the
item in that memory, and the slice `PriorityQueue` is a list of such pointers. -/

/-- The struct `MysticSquareItem`. -/
structure MysticSquareItem where
  Msquare : MysticSquare3
  priority : Int
  index : Int
deriving DecidableEq, Repr

/-- The slice `PriorityQueue` together with the memory that holds the items. -/
structure PriorityQueue where
  items : List MysticSquareItem
  pq : List Nat
deriving DecidableEq, Repr

/-- The item that a pointer refers to. -/
def PriorityQueue.item (h : PriorityQueue) (p : Nat) : MysticSquareItem :=
  h.items.getD p ⟨⟨[], ""⟩, 0, 0⟩

/-- The slice element `pq[i]`. -/
def PriorityQueue.at (h : PriorityQueue) (i : Nat) : Nat := h.pq.getD i 0

/-- The assignment `p.index = idx` through a pointer. -/
def PriorityQueue.setIndex (h : PriorityQueue) (p : Nat) (idx : Int) : PriorityQueue :=
  { h with items := h.items.set p { h.item p with index := idx } }

/-- The assignment `p.priority = priority` through a pointer. -/
def PriorityQueue.setPriority (h : PriorityQueue) (p : Nat) (priority : Int) : PriorityQueue :=
  { h with items := h.items.set p { h.item p with priority := priority } }

/-- The function `NewMysticSquareItem`: the pointer to the new item, whose index is
the zero value, and the memory that holds it. -/
def NewMysticSquareItem (h : PriorityQueue) (Msquare : MysticSquare3) (priority : Int) :
    Nat × PriorityQueue :=
  (h.items.length, { h with items := h.items ++ [⟨Msquare, priority, 0⟩] })

/-- The method `MysticSquareItem.Priority`. -/
def MysticSquareItem.Priority (item : MysticSquareItem) : Int := item.priority

/-- The function `NewMysticSquarePriorityQueue`. -/
def NewMysticSquarePriorityQueue : PriorityQueue := { items := [], pq := [] }

/-- The method `PriorityQueue.Len`. -/
def PriorityQueue.Len (h : PriorityQueue) : Nat := h.pq.length

/-- The method `PriorityQueue.Less`. -/
def PriorityQueue.Less (h : PriorityQueue) (i j : Nat) : Bool :=
  decide ((h.item (h.at i)).Priority < (h.item (h.at j)).Priority)

/-- The method `PriorityQueue.Swap`. -/
def PriorityQueue.Swap (h : PriorityQueue) (i j : Nat) : PriorityQueue :=
  let pi := h.at i
  let pj := h.at j
  let h := { h with pq := (h.pq.set i pj).set j pi }
  let h := h.setIndex (h.at i) i
  let h := h.setIndex (h.at j) j
  h

/-- The method `PriorityQueue.Push`. -/
def PriorityQueue.Push (h : PriorityQueue) (x : Nat) : PriorityQueue :=
  let n := h.pq.length
  let h := h.setIndex x n
  { h with pq := h.pq ++ [x] }

/-- The method `PriorityQueue.Pop`: the item `old[n-1]` and the queue after the call. -/
def PriorityQueue.Pop (h : PriorityQueue) : Nat × PriorityQueue :=
  let n := h.pq.length
  let item := h.at (n - 1)
  let h := h.setIndex item (-1)
  (item, { h with pq := h.pq.take (n - 1) })

/-- The method `PriorityQueue.Empty`. -/
def PriorityQueue.Empty (h : PriorityQueue) : Bool := decide (h.Len = 0)

/-! ### The library `container/heap`, which the priority queue is driven by -/

/-- The function `heap.up`. -/
def heap.up (h : PriorityQueue) (j : Nat) : PriorityQueue :=
  let i := (j - 1) / 2
  if hij : i = j ∨ ¬ h.Less j i = true then h
  else heap.up (h.Swap i j) i
termination_by j
decreasing_by
  have h1 : ¬ (j - 1) / 2 = j := fun h2 => hij (Or.inl h2)
  omega

/-- The loop of `heap.down`: the queue and the index at which the loop stops. -/
def heap.down.loop (h : PriorityQueue) (i n : Nat) : PriorityQueue × Nat :=
  let j1 := 2 * i + 1
  if hn : j1 ≥ n then (h, i)
  else
    let j := if j1 + 1 < n ∧ h.Less (j1 + 1) j1 = true then j1 + 1 else j1
    if ¬ h.Less j i = true then (h, i)
    else heap.down.loop (h.Swap i j) j n
termination_by n - i
decreasing_by
  split <;> omega

/-- The function `heap.down`: the queue, and whether the element moved. -/
def heap.down (h : PriorityQueue) (i0 n : Nat) : PriorityQueue × Bool :=
  let r := heap.down.loop h i0 n
  (r.1, decide (r.2 > i0))

/-- The function `heap.Init`. -/
def heap.Init (h : PriorityQueue) : PriorityQueue :=
  let n := h.Len
  (List.range (n / 2)).reverse.foldl (fun h i => (heap.down h i n).1) h

/-- The function `heap.Push`. -/
def heap.Push (h : PriorityQueue) (x : Nat) : PriorityQueue :=
  let h := h.Push x
  heap.up h (h.Len - 1)

/-- The function `heap.Pop`. -/
def heap.Pop (h : PriorityQueue) : Nat × PriorityQueue :=
  let n := h.Len - 1
  let h := h.Swap 0 n
  let h := (heap.down h 0 n).1
  h.Pop

/-- The function `heap.Fix`. -/
def heap.Fix (h : PriorityQueue) (i : Nat) : PriorityQueue :=
  let r := heap.down h i h.Len
  if !r.2 then heap.up r.1 i else r.1

/-- The method `PriorityQueue.Process`. -/
def PriorityQueue.Process (h : PriorityQueue) : Processed Nat PriorityQueue :=
  let itemExists := !h.Empty
  if itemExists then
    let r := heap.Pop h
    { current := some r.1, hasItem := itemExists, queue := r.2 }
  else { current := none, hasItem := itemExists, queue := h }

/-- The method `PriorityQueue.update`. -/
def PriorityQueue.update (h : PriorityQueue) (item : Nat) (priority : Int) : PriorityQueue :=
  let h := h.setPriority item priority
  heap.Fix h (h.item item).index.toNat

/-- The method `PriorityQueue.Update`. -/
def PriorityQueue.Update (h : PriorityQueue) (item : Nat) (priority : Int) : PriorityQueue :=
  if (h.item item).index ≥ 0 then h.update item priority else h

/-! ## Package `run`: the three searches -/

/-- The constant `math.MaxInt`. -/
def MaxInt : Int := 2 ^ 63 - 1

/-- The value of an `int` expression: arithmetic wraps around at 64 bits. -/
def wrapInt (x : Int) : Int := (x + 2 ^ 63) % 2 ^ 64 - 2 ^ 63

/-- What the searches return: the predecessor map (the nil map reads as the empty
map) and the flag `pathFound`. -/
structure SearchResult where
  paths : GoMap String (Option MysticSquare3)
  pathFound : Bool
deriving DecidableEq, Repr

/-- One of the four blocks that fill `adjacent`: the move, then the constructor. -/
def appendMove (adjacent : List MysticSquare3) (moved : Option (GoMap Int Int)) :
    List MysticSquare3 :=
  match moved with
  | some state =>
    match NewMysticSquare state with
    | (MysticSquare.ptr (some sq), none) => adjacent ++ [sq]
    | _ => adjacent
  | none => adjacent

/-- The successors of a state as the three searches build them: left, right, up, down. -/
def adjacentSquares (current : MysticSquare3) : List MysticSquare3 :=
  let adjacent : List MysticSquare3 := []
  let adjacent := appendMove adjacent current.MoveLeft
  let adjacent := appendMove adjacent current.MoveRight
  let adjacent := appendMove adjacent current.MoveUp
  let adjacent := appendMove adjacent current.MoveDown
  adjacent

/-! ### Breadth-first search -/

/-- The variables of `bfs`. -/
structure BfsState where
  q : Queue
  visited : GoMap String Bool
  paths : GoMap String (Option MysticSquare3)
deriving DecidableEq, Repr

/-- The body of the loop of `bfs` over `adjacent`. -/
def bfs.visit (current : MysticSquare3) (st : BfsState) (newSquare : MysticSquare3) : BfsState :=
  match GoMap.lookup st.visited newSquare.State with
  | none =>
    { q := Queue.Push st.q newSquare,
      paths := GoMap.set st.paths newSquare.State (some current),
      visited := GoMap.set st.visited newSquare.State true }
  | some _ => st

/-- The main loop of `bfs`; the fuel bounds the number of iterations. -/
def bfs.loop (targetState : MysticSquare3) : Nat → BfsState → Except String SearchResult
  | 0, _ => .error "out of fuel"
  | fuel + 1, st =>
    let r := Queue.Process st.q
    if r.hasItem then
      match r.current with
      | some current =>
        if current.State = targetState.State then .ok ⟨st.paths, true⟩
        else
          let adjacent := adjacentSquares current
          bfs.loop targetState fuel (adjacent.foldl (bfs.visit current) { st with q := r.queue })
      | none => .error "queue item failed type conversion to *square.MysticSquare"
    else .ok ⟨[], false⟩

/-- The function `bfs`. -/
def bfs (fuel : Nat) (initialState targetState : MysticSquare3) : Except String SearchResult :=
  let q := NewMysticSquareQueue
  let visited : GoMap String Bool := []
  let paths : GoMap String (Option MysticSquare3) := []
  let q := Queue.Push q initialState
  let paths := GoMap.set paths initialState.State none
  let visited := GoMap.set visited initialState.State true
  bfs.loop targetState fuel { q := q, visited := visited, paths := paths }

/-! ### Informed search -/

/-- The variables of `aStar`. -/
structure AStarState where
  q : PriorityQueue
  paths : GoMap String (Option MysticSquare3)
  distance : GoMap String Int
  itemsMap : GoMap String Nat
  visited : GoMap String Bool
deriving DecidableEq, Repr

/-- The closure `f` of `aStar`, with its overflow check; an error is a panic of `h`. -/
def aStar.f (h : MysticSquare3 → Except String Int) (distance : GoMap String Int)
    (state : MysticSquare3) : Except String Int :=
  let gCurrent := GoMap.get distance state.State 0
  match h state with
  | .ok hCurrent =>
    if hCurrent > 0 ∧ gCurrent > MaxInt - hCurrent then .ok MaxInt
    else .ok (wrapInt (gCurrent + hCurrent))
  | .error e => .error e

/-- The first half of the body of the loop of `aStar` over `adjacent`: a neighbour
without a distance gets the distance `math.MaxInt` and an item in the queue. -/
def aStar.discover (h : MysticSquare3 → Except String Int) (st : AStarState)
    (neighbor : MysticSquare3) : Except String AStarState :=
  let neighborStateString := neighbor.State
  match GoMap.lookup st.distance neighborStateString with
  | some _ => .ok st
  | none =>
    let distance := GoMap.set st.distance neighborStateString MaxInt
    match aStar.f h distance neighbor with
    | .ok priority =>
      let r := NewMysticSquareItem st.q neighbor priority
      let itemsMap := GoMap.set st.itemsMap neighborStateString r.1
      .ok { st with distance := distance, itemsMap := itemsMap, q := heap.Push r.2 r.1 }
    | .error e => .error e

/-- The body of the loop of `aStar` over `adjacent`. -/
def aStar.relax (h : MysticSquare3 → Except String Int) (current : MysticSquare3)
    (st : AStarState) (neighbor : MysticSquare3) : Except String AStarState :=
  let currentStateString := current.State
  let neighborStateString := neighbor.State
  match aStar.discover h st neighbor with
  | .error e => .error e
  | .ok st =>
    let tentativeDistance := wrapInt (GoMap.get st.distance currentStateString 0 + 1)
    let neighborDistance := GoMap.get st.distance neighborStateString 0
    let neighborVisited := (GoMap.lookup st.visited neighborStateString).isSome
    if tentativeDistance < neighborDistance ∧ ¬ neighborVisited = true then
      let paths := GoMap.set st.paths neighborStateString (some current)
      let distance := GoMap.set st.distance neighborStateString tentativeDistance
      match GoMap.lookup st.itemsMap neighborStateString with
      | some item =>
        match aStar.f h distance neighbor with
        | .ok priority =>
          .ok { st with paths := paths, distance := distance, q := st.q.Update item priority }
        | .error e => .error e
      | none => .error "invalid memory address or nil pointer dereference"
    else .ok st

/-- The loop of `aStar` over `adjacent`. -/
def aStar.relaxAll (h : MysticSquare3 → Except String Int) (current : MysticSquare3) :
    List MysticSquare3 → AStarState → Except String AStarState
  | [], st => .ok st
  | neighbor :: rest, st =>
    match aStar.relax h current st neighbor with
    | .ok st' => aStar.relaxAll h current rest st'
    | .error e => .error e

/-- The main loop of `aStar`; the fuel bounds the number of iterations. -/
def aStar.loop (h : MysticSquare3 → Except String Int) (targetStateString : String) :
    Nat → AStarState → Except String SearchResult
  | 0, _ => .error "out of fuel"
  | fuel + 1, st =>
    let r := st.q.Process
    if r.hasItem then
      match r.current with
      | some currentItem =>
        let current := (r.queue.item currentItem).Msquare
        let currentStateString := current.State
        if currentStateString = targetStateString then .ok ⟨st.paths, true⟩
        else
          let adjacent := adjacentSquares current
          match aStar.relaxAll h current adjacent { st with q := r.queue } with
          | .ok st' =>
            aStar.loop h targetStateString fuel
              { st' with visited := GoMap.set st'.visited currentStateString true }
          | .error e => .error e
      | none => .error "failed to convert item to *MysticSquareItem"
    else .ok ⟨st.paths, false⟩

/-- The function `aStar`. -/
def aStar (fuel : Nat) (initialState targetState : MysticSquare3)
    (h : MysticSquare3 → Except String Int) : Except String SearchResult :=
  let q := NewMysticSquarePriorityQueue
  let paths : GoMap String (Option MysticSquare3) := GoMap.set [] initialState.State none
  let distance : GoMap String Int := GoMap.set [] initialState.State 0
  match aStar.f h distance initialState with
  | .ok priority =>
    let r := NewMysticSquareItem q initialState priority
    let initialItem := r.1
    let q := r.2
    let itemsMap : GoMap String Nat := GoMap.set [] (q.item initialItem).Msquare.State initialItem
    let visited : GoMap String Bool := []
    let q := q.Push initialItem
    let q := heap.Init q
    let targetStateString := targetState.State
    aStar.loop h targetStateString fuel
      { q := q, paths := paths, distance := distance, itemsMap := itemsMap, visited := visited }
  | .error e => .error e

/-- The heuristic that `realAlgorithm` passes to `aStar`. -/
def manhattanTo (ts : MysticSquare3) (current : MysticSquare3) : Except String Int :=
  manhattanDistance current ts

/-! ### Uniform-cost search -/

/-- The variables of `dijkstrasAlgorithm`. -/
structure DijkstraState where
  q : PriorityQueue
  paths : GoMap String (Option MysticSquare3)
  distance : GoMap String Int
  itemsMap : GoMap String Nat
deriving DecidableEq, Repr

/-- The first half of the body of the loop of `dijkstrasAlgorithm` over `adjacent`. -/
def dijkstrasAlgorithm.discover (st : DijkstraState) (value : MysticSquare3) : DijkstraState :=
  let valueString := value.State
  match GoMap.lookup st.distance valueString with
  | some _ => st
  | none =>
    let distance := GoMap.set st.distance valueString MaxInt
    let r := NewMysticSquareItem st.q value (GoMap.get distance valueString 0)
    let itemsMap := GoMap.set st.itemsMap valueString r.1
    { st with distance := distance, itemsMap := itemsMap, q := heap.Push r.2 r.1 }

/-- The body of the loop of `dijkstrasAlgorithm` over `adjacent`. -/
def dijkstrasAlgorithm.relax (current : MysticSquare3) (st : DijkstraState)
    (value : MysticSquare3) : Except String DijkstraState :=
  let currentString := current.State
  let valueString := value.State
  let st := dijkstrasAlgorithm.discover st value
  let currentDistanceForValue := GoMap.get st.distance valueString 0
  let altDistance := wrapInt (GoMap.get st.distance currentString 0 + 1)
  if altDistance < currentDistanceForValue then
    let paths := GoMap.set st.paths valueString (some current)
    let distance := GoMap.set st.distance valueString altDistance
    match GoMap.lookup st.itemsMap valueString with
    | some item =>
      .ok { st with paths := paths, distance := distance, q := st.q.Update item altDistance }
    | none => .error "invalid memory address or nil pointer dereference"
  else .ok st

/-- The loop of `dijkstrasAlgorithm` over `adjacent`. -/
def dijkstrasAlgorithm.relaxAll (current : MysticSquare3) :
    List MysticSquare3 → DijkstraState → Except String DijkstraState
  | [], st => .ok st
  | value :: rest, st =>
    match dijkstrasAlgorithm.relax current st value with
    | .ok st' => dijkstrasAlgorithm.relaxAll current rest st'
    | .error e => .error e

/-- The main loop of `dijkstrasAlgorithm`; the fuel bounds the number of iterations. -/
def dijkstrasAlgorithm.loop (targetStateString : String) :
    Nat → DijkstraState → Except String SearchResult
  | 0, _ => .error "out of fuel"
  | fuel + 1, st =>
    let r := st.q.Process
    if r.hasItem then
      match r.current with
      | some currentItem =>
        let current := (r.queue.item currentItem).Msquare
        let currentString := current.State
        if currentString = targetStateString then .ok ⟨st.paths, true⟩
        else
          let adjacent := adjacentSquares current
          match dijkstrasAlgorithm.relaxAll current adjacent { st with q := r.queue } with
          | .ok st' => dijkstrasAlgorithm.loop targetStateString fuel st'
          | .error e => .error e
      | none => .error "failed to convert item to *MysticSquareItem"
    else .ok ⟨st.paths, false⟩

/-- The function `dijkstrasAlgorithm`. -/
def dijkstrasAlgorithm (fuel : Nat) (initialState targetState : MysticSquare3) :
    Except String SearchResult :=
  let q := NewMysticSquarePriorityQueue
  let paths : GoMap String (Option MysticSquare3) := GoMap.set [] initialState.State none
  let distance : GoMap String Int := GoMap.set [] initialState.State 0
  let r := NewMysticSquareItem q initialState (GoMap.get distance initialState.State 0)
  let initialItem := r.1
  let q := r.2
  let itemsMap : GoMap String Nat := GoMap.set [] (q.item initialItem).Msquare.State initialItem
  let q := q.Push initialItem
  let q := heap.Init q
  let targetStateString := targetState.State
  dijkstrasAlgorithm.loop targetStateString fuel
    { q := q, paths := paths, distance := distance, itemsMap := itemsMap }

/-! ### Path reconstruction -/

/-- The loop of `executeRun` that walks the predecessor map from the target; the
fuel bounds the number of iterations. -/
def executeRun.walk (paths : GoMap String (Option MysticSquare3)) :
    Nat → MysticSquare3 → List MysticSquare3 → Except String (List MysticSquare3)
  | 0, _, _ => .error "out of fuel"
  | fuel + 1, current, path =>
    match GoMap.get paths current.State none with
    | some next => executeRun.walk paths fuel next (path ++ [current])
    | none => .ok path

/-- The path that `executeRun` prints after a successful search: from the initial
state to the target state. -/
def executeRun.path (fuel : Nat) (paths : GoMap String (Option MysticSquare3))
    (initialMysticSquare targetMysticSquare : MysticSquare3) :
    Except String (List MysticSquare3) :=
  match executeRun.walk paths fuel targetMysticSquare [] with
  | .ok path => .ok (path ++ [initialMysticSquare]).reverse
  | .error e => .error e

/-! ## Vocabulary for the priority queue -/

/-- The priority of the item at slice position `i`. -/
def PriorityQueue.prioAt (q : PriorityQueue) (i : Nat) : Int := (q.item (q.at i)).priority

/-- Index consistency: every pointer of the slice refers to an allocated item
whose index is its slice position, and every allocated item outside the slice has
index -1. -/
def HeapIdx (q : PriorityQueue) : Prop :=
  (∀ i, i < q.pq.length → q.at i < q.items.length ∧ (q.item (q.at i)).index = i) ∧
  (∀ p, p < q.items.length → p ∉ q.pq → (q.item p).index = -1)

/-- Heap order on the first `n` slice positions: no item has a smaller priority than
its parent. -/
def HeapOrd (q : PriorityQueue) (n : Nat) : Prop :=
  ∀ c, 0 < c → c < n → q.prioAt ((c - 1) / 2) ≤ q.prioAt c

/-- A well-formed priority queue. -/
def HeapWF (q : PriorityQueue) : Prop := HeapIdx q ∧ HeapOrd q q.pq.length

/-- The two queues hold the same squares and priorities behind every pointer. -/
def SameItems (q q' : PriorityQueue) : Prop :=
  q'.items.length = q.items.length ∧
    ∀ p, (q'.item p).Msquare = (q.item p).Msquare ∧ (q'.item p).priority = (q.item p).priority

/-- The queue `q'` holds the pointers of `q`, in some order, and the same items. -/
def Rearranged (q q' : PriorityQueue) : Prop :=
  SameItems q q' ∧ q'.pq.length = q.pq.length ∧ ∀ p, p ∈ q'.pq ↔ p ∈ q.pq

/-- Heap order among the first `n` positions for every pair that does not have `j`
as its child. -/
def OrdExceptChild (q : PriorityQueue) (n j : Nat) : Prop :=
  ∀ c, 0 < c → c < n → c ≠ j → q.prioAt ((c - 1) / 2) ≤ q.prioAt c

/-- Heap order among the first `n` positions for every pair that does not involve `i`. -/
def OrdWithout (q : PriorityQueue) (n i : Nat) : Prop :=
  ∀ c, 0 < c → c < n → (c - 1) / 2 ≠ i → c ≠ i → q.prioAt ((c - 1) / 2) ≤ q.prioAt c

/-- The parent of `i` is not above the children of `i`. -/
def OrdAround (q : PriorityQueue) (n i : Nat) : Prop :=
  0 < i → ∀ c, 0 < c → c < n → (c - 1) / 2 = i → q.prioAt ((i - 1) / 2) ≤ q.prioAt c

/-! ## Vocabulary for the searches -/

/-- Walking the predecessor map from the key `k` takes `d` steps until a key without
a predecessor is met. -/
inductive Chain (paths : GoMap String (Option MysticSquare3)) : String → Nat → Prop
  | stop {k : String} : GoMap.get paths k none = none → Chain paths k 0
  | step {k : String} {u : MysticSquare3} {d : Nat} :
      GoMap.get paths k none = some u → Chain paths u.State d → Chain paths k (d + 1)

/-- The heuristic `h` does not panic on states and returns `H`, which depends on the
key of the state only, changes by at most one along a legal move (consistency), and
is small enough for the priorities to stay in the range of `int`. -/
structure GoodHeuristic (h : MysticSquare3 → Except String Int) (H : MysticSquare3 → Int) :
    Prop where
  ok : ∀ s, IsState s → h s = .ok (H s)
  resp : ∀ a b, IsState a → IsState b → a.State = b.State → H a = H b
  cons : ∀ a b, IsState a → LegalMove a b → H a ≤ H b + 1
  bound : ∀ s, IsState s → 0 ≤ H s ∧ H s ≤ 2 ^ 32

/-- The best-known distance `distance[k]`. -/
def AStarState.g (st : AStarState) (k : String) : Int := GoMap.get st.distance k 0

/-- The key `k` has a distance: the state was discovered. -/
def AStarState.Disc (st : AStarState) (k : String) : Prop :=
  (GoMap.lookup st.distance k).isSome = true

/-- The key `k` is marked visited: the state was expanded. -/
def AStarState.Vis (st : AStarState) (k : String) : Prop :=
  (GoMap.lookup st.visited k).isSome = true

instance AStarState.decidableDisc (st : AStarState) (k : String) : Decidable (st.Disc k) := by
  unfold AStarState.Disc; infer_instance

instance AStarState.decidableVis (st : AStarState) (k : String) : Decidable (st.Vis k) := by
  unfold AStarState.Vis; infer_instance

/-- The key of the state that the item behind the pointer `p` holds. -/
def AStarState.key (st : AStarState) (p : Nat) : String := (st.q.item p).Msquare.State

/-- The key `k` is closed: visited, or the key of the state being expanded. -/
def AStarState.Closed (st : AStarState) (cur : Option MysticSquare3) (k : String) : Prop :=
  st.Vis k ∨ ∃ c, cur = some c ∧ c.State = k

/-- The invariant of the main loop of `aStar`, from `initial`, with the target key `tk`;
`cur` is the state taken from the queue whose successors are being relaxed, if any. -/
structure AInv (initial : MysticSquare3) (tk : String) (H : MysticSquare3 → Int)
    (cur : Option MysticSquare3) (st : AStarState) : Prop where
  heap : HeapWF st.q
  imap : ∀ k p, GoMap.lookup st.itemsMap k = some p → p < st.q.items.length ∧ st.key p = k
  items : ∀ p, p < st.q.items.length →
    IsState (st.q.item p).Msquare ∧ GoMap.lookup st.itemsMap (st.key p) = some p
  disc_item : ∀ k, st.Disc k → ∃ p, GoMap.lookup st.itemsMap k = some p
  item_disc : ∀ p, p < st.q.items.length → st.Disc (st.key p)
  opn : ∀ p, p < st.q.items.length → (p ∈ st.q.pq ↔ ¬ st.Closed cur (st.key p))
  prio : ∀ p, p ∈ st.q.pq → (st.q.item p).priority = st.g (st.key p) + H (st.q.item p).Msquare
  init : GoMap.lookup st.distance initial.State = some 0
  pinit : GoMap.get st.paths initial.State none = none
  chain : ∀ k, st.Disc k → k ≠ initial.State →
    ∃ u, GoMap.get st.paths k none = some u ∧ IsState u ∧ st.Closed cur u.State ∧
      (∃ x, LegalMove u x ∧ x.State = k) ∧ st.g k = st.g u.State + 1
  reach : ∀ k, st.Disc k → ∃ (n : Nat) (x : MysticSquare3),
    MovesIn n initial x ∧ x.State = k ∧ st.g k = n
  copt : ∀ k, st.Closed cur k → ∀ (n : Nat) (x : MysticSquare3),
    MovesIn n initial x → x.State = k → st.g k ≤ n
  cdisc : ∀ k, st.Vis k → st.Disc k
  closure : ∀ k, st.Vis k → ∀ x y, IsState x → x.State = k → LegalMove x y →
    st.Disc y.State ∧ st.g y.State ≤ st.g k + 1
  bound : ∀ k, st.Disc k → st.g k < st.q.items.length
  vnodup : (GoMap.keys st.visited).Nodup
  vstate : ∀ k, st.Vis k → ∃ s, IsState s ∧ s.State = k
  curp : ∀ c, cur = some c → IsState c ∧ st.Disc c.State ∧ ¬ st.Vis c.State
  ntarget : ∀ k, st.Vis k → k ≠ tk

/-- The key of the position-to-value function `f`, as a list of characters. -/
def keyChars (f : Fin 9 → Fin 9) : List Char :=
  [cellChar ((f 0 : Nat) + 1), ' ', cellChar ((f 1 : Nat) + 1), ' ', cellChar ((f 2 : Nat) + 1), '\n',
   cellChar ((f 3 : Nat) + 1), ' ', cellChar ((f 4 : Nat) + 1), ' ', cellChar ((f 5 : Nat) + 1), '\n',
   cellChar ((f 6 : Nat) + 1), ' ', cellChar ((f 7 : Nat) + 1), ' ', cellChar ((f 8 : Nat) + 1)]

/-- What a search from `initial` for the key `tk` is to return: either the flag is set,
the predecessor map leads from `tk` back to a key without predecessor in `d` steps,
`d` moves reach `tk`, and no fewer do; or the flag is not set and no sequence of
moves reaches `tk`. -/
def SearchSpec (initial : MysticSquare3) (tk : String) (r : SearchResult) : Prop :=
  (r.pathFound = true ∧ ∃ d : Nat, Chain r.paths tk d ∧
    (∃ x, MovesIn d initial x ∧ x.State = tk) ∧
    ∀ (n : Nat) (x : MysticSquare3), MovesIn n initial x → x.State = tk → d ≤ n) ∨
  (r.pathFound = false ∧ ∀ (n : Nat) (x : MysticSquare3), MovesIn n initial x → x.State ≠ tk)

/-- The variables that `dijkstrasAlgorithm` shares with `aStar`. -/
def AStarState.toDijkstra (st : AStarState) : DijkstraState :=
  { q := st.q, paths := st.paths, distance := st.distance, itemsMap := st.itemsMap }

/-- The variables of `aStar` when its main loop is entered, with the queue `Q`. -/
def aStar.start (Q : PriorityQueue) (initial : MysticSquare3) : AStarState :=
  { q := Q, paths := GoMap.set [] initial.State none, distance := GoMap.set [] initial.State 0,
    itemsMap := GoMap.set [] initial.State 0, visited := [] }

/-- The heuristic that is constantly zero. -/
def zeroHeuristic (_ : MysticSquare3) : Except String Int := .ok 0

/-- The key `k` is marked visited by `bfs`. -/
def BfsState.Vis (st : BfsState) (k : String) : Prop :=
  (GoMap.lookup st.visited k).isSome = true

/-- The queue of `bfs` holds a state with the key `k`. -/
def BfsState.InQ (st : BfsState) (k : String) : Prop := ∃ u, u ∈ st.q ∧ u.State = k

/-- The invariant of the main loop of `bfs`, from `initial`, with the target key `tk`;
`g` is the number of moves by which each visited key was reached, `cur` is the state
taken from the queue whose successors are being visited, if any. -/
structure BInv (initial : MysticSquare3) (tk : String) (g : String → Nat)
    (cur : Option MysticSquare3) (st : BfsState) : Prop where
  qstate : ∀ u, u ∈ st.q → IsState u ∧ st.Vis u.State
  qnodup : (st.q.map MysticSquare3.State).Nodup
  sorted : (st.q.map fun u => g u.State).Pairwise (· ≤ ·)
  span : ∀ u, u ∈ st.q → ∀ w, w ∈ st.q → g w.State ≤ g u.State + 1
  cspan : ∀ c, cur = some c → ∀ u, u ∈ st.q → g c.State ≤ g u.State ∧ g u.State ≤ g c.State + 1
  vpaths : ∀ k, st.Vis k ↔ (GoMap.lookup st.paths k).isSome = true
  vinit : st.Vis initial.State
  ginit : g initial.State = 0
  pinit : GoMap.get st.paths initial.State none = none
  chain : ∀ k, st.Vis k → k ≠ initial.State →
    ∃ u, GoMap.get st.paths k none = some u ∧ IsState u ∧ st.Vis u.State ∧
      (∃ x, LegalMove u x ∧ x.State = k) ∧ g k = g u.State + 1
  reach : ∀ k, st.Vis k → ∃ x, MovesIn (g k) initial x ∧ x.State = k
  copt : ∀ k, st.Vis k → ¬ st.InQ k → ∀ (n : Nat) (x : MysticSquare3),
    MovesIn n initial x → x.State = k → g k ≤ n
  closure : ∀ k, st.Vis k → ¬ st.InQ k → (∀ c, cur = some c → c.State ≠ k) →
    ∀ x y, IsState x → x.State = k → LegalMove x y → st.Vis y.State ∧ g y.State ≤ g k + 1
  vnodup : (GoMap.keys st.visited).Nodup
  vstate : ∀ k, st.Vis k → ∃ s, IsState s ∧ s.State = k
  curp : ∀ c, cur = some c → IsState c ∧ st.Vis c.State ∧ ¬ st.InQ c.State
  ntarget : ∀ k, st.Vis k → ¬ st.InQ k → (∀ c, cur = some c → c.State ≠ k) → k ≠ tk

/-! ## Vocabulary for the reconstructed path -/

/-- The maps `a` and `b` are the same mapping: every key has the same entry in both. -/
def SameMapping (a b : GoMap Int Int) : Prop := ∀ k, GoMap.lookup a k = GoMap.lookup b k

/-- The mapping of `b` is one of the results of `MoveUp`, `MoveDown`, `MoveLeft` and
`MoveRight` on `a` that are not absent. -/
def MoveStep (a b : MysticSquare3) : Prop :=
  ∃ m, (a.MoveUp = some m ∨ a.MoveDown = some m ∨ a.MoveLeft = some m ∨ a.MoveRight = some m) ∧
    SameMapping b.RealState m

/-- The state `b` has the key of a state that one legal move makes of `a`. -/
def KeyStep (a b : MysticSquare3) : Prop := ∃ x, LegalMove a x ∧ x.State = b.State

/-- The predecessor map leads from the key `k` back to the key of `initial` in `d`
steps, each from the key of a state to a state of which one legal move makes it. -/
inductive Lineage (paths : GoMap String (Option MysticSquare3)) (initial : MysticSquare3) :
    String → Nat → Prop
  | root : GoMap.get paths initial.State none = none → Lineage paths initial initial.State 0
  | step {k : String} {u : MysticSquare3} {d : Nat} :
      GoMap.get paths k none = some u → IsState u → (∃ x, LegalMove u x ∧ x.State = k) →
      Lineage paths initial u.State d → Lineage paths initial k (d + 1)

/-- The predecessor map of `aStar` holds the root marker for the initial key, and
holds keys with a distance only. -/
structure PInv (initial : MysticSquare3) (st : AStarState) : Prop where
  pkeys : ∀ k, (GoMap.lookup st.paths k).isSome = true → st.Disc k
  proot : GoMap.lookup st.paths initial.State = some none

/-! ## Package `run`: the command -/

/-- The initial state of the easy scenario, as `NewMysticSquare` makes it. -/
def easyInitial : MysticSquare3 := ⟨easy.1, buildMysticSquare3StateString easy.1⟩

/-- The target state of the easy scenario, as `NewMysticSquare` makes it. -/
def easyTarget : MysticSquare3 := ⟨easy.2, buildMysticSquare3StateString easy.2⟩

/-- The initial state of the scenario without a path, as `NewMysticSquare` makes it. -/
def noPathInitial : MysticSquare3 := ⟨noPath.1, buildMysticSquare3StateString noPath.1⟩

/-- The target state of the scenario without a path, as `NewMysticSquare` makes it. -/
def noPathTarget : MysticSquare3 := ⟨noPath.2, buildMysticSquare3StateString noPath.2⟩

/-! ## Vocabulary for the parity of a state -/

/-- The map `b` is the map `a` with the tiles at the positions `p` and `q` exchanged,
neither of them the blank. -/
def TileSwap (a b : GoMap Int Int) (p q : Int) : Prop :=
  p ∈ tiles ∧ q ∈ tiles ∧ p ≠ q ∧ GoMap.get a p 0 ≠ 9 ∧ GoMap.get a q 0 ≠ 9 ∧
    ∀ k ∈ tiles, GoMap.get b k 0 =
      if k = p then GoMap.get a q 0 else if k = q then GoMap.get a p 0 else GoMap.get a k 0

instance TileSwap.decidable (a b : GoMap Int Int) (p q : Int) : Decidable (TileSwap a b p q) := by
  unfold TileSwap; infer_instance

/-- The permutation `σ` of 0..8 describes the cells of the map `m`: the cell at position
`i + 1` holds `σ i + 1`. -/
def IsPermOf (σ : Equiv.Perm (Fin 9)) (m : GoMap Int Int) : Prop :=
  ∀ i : Fin 9, (((σ i : Nat) : Int) + 1) = GoMap.get m ((i : Nat) + 1 : Int) 0

/-- The parity of row plus column of the cell with index `i`, as a sign. -/
def cellParity (i : Fin 9) : ℤˣ := (-1) ^ ((i : Nat) / 3 + (i : Nat) % 3)

/-- The sign `e` is the sign of the cells of `m` as a permutation, times the parity of
the cell that holds the blank. -/
def Signature (m : GoMap Int Int) (e : ℤˣ) : Prop :=
  ∃ σ : Equiv.Perm (Fin 9), IsPermOf σ m ∧ e = Equiv.Perm.sign σ * cellParity (σ.symm 8)

/-! ## The heuristic as the specification words it -/

/-- The reference sum: over every tile value `v` in 1..8, the row distance plus the
column distance between the position of `v` in `current` and its position in
`target`, where position `q` lies in row `(q - 1) / 3` and column `(q - 1) % 3`. -/
def manhattanReference (current target : GoMap Int Int) : Int :=
  ([1, 2, 3, 4, 5, 6, 7, 8].map fun v =>
    |rowOf (posOf current v) - rowOf (posOf target v)| +
      |colOf (posOf current v) - colOf (posOf target v)|).sum

/-! ## Vocabulary for the priority queue as the searches use it -/

/-- The priority queues that are built from the empty queue without pushing an item
that is in the queue: by the raw `Push` of a new item followed by `heap.Init`, with
which the searches start; by `heap.Push` of a new item; by `heap.Push` of an item that
was made with the queue and is not in it, such as one that `Process` has returned; by
`Process`; and by `Update` of an item that was made with the queue. -/
inductive Built : PriorityQueue → Prop
  | empty : Built NewMysticSquarePriorityQueue
  | init (sq : MysticSquare3) (pr : Int) :
      Built (heap.Init ((NewMysticSquareItem NewMysticSquarePriorityQueue sq pr).2.Push
        (NewMysticSquareItem NewMysticSquarePriorityQueue sq pr).1))
  | push {q : PriorityQueue} (sq : MysticSquare3) (pr : Int) : Built q →
      Built (heap.Push (NewMysticSquareItem q sq pr).2 (NewMysticSquareItem q sq pr).1)
  | again {q : PriorityQueue} (p : Nat) : Built q → p < q.items.length → p ∉ q.pq →
      Built (heap.Push q p)
  | process {q : PriorityQueue} : Built q → Built q.Process.queue
  | update {q : PriorityQueue} (p : Nat) (pr : Int) : Built q → p < q.items.length →
      Built (q.Update p pr)

/-- The priority queues that any sequence of the operations builds from the empty
queue: the raw `Push` of a new item followed by `heap.Init`, `heap.Push` of a new item,
`heap.Push` of any item that was made with the queue, be it in the queue or not,
`Process`, and `Update` of an item that was made with the queue. -/
inductive AnyBuilt : PriorityQueue → Prop
  | empty : AnyBuilt NewMysticSquarePriorityQueue
  | init (sq : MysticSquare3) (pr : Int) :
      AnyBuilt (heap.Init ((NewMysticSquareItem NewMysticSquarePriorityQueue sq pr).2.Push
        (NewMysticSquareItem NewMysticSquarePriorityQueue sq pr).1))
  | push {q : PriorityQueue} (sq : MysticSquare3) (pr : Int) : AnyBuilt q →
      AnyBuilt (heap.Push (NewMysticSquareItem q sq pr).2 (NewMysticSquareItem q sq pr).1)
  | again {q : PriorityQueue} (p : Nat) : AnyBuilt q → p < q.items.length →
      AnyBuilt (heap.Push q p)
  | process {q : PriorityQueue} : AnyBuilt q → AnyBuilt q.Process.queue
  | update {q : PriorityQueue} (p : Nat) (pr : Int) : AnyBuilt q → p < q.items.length →
      AnyBuilt (q.Update p pr)

/-- A queue built as the best-first searches build theirs: the first item by the raw
`Push` and `heap.Init`, two more items by `heap.Push`, and the second item updated to
the least priority. -/
def sampleQueue : PriorityQueue :=
  let r0 := NewMysticSquareItem NewMysticSquarePriorityQueue easyInitial 6
  let q0 := heap.Init (r0.2.Push r0.1)
  let r1 := NewMysticSquareItem q0 easyTarget 9
  let q1 := heap.Push r1.2 r1.1
  let r2 := NewMysticSquareItem q1 noPathInitial 7
  let q2 := heap.Push r2.2 r2.1
  q2.Update r1.1 3

/-- A queue on which one item was pushed twice: a new item by `heap.Push`, and the
same item by `heap.Push` once more. -/
def twicePushed : PriorityQueue :=
  let r0 := NewMysticSquareItem NewMysticSquarePriorityQueue easyInitial 5
  heap.Push (heap.Push r0.2 r0.1) r0.1

/-- The queue `twicePushed` after `heap.Push` of a second new item, of priority 7, and
`Update` of the first item to the priority 10. -/
def misordered : PriorityQueue :=
  let r1 := NewMysticSquareItem twicePushed easyTarget 7
  (heap.Push r1.2 r1.1).Update 0 10

/-! ## Validation -/

theorem findFrom_spec (A : List Int) (v idx : Int) :
    (v ∉ A ∧ ValidateState.findFrom A v idx = -1 ∨
      ∃ n : Nat, n < A.length ∧ ValidateState.findFrom A v idx = idx + n ∧
        A.eraseIdx n = A.erase v) ∨ idx < 0 := by
  by_cases hidx : idx < 0
  · exact Or.inr hidx
  left
  induction A generalizing idx with
  | nil => left; simp [ValidateState.findFrom]
  | cons a rest ih =>
    by_cases hv : v = a
    · right
      refine ⟨0, by simp, ?_, ?_⟩
      · simp [ValidateState.findFrom, hv]
      · simp [hv]
    · rcases ih (idx + 1) (by omega) with ⟨hm, hf⟩ | ⟨n, hn, hf, he⟩
      · left
        refine ⟨by simp [hv, hm], ?_⟩
        simp [ValidateState.findFrom, hv, hf]
      · right
        refine ⟨n + 1, by simp [hn], ?_, ?_⟩
        · simp [ValidateState.findFrom, hv, hf]; omega
        · have hav : ¬ a = v := fun h => hv h.symm
          simp [List.erase_cons, hav, he]

theorem remove_eq_erase (A : List Int) (v : Int) : ValidateState.remove A v = A.erase v := by
  unfold ValidateState.remove ValidateState.find
  rcases findFrom_spec A v 0 with (⟨hm, hf⟩ | ⟨n, hn, hf, he⟩) | h
  · simp [hf, List.erase_of_not_mem hm]
  · have h1 : (0 : Int) ≤ 0 + n ∧ (0 : Int) + n < (A.length : Int) := by omega
    simp only [hf, h1, and_self, if_true]
    have : ((0 : Int) + n).toNat = n := by omega
    rw [this, ← he, List.eraseIdx_eq_take_drop_succ]
  · omega

theorem filled_eq :
    (List.range' 1 9).foldl
        (fun (acc : List Int × List Int) i => (acc.1.set (i - 1) (i : Int), acc.2.set (i - 1) (i : Int)))
        (List.replicate 9 0, List.replicate 9 0) = (tiles, tiles) := by
  decide

theorem foldl_remove_pair (m : GoMap Int Int) (a b : List Int) :
    m.foldl (fun acc kv => (ValidateState.remove acc.1 kv.1, ValidateState.remove acc.2 kv.2)) (a, b)
      = (a.diff (GoMap.keys m), b.diff (GoMap.values m)) := by
  induction m generalizing a b with
  | nil => simp [GoMap.keys, GoMap.values]
  | cons kv rest ih =>
    rw [List.foldl_cons, ih]
    simp only [GoMap.keys, GoMap.values, List.map_cons, List.diff_cons, remove_eq_erase]

theorem count_diff_eq (x : Int) (a l : List Int) :
    List.count x (a.diff l) = List.count x a - List.count x l := by
  induction l generalizing a with
  | nil => simp
  | cons b l ih =>
    rw [List.diff_cons, ih, List.count_erase, List.count_cons]
    by_cases h : b = x
    · simp [h]; omega
    · simp [h]

theorem diff_eq_nil_iff (a l : List Int) : a.diff l = [] ↔ a.Subperm l := by
  rw [List.subperm_ext_iff]
  constructor
  · intro h x _
    have := count_diff_eq x a l
    rw [h] at this
    simp at this
    omega
  · intro h
    apply List.eq_nil_iff_forall_not_mem.2
    intro x hx
    have hc := count_diff_eq x a l
    have hpos : 0 < List.count x (a.diff l) := List.count_pos_iff.2 hx
    have hxa : x ∈ a := by
      by_contra hna
      rw [List.count_eq_zero_of_not_mem hna] at hc
      omega
    have := h x hxa
    omega

/-- What `ValidateState` computes: the keys and the values of the map are each
a rearrangement of 1..9. -/
theorem ValidateState_iff (sq : MysticSquare3) :
    sq.ValidateState = true ↔
      (GoMap.keys sq.state).Perm tiles ∧ (GoMap.values sq.state).Perm tiles := by
  unfold MysticSquare3.ValidateState
  simp only [filled_eq, foldl_remove_pair, List.length_replicate]
  by_cases hlen : sq.state.length = 9
  · simp only [hlen, ne_eq, not_true_eq_false, if_false, Bool.and_eq_true, decide_eq_true_eq,
      List.length_eq_zero, diff_eq_nil_iff]
    constructor
    · rintro ⟨h1, h2⟩
      exact ⟨(h1.perm_of_length_le (by simp [GoMap.keys, hlen, tiles])).symm,
        (h2.perm_of_length_le (by simp [GoMap.values, hlen, tiles])).symm⟩
    · rintro ⟨h1, h2⟩
      exact ⟨h1.symm.subperm, h2.symm.subperm⟩
  · simp only [ne_eq, hlen, not_false_eq_true, if_true, Bool.false_eq_true, false_iff, not_and]
    intro h1
    exfalso
    apply hlen
    have := h1.length_eq
    simpa [GoMap.keys, tiles] using this

/-! ## Go maps: index, assignment, copy -/

namespace GoMap

variable {κ ν : Type} [DecidableEq κ]

theorem lookup_set (m : GoMap κ ν) (k k' : κ) (v : ν) :
    lookup (set m k v) k' = if k = k' then some v else lookup m k' := by
  induction m with
  | nil => simp [set, lookup]
  | cons e rest ih =>
    obtain ⟨a, b⟩ := e
    by_cases h : a = k
    · subst h
      by_cases h2 : a = k' <;> simp [set, lookup, h2]
    · by_cases h2 : a = k'
      · subst h2
        have h3 : ¬ k = a := fun h4 => h h4.symm
        simp [set, lookup, h, h3]
      · simp [set, lookup, h, h2, ih]

theorem get_set (m : GoMap κ ν) (k k' : κ) (v z : ν) :
    get (set m k v) k' z = if k = k' then v else get m k' z := by
  unfold get
  rw [lookup_set]
  split <;> simp

theorem keys_set_of_mem (m : GoMap κ ν) (k : κ) (v : ν) (h : k ∈ keys m) :
    keys (set m k v) = keys m := by
  induction m with
  | nil => simp [keys] at h
  | cons e rest ih =>
    obtain ⟨a, b⟩ := e
    by_cases h1 : a = k
    · simp [set, keys, h1]
    · have : k ∈ keys rest := by
        simp only [keys, List.map_cons, List.mem_cons] at h
        rcases h with h | h
        · exact absurd h.symm h1
        · exact h
      have ih2 := ih this
      simp only [keys] at ih2
      simp [set, keys, h1, ih2]

theorem set_of_not_mem (m : GoMap κ ν) (k : κ) (v : ν) (h : k ∉ keys m) :
    set m k v = m ++ [(k, v)] := by
  induction m with
  | nil => simp [set]
  | cons e rest ih =>
    obtain ⟨a, b⟩ := e
    simp only [keys, List.map_cons, List.mem_cons, not_or] at h
    have h1 : ¬ a = k := fun h2 => h.1 h2.symm
    simp [set, h1, ih h.2]

theorem copy_append (m acc : GoMap κ ν) (hnd : (keys (acc ++ m)).Nodup) :
    m.foldl (fun c kv => set c kv.1 kv.2) acc = acc ++ m := by
  induction m generalizing acc with
  | nil => simp
  | cons e rest ih =>
    have hk : e.1 ∉ keys acc := by
      simp only [keys, List.map_append, List.map_cons] at hnd
      have := List.nodup_append.1 hnd
      intro hmem
      exact this.2.2 hmem (List.mem_cons_self _ _)
    rw [List.foldl_cons, set_of_not_mem acc e.1 e.2 hk, ih]
    · simp
    · simpa using hnd

/-- Copying a map entry by entry into a fresh map gives the same entries. -/
theorem copy_eq (m : GoMap κ ν) (hnd : (keys m).Nodup) :
    m.foldl (fun c kv => set c kv.1 kv.2) [] = m := by
  simpa using copy_append m [] (by simpa using hnd)

theorem lookup_eq_none_iff (m : GoMap κ ν) (k : κ) : lookup m k = none ↔ k ∉ keys m := by
  induction m with
  | nil => simp [lookup, keys]
  | cons e rest ih =>
    obtain ⟨a, b⟩ := e
    by_cases h : a = k
    · simp [lookup, keys, h]
    · have h2 : ¬ k = a := fun h3 => h h3.symm
      simp only [keys] at ih
      simp [lookup, keys, h, h2, ih]

theorem mem_of_lookup (m : GoMap κ ν) (k : κ) (v : ν) (h : lookup m k = some v) :
    (k, v) ∈ m := by
  induction m with
  | nil => simp [lookup] at h
  | cons e rest ih =>
    obtain ⟨a, b⟩ := e
    by_cases h1 : a = k
    · simp [lookup, h1] at h
      simp [h1, h]
    · simp [lookup, h1] at h
      exact List.mem_cons_of_mem _ (ih h)

theorem lookup_of_mem (m : GoMap κ ν) (k : κ) (v : ν) (hnd : (keys m).Nodup)
    (h : (k, v) ∈ m) : lookup m k = some v := by
  induction m with
  | nil => simp at h
  | cons e rest ih =>
    obtain ⟨a, b⟩ := e
    simp only [keys, List.map_cons, List.nodup_cons] at hnd
    rcases List.mem_cons.1 h with h1 | h1
    · simp only [Prod.mk.injEq] at h1
      simp [lookup, h1.1, h1.2]
    · have hk : ¬ a = k := by
        intro h2
        apply hnd.1
        rw [h2]
        exact List.mem_map.2 ⟨(k, v), h1, rfl⟩
      simp [lookup, hk, ih hnd.2 h1]

theorem mem_keys_of_lookup (m : GoMap κ ν) (k : κ) (v : ν) (h : lookup m k = some v) :
    k ∈ keys m :=
  List.mem_map.2 ⟨(k, v), mem_of_lookup m k v h, rfl⟩

theorem mem_values_of_lookup (m : GoMap κ ν) (k : κ) (v : ν) (h : lookup m k = some v) :
    v ∈ values m :=
  List.mem_map.2 ⟨(k, v), mem_of_lookup m k v h, rfl⟩

theorem lookup_of_mem_keys (m : GoMap κ ν) (k : κ) (h : k ∈ keys m) :
    ∃ v, lookup m k = some v := by
  cases hl : lookup m k with
  | none => exact absurd h ((lookup_eq_none_iff m k).1 hl)
  | some v => exact ⟨v, rfl⟩

/-- A map whose keys are distinct lists its entries as key and indexed value. -/
theorem eq_map_keys (m : GoMap κ ν) (z : ν) (hnd : (keys m).Nodup) :
    m = (keys m).map (fun k => (k, get m k z)) := by
  induction m with
  | nil => simp [keys]
  | cons e rest ih =>
    obtain ⟨a, b⟩ := e
    simp only [keys, List.map_cons, List.nodup_cons] at hnd
    have h1 : ∀ k ∈ keys rest, get ((a, b) :: rest) k z = get rest k z := by
      intro k hk
      have : ¬ a = k := by
        intro h2; apply hnd.1; rw [h2]; exact hk
      simp [get, lookup, this]
    have ih2 := ih hnd.2
    simp only [keys, List.map_cons, List.map_map]
    congr 1
    · simp [get, lookup]
    · conv_lhs => rw [ih2]
      simp only [keys, List.map_map]
      apply List.map_congr_left
      intro x hx
      simp only [Function.comp]
      have hx2 : x.1 ∈ keys rest := List.mem_map.2 ⟨x, hx, rfl⟩
      rw [h1 x.1 hx2]

end GoMap

/-! ## Valid states -/

/-- `ValidateState` depends on the map alone. -/
theorem ValidateState_mk (sq : MysticSquare3) (s : String) :
    (MysticSquare3.mk sq.state s).ValidateState = sq.ValidateState := rfl

theorem tiles_nodup : tiles.Nodup := by decide

theorem valid_keys_nodup {sq : MysticSquare3} (hv : sq.ValidateState = true) :
    (GoMap.keys sq.state).Nodup :=
  ((ValidateState_iff sq).1 hv).1.nodup_iff.2 tiles_nodup

theorem valid_values_nodup {sq : MysticSquare3} (hv : sq.ValidateState = true) :
    (GoMap.values sq.state).Nodup :=
  ((ValidateState_iff sq).1 hv).2.nodup_iff.2 tiles_nodup

theorem valid_mem_keys {sq : MysticSquare3} (hv : sq.ValidateState = true) (k : Int) :
    k ∈ GoMap.keys sq.state ↔ k ∈ tiles :=
  ((ValidateState_iff sq).1 hv).1.mem_iff

theorem valid_mem_values {sq : MysticSquare3} (hv : sq.ValidateState = true) (v : Int) :
    v ∈ GoMap.values sq.state ↔ v ∈ tiles :=
  ((ValidateState_iff sq).1 hv).2.mem_iff

/-- Every position of a valid state holds a value of 1..9. -/
theorem valid_lookup {sq : MysticSquare3} (hv : sq.ValidateState = true) {k : Int}
    (hk : k ∈ tiles) : ∃ v, v ∈ tiles ∧ GoMap.lookup sq.state k = some v := by
  obtain ⟨v, h⟩ := GoMap.lookup_of_mem_keys sq.state k ((valid_mem_keys hv k).2 hk)
  exact ⟨v, (valid_mem_values hv v).1 (GoMap.mem_values_of_lookup _ _ _ h), h⟩

theorem valid_lookup_mem {sq : MysticSquare3} (hv : sq.ValidateState = true) {k v : Int}
    (h : GoMap.lookup sq.state k = some v) : k ∈ tiles ∧ v ∈ tiles :=
  ⟨(valid_mem_keys hv k).1 (GoMap.mem_keys_of_lookup _ _ _ h),
    (valid_mem_values hv v).1 (GoMap.mem_values_of_lookup _ _ _ h)⟩

theorem valid_lookup_none {sq : MysticSquare3} (hv : sq.ValidateState = true) {k : Int}
    (hk : k ∉ tiles) : GoMap.lookup sq.state k = none :=
  (GoMap.lookup_eq_none_iff _ _).2 (fun h => hk ((valid_mem_keys hv k).1 h))

/-- No value occurs at two positions of a valid state. -/
theorem valid_lookup_inj {sq : MysticSquare3} (hv : sq.ValidateState = true) {k k' v : Int}
    (h : GoMap.lookup sq.state k = some v) (h' : GoMap.lookup sq.state k' = some v) : k = k' := by
  have hnd := valid_values_nodup hv
  have h1 := GoMap.mem_of_lookup _ _ _ h
  have h2 := GoMap.mem_of_lookup _ _ _ h'
  have := List.inj_on_of_nodup_map hnd h1 h2 rfl
  exact (Prod.mk.inj this).1

/-- Every value of 1..9 occurs at some position of a valid state. -/
theorem valid_lookup_surj {sq : MysticSquare3} (hv : sq.ValidateState = true) {v : Int}
    (hvt : v ∈ tiles) : ∃ k, k ∈ tiles ∧ GoMap.lookup sq.state k = some v := by
  have h1 := (valid_mem_values hv v).2 hvt
  obtain ⟨⟨k, v'⟩, hmem, hv'⟩ := List.mem_map.1 h1
  simp only at hv'
  subst hv'
  have := GoMap.lookup_of_mem _ _ _ (valid_keys_nodup hv) hmem
  exact ⟨k, (valid_lookup_mem hv this).1, this⟩

theorem valid_of_perm {sq sq' : MysticSquare3} (hv : sq.ValidateState = true)
    (hp : sq'.state.Perm sq.state) : sq'.ValidateState = true := by
  rw [ValidateState_iff] at hv ⊢
  exact ⟨(hp.map _).trans hv.1, (hp.map _).trans hv.2⟩

theorem lookup_of_perm {sq sq' : MysticSquare3} (hv : sq.ValidateState = true)
    (hp : sq'.state.Perm sq.state) (k : Int) :
    GoMap.lookup sq'.state k = GoMap.lookup sq.state k := by
  have hv' := valid_of_perm hv hp
  cases h : GoMap.lookup sq.state k with
  | none =>
    rw [GoMap.lookup_eq_none_iff] at h ⊢
    intro hk
    exact h ((hp.map _).mem_iff.1 hk)
  | some v =>
    exact GoMap.lookup_of_mem _ _ _ (valid_keys_nodup hv') (hp.mem_iff.2 (GoMap.mem_of_lookup _ _ _ h))

/-! ## The blank -/

theorem FindEmptySpace_loop_spec (m : GoMap Int Int) (hnd : (GoMap.keys m).Nodup) :
    (9 ∉ GoMap.values m ∧ FindEmptySpace.loop m = -1) ∨
      GoMap.lookup m (FindEmptySpace.loop m) = some 9 := by
  induction m with
  | nil => left; simp [GoMap.values, FindEmptySpace.loop]
  | cons e rest ih =>
    obtain ⟨a, b⟩ := e
    simp only [GoMap.keys, List.map_cons, List.nodup_cons] at hnd
    by_cases hb : b = 9
    · right
      simp [FindEmptySpace.loop, hb, GoMap.lookup]
    · rcases ih hnd.2 with ⟨h1, h2⟩ | h
      · left
        have hb' : ¬ 9 = b := fun h => hb h.symm
        simp only [GoMap.values] at h1
        simp [FindEmptySpace.loop, hb, hb', GoMap.values, h1, h2]
      · right
        have hne : ¬ a = FindEmptySpace.loop rest := by
          intro heq
          apply hnd.1
          rw [heq]
          exact GoMap.mem_keys_of_lookup _ _ _ h
        simp [FindEmptySpace.loop, hb, GoMap.lookup, hne, h]

/-- On a valid state `FindEmptySpace` returns the position of the blank. -/
theorem FindEmptySpace_lookup {sq : MysticSquare3} (hv : sq.ValidateState = true) :
    GoMap.lookup sq.state sq.FindEmptySpace = some 9 := by
  rcases FindEmptySpace_loop_spec sq.state (valid_keys_nodup hv) with ⟨h1, _⟩ | h
  · exact absurd ((valid_mem_values hv 9).2 (by decide)) h1
  · exact h

theorem FindEmptySpace_eq {sq : MysticSquare3} (hv : sq.ValidateState = true) {p : Int}
    (hp : GoMap.lookup sq.state p = some 9) : sq.FindEmptySpace = p :=
  valid_lookup_inj hv (FindEmptySpace_lookup hv) hp

theorem FindEmptySpace_mem {sq : MysticSquare3} (hv : sq.ValidateState = true) :
    sq.FindEmptySpace ∈ tiles :=
  (valid_lookup_mem hv (FindEmptySpace_lookup hv)).1

/-! ## Moves -/

theorem swapInCopy_old (m : GoMap Int Int) (p q : Int) : (swapInCopy m p q).oldSquare = m := by
  unfold swapInCopy
  simp only
  have : ∀ (l : GoMap Int Int) (mm : MoveMaps),
      (l.foldl (fun mm kv => { mm with newSquare := GoMap.set mm.newSquare kv.1 kv.2 }) mm).oldSquare
        = mm.oldSquare := by
    intro l
    induction l with
    | nil => intro mm; rfl
    | cons e rest ih => intro mm; rw [List.foldl_cons, ih]
  exact this m _

theorem swapInCopy_new (m : GoMap Int Int) (p q : Int) (hnd : (GoMap.keys m).Nodup) :
    (swapInCopy m p q).newSquare =
      GoMap.set (GoMap.set m p (GoMap.get m q 0)) q (GoMap.get m p 0) := by
  unfold swapInCopy
  simp only
  have : ∀ (l : GoMap Int Int) (mm : MoveMaps),
      (l.foldl (fun mm kv => { mm with newSquare := GoMap.set mm.newSquare kv.1 kv.2 }) mm).newSquare
        = l.foldl (fun c kv => GoMap.set c kv.1 kv.2) mm.newSquare := by
    intro l
    induction l with
    | nil => intro mm; rfl
    | cons e rest ih => intro mm; rw [List.foldl_cons, ih]; rfl
  rw [this m _, GoMap.copy_eq m hnd]

/-- The result of the shared move statements, read key by key. -/
theorem swapInCopy_isSwap {sq : MysticSquare3} (hv : sq.ValidateState = true) {p q : Int}
    (hp : p ∈ tiles) (hq : q ∈ tiles) :
    IsSwapOf sq.state (swapInCopy sq.state p q).newSquare p q := by
  intro k
  rw [swapInCopy_new _ _ _ (valid_keys_nodup hv), GoMap.lookup_set, GoMap.lookup_set]
  obtain ⟨vp, _, hvp⟩ := valid_lookup hv hp
  obtain ⟨vq, _, hvq⟩ := valid_lookup hv hq
  by_cases h1 : k = p
  · subst h1
    by_cases h2 : q = k
    · subst h2
      simp [GoMap.get, hvq]
    · simp [h2, GoMap.get, hvq]
  · have h1' : ¬ p = k := fun h => h1 h.symm
    by_cases h2 : k = q
    · subst h2
      simp [h1, GoMap.get, hvp]
    · have h2' : ¬ q = k := fun h => h2 h.symm
      simp [h1, h1', h2, h2']

theorem mem_tiles_iff (k : Int) : k ∈ tiles ↔ 1 ≤ k ∧ k ≤ 9 := by
  simp only [tiles, List.mem_cons, List.mem_singleton, List.not_mem_nil, or_false]
  omega

/-- `MoveUp` on a valid state, by the position of the blank. -/
theorem MoveUp_eq {sq : MysticSquare3} (hv : sq.ValidateState = true) :
    sq.MoveUp = if sq.FindEmptySpace ∈ [1, 2, 3] then none
      else some (swapInCopy sq.state sq.FindEmptySpace (sq.FindEmptySpace - 3)).newSquare := by
  have h := FindEmptySpace_mem hv
  simp only [tiles, List.mem_cons, List.mem_singleton, List.not_mem_nil, or_false] at h
  unfold MysticSquare3.MoveUp
  rcases h with h | h | h | h | h | h | h | h | h <;>
    simp [hv, h, MysticSquare3.MapKeyToNewKey, GoMap.lookup]

/-- `MoveDown` on a valid state, by the position of the blank. -/
theorem MoveDown_eq {sq : MysticSquare3} (hv : sq.ValidateState = true) :
    sq.MoveDown = if sq.FindEmptySpace ∈ [7, 8, 9] then none
      else some (swapInCopy sq.state sq.FindEmptySpace (sq.FindEmptySpace + 3)).newSquare := by
  have h := FindEmptySpace_mem hv
  simp only [tiles, List.mem_cons, List.mem_singleton, List.not_mem_nil, or_false] at h
  unfold MysticSquare3.MoveDown
  rcases h with h | h | h | h | h | h | h | h | h <;>
    simp [hv, h, MysticSquare3.MapKeyToNewKey, GoMap.lookup]

/-- `MoveLeft` on a valid state, by the position of the blank. -/
theorem MoveLeft_eq {sq : MysticSquare3} (hv : sq.ValidateState = true) :
    sq.MoveLeft = if sq.FindEmptySpace ∈ [1, 4, 7] then none
      else some (swapInCopy sq.state sq.FindEmptySpace (sq.FindEmptySpace - 1)).newSquare := by
  have h := FindEmptySpace_mem hv
  simp only [tiles, List.mem_cons, List.mem_singleton, List.not_mem_nil, or_false] at h
  unfold MysticSquare3.MoveLeft
  rcases h with h | h | h | h | h | h | h | h | h <;>
    simp [hv, h, MysticSquare3.MapKeyToNewKey, GoMap.lookup]

/-- `MoveRight` on a valid state, by the position of the blank. -/
theorem MoveRight_eq {sq : MysticSquare3} (hv : sq.ValidateState = true) :
    sq.MoveRight = if sq.FindEmptySpace ∈ [3, 6, 9] then none
      else some (swapInCopy sq.state sq.FindEmptySpace (sq.FindEmptySpace + 1)).newSquare := by
  have h := FindEmptySpace_mem hv
  simp only [tiles, List.mem_cons, List.mem_singleton, List.not_mem_nil, or_false] at h
  unfold MysticSquare3.MoveRight
  rcases h with h | h | h | h | h | h | h | h | h <;>
    simp [hv, h, MysticSquare3.MapKeyToNewKey, GoMap.lookup]

/-! ## Swapping two cells keeps a state valid -/

theorem perm_map_swap (l : List Int) (hnd : l.Nodup) {p q : Int} (hp : p ∈ l) (hq : q ∈ l) :
    (l.map (Equiv.swap p q)).Perm l := by
  rw [List.perm_ext_iff_of_nodup (hnd.map (Equiv.swap p q).injective) hnd]
  intro a
  simp only [List.mem_map]
  constructor
  · rintro ⟨b, hb, rfl⟩
    rw [Equiv.swap_apply_def]
    split
    · exact hq
    · split
      · exact hp
      · exact hb
  · intro ha
    refine ⟨Equiv.swap p q a, ?_, by simp⟩
    rw [Equiv.swap_apply_def]
    split
    · exact hq
    · split
      · exact hp
      · exact ha

theorem values_eq_map_keys (m : GoMap Int Int) (hnd : (GoMap.keys m).Nodup) :
    GoMap.values m = (GoMap.keys m).map (fun k => GoMap.get m k 0) := by
  conv_lhs => rw [GoMap.eq_map_keys m 0 hnd]
  simp [GoMap.values, GoMap.keys, Function.comp_def]

theorem keys_of_isSwap {sq : MysticSquare3} (hv : sq.ValidateState = true) {p q : Int}
    (hp : p ∈ tiles) (hq : q ∈ tiles) :
    GoMap.keys (swapInCopy sq.state p q).newSquare = GoMap.keys sq.state := by
  rw [swapInCopy_new _ _ _ (valid_keys_nodup hv), GoMap.keys_set_of_mem, GoMap.keys_set_of_mem]
  · exact (valid_mem_keys hv p).2 hp
  · rw [GoMap.keys_set_of_mem]
    · exact (valid_mem_keys hv q).2 hq
    · exact (valid_mem_keys hv p).2 hp

theorem get_of_isSwap {m r : GoMap Int Int} {p q : Int} (h : IsSwapOf m r p q) (k : Int) :
    GoMap.get r k 0 = GoMap.get m (Equiv.swap p q k) 0 := by
  unfold GoMap.get
  rw [h k, Equiv.swap_apply_def]
  split
  · rfl
  · split <;> rfl

/-- Exchanging the contents of two cells of a valid state gives a valid state. -/
theorem valid_swapInCopy {sq : MysticSquare3} (hv : sq.ValidateState = true) {p q : Int}
    (hp : p ∈ tiles) (hq : q ∈ tiles) (s : String) :
    (MysticSquare3.mk (swapInCopy sq.state p q).newSquare s).ValidateState = true := by
  have hk := keys_of_isSwap hv hp hq
  have hsw := swapInCopy_isSwap hv hp hq
  have hv0 := (ValidateState_iff sq).1 hv
  rw [ValidateState_iff]
  simp only
  refine ⟨hk ▸ hv0.1, ?_⟩
  have hnd' : (GoMap.keys (swapInCopy sq.state p q).newSquare).Nodup := hk ▸ valid_keys_nodup hv
  rw [values_eq_map_keys _ hnd', hk]
  have h1 : (GoMap.keys sq.state).map (fun k => GoMap.get (swapInCopy sq.state p q).newSquare k 0)
      = ((GoMap.keys sq.state).map (Equiv.swap p q)).map (fun k => GoMap.get sq.state k 0) := by
    rw [List.map_map]
    apply List.map_congr_left
    intro k _
    exact get_of_isSwap hsw k
  rw [h1]
  have h2 := perm_map_swap (GoMap.keys sq.state) (valid_keys_nodup hv)
    ((valid_mem_keys hv p).2 hp) ((valid_mem_keys hv q).2 hq)
  refine ((h2.map _).trans ?_)
  rw [← values_eq_map_keys _ (valid_keys_nodup hv)]
  exact hv0.2

/-! ## The canonical key -/

theorem cell_string {v : Int} (hv : v ∈ tiles) :
    (if Itoa v = "9" then " " else Itoa v) = String.singleton (cellChar v) := by
  simp only [tiles, List.mem_cons, List.mem_singleton, List.not_mem_nil, or_false] at hv
  rcases hv with h | h | h | h | h | h | h | h | h <;> subst h <;> decide

theorem cellChar_inj {v w : Int} (hv : v ∈ tiles) (hw : w ∈ tiles)
    (h : cellChar v = cellChar w) : v = w := by
  simp only [tiles, List.mem_cons, List.mem_singleton, List.not_mem_nil, or_false] at hv hw
  rcases hv with h1 | h1 | h1 | h1 | h1 | h1 | h1 | h1 | h1 <;>
    rcases hw with h2 | h2 | h2 | h2 | h2 | h2 | h2 | h2 | h2 <;>
    subst h1 <;> subst h2 <;> first | rfl | (exfalso; revert h; decide)

theorem cellChar_ne_newline {v : Int} (hv : v ∈ tiles) : cellChar v ≠ '\n' := by
  simp only [tiles, List.mem_cons, List.mem_singleton, List.not_mem_nil, or_false] at hv
  rcases hv with h | h | h | h | h | h | h | h | h <;> subst h <;> decide

theorem valid_get_mem {sq : MysticSquare3} (hv : sq.ValidateState = true) {k : Int}
    (hk : k ∈ tiles) : GoMap.get sq.state k 0 ∈ tiles := by
  obtain ⟨v, hvt, h⟩ := valid_lookup hv hk
  simpa [GoMap.get, h] using hvt

theorem valid_get_lookup {sq : MysticSquare3} (hv : sq.ValidateState = true) {k : Int}
    (hk : k ∈ tiles) : GoMap.lookup sq.state k = some (GoMap.get sq.state k 0) := by
  obtain ⟨v, _, h⟩ := valid_lookup hv hk
  simp [GoMap.get, h]

/-- The key of a valid state, character by character. -/
theorem build_valid {sq : MysticSquare3} (hv : sq.ValidateState = true) :
    buildMysticSquare3StateString sq.state =
      ⟨[cellChar (GoMap.get sq.state 1 0), ' ', cellChar (GoMap.get sq.state 2 0), ' ',
        cellChar (GoMap.get sq.state 3 0), '\n',
        cellChar (GoMap.get sq.state 4 0), ' ', cellChar (GoMap.get sq.state 5 0), ' ',
        cellChar (GoMap.get sq.state 6 0), '\n',
        cellChar (GoMap.get sq.state 7 0), ' ', cellChar (GoMap.get sq.state 8 0), ' ',
        cellChar (GoMap.get sq.state 9 0)]⟩ := by
  have hv' : (MysticSquare3.mk sq.state "").ValidateState = true := hv
  unfold buildMysticSquare3StateString buildRow
  simp only [hv', if_true]
  norm_num only []
  rw [cell_string (valid_get_mem hv (k := 1) (by decide)),
    cell_string (valid_get_mem hv (k := 2) (by decide)),
    cell_string (valid_get_mem hv (k := 3) (by decide)),
    cell_string (valid_get_mem hv (k := 4) (by decide)),
    cell_string (valid_get_mem hv (k := 5) (by decide)),
    cell_string (valid_get_mem hv (k := 6) (by decide)),
    cell_string (valid_get_mem hv (k := 7) (by decide)),
    cell_string (valid_get_mem hv (k := 8) (by decide)),
    cell_string (valid_get_mem hv (k := 9) (by decide))]
  apply String.ext
  simp [String.data_append, String.singleton]

theorem cells_eq_iff (a b : GoMap Int Int) :
    cells a = cells b ↔ ∀ k ∈ tiles, GoMap.get a k 0 = GoMap.get b k 0 := by
  unfold cells
  constructor
  · intro h k hk
    exact List.map_inj_left.1 h k hk
  · intro h
    exact List.map_congr_left h

/-- Valid states with the same cells have the same key. -/
theorem build_eq_of_cells {a b : MysticSquare3} (ha : a.ValidateState = true)
    (hb : b.ValidateState = true) (h : cells a.state = cells b.state) :
    buildMysticSquare3StateString a.state = buildMysticSquare3StateString b.state := by
  rw [build_valid ha, build_valid hb]
  rw [cells_eq_iff] at h
  rw [h 1 (by decide), h 2 (by decide), h 3 (by decide), h 4 (by decide), h 5 (by decide),
    h 6 (by decide), h 7 (by decide), h 8 (by decide), h 9 (by decide)]

/-- Valid states with the same key have the same cells. -/
theorem cells_eq_of_build {a b : MysticSquare3} (ha : a.ValidateState = true)
    (hb : b.ValidateState = true)
    (h : buildMysticSquare3StateString a.state = buildMysticSquare3StateString b.state) :
    cells a.state = cells b.state := by
  rw [build_valid ha, build_valid hb] at h
  have hd := congrArg String.data h
  simp only [List.cons.injEq, and_true, true_and] at hd
  obtain ⟨h1, h2, h3, h4, h5, h6, h7, h8, h9⟩ := hd
  have e : ∀ k, k ∈ tiles → cellChar (GoMap.get a.state k 0) = cellChar (GoMap.get b.state k 0) →
      GoMap.get a.state k 0 = GoMap.get b.state k 0 :=
    fun k hk hc => cellChar_inj (valid_get_mem ha hk) (valid_get_mem hb hk) hc
  unfold cells tiles
  simp only [List.map_cons, List.map_nil]
  rw [e 1 (by decide) h1, e 2 (by decide) h2, e 3 (by decide) h3, e 4 (by decide) h4,
    e 5 (by decide) h5, e 6 (by decide) h6, e 7 (by decide) h7, e 8 (by decide) h8,
    e 9 (by decide) h9]

/-- For states made by the constructor, equal keys mean equal cells. -/
theorem state_eq_iff_cells {a b : MysticSquare3} (ha : IsState a) (hb : IsState b) :
    a.State = b.State ↔ cells a.state = cells b.state := by
  unfold MysticSquare3.State
  rw [ha.2, hb.2]
  exact ⟨cells_eq_of_build ha.1 hb.1, build_eq_of_cells ha.1 hb.1⟩

/-! ## The constructor -/

theorem NewMysticSquare3_valid {m : GoMap Int Int}
    (hv : (MysticSquare3.mk m "").ValidateState = true) :
    NewMysticSquare3 m = (some ⟨m, buildMysticSquare3StateString m⟩, none) := by
  have : (MysticSquare3.mk m (buildMysticSquare3StateString m)).ValidateState = true := hv
  simp [NewMysticSquare3, this]

theorem NewMysticSquare3_invalid {m : GoMap Int Int}
    (hv : (MysticSquare3.mk m "").ValidateState = false) :
    NewMysticSquare3 m = (none, some ⟨"invalid state %v", m⟩) := by
  have : (MysticSquare3.mk m (buildMysticSquare3StateString m)).ValidateState = false := hv
  simp [NewMysticSquare3, this]

theorem isState_mk {m : GoMap Int Int} (hv : (MysticSquare3.mk m "").ValidateState = true) :
    IsState ⟨m, buildMysticSquare3StateString m⟩ := ⟨hv, rfl⟩

theorem isState_of_new {m : GoMap Int Int} {s : MysticSquare3}
    (h : (NewMysticSquare m).1 = MysticSquare.ptr (some s)) : IsState s ∧ s.state = m := by
  unfold NewMysticSquare at h
  cases hv : (MysticSquare3.mk m "").ValidateState with
  | false => rw [NewMysticSquare3_invalid hv] at h; simp at h
  | true =>
    rw [NewMysticSquare3_valid hv] at h
    simp only [MysticSquare.ptr.injEq, Option.some.injEq] at h
    subst h
    exact ⟨isState_mk hv, rfl⟩

theorem isState_new {s : MysticSquare3} (h : IsState s) :
    NewMysticSquare s.state = (MysticSquare.ptr (some s), none) := by
  unfold NewMysticSquare
  rw [NewMysticSquare3_valid h.1]
  obtain ⟨m, str⟩ := s
  simp only [IsState] at h
  simp [h.2]

theorem RealState_eq {s : MysticSquare3} (hv : s.ValidateState = true) :
    s.RealState = s.state :=
  GoMap.copy_eq s.state (valid_keys_nodup hv)

/-! ## The heuristic -/

theorem rows_eq {sq : MysticSquare3} (hv : sq.ValidateState = true) :
    manhattanDistance.rows sq =
      [[GoMap.get sq.state 1 0, GoMap.get sq.state 2 0, GoMap.get sq.state 3 0],
       [GoMap.get sq.state 4 0, GoMap.get sq.state 5 0, GoMap.get sq.state 6 0],
       [GoMap.get sq.state 7 0, GoMap.get sq.state 8 0, GoMap.get sq.state 9 0]] := by
  unfold manhattanDistance.rows
  rw [RealState_eq hv]
  rfl

theorem find_unique {l : List Int} {p : Int → Bool} {k : Int} (hk : k ∈ l) (hp : p k = true)
    (hu : ∀ j ∈ l, p j = true → j = k) : l.find? p = some k := by
  induction l with
  | nil => simp at hk
  | cons a rest ih =>
    by_cases ha : p a = true
    · have := hu a (List.mem_cons_self _ _) ha
      subst this
      simp [List.find?, hp]
    · have hka : k ≠ a := fun h => ha (h ▸ hp)
      have hk' : k ∈ rest := by
        rcases List.mem_cons.1 hk with h | h
        · exact absurd h hka
        · exact h
      simp only [Bool.not_eq_true] at ha
      simp only [List.find?, ha]
      exact ih hk' (fun j hj => hu j (List.mem_cons_of_mem _ hj))

theorem valid_get_inj {sq : MysticSquare3} (hv : sq.ValidateState = true) {i k : Int}
    (hi : i ∈ tiles) (hk : k ∈ tiles) (h : GoMap.get sq.state i 0 = GoMap.get sq.state k 0) :
    i = k := by
  have h1 := valid_get_lookup hv hi
  have h2 := valid_get_lookup hv hk
  rw [h] at h1
  exact valid_lookup_inj hv h1 h2

theorem posOf_get {t : MysticSquare3} (hv : t.ValidateState = true) {k : Int} (hk : k ∈ tiles) :
    posOf t.state (GoMap.get t.state k 0) = k := by
  unfold posOf
  rw [find_unique hk (by simp)]
  · rfl
  · intro j hj hp
    simp only [decide_eq_true_eq] at hp
    exact valid_get_inj hv hj hk hp

theorem valid_get_surj {t : MysticSquare3} (hv : t.ValidateState = true) {v : Int}
    (hvt : v ∈ tiles) : ∃ j, j ∈ tiles ∧ GoMap.get t.state j 0 = v := by
  obtain ⟨j, hj, h⟩ := valid_lookup_surj hv hvt
  exact ⟨j, hj, by simp [GoMap.get, h]⟩

theorem posOf_mem {t : MysticSquare3} (hv : t.ValidateState = true) {v : Int} (hvt : v ∈ tiles) :
    posOf t.state v ∈ tiles ∧ GoMap.get t.state (posOf t.state v) 0 = v := by
  obtain ⟨j, hj, h⟩ := valid_get_surj hv hvt
  subst h
  rw [posOf_get hv hj]
  exact ⟨hj, rfl⟩

/-- The search of the target grid finds the tile and adds its grid distance. -/
theorem scanRows_eq {t : MysticSquare3} (hv : t.ValidateState = true) {v : Int} (hvt : v ∈ tiles)
    (r c d : Int) :
    manhattanDistance.scanRows v r c (manhattanDistance.rows t) 0 d false =
      d + (|r - rowOf (posOf t.state v)| + |c - colOf (posOf t.state v)|) := by
  obtain ⟨j, hj, h⟩ := valid_get_surj hv hvt
  subst h
  rw [posOf_get hv hj, rows_eq hv]
  have hne : ∀ i, i ∈ tiles → (GoMap.get t.state i 0 = GoMap.get t.state j 0 ↔ i = j) :=
    fun i hi => ⟨fun h => valid_get_inj hv hi hj h, fun h => by rw [h]⟩
  simp only [tiles, List.mem_cons, List.mem_singleton, List.not_mem_nil, or_false] at hj
  rcases hj with h | h | h | h | h | h | h | h | h <;> subst h <;>
    simp [manhattanDistance.scanRows, manhattanDistance.scanColumns, rowOf, colOf,
      hne 1 (by decide), hne 2 (by decide), hne 3 (by decide),
      hne 4 (by decide), hne 5 (by decide), hne 6 (by decide),
      hne 7 (by decide), hne 8 (by decide), hne 9 (by decide)]

theorem rowOf_colOf_nonneg : ∀ k ∈ tiles, ∀ j ∈ tiles, 0 ≤ gridDist k j := by
  intro k _ j _
  unfold gridDist
  positivity

theorem gridDist_self (k : Int) : gridDist k k = 0 := by simp [gridDist]

/-- What one cell of the current state adds to the distance. -/
theorem visitCell_eq {t : MysticSquare3} (hv : t.ValidateState = true) {a : Int} (ha : a ∈ tiles)
    (r c : Nat) (hr : r < 3) (hc : c < 3) (d : Int) :
    manhattanDistance.visitCell (manhattanDistance.rows t) r c a d =
      d + cellCost t.state (1 + 3 * (r : Int) + (c : Int)) a := by
  have hk : (1 + 3 * (r : Int) + (c : Int)) ∈ tiles := by
    rw [mem_tiles_iff]; omega
  have htv : ((manhattanDistance.rows t).getD r []).getD c 0 =
      GoMap.get t.state (1 + 3 * (r : Int) + (c : Int)) 0 := by
    rw [rows_eq hv]
    interval_cases r <;> interval_cases c <;> rfl
  unfold manhattanDistance.visitCell cellCost
  simp only [htv]
  by_cases h9 : a = 9
  · simp [h9]
  · by_cases heq : GoMap.get t.state (1 + 3 * (r : Int) + (c : Int)) 0 = a
    · subst heq
      rw [posOf_get hv hk, gridDist_self]
      simp
    · simp only [ne_eq, heq, not_false_eq_true, h9, and_self, if_true, if_false]
      rw [scanRows_eq hv ha]
      unfold gridDist
      have h1 : rowOf (1 + 3 * (r : Int) + (c : Int)) = r := by unfold rowOf; omega
      have h2 : colOf (1 + 3 * (r : Int) + (c : Int)) = c := by unfold colOf; omega
      rw [h1, h2]

/-- On valid states the function returns the Manhattan sum and does not panic. -/
theorem manhattanDistance_eq {s t : MysticSquare3} (hs : s.ValidateState = true)
    (ht : t.ValidateState = true) :
    manhattanDistance s t = .ok (mdCells s.state t.state) := by
  have hlen : s.RealState.length = t.RealState.length := by
    rw [RealState_eq hs, RealState_eq ht]
    have h1 := ((ValidateState_iff s).1 hs).1.length_eq
    have h2 := ((ValidateState_iff t).1 ht).1.length_eq
    simp only [GoMap.keys, List.length_map] at h1 h2
    rw [h1, h2]
  unfold manhattanDistance
  simp only [hs, ht, hlen, Bool.not_true, Bool.false_eq_true, if_false, ne_eq, not_true_eq_false]
  congr 1
  conv_lhs => rw [rows_eq hs]
  simp only [manhattanDistance.loopRows, manhattanDistance.loopColumns]
  have e := fun (k : Int) (hk : k ∈ tiles) => valid_get_mem hs hk
  rw [visitCell_eq ht (e 1 (by decide)) 0 0 (by decide) (by decide),
    visitCell_eq ht (e 2 (by decide)) 0 1 (by decide) (by decide),
    visitCell_eq ht (e 3 (by decide)) 0 2 (by decide) (by decide),
    visitCell_eq ht (e 4 (by decide)) 1 0 (by decide) (by decide),
    visitCell_eq ht (e 5 (by decide)) 1 1 (by decide) (by decide),
    visitCell_eq ht (e 6 (by decide)) 1 2 (by decide) (by decide),
    visitCell_eq ht (e 7 (by decide)) 2 0 (by decide) (by decide),
    visitCell_eq ht (e 8 (by decide)) 2 1 (by decide) (by decide),
    visitCell_eq ht (e 9 (by decide)) 2 2 (by decide) (by decide)]
  simp only [mdCells, tiles, List.map_cons, List.map_nil, List.sum_cons, List.sum_nil]
  norm_num
  ring

theorem cellCost_nonneg (t : GoMap Int Int) (k v : Int) : 0 ≤ cellCost t k v := by
  unfold cellCost gridDist
  split
  · exact le_refl 0
  · positivity

theorem mdCells_nonneg (s t : GoMap Int Int) : 0 ≤ mdCells s t := by
  unfold mdCells
  apply List.sum_nonneg
  intro x hx
  obtain ⟨k, _, rfl⟩ := List.mem_map.1 hx
  exact cellCost_nonneg _ _ _

theorem mdCells_self {t : MysticSquare3} (hv : t.ValidateState = true) :
    mdCells t.state t.state = 0 := by
  unfold mdCells
  apply List.sum_eq_zero
  intro x hx
  obtain ⟨k, hk, rfl⟩ := List.mem_map.1 hx
  unfold cellCost
  split
  · rfl
  · rw [posOf_get hv hk, gridDist_self]

theorem mdCells_congr {s s' : GoMap Int Int} (t : GoMap Int Int) (h : cells s = cells s') :
    mdCells s t = mdCells s' t := by
  unfold mdCells
  rw [cells_eq_iff] at h
  congr 1
  apply List.map_congr_left
  intro k hk
  rw [h k hk]

/-! ## A move changes the Manhattan sum by at most one -/

theorem sum_update_one (l : List Int) (hnd : l.Nodup) {p : Int} (hp : p ∈ l) (F G : Int → Int)
    (h : ∀ k ∈ l, k ≠ p → G k = F k) :
    (l.map G).sum = (l.map F).sum + (G p - F p) := by
  induction l with
  | nil => simp at hp
  | cons a rest ih =>
    rw [List.nodup_cons] at hnd
    simp only [List.map_cons, List.sum_cons]
    by_cases hap : a = p
    · subst hap
      have : rest.map G = rest.map F := by
        apply List.map_congr_left
        intro k hk
        exact h k (List.mem_cons_of_mem _ hk) (fun hka => hnd.1 (hka ▸ hk))
      rw [this]; ring
    · have hp' : p ∈ rest := by
        rcases List.mem_cons.1 hp with h1 | h1
        · exact absurd h1.symm hap
        · exact h1
      rw [ih hnd.2 hp' (fun k hk => h k (List.mem_cons_of_mem _ hk)),
        h a (List.mem_cons_self _ _) hap]
      ring

theorem sum_update_two (l : List Int) (hnd : l.Nodup) {p q : Int} (hp : p ∈ l) (hq : q ∈ l)
    (hpq : p ≠ q) (F G : Int → Int) (h : ∀ k ∈ l, k ≠ p → k ≠ q → G k = F k) :
    (l.map G).sum = (l.map F).sum + (G p - F p) + (G q - F q) := by
  have h1 := sum_update_one l hnd hp F (fun k => if k = p then G p else F k)
    (fun k _ hk => by simp [hk])
  have h2 := sum_update_one l hnd hq (fun k => if k = p then G p else F k) G
    (fun k hk hkq => by
      by_cases hkp : k = p
      · simp [hkp]
      · simp [hkp, h k hk hkp hkq])
  rw [h2, h1]
  have hqp : ¬ q = p := fun h => hpq h.symm
  simp [hqp]

theorem adj_mem_tiles {p q : Int} (hp : p ∈ tiles) (h : Adj p q) : q ∈ tiles ∧ p ≠ q := by
  rw [mem_tiles_iff] at hp ⊢
  unfold Adj at h
  simp only [List.mem_cons, List.mem_singleton, List.not_mem_nil, or_false, not_or] at h
  omega

set_option maxRecDepth 100000 in
theorem gridDist_adj : ∀ p ∈ tiles, ∀ q ∈ tiles, ∀ x ∈ tiles, Adj p q →
    gridDist p x ≤ gridDist q x + 1 ∧ gridDist q x ≤ gridDist p x + 1 := by
  decide

/-- Exchanging the blank with a neighbouring tile changes the Manhattan sum by at most one. -/
theorem mdCells_swap {s t : MysticSquare3} (hs : s.ValidateState = true)
    (ht : t.ValidateState = true) {q : Int} (hadj : Adj s.FindEmptySpace q) :
    mdCells s.state t.state ≤ mdCells (swapInCopy s.state s.FindEmptySpace q).newSquare t.state + 1 ∧
    mdCells (swapInCopy s.state s.FindEmptySpace q).newSquare t.state ≤ mdCells s.state t.state + 1 := by
  have hp := FindEmptySpace_mem hs
  obtain ⟨hq, hpq⟩ := adj_mem_tiles hp hadj
  have hsw := swapInCopy_isSwap hs hp hq
  have hget := get_of_isSwap hsw
  have hblank : GoMap.get s.state s.FindEmptySpace 0 = 9 := by
    simp [GoMap.get, FindEmptySpace_lookup hs]
  have hq9 : GoMap.get s.state q 0 ≠ 9 := by
    intro h
    exact hpq (valid_get_inj hs hp hq (hblank.trans h.symm))
  have hsum := sum_update_two tiles tiles_nodup hp hq hpq
    (fun k => cellCost t.state k (GoMap.get s.state k 0))
    (fun k => cellCost t.state k (GoMap.get (swapInCopy s.state s.FindEmptySpace q).newSquare k 0))
    (fun k _ hkp hkq => by
      simp only [hget k]
      rw [Equiv.swap_apply_of_ne_of_ne hkp hkq])
  simp only [hget, Equiv.swap_apply_left, Equiv.swap_apply_right] at hsum
  have hx := (posOf_mem ht (valid_get_mem hs hq)).1
  have hd := gridDist_adj _ hp _ hq _ hx hadj
  unfold mdCells
  simp only [hget]
  rw [hsum]
  simp only [cellCost, hblank, hq9, if_true, if_false]
  omega

/-! ## Legal moves -/

theorem move_none_of_invalid {a : MysticSquare3} (hv : ¬ a.ValidateState = true) :
    a.MoveUp = none ∧ a.MoveDown = none ∧ a.MoveLeft = none ∧ a.MoveRight = none := by
  simp [MysticSquare3.MoveUp, MysticSquare3.MoveDown, MysticSquare3.MoveLeft,
    MysticSquare3.MoveRight, hv]

theorem NewMysticSquare_swap {a : MysticSquare3} (hv : a.ValidateState = true) {q : Int}
    (hadj : Adj a.FindEmptySpace q) :
    NewMysticSquare (swapInCopy a.state a.FindEmptySpace q).newSquare =
      (MysticSquare.ptr (some ⟨(swapInCopy a.state a.FindEmptySpace q).newSquare,
        buildMysticSquare3StateString (swapInCopy a.state a.FindEmptySpace q).newSquare⟩), none) := by
  have hp := FindEmptySpace_mem hv
  unfold NewMysticSquare
  rw [NewMysticSquare3_valid (valid_swapInCopy hv hp (adj_mem_tiles hp hadj).1 "")]

/-- The shape of a legal move: the blank changes place with one of its neighbours. -/
theorem legalMove_iff {a b : MysticSquare3} :
    LegalMove a b ↔ a.ValidateState = true ∧ ∃ q, Adj a.FindEmptySpace q ∧
      b = ⟨(swapInCopy a.state a.FindEmptySpace q).newSquare,
        buildMysticSquare3StateString (swapInCopy a.state a.FindEmptySpace q).newSquare⟩ := by
  constructor
  · rintro ⟨r, hr, hnew⟩
    by_cases hv : a.ValidateState = true
    · refine ⟨hv, ?_⟩
      have key : ∀ q, Adj a.FindEmptySpace q →
          r = (swapInCopy a.state a.FindEmptySpace q).newSquare →
          ∃ q, Adj a.FindEmptySpace q ∧
            b = ⟨(swapInCopy a.state a.FindEmptySpace q).newSquare,
              buildMysticSquare3StateString (swapInCopy a.state a.FindEmptySpace q).newSquare⟩ := by
        intro q hadj hrq
        refine ⟨q, hadj, ?_⟩
        rw [hrq, NewMysticSquare_swap hv hadj] at hnew
        simp only [Prod.mk.injEq, MysticSquare.ptr.injEq, Option.some.injEq, and_true] at hnew
        exact hnew.symm
      rcases hr with h | h | h | h
      · rw [MoveUp_eq hv] at h
        split at h
        · simp at h
        · rename_i hn
          simp only [Option.some.injEq] at h
          exact key _ (Or.inl ⟨rfl, hn⟩) h.symm
      · rw [MoveDown_eq hv] at h
        split at h
        · simp at h
        · rename_i hn
          simp only [Option.some.injEq] at h
          exact key _ (Or.inr (Or.inl ⟨rfl, hn⟩)) h.symm
      · rw [MoveLeft_eq hv] at h
        split at h
        · simp at h
        · rename_i hn
          simp only [Option.some.injEq] at h
          exact key _ (Or.inr (Or.inr (Or.inl ⟨rfl, hn⟩))) h.symm
      · rw [MoveRight_eq hv] at h
        split at h
        · simp at h
        · rename_i hn
          simp only [Option.some.injEq] at h
          exact key _ (Or.inr (Or.inr (Or.inr ⟨rfl, hn⟩))) h.symm
    · obtain ⟨h1, h2, h3, h4⟩ := move_none_of_invalid hv
      rw [h1, h2, h3, h4] at hr
      simp at hr
  · rintro ⟨hv, q, hadj, rfl⟩
    refine ⟨(swapInCopy a.state a.FindEmptySpace q).newSquare, ?_, NewMysticSquare_swap hv hadj⟩
    rcases hadj with ⟨hq, hn⟩ | ⟨hq, hn⟩ | ⟨hq, hn⟩ | ⟨hq, hn⟩
    · left; rw [MoveUp_eq hv, if_neg hn, hq]
    · right; left; rw [MoveDown_eq hv, if_neg hn, hq]
    · right; right; left; rw [MoveLeft_eq hv, if_neg hn, hq]
    · right; right; right; rw [MoveRight_eq hv, if_neg hn, hq]

theorem legalMove_isState {a b : MysticSquare3} (h : LegalMove a b) : IsState b := by
  obtain ⟨hv, q, hadj, rfl⟩ := legalMove_iff.1 h
  have hp := FindEmptySpace_mem hv
  exact isState_mk (valid_swapInCopy hv hp (adj_mem_tiles hp hadj).1 "")

theorem legalMove_valid {a b : MysticSquare3} (h : LegalMove a b) : a.ValidateState = true :=
  (legalMove_iff.1 h).1

/-- A legal move changes the Manhattan sum to a fixed target by at most one. -/
theorem legalMove_mdCells {a b t : MysticSquare3} (h : LegalMove a b)
    (ht : t.ValidateState = true) :
    mdCells a.state t.state ≤ mdCells b.state t.state + 1 ∧
      mdCells b.state t.state ≤ mdCells a.state t.state + 1 := by
  obtain ⟨hv, q, hadj, rfl⟩ := legalMove_iff.1 h
  exact mdCells_swap hv ht hadj

theorem FindEmptySpace_of_cells {a a' : MysticSquare3} (ha : a.ValidateState = true)
    (ha' : a'.ValidateState = true) (h : cells a.state = cells a'.state) :
    a'.FindEmptySpace = a.FindEmptySpace := by
  have hp := FindEmptySpace_mem ha
  apply FindEmptySpace_eq ha'
  rw [valid_get_lookup ha' hp, ← (cells_eq_iff _ _).1 h _ hp]
  have := FindEmptySpace_lookup ha
  simp [GoMap.get, this]

theorem swap_mem_tiles {p q k : Int} (hp : p ∈ tiles) (hq : q ∈ tiles) (hk : k ∈ tiles) :
    Equiv.swap p q k ∈ tiles := by
  rw [Equiv.swap_apply_def]
  split
  · exact hq
  · split
    · exact hp
    · exact hk

/-- Moves are determined by the arrangement: states with the same key have
successors with the same keys. -/
theorem legalMove_respects {a a' b : MysticSquare3} (ha : IsState a) (ha' : IsState a')
    (hk : a.State = a'.State) (h : LegalMove a b) :
    ∃ b', LegalMove a' b' ∧ b'.State = b.State := by
  obtain ⟨hv, q, hadj, rfl⟩ := legalMove_iff.1 h
  have hc := (state_eq_iff_cells ha ha').1 hk
  have hfe := FindEmptySpace_of_cells ha.1 ha'.1 hc
  have hp := FindEmptySpace_mem hv
  have hq := (adj_mem_tiles hp hadj).1
  have hadj' : Adj a'.FindEmptySpace q := hfe ▸ hadj
  refine ⟨_, legalMove_iff.2 ⟨ha'.1, q, hadj', rfl⟩, ?_⟩
  have hb := isState_mk (valid_swapInCopy hv hp hq "")
  have hb' := isState_mk (valid_swapInCopy ha'.1 (hfe ▸ hp) hq "")
  rw [state_eq_iff_cells hb' hb, cells_eq_iff]
  intro k hkt
  simp only
  rw [get_of_isSwap (swapInCopy_isSwap ha'.1 (hfe ▸ hp) hq),
    get_of_isSwap (swapInCopy_isSwap hv hp hq), hfe]
  exact ((cells_eq_iff _ _).1 hc _ (swap_mem_tiles hp hq hkt)).symm

theorem movesIn_isState {n : Nat} {s x : MysticSquare3} (h : MovesIn n s x) (hs : IsState s) :
    IsState x := by
  induction h with
  | zero => exact hs
  | succ _ hm _ => exact legalMove_isState hm

theorem movesIn_mdCells_le {n : Nat} {s x t : MysticSquare3} (h : MovesIn n s x)
    (ht : t.ValidateState = true) :
    mdCells s.state t.state ≤ mdCells x.state t.state + n := by
  induction h with
  | zero => simp
  | succ _ hm ih =>
    have := (legalMove_mdCells hm ht).1
    push_cast
    omega

/-! ## The state abstraction: validation, construction, moves, the blank -/

/-- C1: for every mapping `m` (a Go map: its keys are distinct), `ValidateState` on a
square that holds `m` returns true if and only if `m` is a bijection on 1..9: its keys
are exactly 1..9 and every value 1..9 occurs exactly once among its values. -/
theorem ValidateState_iff_bijection (m : GoMap Int Int) (strState : String)
    (hm : (GoMap.keys m).Nodup) :
    (MysticSquare3.mk m strState).ValidateState = true ↔ IsBijection19 m := by
  rw [ValidateState_iff]
  simp only
  unfold IsBijection19
  constructor
  · rintro ⟨hk, hvals⟩
    refine ⟨fun k h => hk.mem_iff.1 h, fun k h => hk.mem_iff.2 h, fun v hv => ?_⟩
    rw [hvals.count_eq]
    exact List.count_eq_one_of_mem tiles_nodup hv
  · rintro ⟨h1, h2, h3⟩
    have hk : (GoMap.keys m).Perm tiles :=
      (List.perm_ext_iff_of_nodup hm tiles_nodup).2 (fun k => ⟨h1 k, h2 k⟩)
    refine ⟨hk, ?_⟩
    have hsub : tiles.Subperm (GoMap.values m) := by
      rw [List.subperm_ext_iff]
      intro v hv
      rw [h3 v hv, List.count_eq_one_of_mem tiles_nodup hv]
    have hlen : (GoMap.values m).length ≤ tiles.length := by
      have := hk.length_eq
      simp only [GoMap.keys, GoMap.values, List.length_map] at this ⊢
      omega
    exact (hsub.perm_of_length_le hlen).symm

/-- C1, at the initial state of the easy scenario. -/
theorem ValidateState_iff_bijection_witness :
    (GoMap.keys easy.1).Nodup ∧
      ((MysticSquare3.mk easy.1 "").ValidateState = true ↔ IsBijection19 easy.1) :=
  ⟨by decide, ValidateState_iff_bijection easy.1 "" (by decide)⟩

/-- The two constructors on every mapping: `NewMysticSquare3` returns an error
with the nil pointer exactly on the mappings that are not bijections on 1..9;
`NewMysticSquare` returns an error exactly on the same mappings, and its first
result then holds the nil pointer; on a bijection both return no error and a
square whose `RealState` is the mapping. The first result of `NewMysticSquare`
is the nil interface on no mapping. -/
theorem NewMysticSquare_results (m : GoMap Int Int) (hm : (GoMap.keys m).Nodup) :
    ((∃ e, NewMysticSquare3 m = (none, some e)) ↔ ¬ IsBijection19 m) ∧
    ((∃ e, NewMysticSquare m = (MysticSquare.ptr none, some e)) ↔ ¬ IsBijection19 m) ∧
    (IsBijection19 m → ∃ s, NewMysticSquare m = (MysticSquare.ptr (some s), none) ∧
      NewMysticSquare3 m = (some s, none) ∧ s.RealState = m) ∧
    (NewMysticSquare m).1 ≠ MysticSquare.nil := by
  have hiff := ValidateState_iff_bijection m "" hm
  unfold NewMysticSquare
  cases hv : (MysticSquare3.mk m "").ValidateState with
  | false =>
    have hnb : ¬ IsBijection19 m := fun h => by
      have := hiff.2 h
      rw [hv] at this
      exact Bool.false_ne_true this
    rw [NewMysticSquare3_invalid hv]
    refine ⟨⟨fun _ => hnb, fun _ => ⟨_, rfl⟩⟩, ⟨fun _ => hnb, fun _ => ⟨_, rfl⟩⟩,
      fun h => absurd h hnb, fun h => MysticSquare.noConfusion h⟩
  | true =>
    have hb : IsBijection19 m := hiff.1 hv
    rw [NewMysticSquare3_valid hv]
    refine ⟨⟨fun ⟨e, he⟩ => by simp at he, fun h => absurd hb h⟩,
      ⟨fun ⟨e, he⟩ => by simp at he, fun h => absurd hb h⟩, fun _ => ⟨_, rfl, rfl, ?_⟩,
      fun h => MysticSquare.noConfusion h⟩
    exact RealState_eq (s := ⟨m, buildMysticSquare3StateString m⟩) hv

/-- C2, at the empty mapping, which is not a bijection on 1..9: `NewMysticSquare3`
returns the error together with the nil pointer, and `NewMysticSquare` returns
the same error together with an interface value that holds that nil pointer: its
square is not the nil square, and the comparison of it with nil is false. -/
theorem NewMysticSquare_typed_nil :
    ¬ IsBijection19 [] ∧
    NewMysticSquare3 [] = (none, some ⟨"invalid state %v", []⟩) ∧
    NewMysticSquare [] = (MysticSquare.ptr none, some ⟨"invalid state %v", []⟩) ∧
    (NewMysticSquare []).1 ≠ MysticSquare.nil ∧
    decide ((NewMysticSquare []).1 = MysticSquare.nil) = false := by
  have hv : (MysticSquare3.mk [] "").ValidateState = false := by decide
  have h3 := NewMysticSquare3_invalid hv
  have hn : NewMysticSquare [] = (MysticSquare.ptr none, some ⟨"invalid state %v", []⟩) := by
    unfold NewMysticSquare
    rw [h3]
  refine ⟨?_, h3, hn, ?_, ?_⟩
  · intro h
    have := (ValidateState_iff_bijection [] "" (by decide)).2 h
    rw [hv] at this
    exact Bool.false_ne_true this
  · rw [hn]
    exact fun h => MysticSquare.noConfusion h
  · rw [hn]
    rfl

/-- C3: for every valid state `s` whose blank is at position `p`, `MoveUp` returns the
nil map iff `p` is in {1,2,3}, `MoveDown` iff `p` is in {7,8,9}, `MoveLeft` iff `p` is in
{1,4,7}, `MoveRight` iff `p` is in {3,6,9}; otherwise the move returns a map that is
`s`'s map with the blank and the tile at the neighbour position (`p-3`, `p+3`, `p-1`,
`p+1`) exchanged and every other position as it was; the statements of a move write
to the fresh map only, so the receiver's map is what it was. -/
theorem moves_spec (s : MysticSquare3) (hs : s.ValidateState = true) (p : Int)
    (hp : GoMap.lookup s.state p = some 9) :
    (s.MoveUp = none ↔ p ∈ [1, 2, 3]) ∧ (s.MoveDown = none ↔ p ∈ [7, 8, 9]) ∧
    (s.MoveLeft = none ↔ p ∈ [1, 4, 7]) ∧ (s.MoveRight = none ↔ p ∈ [3, 6, 9]) ∧
    (∀ r, s.MoveUp = some r → IsSwapOf s.state r p (p - 3)) ∧
    (∀ r, s.MoveDown = some r → IsSwapOf s.state r p (p + 3)) ∧
    (∀ r, s.MoveLeft = some r → IsSwapOf s.state r p (p - 1)) ∧
    (∀ r, s.MoveRight = some r → IsSwapOf s.state r p (p + 1)) ∧
    (∀ q, (swapInCopy s.state p q).oldSquare = s.state) := by
  have hfe := FindEmptySpace_eq hs hp
  have hpt := FindEmptySpace_mem hs
  rw [hfe] at hpt
  have hsw : ∀ q, Adj p q → IsSwapOf s.state (swapInCopy s.state p q).newSquare p q :=
    fun q hq => swapInCopy_isSwap hs hpt (adj_mem_tiles hpt hq).1
  rw [MoveUp_eq hs, MoveDown_eq hs, MoveLeft_eq hs, MoveRight_eq hs, hfe]
  refine ⟨?_, ?_, ?_, ?_, ?_, ?_, ?_, ?_, fun q => swapInCopy_old _ _ _⟩
  · by_cases h : p ∈ [1, 2, 3] <;> simp [h]
  · by_cases h : p ∈ [7, 8, 9] <;> simp [h]
  · by_cases h : p ∈ [1, 4, 7] <;> simp [h]
  · by_cases h : p ∈ [3, 6, 9] <;> simp [h]
  · intro r hr
    split at hr
    · simp at hr
    · rename_i hn
      simp only [Option.some.injEq] at hr
      exact hr ▸ hsw _ (Or.inl ⟨rfl, hn⟩)
  · intro r hr
    split at hr
    · simp at hr
    · rename_i hn
      simp only [Option.some.injEq] at hr
      exact hr ▸ hsw _ (Or.inr (Or.inl ⟨rfl, hn⟩))
  · intro r hr
    split at hr
    · simp at hr
    · rename_i hn
      simp only [Option.some.injEq] at hr
      exact hr ▸ hsw _ (Or.inr (Or.inr (Or.inl ⟨rfl, hn⟩)))
  · intro r hr
    split at hr
    · simp at hr
    · rename_i hn
      simp only [Option.some.injEq] at hr
      exact hr ▸ hsw _ (Or.inr (Or.inr (Or.inr ⟨rfl, hn⟩)))

/-- C3, at the initial state of the hard scenario, whose blank is in the middle. -/
theorem moves_spec_witness :
    (MysticSquare3.mk hard.1 "").ValidateState = true ∧
    GoMap.lookup (MysticSquare3.mk hard.1 "").state 5 = some 9 ∧
    (MysticSquare3.mk hard.1 "").MoveUp ≠ none ∧
    (∀ r, (MysticSquare3.mk hard.1 "").MoveUp = some r → IsSwapOf hard.1 r 5 (5 - 3)) :=
  ⟨by decide, by decide,
    fun h => absurd ((moves_spec ⟨hard.1, ""⟩ (by decide) 5 (by decide)).1.1 h) (by decide),
    (moves_spec ⟨hard.1, ""⟩ (by decide) 5 (by decide)).2.2.2.2.1⟩

theorem FindEmptySpace_swap {a : MysticSquare3} (hv : a.ValidateState = true) {q : Int}
    (hadj : Adj a.FindEmptySpace q) (str : String) :
    (MysticSquare3.mk (swapInCopy a.state a.FindEmptySpace q).newSquare str).FindEmptySpace = q := by
  have hp := FindEmptySpace_mem hv
  obtain ⟨hq, hpq⟩ := adj_mem_tiles hp hadj
  apply FindEmptySpace_eq (valid_swapInCopy hv hp hq str)
  have := swapInCopy_isSwap hv hp hq q
  simp only
  rw [this, if_neg (fun h => hpq h.symm), if_pos rfl]
  exact FindEmptySpace_lookup hv

/-- Moving the blank to a neighbour and back restores every cell. -/
theorem cells_swap_back {a : MysticSquare3} (hv : a.ValidateState = true) {q : Int}
    (hadj : Adj a.FindEmptySpace q) :
    cells (swapInCopy (swapInCopy a.state a.FindEmptySpace q).newSquare q a.FindEmptySpace).newSquare
      = cells a.state := by
  have hp := FindEmptySpace_mem hv
  obtain ⟨hq, _⟩ := adj_mem_tiles hp hadj
  have hv' := valid_swapInCopy hv hp hq ""
  rw [cells_eq_iff]
  intro k _
  have h1 := get_of_isSwap (@swapInCopy_isSwap ⟨(swapInCopy a.state a.FindEmptySpace q).newSquare, ""⟩
    hv' _ _ hq hp) k
  simp only at h1
  rw [h1, get_of_isSwap (swapInCopy_isSwap hv hp hq), Equiv.swap_comm q, Equiv.swap_apply_self]

/-- A legal move followed by the move back: the second move succeeds and the
state it yields has the key of the state started from. -/
theorem move_back {a : MysticSquare3} (ha : IsState a) {q : Int}
    (hadj : Adj a.FindEmptySpace q) (hback : Adj q a.FindEmptySpace) :
    ∃ s', NewMysticSquare (swapInCopy a.state a.FindEmptySpace q).newSquare = (MysticSquare.ptr (some s'), none) ∧
      s'.ValidateState = true ∧ s'.FindEmptySpace = q ∧
      ∃ s'', NewMysticSquare (swapInCopy s'.state q a.FindEmptySpace).newSquare = (MysticSquare.ptr (some s''), none) ∧
        s''.State = a.State := by
  have hp := FindEmptySpace_mem ha.1
  obtain ⟨hq, _⟩ := adj_mem_tiles hp hadj
  have hv' := valid_swapInCopy ha.1 hp hq
  refine ⟨_, NewMysticSquare_swap ha.1 hadj, hv' _, FindEmptySpace_swap ha.1 hadj _, ?_⟩
  have hfe := FindEmptySpace_swap ha.1 hadj
    (buildMysticSquare3StateString (swapInCopy a.state a.FindEmptySpace q).newSquare)
  have hadj' : Adj (MysticSquare3.mk (swapInCopy a.state a.FindEmptySpace q).newSquare
      (buildMysticSquare3StateString (swapInCopy a.state a.FindEmptySpace q).newSquare)).FindEmptySpace
      a.FindEmptySpace := by rw [hfe]; exact hback
  have hnew := NewMysticSquare_swap (hv' _) hadj'
  rw [hfe] at hnew
  refine ⟨_, hnew, ?_⟩
  have hv'' : (MysticSquare3.mk (swapInCopy (swapInCopy a.state a.FindEmptySpace q).newSquare q
      a.FindEmptySpace).newSquare "").ValidateState = true :=
    @valid_swapInCopy ⟨(swapInCopy a.state a.FindEmptySpace q).newSquare, ""⟩ (hv' _) _ _ hq hp ""
  simp only [MysticSquare3.State]
  rw [ha.2]
  exact build_eq_of_cells (a := ⟨_, ""⟩) hv'' ha.1 (cells_swap_back ha.1 hadj)

/-- C4: move pairs are mutual inverses.  For every valid state `s`, if `MoveDown` on `s`
succeeds then `MoveUp` applied to the state built from that result succeeds and yields
a state whose `State` key equals the key of `s`; the same holds for `MoveUp` followed by
`MoveDown`, `MoveLeft` followed by `MoveRight`, and `MoveRight` followed by `MoveLeft`. -/
theorem moves_inverse (s : MysticSquare3) (hs : IsState s) :
    (∀ r, s.MoveDown = some r → ∃ s' r' s'', NewMysticSquare r = (MysticSquare.ptr (some s'), none) ∧
      s'.MoveUp = some r' ∧ NewMysticSquare r' = (MysticSquare.ptr (some s''), none) ∧ s''.State = s.State) ∧
    (∀ r, s.MoveUp = some r → ∃ s' r' s'', NewMysticSquare r = (MysticSquare.ptr (some s'), none) ∧
      s'.MoveDown = some r' ∧ NewMysticSquare r' = (MysticSquare.ptr (some s''), none) ∧ s''.State = s.State) ∧
    (∀ r, s.MoveLeft = some r → ∃ s' r' s'', NewMysticSquare r = (MysticSquare.ptr (some s'), none) ∧
      s'.MoveRight = some r' ∧ NewMysticSquare r' = (MysticSquare.ptr (some s''), none) ∧ s''.State = s.State) ∧
    (∀ r, s.MoveRight = some r → ∃ s' r' s'', NewMysticSquare r = (MysticSquare.ptr (some s'), none) ∧
      s'.MoveLeft = some r' ∧ NewMysticSquare r' = (MysticSquare.ptr (some s''), none) ∧ s''.State = s.State) := by
  have hp := (mem_tiles_iff _).1 (FindEmptySpace_mem hs.1)
  refine ⟨?_, ?_, ?_, ?_⟩
  · intro r hr
    rw [MoveDown_eq hs.1] at hr
    split at hr
    · simp at hr
    · rename_i hn
      simp only [Option.some.injEq] at hr
      subst hr
      simp only [List.mem_cons, List.mem_singleton, List.not_mem_nil, or_false, not_or] at hn
      have hadj : Adj s.FindEmptySpace (s.FindEmptySpace + 3) := Or.inr (Or.inl ⟨rfl, by simp; omega⟩)
      have hback : Adj (s.FindEmptySpace + 3) s.FindEmptySpace := Or.inl ⟨by omega, by simp; omega⟩
      obtain ⟨s', h1, hv', hfe, s'', h2, h3⟩ := move_back hs hadj hback
      refine ⟨s', _, s'', h1, ?_, h2, h3⟩
      rw [MoveUp_eq hv', hfe, if_neg (by simp; omega)]
      congr 3
      omega
  · intro r hr
    rw [MoveUp_eq hs.1] at hr
    split at hr
    · simp at hr
    · rename_i hn
      simp only [Option.some.injEq] at hr
      subst hr
      simp only [List.mem_cons, List.mem_singleton, List.not_mem_nil, or_false, not_or] at hn
      have hadj : Adj s.FindEmptySpace (s.FindEmptySpace - 3) := Or.inl ⟨rfl, by simp; omega⟩
      have hback : Adj (s.FindEmptySpace - 3) s.FindEmptySpace :=
        Or.inr (Or.inl ⟨by omega, by simp; omega⟩)
      obtain ⟨s', h1, hv', hfe, s'', h2, h3⟩ := move_back hs hadj hback
      refine ⟨s', _, s'', h1, ?_, h2, h3⟩
      rw [MoveDown_eq hv', hfe, if_neg (by simp; omega)]
      congr 3
      omega
  · intro r hr
    rw [MoveLeft_eq hs.1] at hr
    split at hr
    · simp at hr
    · rename_i hn
      simp only [Option.some.injEq] at hr
      subst hr
      simp only [List.mem_cons, List.mem_singleton, List.not_mem_nil, or_false, not_or] at hn
      have hadj : Adj s.FindEmptySpace (s.FindEmptySpace - 1) :=
        Or.inr (Or.inr (Or.inl ⟨rfl, by simp; omega⟩))
      have hback : Adj (s.FindEmptySpace - 1) s.FindEmptySpace :=
        Or.inr (Or.inr (Or.inr ⟨by omega, by simp; omega⟩))
      obtain ⟨s', h1, hv', hfe, s'', h2, h3⟩ := move_back hs hadj hback
      refine ⟨s', _, s'', h1, ?_, h2, h3⟩
      rw [MoveRight_eq hv', hfe, if_neg (by simp; omega)]
      congr 3
      omega
  · intro r hr
    rw [MoveRight_eq hs.1] at hr
    split at hr
    · simp at hr
    · rename_i hn
      simp only [Option.some.injEq] at hr
      subst hr
      simp only [List.mem_cons, List.mem_singleton, List.not_mem_nil, or_false, not_or] at hn
      have hadj : Adj s.FindEmptySpace (s.FindEmptySpace + 1) :=
        Or.inr (Or.inr (Or.inr ⟨rfl, by simp; omega⟩))
      have hback : Adj (s.FindEmptySpace + 1) s.FindEmptySpace :=
        Or.inr (Or.inr (Or.inl ⟨by omega, by simp; omega⟩))
      obtain ⟨s', h1, hv', hfe, s'', h2, h3⟩ := move_back hs hadj hback
      refine ⟨s', _, s'', h1, ?_, h2, h3⟩
      rw [MoveLeft_eq hv', hfe, if_neg (by simp; omega)]
      congr 3
      omega

/-- C4, at the initial state of the hard scenario, whose blank can move in all four
directions. -/
theorem moves_inverse_witness :
    IsState ⟨hard.1, buildMysticSquare3StateString hard.1⟩ ∧
    (MysticSquare3.mk hard.1 (buildMysticSquare3StateString hard.1)).MoveDown =
      some [(1, 8), (2, 7), (3, 6), (4, 5), (5, 2), (6, 4), (7, 3), (8, 9), (9, 1)] ∧
    (∀ r, (MysticSquare3.mk hard.1 (buildMysticSquare3StateString hard.1)).MoveDown = some r →
      ∃ s' r' s'', NewMysticSquare r = (MysticSquare.ptr (some s'), none) ∧ s'.MoveUp = some r' ∧
        NewMysticSquare r' = (MysticSquare.ptr (some s''), none) ∧
        s''.State = (MysticSquare3.mk hard.1 (buildMysticSquare3StateString hard.1)).State) :=
  ⟨by decide, by decide, (moves_inverse _ (by decide)).1⟩

/-- C5: for every valid state `s`, exactly one position of 1..9 holds the blank value 9,
and `FindEmptySpace` returns that position, never the sentinel -1, whatever the order
in which the entries of the map are visited. -/
theorem FindEmptySpace_spec (s : MysticSquare3) (hs : s.ValidateState = true) :
    ∃ p, p ∈ tiles ∧ GoMap.lookup s.state p = some 9 ∧
      (∀ q, GoMap.lookup s.state q = some 9 → q = p) ∧
      s.FindEmptySpace = p ∧ s.FindEmptySpace ≠ -1 ∧
      ∀ s' : MysticSquare3, s'.state.Perm s.state → s'.FindEmptySpace = p := by
  refine ⟨s.FindEmptySpace, FindEmptySpace_mem hs, FindEmptySpace_lookup hs,
    fun q hq => (FindEmptySpace_eq hs hq).symm, rfl, ?_, ?_⟩
  · have := (mem_tiles_iff _).1 (FindEmptySpace_mem hs)
    omega
  · intro s' hperm
    apply FindEmptySpace_eq (valid_of_perm hs hperm)
    rw [lookup_of_perm hs hperm]
    exact FindEmptySpace_lookup hs

/-- C5, at the initial state of the easy scenario and at its entries in reverse order. -/
theorem FindEmptySpace_spec_witness :
    (MysticSquare3.mk easy.1 "").ValidateState = true ∧
    (MysticSquare3.mk easy.1 "").FindEmptySpace = 1 ∧
    (MysticSquare3.mk easy.1.reverse "").FindEmptySpace = 1 ∧
    ∃ p, p ∈ tiles ∧ GoMap.lookup easy.1 p = some 9 ∧
      (∀ q, GoMap.lookup easy.1 q = some 9 → q = p) ∧
      (MysticSquare3.mk easy.1 "").FindEmptySpace = p ∧
      (MysticSquare3.mk easy.1 "").FindEmptySpace ≠ -1 ∧
      ∀ s' : MysticSquare3, s'.state.Perm easy.1 → s'.FindEmptySpace = p :=
  ⟨by decide, by decide, by decide, FindEmptySpace_spec ⟨easy.1, ""⟩ (by decide)⟩

/-! ## The heuristic -/

/-- C6: for all valid states `s` and `t`, `manhattanDistance s t` is at least 0 and
`manhattanDistance s s` is 0; on valid states the function does not panic. -/
theorem manhattanDistance_nonneg_self (s t : MysticSquare3) (hs : s.ValidateState = true)
    (ht : t.ValidateState = true) :
    (∃ d, manhattanDistance s t = .ok d ∧ 0 ≤ d) ∧ manhattanDistance s s = .ok 0 := by
  refine ⟨⟨_, manhattanDistance_eq hs ht, mdCells_nonneg _ _⟩, ?_⟩
  rw [manhattanDistance_eq hs hs, mdCells_self hs]

/-- C6, at the easy scenario. -/
theorem manhattanDistance_nonneg_self_witness :
    (MysticSquare3.mk easy.1 "").ValidateState = true ∧
    (MysticSquare3.mk easy.2 "").ValidateState = true ∧
    manhattanDistance ⟨easy.1, ""⟩ ⟨easy.2, ""⟩ = .ok 6 ∧
    ((∃ d, manhattanDistance ⟨easy.1, ""⟩ ⟨easy.2, ""⟩ = .ok d ∧ 0 ≤ d) ∧
      manhattanDistance ⟨easy.1, ""⟩ ⟨easy.1, ""⟩ = .ok 0) :=
  ⟨by decide, by decide,
    (manhattanDistance_eq (by decide) (by decide)).trans (congrArg Except.ok (by decide)),
    manhattanDistance_nonneg_self ⟨easy.1, ""⟩ ⟨easy.2, ""⟩ (by decide) (by decide)⟩

theorem slide_legal {s s' : MysticSquare3} {d : Direction} (h : slide s d = some s') :
    LegalMove s s' := by
  have hnew : ∀ m, (match NewMysticSquare m with
        | (MysticSquare.ptr (some sq), none) => some sq
        | _ => none) = some s' → NewMysticSquare m = (MysticSquare.ptr (some s'), none) := by
    intro m hm
    split at hm
    · rename_i sq heq
      simp only [Option.some.injEq] at hm
      rw [← hm]
      exact heq
    · simp at hm
  cases d <;> simp only [slide] at h <;> split at h
  · rename_i m hm
    exact ⟨m, Or.inr (Or.inr (Or.inl hm)), hnew m h⟩
  · simp at h
  · rename_i m hm
    exact ⟨m, Or.inr (Or.inr (Or.inr hm)), hnew m h⟩
  · simp at h
  · rename_i m hm
    exact ⟨m, Or.inl hm, hnew m h⟩
  · simp at h
  · rename_i m hm
    exact ⟨m, Or.inr (Or.inl hm), hnew m h⟩
  · simp at h

/-- A sequence of slides is a sequence of legal moves. -/
theorem slides_movesIn {ds : List Direction} {s x : MysticSquare3} (h : slides s ds = some x) :
    MovesIn ds.length s x := by
  have key : ∀ (ds : List Direction) (s0 s x : MysticSquare3) (n : Nat), MovesIn n s0 s →
      slides s ds = some x → MovesIn (n + ds.length) s0 x := by
    intro ds
    induction ds with
    | nil =>
      intro s0 s x n hm h
      simp only [slides, Option.some.injEq] at h
      subst h
      exact hm
    | cons d rest ih =>
      intro s0 s x n hm h
      simp only [slides] at h
      split at h
      · rename_i s' hs'
        have := ih s0 s' x (n + 1) (MovesIn.succ hm (slide_legal hs')) h
        simpa [Nat.add_assoc, Nat.add_comm 1] using this
      · simp at h
  simpa using key ds s s x 0 (MovesIn.zero s) h

/-- C7: the heuristic is admissible.  For all valid states `s` and `t` and every sequence
of `n` legal moves that transforms `s` into `t`, `manhattanDistance s t` is at most `n`. -/
theorem manhattanDistance_admissible (s t : MysticSquare3) (hs : IsState s) (ht : IsState t)
    (n : Nat) (h : Reaches n s t) : ∃ d, manhattanDistance s t = .ok d ∧ d ≤ n := by
  obtain ⟨x, hmoves, hkey⟩ := h
  refine ⟨_, manhattanDistance_eq hs.1 ht.1, ?_⟩
  have hx := movesIn_isState hmoves hs
  have h1 := movesIn_mdCells_le hmoves ht.1
  have h2 : mdCells x.state t.state = 0 := by
    rw [mdCells_congr t.state ((state_eq_iff_cells hx ht).1 hkey)]
    exact mdCells_self ht.1
  omega

/-- The six slides that solve the easy scenario. -/
theorem easy_reaches :
    Reaches 6 ⟨easy.1, buildMysticSquare3StateString easy.1⟩
      ⟨easy.2, buildMysticSquare3StateString easy.2⟩ :=
  ⟨⟨easy.2, buildMysticSquare3StateString easy.2⟩,
    @slides_movesIn [.right, .right, .down, .left, .down, .right] _ _ (by decide), rfl⟩

/-- C7, at the easy scenario, which six moves solve. -/
theorem manhattanDistance_admissible_witness :
    IsState ⟨easy.1, buildMysticSquare3StateString easy.1⟩ ∧
    IsState ⟨easy.2, buildMysticSquare3StateString easy.2⟩ ∧
    Reaches 6 ⟨easy.1, buildMysticSquare3StateString easy.1⟩
      ⟨easy.2, buildMysticSquare3StateString easy.2⟩ ∧
    ∃ d, manhattanDistance ⟨easy.1, buildMysticSquare3StateString easy.1⟩
      ⟨easy.2, buildMysticSquare3StateString easy.2⟩ = .ok d ∧ d ≤ (6 : Nat) :=
  ⟨by decide, by decide, easy_reaches,
    manhattanDistance_admissible _ _ (by decide) (by decide) 6 easy_reaches⟩

/-! ## The priority queue: pointers and indices -/

theorem getD_set {α : Type} (l : List α) (i k : Nat) (a d : α) :
    (l.set i a).getD k d = if k = i ∧ i < l.length then a else l.getD k d := by
  simp only [List.getD_eq_getElem?_getD, List.getElem?_set]
  by_cases h1 : i = k
  · subst h1
    by_cases h2 : i < l.length
    · simp [h2]
    · have : l[i]? = none := List.getElem?_eq_none (by omega)
      simp [h2, this]
  · have h3 : ¬ k = i := fun h => h1 h.symm
    simp [h1, h3]

theorem item_setIndex (q : PriorityQueue) (p p' : Nat) (idx : Int) :
    (q.setIndex p idx).item p' =
      if p' = p ∧ p < q.items.length then { q.item p with index := idx } else q.item p' := by
  unfold PriorityQueue.setIndex PriorityQueue.item
  exact getD_set _ _ _ _ _

theorem item_setPriority (q : PriorityQueue) (p p' : Nat) (pr : Int) :
    (q.setPriority p pr).item p' =
      if p' = p ∧ p < q.items.length then { q.item p with priority := pr } else q.item p' := by
  unfold PriorityQueue.setPriority PriorityQueue.item
  exact getD_set _ _ _ _ _

@[simp] theorem pq_setIndex (q : PriorityQueue) (p : Nat) (idx : Int) :
    (q.setIndex p idx).pq = q.pq := rfl

@[simp] theorem at_setIndex (q : PriorityQueue) (p : Nat) (idx : Int) (k : Nat) :
    (q.setIndex p idx).at k = q.at k := rfl

@[simp] theorem length_setIndex (q : PriorityQueue) (p : Nat) (idx : Int) :
    (q.setIndex p idx).items.length = q.items.length := by
  simp [PriorityQueue.setIndex]

@[simp] theorem pq_setPriority (q : PriorityQueue) (p : Nat) (pr : Int) :
    (q.setPriority p pr).pq = q.pq := rfl

@[simp] theorem at_setPriority (q : PriorityQueue) (p : Nat) (pr : Int) (k : Nat) :
    (q.setPriority p pr).at k = q.at k := rfl

@[simp] theorem length_setPriority (q : PriorityQueue) (p : Nat) (pr : Int) :
    (q.setPriority p pr).items.length = q.items.length := by
  simp [PriorityQueue.setPriority]

theorem at_mem (q : PriorityQueue) {i : Nat} (hi : i < q.pq.length) : q.at i ∈ q.pq := by
  unfold PriorityQueue.at
  rw [List.getD_eq_getElem _ _ hi]
  exact List.getElem_mem hi

theorem mem_iff_at (q : PriorityQueue) (p : Nat) :
    p ∈ q.pq ↔ ∃ i, i < q.pq.length ∧ q.at i = p := by
  constructor
  · intro h
    obtain ⟨i, hi, he⟩ := List.getElem_of_mem h
    refine ⟨i, hi, ?_⟩
    unfold PriorityQueue.at
    rw [List.getD_eq_getElem _ _ hi, he]
  · rintro ⟨i, hi, rfl⟩
    exact at_mem q hi

/-- Under index consistency no pointer stands at two slice positions. -/
theorem HeapIdx.at_inj {q : PriorityQueue} (hq : HeapIdx q) {i j : Nat} (hi : i < q.pq.length)
    (hj : j < q.pq.length) (h : q.at i = q.at j) : i = j := by
  have h1 := (hq.1 i hi).2
  have h2 := (hq.1 j hj).2
  rw [h] at h1
  have : (i : Int) = j := h1.symm.trans h2
  exact_mod_cast this

theorem HeapIdx.index_nonneg_iff {q : PriorityQueue} (hq : HeapIdx q) {p : Nat}
    (hp : p < q.items.length) : 0 ≤ (q.item p).index ↔ p ∈ q.pq := by
  constructor
  · intro h
    by_contra hn
    have := hq.2 p hp hn
    omega
  · intro h
    obtain ⟨i, hi, rfl⟩ := (mem_iff_at q p).1 h
    rw [(hq.1 i hi).2]
    omega

theorem HeapIdx.at_index {q : PriorityQueue} (hq : HeapIdx q) {p : Nat} (hp : p ∈ q.pq) :
    (q.item p).index.toNat < q.pq.length ∧ q.at (q.item p).index.toNat = p := by
  obtain ⟨i, hi, rfl⟩ := (mem_iff_at q p).1 hp
  rw [(hq.1 i hi).2]
  simp [hi]

/-! ### `Swap` -/

theorem swap_pq (q : PriorityQueue) (i j : Nat) :
    (q.Swap i j).pq = (q.pq.set i (q.at j)).set j (q.at i) := rfl

theorem swap_length (q : PriorityQueue) (i j : Nat) :
    (q.Swap i j).pq.length = q.pq.length := by
  simp [swap_pq]

theorem swap_items_length (q : PriorityQueue) (i j : Nat) :
    (q.Swap i j).items.length = q.items.length := by
  simp [PriorityQueue.Swap]

theorem swap_at (q : PriorityQueue) {i j : Nat} (hi : i < q.pq.length) (hj : j < q.pq.length)
    (k : Nat) :
    (q.Swap i j).at k = if k = j then q.at i else if k = i then q.at j else q.at k := by
  have e : (q.Swap i j).at k = ((q.pq.set i (q.at j)).set j (q.at i)).getD k 0 := rfl
  rw [e, getD_set, getD_set]
  simp only [List.length_set, hi, hj, and_true]
  rfl

theorem swap_item (q : PriorityQueue) {i j : Nat} (hq : HeapIdx q) (hi : i < q.pq.length)
    (hj : j < q.pq.length) (p : Nat) :
    (q.Swap i j).item p =
      if p = q.at i then { q.item p with index := j }
      else if p = q.at j then { q.item p with index := i } else q.item p := by
  have hpi := (hq.1 i hi).1
  have hpj := (hq.1 j hj).1
  have e1 : (q.Swap i j) =
      (({ q with pq := (q.pq.set i (q.at j)).set j (q.at i) } : PriorityQueue).setIndex
        ((q.Swap i j).at i) i).setIndex ((q.Swap i j).at j) j := rfl
  have e2 : ∀ p', ({ q with pq := (q.pq.set i (q.at j)).set j (q.at i) } : PriorityQueue).item p'
      = q.item p' := fun _ => rfl
  have e3 : ({ q with pq := (q.pq.set i (q.at j)).set j (q.at i) } : PriorityQueue).items
      = q.items := rfl
  rw [e1]
  simp only [item_setIndex, swap_at q hi hj, if_true, length_setIndex, e2, e3]
  by_cases hij : i = j
  · subst hij
    by_cases h1 : p = q.at i
    · subst h1
      simp [hpi]
    · simp [h1]
  · simp only [hij, if_false]
    by_cases h1 : p = q.at i
    · subst h1
      have hne : ¬ q.at i = q.at j := fun h => hij (hq.at_inj hi hj h)
      simp [hpi, hne]
    · by_cases h2 : p = q.at j
      · subst h2
        simp [h1, hpj]
      · simp [h1, h2]

theorem swap_sameItems (q : PriorityQueue) {i j : Nat} (hq : HeapIdx q) (hi : i < q.pq.length)
    (hj : j < q.pq.length) : SameItems q (q.Swap i j) := by
  refine ⟨swap_items_length q i j, fun p => ?_⟩
  rw [swap_item q hq hi hj]
  split
  · exact ⟨rfl, rfl⟩
  · split <;> exact ⟨rfl, rfl⟩

theorem swap_mem (q : PriorityQueue) {i j : Nat} (hi : i < q.pq.length) (hj : j < q.pq.length)
    (p : Nat) : p ∈ (q.Swap i j).pq ↔ p ∈ q.pq := by
  rw [mem_iff_at, mem_iff_at, swap_length]
  constructor
  · rintro ⟨k, hk, h⟩
    rw [swap_at q hi hj] at h
    split at h
    · exact ⟨i, hi, h⟩
    · split at h
      · exact ⟨j, hj, h⟩
      · exact ⟨k, hk, h⟩
  · rintro ⟨k, hk, h⟩
    by_cases h1 : k = i
    · subst h1
      exact ⟨j, hj, by rw [swap_at q hi hj]; simp [h]⟩
    · by_cases h2 : k = j
      · subst h2
        refine ⟨i, hi, ?_⟩
        rw [swap_at q hi hj]
        by_cases h3 : i = k
        · simp [h3, h]
        · simp [h3, h]
      · exact ⟨k, hk, by rw [swap_at q hi hj]; simp [h1, h2, h]⟩

/-- `Swap` keeps the indices consistent. -/
theorem swap_heapIdx (q : PriorityQueue) {i j : Nat} (hq : HeapIdx q) (hi : i < q.pq.length)
    (hj : j < q.pq.length) : HeapIdx (q.Swap i j) := by
  constructor
  · intro k hk
    rw [swap_length] at hk
    rw [swap_items_length, swap_item q hq hi hj, swap_at q hi hj]
    by_cases h1 : k = j
    · subst h1
      simp [(hq.1 i hi).1]
    · by_cases h2 : k = i
      · subst h2
        have hne : ¬ q.at j = q.at k := fun h => h1 (hq.at_inj hi hj h.symm)
        simp [h1, hne, (hq.1 j hj).1]
      · have hne1 : ¬ q.at k = q.at i := fun h => h2 (hq.at_inj hk hi h)
        have hne2 : ¬ q.at k = q.at j := fun h => h1 (hq.at_inj hk hj h)
        simp [h1, h2, hne1, hne2, hq.1 k hk]
  · intro p hp hmem
    rw [swap_items_length] at hp
    rw [swap_mem q hi hj] at hmem
    rw [swap_item q hq hi hj]
    have h1 : ¬ p = q.at i := fun h => hmem (h ▸ at_mem q hi)
    have h2 : ¬ p = q.at j := fun h => hmem (h ▸ at_mem q hj)
    simp [h1, h2, hq.2 p hp hmem]

theorem swap_prioAt (q : PriorityQueue) {i j : Nat} (hq : HeapIdx q) (hi : i < q.pq.length)
    (hj : j < q.pq.length) (k : Nat) :
    (q.Swap i j).prioAt k = q.prioAt (if k = j then i else if k = i then j else k) := by
  unfold PriorityQueue.prioAt
  rw [((swap_sameItems q hq hi hj).2 _).2, swap_at q hi hj]
  by_cases h1 : k = j
  · simp [h1]
  · by_cases h2 : k = i
    · subst h2
      have h3 : ¬ j = k := fun h => h1 h.symm
      simp [h1, h3]
    · simp [h1, h2]

theorem less_iff (q : PriorityQueue) (i j : Nat) :
    q.Less i j = true ↔ q.prioAt i < q.prioAt j := by
  simp [PriorityQueue.Less, PriorityQueue.prioAt, MysticSquareItem.Priority]

theorem sameItems_refl (q : PriorityQueue) : SameItems q q := ⟨rfl, fun _ => ⟨rfl, rfl⟩⟩

theorem sameItems_trans {a b c : PriorityQueue} (h1 : SameItems a b) (h2 : SameItems b c) :
    SameItems a c :=
  ⟨h2.1.trans h1.1, fun p => ⟨((h2.2 p).1).trans (h1.2 p).1, ((h2.2 p).2).trans (h1.2 p).2⟩⟩

theorem rearranged_refl (q : PriorityQueue) : Rearranged q q :=
  ⟨sameItems_refl q, rfl, fun _ => Iff.rfl⟩

theorem rearranged_trans {a b c : PriorityQueue} (h1 : Rearranged a b) (h2 : Rearranged b c) :
    Rearranged a c :=
  ⟨sameItems_trans h1.1 h2.1, h2.2.1.trans h1.2.1, fun p => (h2.2.2 p).trans (h1.2.2 p)⟩

theorem swap_rearranged (q : PriorityQueue) {i j : Nat} (hq : HeapIdx q) (hi : i < q.pq.length)
    (hj : j < q.pq.length) : Rearranged q (q.Swap i j) :=
  ⟨swap_sameItems q hq hi hj, swap_length q i j, swap_mem q hi hj⟩

/-! ### `heap.up` -/

/-- Sifting up from `j` restores the heap order when only the pair above `j` may
be out of order. -/
theorem up_spec (j : Nat) : ∀ (q : PriorityQueue), HeapIdx q → j < q.pq.length →
    OrdExceptChild q q.pq.length j → OrdAround q q.pq.length j →
    HeapIdx (heap.up q j) ∧ HeapOrd (heap.up q j) q.pq.length ∧ Rearranged q (heap.up q j) := by
  induction j using Nat.strong_induction_on with
  | _ j ih =>
    intro q hq hj h1 h2
    rw [heap.up]
    split
    · rename_i hstop
      refine ⟨hq, ?_, rearranged_refl q⟩
      intro c hc0 hcn
      by_cases hcj : c = j
      · subst hcj
        rcases hstop with h | h
        · omega
        · rw [less_iff] at h
          omega
      · exact h1 c hc0 hcn hcj
    · rename_i hgo
      simp only [not_or, not_not] at hgo
      obtain ⟨hne, hless⟩ := hgo
      rw [less_iff] at hless
      have hi : (j - 1) / 2 < q.pq.length := by omega
      have hij : (j - 1) / 2 < j := by omega
      have hq' := swap_heapIdx q hq hi hj
      have hpr := swap_prioAt q hq hi hj
      have hlen := swap_length q ((j - 1) / 2) j
      have key := ih ((j - 1) / 2) hij (q.Swap ((j - 1) / 2) j) hq' (by rw [hlen]; exact hi) ?_ ?_
      · rw [hlen] at key
        exact ⟨key.1, key.2.1, rearranged_trans (swap_rearranged q hq hi hj) key.2.2⟩
      · -- order except above the parent position
        intro c hc0 hcn hci
        rw [hlen] at hcn
        rw [hpr, hpr]
        by_cases hcj : c = j
        · subst hcj
          simp only [if_true]
          have : ¬ (c - 1) / 2 = c := by omega
          simp only [this, if_false, if_true]
          omega
        · simp only [hcj, hci, if_false]
          by_cases hp1 : (c - 1) / 2 = j
          · simp only [hp1, if_true]
            have := h2 (by omega) c hc0 hcn hp1
            exact this
          · simp only [hp1, if_false]
            by_cases hp2 : (c - 1) / 2 = (j - 1) / 2
            · simp only [hp2, if_true]
              have := h1 c hc0 hcn hcj
              rw [hp2] at this
              omega
            · simp only [hp2, if_false]
              exact h1 c hc0 hcn hcj
      · -- the parent of the parent is not above the children of the parent
        intro hi0 c hc0 hcn hcp
        rw [hlen] at hcn
        rw [hpr, hpr]
        have hpp1 : ¬ ((j - 1) / 2 - 1) / 2 = j := by omega
        have hpp2 : ¬ ((j - 1) / 2 - 1) / 2 = (j - 1) / 2 := by omega
        simp only [hpp1, hpp2, if_false]
        have hpar := h1 ((j - 1) / 2) hi0 hi (by omega)
        by_cases hcj : c = j
        · simp only [hcj, if_true]
          exact hpar
        · have hci : ¬ c = (j - 1) / 2 := by omega
          simp only [hcj, hci, if_false]
          have := h1 c hc0 hcn hcj
          rw [hcp] at this
          omega

/-! ### `heap.down` -/

/-- Sifting down from `i` among the first `n` positions: afterwards only the pair
above `i` may be out of order, and not even that one when the element moved. -/
theorem down_loop_spec (n : Nat) (k : Nat) : ∀ (i : Nat) (q : PriorityQueue), n - i = k →
    HeapIdx q → n ≤ q.pq.length → OrdWithout q n i → OrdAround q n i →
    HeapIdx (heap.down.loop q i n).1 ∧ Rearranged q (heap.down.loop q i n).1 ∧
    i ≤ (heap.down.loop q i n).2 ∧ OrdExceptChild (heap.down.loop q i n).1 n i ∧
    (i < (heap.down.loop q i n).2 → 0 < i → i < n →
      (heap.down.loop q i n).1.prioAt ((i - 1) / 2) ≤ (heap.down.loop q i n).1.prioAt i) ∧
    ((heap.down.loop q i n).2 = i → (heap.down.loop q i n).1 = q) ∧
    (∀ k', n ≤ k' → (heap.down.loop q i n).1.at k' = q.at k') := by
  induction k using Nat.strong_induction_on with
  | _ k ih =>
    intro i q hk hq hn h1 h2
    rw [heap.down.loop]
    split
    · rename_i hstop
      refine ⟨hq, rearranged_refl q, le_refl i, ?_, fun h => absurd h (lt_irrefl i),
        fun _ => rfl, fun _ _ => rfl⟩
      intro c hc0 hcn hci
      by_cases hp : (c - 1) / 2 = i
      · omega
      · exact h1 c hc0 hcn hp hci
    · rename_i hgo
      have hj1 : 2 * i + 1 < n := by omega
      -- the smaller child
      generalize hjdef : (if 2 * i + 1 + 1 < n ∧ q.Less (2 * i + 1 + 1) (2 * i + 1) = true
        then 2 * i + 1 + 1 else 2 * i + 1) = j
      have hjn : j < n := by
        rw [← hjdef]; split
        · rename_i h; exact h.1
        · exact hj1
      have hjp : (j - 1) / 2 = i := by
        rw [← hjdef]; split <;> omega
      have hji : i < j := by
        rw [← hjdef]; split <;> omega
      have hjmin : ∀ c, 0 < c → c < n → (c - 1) / 2 = i → q.prioAt j ≤ q.prioAt c := by
        intro c hc0 hcn hcp
        have hc : c = 2 * i + 1 ∨ c = 2 * i + 1 + 1 := by omega
        rw [← hjdef]
        split
        · rename_i h
          have := (less_iff q _ _).1 h.2
          rcases hc with hc | hc <;> subst hc <;> omega
        · rename_i h
          rcases hc with hc | hc
          · subst hc; exact le_refl _
          · subst hc
            simp only [not_and] at h
            have h3 := h hcn
            rw [less_iff] at h3
            omega
      simp only
      split
      · rename_i hnl
        rw [less_iff] at hnl
        refine ⟨hq, rearranged_refl q, le_refl i, ?_, fun h => absurd h (lt_irrefl i),
          fun _ => rfl, fun _ _ => rfl⟩
        intro c hc0 hcn hci
        by_cases hp : (c - 1) / 2 = i
        · have := hjmin c hc0 hcn hp
          show q.prioAt ((c - 1) / 2) ≤ q.prioAt c
          rw [hp]
          omega
        · exact h1 c hc0 hcn hp hci
      · rename_i hl
        simp only [not_not] at hl
        rw [less_iff] at hl
        have hil : i < q.pq.length := by omega
        have hjl : j < q.pq.length := by omega
        have hq' := swap_heapIdx q hq hil hjl
        have hpr := swap_prioAt q hq hil hjl
        have hlen := swap_length q i j
        have key := ih (n - j) (by omega) j (q.Swap i j) rfl hq' (by rw [hlen]; exact hn) ?_ ?_
        · obtain ⟨k1, k2, k3, k4, k5, k6, k7⟩ := key
          refine ⟨k1, rearranged_trans (swap_rearranged q hq hil hjl) k2, by omega, ?_, ?_, ?_, ?_⟩
          · intro c hc0 hcn hci
            by_cases hcj : c = j
            · subst hcj
              rw [hjp]
              by_cases hmv : c < (heap.down.loop (q.Swap i c) c n).2
              · have := k5 hmv hc0 hcn
                rw [hjp] at this
                exact this
              · have he : (heap.down.loop (q.Swap i c) c n).2 = c := by omega
                rw [k6 he, hpr, hpr]
                have : ¬ i = c := by omega
                simp only [this, if_true, if_false]
                omega
            · exact k4 c hc0 hcn hcj
          · intro _ hi0 hin
            exact k4 i hi0 hin (by omega)
          · intro h
            omega
          · intro k' hk'
            rw [k7 k' hk', swap_at q hil hjl]
            have h3 : ¬ k' = j := by omega
            have h4 : ¬ k' = i := by omega
            simp [h3, h4]
        · -- order without the child position
          intro c hc0 hcn hcp hcj
          rw [hpr, hpr]
          simp only [hcj, hcp, if_false]
          by_cases hci : c = i
          · subst hci
            have hpp : ¬ (c - 1) / 2 = c := by omega
            simp only [hpp, if_true, if_false]
            exact h2 hc0 j (by omega) hjn hjp
          · simp only [hci, if_false]
            by_cases hpi : (c - 1) / 2 = i
            · simp only [hpi, if_true]
              exact hjmin c hc0 hcn hpi
            · simp only [hpi, if_false]
              exact h1 c hc0 hcn hpi hci
        · -- the parent is not above the children of the child
          intro hj0 c hc0 hcn hcp
          rw [hpr, hpr, hjp]
          have h3 : ¬ i = j := by omega
          have h4 : ¬ c = j := by omega
          have h5 : ¬ c = i := by omega
          simp only [h3, h4, h5, if_true, if_false]
          have := h1 c hc0 hcn (by omega) h5
          rw [hcp] at this
          exact this

/-! ### Allocation and `Push` -/

theorem item_append_old (items : List MysticSquareItem) (pq : List Nat) (x : MysticSquareItem)
    {p : Nat} (hp : p < items.length) :
    (PriorityQueue.mk (items ++ [x]) pq).item p = (PriorityQueue.mk items pq).item p := by
  unfold PriorityQueue.item
  simp only [List.getD_eq_getElem?_getD]
  rw [List.getElem?_append_left hp]

theorem item_append_new (items : List MysticSquareItem) (pq : List Nat) (x : MysticSquareItem) :
    (PriorityQueue.mk (items ++ [x]) pq).item items.length = x := by
  unfold PriorityQueue.item
  simp

theorem heapOrd_root_min {q : PriorityQueue} {n : Nat} (h : HeapOrd q n) (c : Nat) (hc : c < n) :
    q.prioAt 0 ≤ q.prioAt c := by
  induction c using Nat.strong_induction_on with
  | _ c ih =>
    by_cases h0 : c = 0
    · subst h0; exact le_refl _
    · have h1 := h c (by omega) hc
      have h2 := ih ((c - 1) / 2) (by omega) (by omega)
      omega

/-- Allocating an item and pushing it with `heap.Push` keeps the queue well formed
and adds exactly that item. -/
theorem push_new_spec (q : PriorityQueue) (hq : HeapWF q) (sq : MysticSquare3) (pr : Int) :
    (NewMysticSquareItem q sq pr).1 = q.items.length ∧
    HeapWF (heap.Push (NewMysticSquareItem q sq pr).2 (NewMysticSquareItem q sq pr).1) ∧
    (heap.Push (NewMysticSquareItem q sq pr).2 (NewMysticSquareItem q sq pr).1).items.length
      = q.items.length + 1 ∧
    (∀ p, p < q.items.length →
      ((heap.Push (NewMysticSquareItem q sq pr).2 (NewMysticSquareItem q sq pr).1).item p).Msquare
        = (q.item p).Msquare ∧
      ((heap.Push (NewMysticSquareItem q sq pr).2 (NewMysticSquareItem q sq pr).1).item p).priority
        = (q.item p).priority) ∧
    ((heap.Push (NewMysticSquareItem q sq pr).2 (NewMysticSquareItem q sq pr).1).item
      q.items.length).Msquare = sq ∧
    ((heap.Push (NewMysticSquareItem q sq pr).2 (NewMysticSquareItem q sq pr).1).item
      q.items.length).priority = pr ∧
    (∀ p, p ∈ (heap.Push (NewMysticSquareItem q sq pr).2 (NewMysticSquareItem q sq pr).1).pq ↔
      p ∈ q.pq ∨ p = q.items.length) := by
  obtain ⟨items, pq⟩ := q
  obtain ⟨⟨hw1, hw3⟩, hord⟩ := hq
  simp only at hw1 hw3 hord
  -- the queue after the raw `Push`
  let x := items.length
  let q1 : PriorityQueue := ⟨items ++ [⟨sq, pr, 0⟩], pq⟩
  let q2 : PriorityQueue := q1.Push x
  have hq2pq : q2.pq = pq ++ [x] := rfl
  have hq2len : q2.pq.length = pq.length + 1 := by simp [hq2pq]
  have hq2items : q2.items.length = items.length + 1 := by
    simp [q2, q1, PriorityQueue.Push]
  have hxnot : x ∉ pq := by
    intro hx
    obtain ⟨i, hi, he⟩ := (mem_iff_at ⟨items, pq⟩ x).1 hx
    have := (hw1 i hi).1
    simp only [x] at he
    omega
  have hitem : ∀ p, q2.item p =
      if p = x then ⟨sq, pr, (pq.length : Int)⟩ else (PriorityQueue.mk items pq).item p := by
    intro p
    have e : q2 = ({ q1.setIndex x pq.length with pq := pq ++ [x] } : PriorityQueue) := rfl
    have e2 : q2.item p = (q1.setIndex x pq.length).item p := rfl
    rw [e2, item_setIndex]
    by_cases hp : p = x
    · subst hp
      have : x < q1.items.length := by simp [q1, x]
      simp only [this, and_self, if_true]
      have : q1.item x = ⟨sq, pr, 0⟩ := item_append_new items pq _
      rw [this]
    · simp only [hp, false_and, if_false]
      by_cases hp2 : p < items.length
      · exact item_append_old items pq _ hp2
      · unfold PriorityQueue.item
        simp only [List.getD_eq_getElem?_getD, q1]
        rw [List.getElem?_eq_none (by simp; omega), List.getElem?_eq_none (by omega)]
  have hat : ∀ i, i < pq.length → q2.at i = (PriorityQueue.mk items pq).at i := by
    intro i hi
    unfold PriorityQueue.at
    simp only [List.getD_eq_getElem?_getD, hq2pq]
    rw [List.getElem?_append_left hi]
  have hatx : q2.at pq.length = x := by
    unfold PriorityQueue.at
    simp [hq2pq]
  have hidx2 : HeapIdx q2 := by
    constructor
    · intro i hi
      rw [hq2len] at hi
      by_cases hil : i < pq.length
      · rw [hat i hil, hq2items, hitem]
        have h1 := hw1 i hil
        have hne : ¬ (PriorityQueue.mk items pq).at i = x := by
          have := h1.1
          simp only [x]
          omega
        simp only [hne, if_false]
        exact ⟨by omega, h1.2⟩
      · have : i = pq.length := by omega
        subst this
        rw [hatx, hq2items, hitem]
        simp [x]
    · intro p hp hmem
      rw [hq2items] at hp
      rw [hq2pq] at hmem
      simp only [List.mem_append, List.mem_singleton, not_or] at hmem
      rw [hitem]
      simp only [hmem.2, if_false]
      have hpx : ¬ p = items.length := hmem.2
      exact hw3 p (by omega) hmem.1
  have hprio : ∀ i, i < pq.length → q2.prioAt i = (PriorityQueue.mk items pq).prioAt i := by
    intro i hi
    unfold PriorityQueue.prioAt
    rw [hat i hi, hitem]
    have hne : ¬ (PriorityQueue.mk items pq).at i = x := by
      have := (hw1 i hi).1
      simp only [x]
      omega
    simp [hne]
  have hup := up_spec pq.length q2 hidx2 (by omega) ?_ ?_
  · rw [hq2len] at hup
    obtain ⟨u1, u2, ⟨u3, u4⟩, u5, u6⟩ := hup
    have hres : heap.Push (NewMysticSquareItem ⟨items, pq⟩ sq pr).2
        (NewMysticSquareItem ⟨items, pq⟩ sq pr).1 = heap.up q2 pq.length := by
      show heap.up q2 (q2.Len - 1) = heap.up q2 pq.length
      simp [PriorityQueue.Len, hq2len]
    rw [hres]
    refine ⟨rfl, ⟨u1, ?_⟩, by rw [u3, hq2items], ?_, ?_, ?_, ?_⟩
    · rw [u5, hq2len]; exact u2
    · intro p hp
      have hp' : p < items.length := hp
      have hne : ¬ p = x := by show ¬ p = items.length; omega
      rw [(u4 p).1, (u4 p).2, hitem]
      simp [hne]
    · rw [(u4 _).1, hitem]; simp [x]
    · rw [(u4 _).2, hitem]; simp [x]
    · intro p
      rw [u6, hq2pq]
      simp [x]
  · intro c hc0 hcn hcne
    rw [hq2len] at hcn
    have hc : c < pq.length := by omega
    rw [hprio c hc, hprio _ (by omega)]
    exact hord c hc0 hc
  · intro _ c hc0 hcn hcp
    rw [hq2len] at hcn
    omega

/-! ### `Update` -/

theorem update_not_mem (q : PriorityQueue) (hq : HeapIdx q) {p : Nat} (hp : p < q.items.length)
    (hmem : p ∉ q.pq) (pr : Int) : q.Update p pr = q := by
  unfold PriorityQueue.Update
  rw [hq.2 p hp hmem]
  simp

/-- `Update` on an item of the queue sets its priority and keeps the queue well formed. -/
theorem update_spec (q : PriorityQueue) (hq : HeapWF q) {p : Nat} (hp : p ∈ q.pq) (pr : Int) :
    HeapWF (q.Update p pr) ∧ (q.Update p pr).items.length = q.items.length ∧
    (∀ p', ((q.Update p pr).item p').Msquare = (q.item p').Msquare ∧
      ((q.Update p pr).item p').priority = if p' = p then pr else (q.item p').priority) ∧
    (∀ p', p' ∈ (q.Update p pr).pq ↔ p' ∈ q.pq) ∧
    (q.Update p pr).pq.length = q.pq.length := by
  obtain ⟨hidx, hord⟩ := hq
  obtain ⟨i, hi, hat⟩ := (mem_iff_at q p).1 hp
  have hpl : p < q.items.length := hat ▸ (hidx.1 i hi).1
  have hindex : (q.item p).index = i := hat ▸ (hidx.1 i hi).2
  -- after the assignment of the priority
  have hitem1 : ∀ p', (q.setPriority p pr).item p' =
      if p' = p then { q.item p with priority := pr } else q.item p' := by
    intro p'
    rw [item_setPriority]
    simp [hpl]
  have hidx1 : HeapIdx (q.setPriority p pr) := by
    constructor
    · intro k hk
      have h1 := hidx.1 k hk
      simp only [at_setPriority, length_setPriority, hitem1]
      refine ⟨h1.1, ?_⟩
      split
      · rename_i h; rw [← h]; exact h1.2
      · exact h1.2
    · intro p' hp' hmem
      simp only [length_setPriority] at hp'
      simp only [pq_setPriority] at hmem
      rw [hitem1]
      have : ¬ p' = p := fun h => hmem (h ▸ hp)
      simp only [this, if_false]
      exact hidx.2 p' hp' hmem
  have hprio1 : ∀ k, k < q.pq.length →
      (q.setPriority p pr).prioAt k = if k = i then pr else q.prioAt k := by
    intro k hk
    unfold PriorityQueue.prioAt
    simp only [at_setPriority, hitem1]
    by_cases hki : k = i
    · subst hki
      simp [hat]
    · have : ¬ q.at k = p := fun h => hki (hidx.at_inj hk hi (h.trans hat.symm))
      simp [this, hki]
  have hlen1 : (q.setPriority p pr).pq.length = q.pq.length := rfl
  have hsame1 : ∀ p', ((q.setPriority p pr).item p').Msquare = (q.item p').Msquare ∧
      ((q.setPriority p pr).item p').priority = if p' = p then pr else (q.item p').priority := by
    intro p'
    rw [hitem1]
    split
    · rename_i h; subst h; exact ⟨rfl, rfl⟩
    · exact ⟨rfl, rfl⟩
  have hres : q.Update p pr = heap.Fix (q.setPriority p pr) i := by
    unfold PriorityQueue.Update PriorityQueue.update
    have h0 : (q.item p).index ≥ 0 := by rw [hindex]; omega
    simp only [h0, if_true]
    have : ((q.setPriority p pr).item p).index = i := by
      rw [hitem1]; simp [hindex]
    rw [this]
    simp
  have hW : OrdWithout (q.setPriority p pr) q.pq.length i := by
    intro c hc0 hcn hcp hci
    rw [hprio1 c hcn, hprio1 _ (by omega)]
    simp only [hcp, hci, if_false]
    exact hord c hc0 hcn
  have hA : OrdAround (q.setPriority p pr) q.pq.length i := by
    intro hi0 c hc0 hcn hcp
    rw [hprio1 c hcn, hprio1 _ (by omega)]
    have h1 : ¬ c = i := by omega
    have h2 : ¬ (i - 1) / 2 = i := by omega
    simp only [h1, h2, if_false]
    have h3 := hord c hc0 hcn
    have h4 := hord i hi0 hi
    rw [hcp] at h3
    omega
  have hdown := down_loop_spec q.pq.length (q.pq.length - i) i (q.setPriority p pr) rfl hidx1
    (le_refl _) hW hA
  obtain ⟨d1, d2, d3, d4, d5, d6, _⟩ := hdown
  rw [hres]
  unfold heap.Fix heap.down
  simp only [PriorityQueue.Len, hlen1]
  by_cases hmv : i < (heap.down.loop (q.setPriority p pr) i q.pq.length).2
  · simp only [gt_iff_lt, hmv, decide_True, Bool.not_true, Bool.false_eq_true, if_false]
    obtain ⟨⟨e1, e2⟩, e3, e4⟩ := d2
    refine ⟨⟨d1, ?_⟩, e1.trans (length_setPriority q p pr), ?_, e4, e3⟩
    · rw [e3]
      intro c hc0 hcn
      by_cases hci : c = i
      · subst hci
        exact d5 hmv hc0 hcn
      · exact d4 c hc0 hcn hci
    · intro p'
      rw [(e2 p').1, (e2 p').2]
      exact hsame1 p'
  · simp only [gt_iff_lt, hmv, decide_False, Bool.not_false, if_true]
    have he : (heap.down.loop (q.setPriority p pr) i q.pq.length).2 = i := by omega
    rw [d6 he]
    have d4' : OrdExceptChild (q.setPriority p pr) q.pq.length i := by
      rw [d6 he] at d4; exact d4
    have hup := up_spec i (q.setPriority p pr) hidx1 hi d4' hA
    obtain ⟨u1, u2, ⟨u3, u4⟩, u5, u6⟩ := hup
    refine ⟨⟨u1, ?_⟩, u3.trans (length_setPriority q p pr), ?_, u6, u5⟩
    · rw [u5]; exact u2
    · intro p'
      rw [(u4 p').1, (u4 p').2]
      exact hsame1 p'

/-! ### `Process` -/

theorem process_empty (q : PriorityQueue) (h : q.pq = []) :
    q.Process = ⟨none, false, q⟩ := by
  simp [PriorityQueue.Process, PriorityQueue.Empty, PriorityQueue.Len, h]

/-- `Process` on a well-formed, non-empty queue returns an item of least priority,
removes exactly that item and leaves the queue well formed. -/
theorem process_spec (q : PriorityQueue) (hq : HeapWF q) (hne : q.pq ≠ []) :
    ∃ p q', q.Process = ⟨some p, true, q'⟩ ∧ p ∈ q.pq ∧
      (∀ p', p' ∈ q.pq → (q.item p).priority ≤ (q.item p').priority) ∧
      HeapWF q' ∧ SameItems q q' ∧ (∀ p', p' ∈ q'.pq ↔ p' ∈ q.pq ∧ p' ≠ p) ∧
      (q'.item p).index = -1 ∧ q'.pq.length + 1 = q.pq.length := by
  obtain ⟨hidx, hord⟩ := hq
  have hlen : 0 < q.pq.length := List.length_pos.2 hne
  -- the steps of `heap.Pop`
  generalize hn : q.pq.length - 1 = n
  have hnl : n < q.pq.length := by omega
  have h0l : 0 < q.pq.length := hlen
  have hidx1 := swap_heapIdx q hidx h0l hnl
  have hpr1 := swap_prioAt q hidx h0l hnl
  have hlen1 := swap_length q 0 n
  have hW : OrdWithout (q.Swap 0 n) n 0 := by
    intro c hc0 hcn hcp hci
    rw [hpr1, hpr1]
    have h1 : ¬ c = n := by omega
    have h2 : ¬ (c - 1) / 2 = n := by omega
    simp only [h1, h2, hcp, hci, if_false]
    exact hord c hc0 (by omega)
  have hA : OrdAround (q.Swap 0 n) n 0 := fun h => absurd h (lt_irrefl 0)
  obtain ⟨d1, ⟨⟨d2a, d2b⟩, d2c, d2d⟩, _, d4, _, _, d7⟩ :=
    down_loop_spec n n 0 (q.Swap 0 n) rfl hidx1 (by rw [hlen1]; omega) hW hA
  generalize hq2 : (heap.down.loop (q.Swap 0 n) 0 n).1 = q2 at d1 d2a d2b d2c d2d d4 d7
  have hlen2 : q2.pq.length = q.pq.length := d2c.trans hlen1
  have hn2 : n < q2.pq.length := by omega
  have hlast : q2.at n = q.at 0 := by
    rw [d7 n (le_refl n), swap_at q h0l hnl]
    simp
  have hproc : q.Process = ⟨some (q2.Pop).1, true, (q2.Pop).2⟩ := by
    unfold PriorityQueue.Process
    have he : q.Empty = false := by
      simp only [PriorityQueue.Empty, PriorityQueue.Len, decide_eq_false_iff_not]
      omega
    simp only [he, Bool.not_false, if_true]
    unfold heap.Pop heap.down
    simp only [PriorityQueue.Len, hn, hq2]
  have hpop1 : (q2.Pop).1 = q.at 0 := by
    unfold PriorityQueue.Pop
    simp only [hlen2, hn, hlast]
  have hpoppq : (q2.Pop).2.pq = q2.pq.take n := by
    unfold PriorityQueue.Pop
    simp only [hlen2, hn, pq_setIndex]
  have hpopitem : ∀ p', (q2.Pop).2.item p' =
      if p' = q.at 0 then { q2.item p' with index := -1 } else q2.item p' := by
    intro p'
    have e : (q2.Pop).2.item p' = (q2.setIndex (q.at 0) (-1)).item p' := by
      unfold PriorityQueue.Pop
      simp only [hlen2, hn, hlast]
      rfl
    rw [e, item_setIndex]
    have : q.at 0 < q2.items.length := by
      rw [d2a, swap_items_length]; exact (hidx.1 0 h0l).1
    by_cases h : p' = q.at 0
    · subst h; simp [this]
    · simp [h]
  have hpopat : ∀ k, k < n → (q2.Pop).2.at k = q2.at k := by
    intro k hk
    unfold PriorityQueue.at
    rw [hpoppq]
    simp only [List.getD_eq_getElem?_getD]
    rw [List.getElem?_take_of_lt hk]
  have hpoplen : (q2.Pop).2.pq.length = n := by
    rw [hpoppq, List.length_take]; omega
  have hpopitems : (q2.Pop).2.items.length = q2.items.length := by
    unfold PriorityQueue.Pop
    simp
  have hmem2 : ∀ p', p' ∈ (q2.Pop).2.pq ↔ p' ∈ q2.pq ∧ p' ≠ q.at 0 := by
    intro p'
    rw [mem_iff_at, mem_iff_at, hpoplen]
    constructor
    · rintro ⟨k, hk, h⟩
      rw [hpopat k hk] at h
      refine ⟨⟨k, by omega, h⟩, ?_⟩
      intro he
      rw [← h, ← hlast] at he
      have := d1.at_inj (by omega) hn2 he
      omega
    · rintro ⟨⟨k, hk, h⟩, hne'⟩
      have hkn : k ≠ n := by
        intro he
        subst he
        exact hne' (h.symm.trans hlast)
      exact ⟨k, by omega, by rw [hpopat k (by omega)]; exact h⟩
  refine ⟨(q2.Pop).1, (q2.Pop).2, hproc, ?_, ?_, ⟨⟨?_, ?_⟩, ?_⟩, ⟨?_, ?_⟩, ?_, ?_, ?_⟩
  · rw [hpop1]; exact at_mem q h0l
  · intro p' hp'
    obtain ⟨k, hk, rfl⟩ := (mem_iff_at q p').1 hp'
    rw [hpop1]
    exact heapOrd_root_min hord k hk
  · intro k hk
    rw [hpoplen] at hk
    rw [hpopat k hk, hpopitems, hpopitem]
    have h1 := d1.1 k (by omega)
    have hne' : ¬ q2.at k = q.at 0 := by
      intro he
      rw [← hlast] at he
      have := d1.at_inj (by omega) hn2 he
      omega
    simp only [hne', if_false]
    exact h1
  · intro p' hp' hmem
    rw [hpopitems] at hp'
    rw [hpopitem]
    by_cases h : p' = q.at 0
    · simp [h]
    · simp only [h, if_false]
      apply d1.2 p' hp'
      intro hm
      exact hmem ((hmem2 p').2 ⟨hm, h⟩)
  · rw [hpoplen]
    intro c hc0 hcn
    have e : ∀ k, k < n → (q2.Pop).2.prioAt k = q2.prioAt k := by
      intro k hk
      unfold PriorityQueue.prioAt
      rw [hpopat k hk, hpopitem]
      split <;> rfl
    rw [e c hcn, e _ (by omega)]
    exact d4 c hc0 hcn (by omega)
  · rw [hpopitems, d2a, swap_items_length]
  · intro p'
    have h1 := (swap_sameItems q hidx h0l hnl).2 p'
    have h2 := d2b p'
    rw [hpopitem]
    split
    · exact ⟨h2.1.trans h1.1, h2.2.trans h1.2⟩
    · exact ⟨h2.1.trans h1.1, h2.2.trans h1.2⟩
  · intro p'
    rw [hmem2, hpop1, d2d, swap_mem q h0l hnl]
  · rw [hpopitem, hpop1]
    simp
  · rw [hpoplen]; omega

/-- `heap.Init` leaves a queue of at most one item as it is. -/
theorem init_small (q : PriorityQueue) (h : q.pq.length ≤ 1) : heap.Init q = q := by
  unfold heap.Init
  have : q.Len / 2 = 0 := by
    simp only [PriorityQueue.Len]; omega
  simp [this]

/-- The queue with which the best-first searches start: one item, pushed onto the
empty queue and heapified. -/
theorem initial_queue_spec (sq : MysticSquare3) (pr : Int) :
    HeapWF (heap.Init ((NewMysticSquareItem NewMysticSquarePriorityQueue sq pr).2.Push 0)) ∧
    (heap.Init ((NewMysticSquareItem NewMysticSquarePriorityQueue sq pr).2.Push 0)).pq = [0] ∧
    (heap.Init ((NewMysticSquareItem NewMysticSquarePriorityQueue sq pr).2.Push 0)).items
      = [⟨sq, pr, 0⟩] := by
  have e : (NewMysticSquareItem NewMysticSquarePriorityQueue sq pr).2.Push 0
      = ⟨[⟨sq, pr, 0⟩], [0]⟩ := rfl
  rw [e, init_small _ (by simp)]
  refine ⟨⟨⟨?_, ?_⟩, ?_⟩, rfl, rfl⟩
  · intro i hi
    simp only [List.length_singleton, Nat.lt_one_iff] at hi
    subst hi
    exact ⟨Nat.zero_lt_one, rfl⟩
  · intro p hp hmem
    simp only [List.length_singleton, Nat.lt_one_iff] at hp
    subst hp
    simp at hmem
  · intro c hc0 hcn
    simp only [List.length_singleton] at hcn
    omega

/-! ## Successors as the searches build them -/

theorem appendMove_eq (adjacent : List MysticSquare3) (moved : Option (GoMap Int Int)) :
    appendMove adjacent moved = adjacent ++
      (match moved with
        | some m => if (MysticSquare3.mk m "").ValidateState = true
            then [⟨m, buildMysticSquare3StateString m⟩] else []
        | none => []) := by
  unfold appendMove
  cases moved with
  | none => simp
  | some m =>
    simp only
    cases hv : (MysticSquare3.mk m "").ValidateState with
    | false =>
      have := NewMysticSquare3_invalid hv
      simp [NewMysticSquare, this]
    | true =>
      have := NewMysticSquare3_valid hv
      simp [NewMysticSquare, this]

theorem newMysticSquare_some_iff (m : GoMap Int Int) (y : MysticSquare3) :
    NewMysticSquare m = (MysticSquare.ptr (some y), none) ↔
      (MysticSquare3.mk m "").ValidateState = true ∧ y = ⟨m, buildMysticSquare3StateString m⟩ := by
  cases hv : (MysticSquare3.mk m "").ValidateState with
  | false =>
    have := NewMysticSquare3_invalid hv
    simp [NewMysticSquare, this]
  | true =>
    have := NewMysticSquare3_valid hv
    simp only [NewMysticSquare, this, Prod.mk.injEq, MysticSquare.ptr.injEq, Option.some.injEq,
      and_true, true_and]
    exact eq_comm

/-- The successors that the searches build are exactly the results of legal moves. -/
theorem mem_adjacentSquares (x y : MysticSquare3) :
    y ∈ adjacentSquares x ↔ LegalMove x y := by
  unfold adjacentSquares LegalMove
  simp only [appendMove_eq, List.nil_append, List.mem_append]
  simp only [newMysticSquare_some_iff]
  constructor
  · intro h
    rcases h with ((h | h) | h) | h
    · cases hm : x.MoveLeft with
      | none => simp [hm] at h
      | some m =>
        simp only [hm] at h
        split at h
        · rename_i hv
          exact ⟨m, Or.inr (Or.inr (Or.inl rfl)), hv, by simpa using h⟩
        · simp at h
    · cases hm : x.MoveRight with
      | none => simp [hm] at h
      | some m =>
        simp only [hm] at h
        split at h
        · rename_i hv
          exact ⟨m, Or.inr (Or.inr (Or.inr rfl)), hv, by simpa using h⟩
        · simp at h
    · cases hm : x.MoveUp with
      | none => simp [hm] at h
      | some m =>
        simp only [hm] at h
        split at h
        · rename_i hv
          exact ⟨m, Or.inl rfl, hv, by simpa using h⟩
        · simp at h
    · cases hm : x.MoveDown with
      | none => simp [hm] at h
      | some m =>
        simp only [hm] at h
        split at h
        · rename_i hv
          exact ⟨m, Or.inr (Or.inl rfl), hv, by simpa using h⟩
        · simp at h
  · rintro ⟨m, hm, hv, rfl⟩
    rcases hm with h | h | h | h
    · left; right; simp [h, hv]
    · right; simp [h, hv]
    · left; left; left; simp [h, hv]
    · left; left; right; simp [h, hv]

/-! ## The walk along the predecessor map -/

theorem walk_of_chain (paths : GoMap String (Option MysticSquare3)) {k : String} {d : Nat}
    (hc : Chain paths k d) :
    ∀ (current : MysticSquare3) (acc : List MysticSquare3) (fuel : Nat), current.State = k →
      d + 1 ≤ fuel →
      ∃ l, executeRun.walk paths fuel current acc = .ok (acc ++ l) ∧ l.length = d := by
  induction hc with
  | stop h =>
    intro current acc fuel hk hf
    obtain ⟨f, rfl⟩ : ∃ f, fuel = f + 1 := ⟨fuel - 1, by omega⟩
    refine ⟨[], ?_, rfl⟩
    simp [executeRun.walk, hk, h]
  | step h _ ih =>
    intro current acc fuel hk hf
    obtain ⟨f, rfl⟩ : ∃ f, fuel = f + 1 := ⟨fuel - 1, by omega⟩
    rename_i k' u d' _
    obtain ⟨l, hl, hlen⟩ := ih u (acc ++ [current]) f rfl (by omega)
    refine ⟨current :: l, ?_, by simp [hlen]⟩
    simp [executeRun.walk, hk, h, hl]

/-- With enough fuel the reconstruction returns a path of `d + 1` states when the walk
from the target takes `d` steps. -/
theorem path_of_chain (paths : GoMap String (Option MysticSquare3)) {d : Nat}
    (initial target : MysticSquare3) (hc : Chain paths target.State d) :
    ∃ path, path.length = d + 1 ∧
      ∀ fuel, d + 1 ≤ fuel → executeRun.path fuel paths initial target = .ok path := by
  obtain ⟨l, hl, hlen⟩ := walk_of_chain paths hc target [] (d + 1) rfl (le_refl _)
  refine ⟨(l ++ [initial]).reverse, by simp [hlen], ?_⟩
  intro fuel hf
  obtain ⟨l', hl', _⟩ := walk_of_chain paths hc target [] fuel rfl hf
  have h1 : ∀ f1 f2 cur acc r, executeRun.walk paths f1 cur acc = .ok r → f1 ≤ f2 →
      executeRun.walk paths f2 cur acc = .ok r := by
    intro f1
    induction f1 with
    | zero => intro f2 cur acc r h; simp [executeRun.walk] at h
    | succ f ih =>
      intro f2 cur acc r h hle
      obtain ⟨f2', rfl⟩ : ∃ f', f2 = f' + 1 := ⟨f2 - 1, by omega⟩
      simp only [executeRun.walk] at h ⊢
      split
      · rename_i nxt hn
        rw [hn] at h
        exact ih f2' _ _ _ h (by omega)
      · rename_i hn
        rw [hn] at h
        exact h
  have := h1 (d + 1) fuel target [] _ hl hf
  simp only [List.nil_append] at this
  simp [executeRun.path, this]

/-! ## There are at most 9! states -/

theorem state_key_perm {s : MysticSquare3} (hs : IsState s) :
    ∃ σ : Equiv.Perm (Fin 9), s.State = String.mk (keyChars σ) := by
  have hmem : ∀ j : Fin 9, GoMap.get s.state ((j : Nat) + 1 : Int) 0 ∈ tiles := by
    intro j
    apply valid_get_mem hs.1
    rw [mem_tiles_iff]
    have := j.2
    omega
  have hrange : ∀ j : Fin 9, (GoMap.get s.state ((j : Nat) + 1 : Int) 0 - 1).toNat < 9 := by
    intro j
    have := (mem_tiles_iff _).1 (hmem j)
    omega
  obtain ⟨f, hf⟩ : ∃ f : Fin 9 → Fin 9,
      ∀ j : Fin 9, (((f j : Nat) : Int) + 1) = GoMap.get s.state ((j : Nat) + 1 : Int) 0 := by
    refine ⟨fun j => ⟨(GoMap.get s.state ((j : Nat) + 1 : Int) 0 - 1).toNat, hrange j⟩, ?_⟩
    intro j
    have := (mem_tiles_iff _).1 (hmem j)
    show (((GoMap.get s.state ((j : Nat) + 1 : Int) 0 - 1).toNat : Nat) : Int) + 1 = _
    omega
  have hinj : Function.Injective f := by
    intro a b hab
    have h1 := hf a
    have h2 := hf b
    rw [hab] at h1
    have h3 := h1.symm.trans h2
    have ha : ((a : Nat) + 1 : Int) ∈ tiles := by rw [mem_tiles_iff]; have := a.2; omega
    have hb : ((b : Nat) + 1 : Int) ∈ tiles := by rw [mem_tiles_iff]; have := b.2; omega
    have := valid_get_inj hs.1 ha hb h3
    apply Fin.ext
    omega
  refine ⟨Equiv.ofBijective f (Finite.injective_iff_bijective.1 hinj), ?_⟩
  unfold MysticSquare3.State
  rw [hs.2, build_valid hs.1]
  congr 1
  unfold keyChars
  simp only [Equiv.ofBijective_apply]
  have e0 : ((f 0 : Nat) : Int) + 1 = GoMap.get s.state 1 0 := hf 0
  have e1 : ((f 1 : Nat) : Int) + 1 = GoMap.get s.state 2 0 := hf 1
  have e2 : ((f 2 : Nat) : Int) + 1 = GoMap.get s.state 3 0 := hf 2
  have e3 : ((f 3 : Nat) : Int) + 1 = GoMap.get s.state 4 0 := hf 3
  have e4 : ((f 4 : Nat) : Int) + 1 = GoMap.get s.state 5 0 := hf 4
  have e5 : ((f 5 : Nat) : Int) + 1 = GoMap.get s.state 6 0 := hf 5
  have e6 : ((f 6 : Nat) : Int) + 1 = GoMap.get s.state 7 0 := hf 6
  have e7 : ((f 7 : Nat) : Int) + 1 = GoMap.get s.state 8 0 := hf 7
  have e8 : ((f 8 : Nat) : Int) + 1 = GoMap.get s.state 9 0 := hf 8
  rw [e0, e1, e2, e3, e4, e5, e6, e7, e8]

/-- A list of distinct keys of states has at most 9! entries. -/
theorem keys_bounded (l : List String) (hnd : l.Nodup)
    (hl : ∀ k ∈ l, ∃ s, IsState s ∧ s.State = k) : l.length ≤ Nat.factorial 9 := by
  classical
  let S : Finset String :=
    (Finset.univ : Finset (Equiv.Perm (Fin 9))).image
      (fun σ : Equiv.Perm (Fin 9) => String.mk (keyChars σ))
  have hsub : l.toFinset ⊆ S := by
    intro k hk
    rw [List.mem_toFinset] at hk
    obtain ⟨s, hs, rfl⟩ := hl k hk
    obtain ⟨σ, hσ⟩ := state_key_perm hs
    exact Finset.mem_image.2 ⟨σ, Finset.mem_univ _, hσ.symm⟩
  have h1 : l.length = l.toFinset.card := (List.toFinset_card_of_nodup hnd).symm
  have h2 : S.card ≤ Nat.factorial 9 := by
    refine le_trans Finset.card_image_le ?_
    rw [Finset.card_univ, Fintype.card_perm, Fintype.card_fin]
  rw [h1]
  exact le_trans (Finset.card_le_card hsub) h2

/-! ## Informed search: consequences of the invariant -/

namespace GoMap

variable {κ ν : Type} [DecidableEq κ]

theorem isSome_lookup_iff (m : GoMap κ ν) (k : κ) : (lookup m k).isSome = true ↔ k ∈ keys m := by
  rw [← not_iff_not, Bool.not_eq_true, Option.not_isSome, Option.isNone_iff_eq_none,
    lookup_eq_none_iff]

theorem get_of_lookup {m : GoMap κ ν} {k : κ} {v : ν} (h : lookup m k = some v) (z : ν) :
    get m k z = v := by
  simp [get, h]

theorem lookup_of_isSome {m : GoMap κ ν} {k : κ} (h : (lookup m k).isSome = true) (z : ν) :
    lookup m k = some (get m k z) := by
  cases hl : lookup m k with
  | none => rw [hl] at h; simp at h
  | some v => simp [get, hl]

end GoMap

theorem movesIn_succ_key {i x c y : MysticSquare3} {n : Nat} (hi : IsState i)
    (hx : MovesIn n i x) (hc : IsState c) (hxc : x.State = c.State) (hy : LegalMove c y) :
    ∃ y', MovesIn (n + 1) i y' ∧ y'.State = y.State := by
  obtain ⟨y', h1, h2⟩ := legalMove_respects hc (movesIn_isState hx hi) hxc.symm hy
  exact ⟨y', MovesIn.succ hx h1, h2⟩

section

variable {initial : MysticSquare3} {tk : String} {H : MysticSquare3 → Int}
  {cur : Option MysticSquare3} {st : AStarState}

theorem AInv.key_inj (hinv : AInv initial tk H cur st) {p p' : Nat} (hp : p < st.q.items.length)
    (hp' : p' < st.q.items.length) (h : st.key p = st.key p') : p = p' := by
  have h1 := (hinv.items p hp).2
  have h2 := (hinv.items p' hp').2
  rw [h] at h1
  exact Option.some.inj (h1.symm.trans h2)

theorem AInv.g_nonneg (hinv : AInv initial tk H cur st) {k : String} (hk : st.Disc k) :
    0 ≤ st.g k := by
  obtain ⟨n, _, _, _, h⟩ := hinv.reach k hk
  omega

theorem AInv.pointer (hinv : AInv initial tk H cur st) {k : String} (hk : st.Disc k) :
    ∃ p, GoMap.lookup st.itemsMap k = some p ∧ p < st.q.items.length ∧ st.key p = k ∧
      IsState (st.q.item p).Msquare := by
  obtain ⟨p, hp⟩ := hinv.disc_item k hk
  obtain ⟨h1, h2⟩ := hinv.imap k p hp
  exact ⟨p, hp, h1, h2, (hinv.items p h1).1⟩

/-- The items hold distinct states, so there are at most 9! of them. -/
theorem AInv.items_bounded (hinv : AInv initial tk H cur st) :
    st.q.items.length ≤ Nat.factorial 9 := by
  have h := keys_bounded ((List.range st.q.items.length).map st.key) ?_ ?_
  · simpa using h
  · rw [List.nodup_map_iff_inj_on (List.nodup_range _)]
    intro p hp p' hp' he
    exact hinv.key_inj (List.mem_range.1 hp) (List.mem_range.1 hp') he
  · intro k hk
    obtain ⟨p, hp, rfl⟩ := List.mem_map.1 hk
    exact ⟨_, (hinv.items p (List.mem_range.1 hp)).1, rfl⟩

theorem AInv.visited_bounded (hinv : AInv initial tk H cur st) :
    st.visited.length ≤ Nat.factorial 9 := by
  have h := keys_bounded (GoMap.keys st.visited) hinv.vnodup ?_
  · simpa [GoMap.keys] using h
  · intro k hk
    exact hinv.vstate k ((GoMap.isSome_lookup_iff _ _).2 hk)

/-- Along every sequence of moves from the initial state either the state reached
is closed, or the sequence passes an open item that is not farther than the sequence
is long there, with a heuristic value that the rest of the sequence accounts for. -/
theorem AInv.frontier (hinv : AInv initial tk H none st) (hH : ∀ a b, IsState a → LegalMove a b →
    H a ≤ H b + 1) (hresp : ∀ a b, IsState a → IsState b → a.State = b.State → H a = H b)
    (hi : IsState initial) {n : Nat} {x : MysticSquare3} (hx : MovesIn n initial x) :
    st.Vis x.State ∨ ∃ p m, p ∈ st.q.pq ∧ m ≤ n ∧ st.g (st.key p) ≤ (m : Int) ∧
      H (st.q.item p).Msquare ≤ H x + ((n : Int) - m) := by
  have openOf : ∀ (k : String) (z : MysticSquare3), st.Disc k → ¬ st.Vis k → IsState z →
      z.State = k → ∃ p, p ∈ st.q.pq ∧ st.key p = k ∧ H (st.q.item p).Msquare = H z := by
    intro k z hk hnv hz hzk
    obtain ⟨p, _, hp, hkp, hps⟩ := hinv.pointer hk
    refine ⟨p, (hinv.opn p hp).2 ?_, hkp, hresp _ _ hps hz (hkp.trans hzk.symm)⟩
    rintro (h | ⟨c, hc, _⟩)
    · exact hnv (hkp ▸ h)
    · simp at hc
  have main : ∀ (n : Nat) (s x : MysticSquare3), MovesIn n s x → s = initial →
      st.Vis x.State ∨ ∃ p m, p ∈ st.q.pq ∧ m ≤ n ∧ st.g (st.key p) ≤ (m : Int) ∧
        H (st.q.item p).Msquare ≤ H x + ((n : Int) - m) := by
    intro n s x hx
    induction hx with
    | zero z =>
      intro hz
      subst hz
      by_cases hv : st.Vis z.State
      · exact Or.inl hv
      · right
        have hd : st.Disc z.State := by simp [AStarState.Disc, hinv.init]
        obtain ⟨p, hp, hkp, hHp⟩ := openOf _ z hd hv hi rfl
        refine ⟨p, 0, hp, le_refl 0, ?_, ?_⟩
        · rw [hkp]
          simp [AStarState.g, GoMap.get, hinv.init]
        · rw [hHp]; simp
    | succ hm hl ih =>
      intro hz
      subst hz
      rename_i n' s' u v
      have hu := movesIn_isState hm hi
      have hv := legalMove_isState hl
      rcases ih rfl with hvis | ⟨p, m, hp, hmn, hg, hHp⟩
      · have hcl := hinv.closure _ hvis u v hu rfl hl
        have hopt := hinv.copt _ (Or.inl hvis) n' u hm rfl
        by_cases hvv : st.Vis v.State
        · exact Or.inl hvv
        · right
          obtain ⟨p, hp, hkp, hHp⟩ := openOf _ v hcl.1 hvv hv rfl
          refine ⟨p, n' + 1, hp, le_refl _, ?_, ?_⟩
          · rw [hkp]
            have := hcl.2
            push_cast
            omega
          · rw [hHp]; simp
      · right
        refine ⟨p, m, hp, by omega, hg, ?_⟩
        have := hH u v hu hl
        push_cast
        omega
  exact main n initial x hx rfl

end

/-! ## Informed search: one relaxation keeps the invariant -/

/-- The invariant holds again after the best-known distance of the neighbour `y` of
the current state `c` has been lowered to `g(c) + 1`, with `c` as its predecessor and
its item, new or old, at the matching priority. -/
theorem ainv_relaxed {initial : MysticSquare3} {tk : String} {H : MysticSquare3 → Int}
    {c : MysticSquare3} {st st' : AStarState}
    (hresp : ∀ a b, IsState a → IsState b → a.State = b.State → H a = H b)
    (hi : IsState initial) (hinv : AInv initial tk H (some c) st) (y : MysticSquare3)
    (hy : LegalMove c y)
    (hpre : ¬ st.Disc y.State ∨ st.g c.State + 1 < st.g y.State) (hnv : ¬ st.Vis y.State)
    (d1 : HeapWF st'.q) (d2 : st'.visited = st.visited)
    (d3 : ∀ k, GoMap.lookup st'.distance k =
      if k = y.State then some (st.g c.State + 1) else GoMap.lookup st.distance k)
    (d4 : ∀ k, GoMap.get st'.paths k none =
      if k = y.State then some c else GoMap.get st.paths k none)
    (d5a : st.Disc y.State → st'.q.items.length = st.q.items.length)
    (d5b : ¬ st.Disc y.State → st'.q.items.length = st.q.items.length + 1 ∧
      (st'.q.item st.q.items.length).Msquare = y)
    (d5c : ∀ p, p < st.q.items.length → (st'.q.item p).Msquare = (st.q.item p).Msquare)
    (d6 : ∀ k, GoMap.lookup st'.itemsMap k =
      if k = y.State ∧ ¬ st.Disc y.State then some st.q.items.length
      else GoMap.lookup st.itemsMap k)
    (d7 : ∀ p, p ∈ st'.q.pq ↔ p ∈ st.q.pq ∨ (p = st.q.items.length ∧ ¬ st.Disc y.State))
    (d8 : ∀ p, p ∈ st'.q.pq → (st'.q.item p).priority =
      if st'.key p = y.State then st.g c.State + 1 + H y else (st.q.item p).priority) :
    AInv initial tk H (some c) st' := by
  obtain ⟨hcS, hcD, hcV⟩ := hinv.curp c rfl
  have hyS : IsState y := legalMove_isState hy
  have hgc0 : 0 ≤ st.g c.State := hinv.g_nonneg hcD
  have hne : y.State ≠ c.State := by
    intro he
    rcases hpre with h | h
    · exact h (he ▸ hcD)
    · rw [he] at h; omega
  have hni : y.State ≠ initial.State := by
    intro he
    have hd : st.Disc y.State := by rw [he]; simp [AStarState.Disc, hinv.init]
    rcases hpre with h | h
    · exact h hd
    · have : st.g y.State = 0 := by
        rw [he]; simp [AStarState.g, GoMap.get, hinv.init]
      omega
  have hg' : ∀ k, st'.g k = if k = y.State then st.g c.State + 1 else st.g k := by
    intro k
    unfold AStarState.g GoMap.get
    rw [d3]
    split <;> rfl
  have hD' : ∀ k, st'.Disc k ↔ k = y.State ∨ st.Disc k := by
    intro k
    unfold AStarState.Disc
    rw [d3]
    by_cases hk : k = y.State
    · simp [hk]
    · simp [hk]
  have hV' : ∀ k, st'.Vis k ↔ st.Vis k := by
    intro k
    unfold AStarState.Vis
    rw [d2]
  have hC' : ∀ k, st'.Closed (some c) k ↔ st.Closed (some c) k := by
    intro k
    unfold AStarState.Closed
    rw [hV']
  have hnc : ¬ st.Closed (some c) y.State := by
    rintro (h | ⟨c', hc', he⟩)
    · exact hnv h
    · simp only [Option.some.injEq] at hc'
      subst hc'
      exact hne he.symm
  have hlen : st.q.items.length ≤ st'.q.items.length := by
    by_cases hd : st.Disc y.State
    · rw [d5a hd]
    · rw [(d5b hd).1]; omega
  have hkey : ∀ p, p < st.q.items.length → st'.key p = st.key p := by
    intro p hp
    unfold AStarState.key
    rw [d5c p hp]
  have hsplit : ∀ p, p < st'.q.items.length →
      p < st.q.items.length ∨ (p = st.q.items.length ∧ ¬ st.Disc y.State) := by
    intro p hp
    by_cases hd : st.Disc y.State
    · rw [d5a hd] at hp; exact Or.inl hp
    · rw [(d5b hd).1] at hp
      by_cases h : p < st.q.items.length
      · exact Or.inl h
      · exact Or.inr ⟨by omega, hd⟩
  have hnewkey : ¬ st.Disc y.State → st'.key st.q.items.length = y.State := by
    intro hd
    unfold AStarState.key
    rw [(d5b hd).2]
  have hgle : ∀ k, st.Disc k → st'.g k ≤ st.g k := by
    intro k hk
    rw [hg']
    split
    · rename_i he
      subst he
      rcases hpre with h | h
      · exact absurd hk h
      · omega
    · exact le_refl _
  have hgclosed : ∀ k, st.Closed (some c) k → st'.g k = st.g k := by
    intro k hk
    rw [hg']
    have : ¬ k = y.State := fun he => hnc (he ▸ hk)
    simp [this]
  constructor
  · exact d1
  · -- imap
    intro k p hp
    rw [d6] at hp
    split at hp
    · rename_i hc
      simp only [Option.some.injEq] at hp
      subst hp
      refine ⟨by rw [(d5b hc.2).1]; omega, ?_⟩
      rw [hnewkey hc.2, hc.1]
    · obtain ⟨h1, h2⟩ := hinv.imap k p hp
      exact ⟨by omega, by rw [hkey p h1]; exact h2⟩
  · -- items
    intro p hp
    rcases hsplit p hp with h | ⟨h, hd⟩
    · obtain ⟨h1, h2⟩ := hinv.items p h
      refine ⟨by rw [d5c p h]; exact h1, ?_⟩
      rw [hkey p h, d6]
      have : ¬ (st.key p = y.State ∧ ¬ st.Disc y.State) := by
        rintro ⟨he, hnd⟩
        exact hnd (he ▸ hinv.item_disc p h)
      simp only [this, if_false]
      exact h2
    · subst h
      refine ⟨by rw [(d5b hd).2]; exact hyS, ?_⟩
      rw [hnewkey hd, d6]
      simp [hd]
  · -- disc_item
    intro k hk
    rw [d6]
    rcases (hD' k).1 hk with h | h
    · by_cases hd : st.Disc y.State
      · have : ¬ (k = y.State ∧ ¬ st.Disc y.State) := fun hh => hh.2 hd
        simp only [this, if_false]
        exact hinv.disc_item k (h ▸ hd)
      · simp [h, hd]
    · split
      · exact ⟨_, rfl⟩
      · exact hinv.disc_item k h
  · -- item_disc
    intro p hp
    rw [hD']
    rcases hsplit p hp with h | ⟨h, hd⟩
    · right; rw [hkey p h]; exact hinv.item_disc p h
    · left; subst h; exact hnewkey hd
  · -- opn
    intro p hp
    rw [hC', d7]
    rcases hsplit p hp with h | ⟨h, hd⟩
    · rw [hkey p h, ← hinv.opn p h]
      constructor
      · rintro (h1 | ⟨h1, _⟩)
        · exact h1
        · omega
      · exact Or.inl
    · subst h
      rw [hnewkey hd]
      exact ⟨fun _ => hnc, fun _ => Or.inr ⟨rfl, hd⟩⟩
  · -- prio
    intro p hp
    rw [d8 p hp, hg']
    have hp2 := (d7 p).1 hp
    by_cases hk : st'.key p = y.State
    · simp only [hk, if_true]
      have hpl : p < st'.q.items.length := by
        rcases hp2 with h | ⟨h, hd⟩
        · have := (hinv.heap.1.1 _ ((mem_iff_at st.q p).1 h).choose_spec.1).1
          rw [((mem_iff_at st.q p).1 h).choose_spec.2] at this
          omega
        · rw [(d5b hd).1]; omega
      have hps : IsState (st'.q.item p).Msquare := by
        rcases hsplit p hpl with h | ⟨h, hd⟩
        · rw [d5c p h]; exact (hinv.items p h).1
        · subst h; rw [(d5b hd).2]; exact hyS
      rw [hresp _ _ hps hyS hk]
    · simp only [hk, if_false]
      rcases hp2 with h | ⟨h, hd⟩
      · have hpl : p < st.q.items.length := by
          have := (hinv.heap.1.1 _ ((mem_iff_at st.q p).1 h).choose_spec.1).1
          rw [((mem_iff_at st.q p).1 h).choose_spec.2] at this
          exact this
        rw [hinv.prio p h, hkey p hpl, d5c p hpl]
      · subst h
        exact absurd (hnewkey hd) hk
  · -- init
    rw [d3]
    have : ¬ initial.State = y.State := fun h => hni h.symm
    simp only [this, if_false]
    exact hinv.init
  · -- pinit
    rw [d4]
    have : ¬ initial.State = y.State := fun h => hni h.symm
    simp only [this, if_false]
    exact hinv.pinit
  · -- chain
    intro k hk hki
    by_cases hky : k = y.State
    · subst hky
      refine ⟨c, by rw [d4]; simp, hcS, (hC' _).2 (Or.inr ⟨c, rfl, rfl⟩), ⟨y, hy, rfl⟩, ?_⟩
      rw [hg', hg']
      have : ¬ c.State = y.State := fun h => hne h.symm
      simp [this]
    · have hkd : st.Disc k := by
        rcases (hD' k).1 hk with h | h
        · exact absurd h hky
        · exact h
      obtain ⟨u, h1, h2, h3, h4, h5⟩ := hinv.chain k hkd hki
      refine ⟨u, by rw [d4]; simp [hky, h1], h2, (hC' _).2 h3, h4, ?_⟩
      rw [hgclosed _ h3, hg']
      simp [hky, h5]
  · -- reach
    intro k hk
    by_cases hky : k = y.State
    · subst hky
      obtain ⟨n, x, hx, hxc, hgn⟩ := hinv.reach c.State hcD
      obtain ⟨y', hy1, hy2⟩ := movesIn_succ_key hi hx hcS hxc hy
      refine ⟨n + 1, y', hy1, hy2, ?_⟩
      rw [hg']
      simp only [if_true]
      push_cast
      omega
    · have hkd : st.Disc k := by
        rcases (hD' k).1 hk with h | h
        · exact absurd h hky
        · exact h
      obtain ⟨n, x, hx, hxk, hgn⟩ := hinv.reach k hkd
      refine ⟨n, x, hx, hxk, ?_⟩
      rw [hg']
      simp [hky, hgn]
  · -- copt
    intro k hk n x hx hxk
    have hk0 := (hC' k).1 hk
    rw [hgclosed k hk0]
    exact hinv.copt k hk0 n x hx hxk
  · -- cdisc
    intro k hk
    exact (hD' k).2 (Or.inr (hinv.cdisc k ((hV' k).1 hk)))
  · -- closure
    intro k hk x z hx hxk hl
    have hk0 := (hV' k).1 hk
    obtain ⟨h1, h2⟩ := hinv.closure k hk0 x z hx hxk hl
    refine ⟨(hD' _).2 (Or.inr h1), ?_⟩
    rw [hgclosed k (Or.inl hk0)]
    have := hgle _ h1
    omega
  · -- bound
    intro k hk
    by_cases hky : k = y.State
    · subst hky
      rw [hg']
      simp only [if_true]
      have hb := hinv.bound c.State hcD
      by_cases hd : st.Disc y.State
      · rcases hpre with h | h
        · exact absurd hd h
        · have := hinv.bound _ hd
          rw [d5a hd]
          omega
      · rw [(d5b hd).1]
        push_cast
        omega
    · have hkd : st.Disc k := by
        rcases (hD' k).1 hk with h | h
        · exact absurd h hky
        · exact h
      have := hinv.bound k hkd
      rw [hg']
      simp only [hky, if_false]
      omega
  · rw [d2]; exact hinv.vnodup
  · intro k hk
    exact hinv.vstate k ((hV' k).1 hk)
  · -- curp
    intro c' hc'
    simp only [Option.some.injEq] at hc'
    subst hc'
    exact ⟨hcS, (hD' _).2 (Or.inr hcD), fun h => hcV ((hV' _).1 h)⟩
  · intro k hk
    exact hinv.ntarget k ((hV' k).1 hk)

/-! ## Informed search: the loop over the successors -/

theorem factorial_nine : Nat.factorial 9 = 362880 := rfl

theorem f_ok {h : MysticSquare3 → Except String Int} {H : MysticSquare3 → Int}
    (hH : GoodHeuristic h H) {y : MysticSquare3} (hy : IsState y) (distance : GoMap String Int)
    (hg : 0 ≤ GoMap.get distance y.State 0 ∧ GoMap.get distance y.State 0 ≤ 2 ^ 40) :
    aStar.f h distance y = .ok (GoMap.get distance y.State 0 + H y) := by
  unfold aStar.f
  have hb := hH.bound y hy
  rw [hH.ok y hy]
  simp only
  have h1 : ¬ (H y > 0 ∧ GoMap.get distance y.State 0 > MaxInt - H y) := by
    unfold MaxInt
    omega
  simp only [h1, if_false]
  congr 1
  unfold wrapInt
  omega

theorem f_some {h : MysticSquare3 → Except String Int} {H : MysticSquare3 → Int}
    (hH : GoodHeuristic h H) {y : MysticSquare3} (hy : IsState y) (distance : GoMap String Int) :
    ∃ P, aStar.f h distance y = .ok P := by
  unfold aStar.f
  rw [hH.ok y hy]
  simp only
  split
  · exact ⟨_, rfl⟩
  · exact ⟨_, rfl⟩

theorem mem_pq_lt {q : PriorityQueue} (hq : HeapWF q) {p : Nat} (hp : p ∈ q.pq) :
    p < q.items.length := by
  obtain ⟨i, hi, rfl⟩ := (mem_iff_at q p).1 hp
  exact (hq.1.1 i hi).1

/-- One pass of the body of the loop over the successors keeps the invariant, never
raises a best-known distance, and leaves the neighbour discovered at most one step
beyond the current state. -/
theorem relax_spec {h : MysticSquare3 → Except String Int} {H : MysticSquare3 → Int}
    (hH : GoodHeuristic h H) {initial : MysticSquare3} {tk : String} (hi : IsState initial)
    {c : MysticSquare3} {st : AStarState} (hinv : AInv initial tk H (some c) st)
    (y : MysticSquare3) (hy : LegalMove c y) :
    ∃ st', aStar.relax h c st y = .ok st' ∧ AInv initial tk H (some c) st' ∧
      st'.visited = st.visited ∧ (∀ k, st.Disc k → st'.Disc k ∧ st'.g k ≤ st.g k) ∧
      st'.g c.State = st.g c.State ∧ st'.Disc y.State ∧ st'.g y.State ≤ st.g c.State + 1 := by
  obtain ⟨hcS, hcD, hcV⟩ := hinv.curp c rfl
  have hyS : IsState y := legalMove_isState hy
  have hgc0 : 0 ≤ st.g c.State := hinv.g_nonneg hcD
  have hgcb : st.g c.State < 362880 := by
    have h1 := hinv.bound c.State hcD
    have h2 := hinv.items_bounded
    rw [factorial_nine] at h2
    omega
  have hwrap : wrapInt (st.g c.State + 1) = st.g c.State + 1 := by
    unfold wrapInt; omega
  cases hlk : GoMap.lookup st.distance y.State with
  | none =>
    -- the neighbour is new
    have hnd : ¬ st.Disc y.State := by simp [AStarState.Disc, hlk]
    have hnv : ¬ st.Vis y.State := fun hv => hnd (hinv.cdisc _ hv)
    have hne : ¬ y.State = c.State := fun he => hnd (he ▸ hcD)
    obtain ⟨P0, hP0⟩ := f_some hH hyS (GoMap.set st.distance y.State MaxInt)
    obtain ⟨n1, n2, n3, n4, n5, n6, n7⟩ := push_new_spec st.q hinv.heap y P0
    generalize hq1 : heap.Push (NewMysticSquareItem st.q y P0).2 (NewMysticSquareItem st.q y P0).1
      = q1 at n2 n3 n4 n5 n6 n7
    have hmem1 : st.q.items.length ∈ q1.pq := (n7 _).2 (Or.inr rfl)
    obtain ⟨u1, u2, u3, u4, u5⟩ := update_spec q1 n2 hmem1 (st.g c.State + 1 + H y)
    have hd1 : aStar.discover h st y = .ok { st with
        distance := GoMap.set st.distance y.State MaxInt,
        itemsMap := GoMap.set st.itemsMap y.State st.q.items.length, q := q1 } := by
      unfold aStar.discover
      simp only [hlk, hP0, hq1]
      rw [n1]
    have hf2 : aStar.f h (GoMap.set (GoMap.set st.distance y.State MaxInt) y.State
        (st.g c.State + 1)) y = .ok (st.g c.State + 1 + H y) := by
      have := f_ok hH hyS (GoMap.set (GoMap.set st.distance y.State MaxInt) y.State
        (st.g c.State + 1)) (by rw [GoMap.get_set]; simp; omega)
      rw [this, GoMap.get_set]
      simp
    refine ⟨{ st with
        distance := GoMap.set (GoMap.set st.distance y.State MaxInt) y.State (st.g c.State + 1),
        itemsMap := GoMap.set st.itemsMap y.State st.q.items.length,
        paths := GoMap.set st.paths y.State (some c),
        q := q1.Update st.q.items.length (st.g c.State + 1 + H y) }, ?_, ?_, rfl, ?_, ?_, ?_, ?_⟩
    · unfold aStar.relax
      simp only [hd1]
      have e1 : GoMap.get (GoMap.set st.distance y.State MaxInt) c.State 0 = st.g c.State := by
        rw [GoMap.get_set]; simp [hne, AStarState.g]
      have e2 : GoMap.get (GoMap.set st.distance y.State MaxInt) y.State 0 = MaxInt := by
        rw [GoMap.get_set]; simp
      have e3 : (GoMap.lookup st.visited y.State).isSome = false := by
        simpa [AStarState.Vis] using hnv
      have e4 : GoMap.lookup (GoMap.set st.itemsMap y.State st.q.items.length) y.State
          = some st.q.items.length := by
        rw [GoMap.lookup_set]; simp
      have e5 : st.g c.State + 1 < MaxInt := by unfold MaxInt; omega
      simp only [e1, e2, e3, e4, hwrap, e5, hf2, Bool.false_eq_true, not_false_eq_true,
        and_self, if_true]
    · apply ainv_relaxed hH.resp hi hinv y hy (Or.inl hnd) hnv
      · exact u1
      · rfl
      · intro k
        simp only [GoMap.lookup_set]
        by_cases hk : k = y.State
        · simp [hk]
        · have : ¬ y.State = k := fun h => hk h.symm
          simp [hk, this]
      · intro k
        simp only [GoMap.get_set]
        by_cases hk : k = y.State
        · simp [hk]
        · have : ¬ y.State = k := fun h => hk h.symm
          simp [hk, this]
      · intro hd; exact absurd hd hnd
      · intro _
        exact ⟨by simp only [u2, n3], by rw [(u3 _).1]; exact n5⟩
      · intro p hp
        show ((q1.Update st.q.items.length (st.g c.State + 1 + H y)).item p).Msquare = _
        rw [(u3 p).1]
        exact (n4 p hp).1
      · intro k
        simp only [GoMap.lookup_set]
        by_cases hk : k = y.State
        · simp [hk, hnd]
        · have : ¬ y.State = k := fun h => hk h.symm
          simp [hk, this]
      · intro p
        show p ∈ (q1.Update st.q.items.length (st.g c.State + 1 + H y)).pq ↔ _
        rw [u4, n7]
        simp [hnd]
      · intro p hp
        have hp1 : p ∈ q1.pq := (u4 p).1 hp
        show ((q1.Update st.q.items.length (st.g c.State + 1 + H y)).item p).priority = _
        rw [(u3 p).2]
        by_cases hpn : p = st.q.items.length
        · subst hpn
          have : AStarState.key { st with
              distance := GoMap.set (GoMap.set st.distance y.State MaxInt) y.State (st.g c.State + 1),
              itemsMap := GoMap.set st.itemsMap y.State st.q.items.length,
              paths := GoMap.set st.paths y.State (some c),
              q := q1.Update st.q.items.length (st.g c.State + 1 + H y) } st.q.items.length
              = y.State := by
            show ((q1.Update st.q.items.length (st.g c.State + 1 + H y)).item _).Msquare.State = _
            rw [(u3 _).1, n5]
          simp [this]
        · have hpo : p ∈ st.q.pq := by
            rcases (n7 p).1 hp1 with h | h
            · exact h
            · exact absurd h hpn
          have hpl := mem_pq_lt hinv.heap hpo
          have hk : ¬ AStarState.key { st with
              distance := GoMap.set (GoMap.set st.distance y.State MaxInt) y.State (st.g c.State + 1),
              itemsMap := GoMap.set st.itemsMap y.State st.q.items.length,
              paths := GoMap.set st.paths y.State (some c),
              q := q1.Update st.q.items.length (st.g c.State + 1 + H y) } p = y.State := by
            show ¬ ((q1.Update st.q.items.length (st.g c.State + 1 + H y)).item p).Msquare.State = _
            rw [(u3 p).1, (n4 p hpl).1]
            intro he
            exact hnd (by
              have := hinv.item_disc p hpl
              unfold AStarState.key at this
              rw [he] at this
              exact this)
          simp only [hpn, hk, if_false]
          exact (n4 p hpl).2
    · intro k hk
      have hky : ¬ k = y.State := fun he => hnd (he ▸ hk)
      have hky' : ¬ y.State = k := fun he => hky he.symm
      constructor
      · simp only [AStarState.Disc, GoMap.lookup_set, hky', if_false]
        exact hk
      · simp only [AStarState.g, GoMap.get_set, hky', if_false]
        exact le_refl _
    · simp only [AStarState.g, GoMap.get_set, hne, if_false]
    · simp [AStarState.Disc, GoMap.lookup_set]
    · simp [AStarState.g, GoMap.get_set]
  | some d =>
    have hyd : st.Disc y.State := by simp [AStarState.Disc, hlk]
    have hd1 : aStar.discover h st y = .ok st := by
      unfold aStar.discover
      simp only [hlk]
    have hgy : st.g y.State = d := by simp [AStarState.g, GoMap.get, hlk]
    by_cases hcond : st.g c.State + 1 < st.g y.State ∧ ¬ st.Vis y.State
    · -- the neighbour is reached by a shorter way
      obtain ⟨hlt, hnv⟩ := hcond
      have hne : ¬ y.State = c.State := by
        intro he; rw [he] at hlt; omega
      obtain ⟨p, hp, hpl, hpk, hps⟩ := hinv.pointer hyd
      have hpq : p ∈ st.q.pq := by
        apply (hinv.opn p hpl).2
        rw [hpk]
        rintro (hv | ⟨c', hc', he⟩)
        · exact hnv hv
        · simp only [Option.some.injEq] at hc'
          subst hc'
          exact hne he.symm
      obtain ⟨u1, u2, u3, u4, u5⟩ := update_spec st.q hinv.heap hpq (st.g c.State + 1 + H y)
      have hgyb : st.g y.State < 362880 := by
        have h1 := hinv.bound y.State hyd
        have h2 := hinv.items_bounded
        rw [factorial_nine] at h2
        omega
      have hf2 : aStar.f h (GoMap.set st.distance y.State (st.g c.State + 1)) y
          = .ok (st.g c.State + 1 + H y) := by
        have := f_ok hH hyS (GoMap.set st.distance y.State (st.g c.State + 1))
          (by rw [GoMap.get_set]; simp; omega)
        rw [this, GoMap.get_set]
        simp
      refine ⟨{ st with
          distance := GoMap.set st.distance y.State (st.g c.State + 1),
          paths := GoMap.set st.paths y.State (some c),
          q := st.q.Update p (st.g c.State + 1 + H y) }, ?_, ?_, rfl, ?_, ?_, ?_, ?_⟩
      · unfold aStar.relax
        simp only [hd1]
        have e3 : (GoMap.lookup st.visited y.State).isSome = false := by
          simpa [AStarState.Vis] using hnv
        have e1 : GoMap.get st.distance c.State 0 = st.g c.State := rfl
        have e2 : GoMap.get st.distance y.State 0 = st.g y.State := rfl
        simp only [e1, e2, e3, hwrap, hlt, hp, hf2, Bool.false_eq_true, not_false_eq_true,
          and_self, if_true]
      · apply ainv_relaxed hH.resp hi hinv y hy (Or.inr hlt) hnv
        · exact u1
        · rfl
        · intro k
          simp only [GoMap.lookup_set]
          by_cases hk : k = y.State
          · simp [hk]
          · have : ¬ y.State = k := fun h => hk h.symm
            simp [hk, this]
        · intro k
          simp only [GoMap.get_set]
          by_cases hk : k = y.State
          · simp [hk]
          · have : ¬ y.State = k := fun h => hk h.symm
            simp [hk, this]
        · intro _; exact u2
        · intro hd; exact absurd hyd hd
        · intro p' _
          show ((st.q.Update p (st.g c.State + 1 + H y)).item p').Msquare = _
          exact (u3 p').1
        · intro k
          simp [hyd]
        · intro p'
          show p' ∈ (st.q.Update p (st.g c.State + 1 + H y)).pq ↔ _
          rw [u4]
          simp [hyd]
        · intro p' hp'
          have hp1 : p' ∈ st.q.pq := (u4 p').1 hp'
          have hpl' := mem_pq_lt hinv.heap hp1
          show ((st.q.Update p (st.g c.State + 1 + H y)).item p').priority = _
          rw [(u3 p').2]
          have hkey : AStarState.key { st with
              distance := GoMap.set st.distance y.State (st.g c.State + 1),
              paths := GoMap.set st.paths y.State (some c),
              q := st.q.Update p (st.g c.State + 1 + H y) } p' = st.key p' := by
            show ((st.q.Update p (st.g c.State + 1 + H y)).item p').Msquare.State = _
            rw [(u3 p').1]
            rfl
          rw [hkey]
          by_cases hpp : p' = p
          · subst hpp
            simp [hpk]
          · have : ¬ st.key p' = y.State := by
              intro he
              exact hpp (hinv.key_inj hpl' hpl (he.trans hpk.symm))
            simp [hpp, this]
      · intro k hk
        constructor
        · simp only [AStarState.Disc, GoMap.lookup_set]
          split
          · rfl
          · exact hk
        · simp only [AStarState.g, GoMap.get_set]
          split
          · rename_i he
            subst he
            exact le_of_lt hlt
          · exact le_refl _
      · simp only [AStarState.g, GoMap.get_set, hne, if_false]
      · simp [AStarState.Disc, GoMap.lookup_set]
      · simp [AStarState.g, GoMap.get_set]
    · -- nothing to improve
      refine ⟨st, ?_, hinv, rfl, fun k hk => ⟨hk, le_refl _⟩, rfl, hyd, ?_⟩
      · unfold aStar.relax
        simp only [hd1]
        have e1 : GoMap.get st.distance c.State 0 = st.g c.State := rfl
        have e2 : GoMap.get st.distance y.State 0 = st.g y.State := rfl
        have e3 : ¬ (st.g c.State + 1 < st.g y.State ∧
            ¬ (GoMap.lookup st.visited y.State).isSome = true) := hcond
        simp only [e1, e2, hwrap, e3, if_false]
      · by_cases hlt : st.g c.State + 1 < st.g y.State
        · have hv : st.Vis y.State := by
            by_contra hnv
            exact hcond ⟨hlt, hnv⟩
          obtain ⟨n, x, hx, hxc, hgn⟩ := hinv.reach c.State hcD
          obtain ⟨y', hy1, hy2⟩ := movesIn_succ_key hi hx hcS hxc hy
          have := hinv.copt y.State (Or.inl hv) (n + 1) y' hy1 hy2
          push_cast at this
          omega
        · omega

/-! ## Informed search: one iteration of the main loop -/

/-- The loop over the successors keeps the invariant, never raises a best-known
distance, and leaves every successor discovered at most one step beyond the current
state. -/
theorem relaxAll_spec {h : MysticSquare3 → Except String Int} {H : MysticSquare3 → Int}
    (hH : GoodHeuristic h H) {initial : MysticSquare3} {tk : String} (hi : IsState initial)
    {c : MysticSquare3} : ∀ (l : List MysticSquare3) (st : AStarState),
    AInv initial tk H (some c) st → (∀ y, y ∈ l → LegalMove c y) →
    ∃ st', aStar.relaxAll h c l st = .ok st' ∧ AInv initial tk H (some c) st' ∧
      st'.visited = st.visited ∧ (∀ k, st.Disc k → st'.Disc k ∧ st'.g k ≤ st.g k) ∧
      st'.g c.State = st.g c.State ∧
      ∀ y, y ∈ l → st'.Disc y.State ∧ st'.g y.State ≤ st.g c.State + 1 := by
  intro l
  induction l with
  | nil =>
    intro st hinv _
    exact ⟨st, rfl, hinv, rfl, fun k hk => ⟨hk, le_refl _⟩, rfl, fun y hy => by simp at hy⟩
  | cons y rest ih =>
    intro st hinv hl
    obtain ⟨st1, r1, r2, r3, r4, r5, r6, r7⟩ :=
      relax_spec hH hi hinv y (hl y (List.mem_cons_self _ _))
    obtain ⟨st2, s1, s2, s3, s4, s5, s6⟩ :=
      ih st1 r2 (fun z hz => hl z (List.mem_cons_of_mem _ hz))
    refine ⟨st2, ?_, s2, s3.trans r3, ?_, s5.trans r5, ?_⟩
    · simp only [aStar.relaxAll, r1]
      exact s1
    · intro k hk
      obtain ⟨a1, a2⟩ := r4 k hk
      obtain ⟨b1, b2⟩ := s4 k a1
      exact ⟨b1, le_trans b2 a2⟩
    · intro z hz
      rcases List.mem_cons.1 hz with he | hz'
      · subst he
        obtain ⟨b1, b2⟩ := s4 z.State r6
        exact ⟨b1, le_trans b2 r7⟩
      · obtain ⟨b1, b2⟩ := s6 z hz'
        exact ⟨b1, by rw [r5] at b2; exact b2⟩

/-- Taking an item of least priority from the queue: the invariant holds with the
state of that item as the current state. -/
theorem ainv_pop {h : MysticSquare3 → Except String Int} {H : MysticSquare3 → Int}
    (hH : GoodHeuristic h H) {initial : MysticSquare3} {tk : String} (hi : IsState initial)
    {st : AStarState} (hinv : AInv initial tk H none st) {p : Nat} {q' : PriorityQueue}
    (hp : p ∈ st.q.pq)
    (hmin : ∀ p', p' ∈ st.q.pq → (st.q.item p).priority ≤ (st.q.item p').priority)
    (hwf : HeapWF q') (hsame : SameItems st.q q')
    (hmem : ∀ p', p' ∈ q'.pq ↔ p' ∈ st.q.pq ∧ p' ≠ p) :
    AInv initial tk H (some (q'.item p).Msquare) { st with q := q' } := by
  have hpl : p < st.q.items.length := mem_pq_lt hinv.heap hp
  have hc : (q'.item p).Msquare = (st.q.item p).Msquare := (hsame.2 p).1
  rw [hc]
  have hkey : ∀ p', AStarState.key { st with q := q' } p' = st.key p' := by
    intro p'
    show (q'.item p').Msquare.State = (st.q.item p').Msquare.State
    rw [(hsame.2 p').1]
  have hlen : q'.items.length = st.q.items.length := hsame.1
  have hcS : IsState (st.q.item p).Msquare := (hinv.items p hpl).1
  have hcD : st.Disc (st.q.item p).Msquare.State := hinv.item_disc p hpl
  have hcV : ¬ st.Vis (st.q.item p).Msquare.State := by
    intro hv
    exact (hinv.opn p hpl).1 hp (Or.inl hv)
  have hmono : ∀ k, st.Closed none k → st.Closed (some (st.q.item p).Msquare) k := by
    rintro k (hv | ⟨c, hc', _⟩)
    · exact Or.inl hv
    · simp at hc'
  constructor
  · exact hwf
  · intro k p' hp'
    have := hinv.imap k p' hp'
    exact ⟨by show p' < q'.items.length; rw [hlen]; exact this.1, (hkey p').trans this.2⟩
  · intro p' hp'
    have hp'' : p' < st.q.items.length := by rw [← hlen]; exact hp'
    have := hinv.items p' hp''
    refine ⟨?_, ?_⟩
    · show IsState (q'.item p').Msquare
      rw [(hsame.2 p').1]; exact this.1
    · rw [hkey]; exact this.2
  · exact hinv.disc_item
  · intro p' hp'
    have hp'' : p' < st.q.items.length := by rw [← hlen]; exact hp'
    rw [hkey]; exact hinv.item_disc p' hp''
  · intro p' hp'
    have hp'' : p' < st.q.items.length := by rw [← hlen]; exact hp'
    rw [hkey]
    show p' ∈ q'.pq ↔ _
    rw [hmem, hinv.opn p' hp'']
    constructor
    · rintro ⟨h1, h2⟩ (hv | ⟨c, hc', he⟩)
      · exact h1 (Or.inl hv)
      · simp only [Option.some.injEq] at hc'
        subst hc'
        exact h2 (hinv.key_inj hp'' hpl he.symm)
    · intro h1
      refine ⟨fun h2 => h1 (hmono _ h2), ?_⟩
      intro he
      subst he
      exact h1 (Or.inr ⟨_, rfl, rfl⟩)
  · intro p' hp'
    have hp1 : p' ∈ st.q.pq := ((hmem p').1 hp').1
    rw [hkey]
    show (q'.item p').priority = _ + H (q'.item p').Msquare
    rw [(hsame.2 p').1, (hsame.2 p').2]
    exact hinv.prio p' hp1
  · exact hinv.init
  · exact hinv.pinit
  · intro k hk hne
    obtain ⟨u, h1, h2, h3, h4, h5⟩ := hinv.chain k hk hne
    exact ⟨u, h1, h2, hmono _ h3, h4, h5⟩
  · exact hinv.reach
  · rintro k (hv | ⟨c, hc', he⟩) n x hx hxk
    · exact hinv.copt k (Or.inl hv) n x hx hxk
    · simp only [Option.some.injEq] at hc'
      subst hc'
      subst he
      have hxS : IsState x := movesIn_isState hx hi
      rcases hinv.frontier hH.cons hH.resp hi hx with hv | ⟨p', m, h1, h2, h3, h4⟩
      · rw [hxk] at hv
        exact absurd hv hcV
      · have e1 := hinv.prio p hp
        have e2 := hinv.prio p' h1
        have e3 := hmin p' h1
        have e4 : H x = H (st.q.item p).Msquare := hH.resp _ _ hxS hcS hxk
        show st.g (st.key p) ≤ n
        omega
  · exact hinv.cdisc
  · exact hinv.closure
  · intro k hk
    show st.g k < q'.items.length
    rw [hlen]; exact hinv.bound k hk
  · exact hinv.vnodup
  · exact hinv.vstate
  · intro c hc'
    simp only [Option.some.injEq] at hc'
    subst hc'
    exact ⟨hcS, hcD, hcV⟩
  · exact hinv.ntarget

/-- Marking the current state visited after all its successors have been relaxed:
the invariant holds again with no current state, and one more state is visited. -/
theorem ainv_close {H : MysticSquare3 → Int} {initial : MysticSquare3} {tk : String}
    {c : MysticSquare3} {st : AStarState} (hinv : AInv initial tk H (some c) st)
    (hsucc : ∀ y, LegalMove c y → st.Disc y.State ∧ st.g y.State ≤ st.g c.State + 1)
    (hnt : c.State ≠ tk) :
    AInv initial tk H none { st with visited := GoMap.set st.visited c.State true } ∧
      (GoMap.set st.visited c.State true).length = st.visited.length + 1 := by
  obtain ⟨hcS, hcD, hcV⟩ := hinv.curp c rfl
  have hnm : c.State ∉ GoMap.keys st.visited := by
    intro hm
    exact hcV ((GoMap.isSome_lookup_iff _ _).2 hm)
  have hset : GoMap.set st.visited c.State true = st.visited ++ [(c.State, true)] :=
    GoMap.set_of_not_mem _ _ _ hnm
  have hV : ∀ k, AStarState.Vis { st with visited := GoMap.set st.visited c.State true } k ↔
      st.Closed (some c) k := by
    intro k
    unfold AStarState.Vis AStarState.Closed
    show (GoMap.lookup (GoMap.set st.visited c.State true) k).isSome = true ↔ _
    rw [GoMap.lookup_set]
    by_cases hk : c.State = k
    · simp [hk]
    · simp only [hk, if_false]
      constructor
      · intro hv; exact Or.inl hv
      · rintro (hv | ⟨c', hc', he⟩)
        · exact hv
        · simp only [Option.some.injEq] at hc'
          subst hc'
          exact absurd he hk
  have hC : ∀ k, AStarState.Closed { st with visited := GoMap.set st.visited c.State true } none k
      ↔ st.Closed (some c) k := by
    intro k
    rw [← hV]
    unfold AStarState.Closed
    simp
  refine ⟨?_, ?_⟩
  · constructor
    · exact hinv.heap
    · exact hinv.imap
    · exact hinv.items
    · exact hinv.disc_item
    · exact hinv.item_disc
    · intro p hp
      rw [hC]
      exact hinv.opn p hp
    · exact hinv.prio
    · exact hinv.init
    · exact hinv.pinit
    · intro k hk hne
      obtain ⟨u, h1, h2, h3, h4, h5⟩ := hinv.chain k hk hne
      exact ⟨u, h1, h2, (hC _).2 h3, h4, h5⟩
    · exact hinv.reach
    · intro k hk
      exact hinv.copt k ((hC k).1 hk)
    · intro k hk
      rcases (hV k).1 hk with hv | ⟨c', hc', he⟩
      · exact hinv.cdisc k hv
      · simp only [Option.some.injEq] at hc'
        subst hc'
        subst he
        exact hcD
    · intro k hk x y hx hxk hxy
      rcases (hV k).1 hk with hv | ⟨c', hc', he⟩
      · exact hinv.closure k hv x y hx hxk hxy
      · simp only [Option.some.injEq] at hc'
        subst hc'
        subst he
        obtain ⟨y', h1, h2⟩ := legalMove_respects hx hcS hxk hxy
        have := hsucc y' h1
        rw [h2] at this
        exact this
    · exact hinv.bound
    · show (GoMap.keys (GoMap.set st.visited c.State true)).Nodup
      rw [hset]
      simp only [GoMap.keys, List.map_append, List.map_cons, List.map_nil]
      rw [List.nodup_append]
      refine ⟨hinv.vnodup, List.nodup_singleton _, ?_⟩
      intro a ha hb
      simp only [List.mem_singleton] at hb
      subst hb
      exact hnm ha
    · intro k hk
      rcases (hV k).1 hk with hv | ⟨c', hc', he⟩
      · exact hinv.vstate k hv
      · simp only [Option.some.injEq] at hc'
        subst hc'
        exact ⟨_, hcS, he⟩
    · intro c' hc'
      simp at hc'
    · intro k hk
      rcases (hV k).1 hk with hv | ⟨c', hc', he⟩
      · exact hinv.ntarget k hv
      · simp only [Option.some.injEq] at hc'
        subst hc'
        subst he
        exact hnt
  · rw [hset]
    simp

/-! ## Informed search: the main loop -/

section

variable {initial : MysticSquare3} {tk : String} {H : MysticSquare3 → Int}
  {cur : Option MysticSquare3} {st : AStarState}

theorem AInv.closed_disc (hinv : AInv initial tk H cur st) {k : String}
    (hk : st.Closed cur k) : st.Disc k := by
  rcases hk with hv | ⟨c, hc, he⟩
  · exact hinv.cdisc k hv
  · subst he
    exact (hinv.curp c hc).2.1

/-- The predecessor map leads from every discovered key back to the initial key in as
many steps as its best-known distance says. -/
theorem AInv.chain_of_disc (hinv : AInv initial tk H cur st) :
    ∀ (d : Nat) (k : String), st.Disc k → st.g k = d → Chain st.paths k d := by
  intro d
  induction d with
  | zero =>
    intro k hk hg
    by_cases hne : k = initial.State
    · subst hne
      exact Chain.stop hinv.pinit
    · obtain ⟨u, _, _, h3, _, h5⟩ := hinv.chain k hk hne
      have := hinv.g_nonneg (hinv.closed_disc h3)
      simp only [Nat.cast_zero] at hg
      omega
  | succ d ih =>
    intro k hk hg
    by_cases hne : k = initial.State
    · subst hne
      have : st.g initial.State = 0 := by
        simp [AStarState.g, GoMap.get, hinv.init]
      rw [this] at hg
      push_cast at hg
      omega
    · obtain ⟨u, h1, _, h3, _, h5⟩ := hinv.chain k hk hne
      refine Chain.step h1 (ih u.State (hinv.closed_disc h3) ?_)
      push_cast at hg
      omega

end

theorem aStar_loop_spec {h : MysticSquare3 → Except String Int} {H : MysticSquare3 → Int}
    (hH : GoodHeuristic h H) {initial : MysticSquare3} {tk : String} (hi : IsState initial) :
    ∀ (fuel : Nat) (st : AStarState), AInv initial tk H none st →
      (Nat.factorial 9 + 1 - st.visited.length ≤ fuel → ∃ r, aStar.loop h tk fuel st = .ok r) ∧
      (∀ r, aStar.loop h tk fuel st = .ok r → SearchSpec initial tk r) := by
  intro fuel
  induction fuel with
  | zero =>
    intro st hinv
    have := hinv.visited_bounded
    refine ⟨fun hf => by omega, fun r hr => ?_⟩
    simp [aStar.loop] at hr
  | succ fuel ih =>
    intro st hinv
    by_cases hne : st.q.pq = []
    · have hp := process_empty st.q hne
      have hl : aStar.loop h tk (fuel + 1) st = .ok ⟨st.paths, false⟩ := by
        simp [aStar.loop, hp]
      rw [hl]
      refine ⟨fun _ => ⟨_, rfl⟩, fun r hr => ?_⟩
      simp only [Except.ok.injEq] at hr
      subst hr
      refine Or.inr ⟨rfl, ?_⟩
      intro n x hx hxk
      rcases hinv.frontier hH.cons hH.resp hi hx with hv | ⟨p, _, hp', _⟩
      · exact hinv.ntarget _ hv hxk
      · rw [hne] at hp'
        simp at hp'
    · obtain ⟨p, q', hp, p1, p2, p3, p4, p5, _, _⟩ := process_spec st.q hinv.heap hne
      have hinv1 := ainv_pop hH hi hinv p1 p2 p3 p4 p5
      by_cases htk : (q'.item p).Msquare.State = tk
      · have hl : aStar.loop h tk (fuel + 1) st = .ok ⟨st.paths, true⟩ := by
          simp [aStar.loop, hp, htk]
        rw [hl]
        refine ⟨fun _ => ⟨_, rfl⟩, fun r hr => ?_⟩
        simp only [Except.ok.injEq] at hr
        subst hr
        have hd : AStarState.Disc { st with q := q' } tk := by
          rw [← htk]; exact (hinv1.curp _ rfl).2.1
        obtain ⟨n, x, hx, hxk, hg⟩ := hinv1.reach tk hd
        refine Or.inl ⟨rfl, n, hinv1.chain_of_disc n tk hd hg, ⟨x, hx, hxk⟩, ?_⟩
        intro m z hz hzk
        have := hinv1.copt tk (Or.inr ⟨_, rfl, htk⟩) m z hz hzk
        rw [hg] at this
        exact_mod_cast this
      · obtain ⟨st2, s1, s2, s3, s4, s5, s6⟩ := relaxAll_spec hH hi
          (adjacentSquares (q'.item p).Msquare) _ hinv1
          (fun y hy => (mem_adjacentSquares _ _).1 hy)
        have hsucc : ∀ y, LegalMove (q'.item p).Msquare y →
            st2.Disc y.State ∧ st2.g y.State ≤ st2.g (q'.item p).Msquare.State + 1 := by
          intro y hy
          rw [s5]
          exact s6 y ((mem_adjacentSquares _ _).2 hy)
        obtain ⟨hinv3, hlen⟩ := ainv_close s2 hsucc htk
        have hl : aStar.loop h tk (fuel + 1) st = aStar.loop h tk fuel
            { st2 with visited := GoMap.set st2.visited (q'.item p).Msquare.State true } := by
          simp [aStar.loop, hp, htk, s1]
        rw [hl]
        have hlen' : (GoMap.set st2.visited (q'.item p).Msquare.State true).length
            = st.visited.length + 1 := by
          rw [hlen, s3]
        obtain ⟨i1, i2⟩ := ih _ hinv3
        refine ⟨fun hf => i1 ?_, i2⟩
        show Nat.factorial 9 + 1 - (GoMap.set st2.visited (q'.item p).Msquare.State true).length
          ≤ fuel
        rw [hlen']
        omega

/-- The invariant holds when the main loop is entered. -/
theorem ainv_initial {H : MysticSquare3 → Int} {initial : MysticSquare3} (tk : String)
    (hi : IsState initial) (Q : PriorityQueue) (hQ : HeapWF Q) (hpq : Q.pq = [0])
    (hitems : Q.items = [⟨initial, 0 + H initial, 0⟩]) :
    AInv initial tk H none (aStar.start Q initial) := by
  have hitem : Q.item 0 = ⟨initial, 0 + H initial, 0⟩ := by
    simp [PriorityQueue.item, hitems]
  have hlen : Q.items.length = 1 := by rw [hitems]; rfl
  have hdisc : ∀ k, AStarState.Disc (aStar.start Q initial) k ↔ k = initial.State := by
    intro k
    simp only [AStarState.Disc, aStar.start, GoMap.lookup_set]
    by_cases hk : initial.State = k
    · simp [hk]
    · have : ¬ k = initial.State := fun h => hk h.symm
      simp [hk, this, GoMap.lookup]
  have hvis : ∀ k, ¬ AStarState.Vis (aStar.start Q initial) k := by
    intro k
    simp [AStarState.Vis, aStar.start, GoMap.lookup]
  have hclosed : ∀ k, ¬ AStarState.Closed (aStar.start Q initial) none k := by
    rintro k (hv | ⟨c, hc, _⟩)
    · exact hvis k hv
    · simp at hc
  have hg : AStarState.g (aStar.start Q initial) initial.State = 0 := by
    simp [AStarState.g, aStar.start, GoMap.get_set]
  have hkey : AStarState.key (aStar.start Q initial) 0 = initial.State := by
    show (Q.item 0).Msquare.State = _
    rw [hitem]
  constructor
  · exact hQ
  · intro k p hp
    simp only [aStar.start, GoMap.lookup_set] at hp
    split at hp
    · rename_i hk
      simp only [Option.some.injEq] at hp
      subst hp
      subst hk
      exact ⟨by show 0 < Q.items.length; omega, hkey⟩
    · simp [GoMap.lookup] at hp
  · intro p hp
    have hp0 : p = 0 := by
      have : p < Q.items.length := hp
      omega
    subst hp0
    refine ⟨by show IsState (Q.item 0).Msquare; rw [hitem]; exact hi, ?_⟩
    rw [hkey]
    simp [aStar.start, GoMap.lookup_set]
  · intro k hk
    rw [hdisc] at hk
    subst hk
    exact ⟨0, by simp [aStar.start, GoMap.lookup_set]⟩
  · intro p hp
    have hp0 : p = 0 := by
      have : p < Q.items.length := hp
      omega
    subst hp0
    rw [hkey, hdisc]
  · intro p hp
    have hp0 : p = 0 := by
      have : p < Q.items.length := hp
      omega
    subst hp0
    constructor
    · intro _; exact hclosed _
    · intro _; show 0 ∈ Q.pq; rw [hpq]; simp
  · intro p hp
    have hp' : p ∈ Q.pq := hp
    rw [hpq] at hp'
    simp only [List.mem_singleton] at hp'
    subst hp'
    rw [hkey, hg]
    show (Q.item 0).priority = 0 + H (Q.item 0).Msquare
    rw [hitem]
  · simp [aStar.start, GoMap.lookup_set]
  · simp [aStar.start, GoMap.get_set]
  · intro k hk hne
    rw [hdisc] at hk
    exact absurd hk hne
  · intro k hk
    rw [hdisc] at hk
    subst hk
    exact ⟨0, initial, MovesIn.zero initial, rfl, by rw [hg]; rfl⟩
  · intro k hk
    exact absurd hk (hclosed k)
  · intro k hk
    exact absurd hk (hvis k)
  · intro k hk
    exact absurd hk (hvis k)
  · intro k hk
    rw [hdisc] at hk
    subst hk
    rw [hg]
    show (0 : Int) < Q.items.length
    rw [hlen]
    decide
  · exact List.nodup_nil
  · intro k hk
    exact absurd hk (hvis k)
  · intro c hc
    simp at hc
  · intro k hk
    exact absurd hk (hvis k)

/-- The function `aStar` with a consistent heuristic: with 9! + 1 iterations allowed it
returns, and whatever it returns is right. -/
theorem aStar_spec {h : MysticSquare3 → Except String Int} {H : MysticSquare3 → Int}
    (hH : GoodHeuristic h H) {initial : MysticSquare3} (hi : IsState initial)
    (target : MysticSquare3) :
    (∀ fuel, Nat.factorial 9 + 1 ≤ fuel → ∃ r, aStar fuel initial target h = .ok r) ∧
    (∀ fuel r, aStar fuel initial target h = .ok r → SearchSpec initial target.State r) := by
  have hf : aStar.f h (GoMap.set [] initial.State 0) initial = .ok (0 + H initial) := by
    have := f_ok hH hi (GoMap.set [] initial.State 0) (by rw [GoMap.get_set]; simp)
    rw [this, GoMap.get_set]
    simp
  obtain ⟨q1, q2, q3⟩ := initial_queue_spec initial (0 + H initial)
  have hinv := @ainv_initial H initial target.State hi _ q1 q2 q3
  have hl : ∀ fuel, aStar fuel initial target h = aStar.loop h target.State fuel
      (aStar.start (heap.Init ((NewMysticSquareItem NewMysticSquarePriorityQueue initial
          (0 + H initial)).2.Push 0)) initial) := by
    intro fuel
    unfold aStar
    simp only [hf]
    rfl
  constructor
  · intro fuel hfuel
    rw [hl]
    exact (aStar_loop_spec hH hi fuel _ hinv).1 (by
      show Nat.factorial 9 + 1 - 0 ≤ fuel
      omega)
  · intro fuel r hr
    rw [hl] at hr
    exact (aStar_loop_spec hH hi fuel _ hinv).2 r hr

/-! ## The two heuristics -/

theorem posOf_range (m : GoMap Int Int) (v : Int) : posOf m v ∈ (0 :: tiles) := by
  unfold posOf
  cases hf : tiles.find? fun k => GoMap.get m k 0 = v with
  | none => simp
  | some x =>
    have := List.mem_of_find?_eq_some hf
    simp only [Option.getD_some]
    exact List.mem_cons_of_mem _ this

set_option maxRecDepth 100000 in
theorem gridDist_le : ∀ k, k ∈ tiles → ∀ q, q ∈ (0 :: tiles) → gridDist k q ≤ 6 := by
  decide

theorem mdCells_le (s t : GoMap Int Int) : mdCells s t ≤ 54 := by
  unfold mdCells
  have h := List.sum_le_card_nsmul (tiles.map fun k => cellCost t k (GoMap.get s k 0)) 6 (by
    intro x hx
    obtain ⟨k, hk, rfl⟩ := List.mem_map.1 hx
    unfold cellCost
    split
    · decide
    · exact gridDist_le k hk _ (posOf_range _ _))
  simpa [tiles] using h

/-- The heuristic that `realAlgorithm` passes to `aStar` is consistent. -/
theorem manhattan_good {t : MysticSquare3} (ht : IsState t) :
    GoodHeuristic (manhattanTo t) (fun s => mdCells s.state t.state) where
  ok := fun s hs => manhattanDistance_eq hs.1 ht.1
  resp := fun a b ha hb h => mdCells_congr t.state ((state_eq_iff_cells ha hb).1 h)
  cons := fun a b _ h => (legalMove_mdCells h ht.1).1
  bound := fun s _ => ⟨mdCells_nonneg _ _, le_trans (mdCells_le _ _) (by decide)⟩

theorem zero_good : GoodHeuristic zeroHeuristic (fun _ => 0) where
  ok := fun _ _ => rfl
  resp := fun _ _ _ _ _ => rfl
  cons := fun _ _ _ _ => by decide
  bound := fun _ _ => ⟨le_refl _, by decide⟩

/-! ## Uniform-cost search is informed search with the zero heuristic -/

theorem f_zero (distance : GoMap String Int) (y : MysticSquare3) :
    aStar.f zeroHeuristic distance y = .ok (wrapInt (GoMap.get distance y.State 0 + 0)) := by
  simp [aStar.f, zeroHeuristic]

theorem wrapInt_maxInt : wrapInt (MaxInt + 0) = MaxInt := by decide

/-- Under the invariant the body of the loop over the successors does the same in
both searches: a visited neighbour never has a distance to improve. -/
theorem relax_agree {initial : MysticSquare3} {tk : String} (hi : IsState initial)
    {c : MysticSquare3} {st : AStarState}
    (hinv : AInv initial tk (fun _ => 0) (some c) st) (y : MysticSquare3) (hy : LegalMove c y) :
    dijkstrasAlgorithm.relax c st.toDijkstra y
      = (aStar.relax zeroHeuristic c st y).map AStarState.toDijkstra := by
  obtain ⟨hcS, hcD, hcV⟩ := hinv.curp c rfl
  have hgc0 : 0 ≤ st.g c.State := hinv.g_nonneg hcD
  have hgcb : st.g c.State < 362880 := by
    have h1 := hinv.bound c.State hcD
    have h2 := hinv.items_bounded
    rw [factorial_nine] at h2
    omega
  have hwrap : wrapInt (st.g c.State + 1) = st.g c.State + 1 := by
    unfold wrapInt; omega
  have hwrap2 : wrapInt (st.g c.State + 1 + 0) = st.g c.State + 1 := by
    unfold wrapInt; omega
  have e1 : GoMap.get st.distance c.State 0 = st.g c.State := rfl
  cases hlk : GoMap.lookup st.distance y.State with
  | none =>
    have hnd : ¬ st.Disc y.State := by simp [AStarState.Disc, hlk]
    have hnv : ¬ st.Vis y.State := fun hv => hnd (hinv.cdisc _ hv)
    have hne : ¬ y.State = c.State := fun he => hnd (he ▸ hcD)
    have e3 : GoMap.lookup st.visited y.State = none := by
      cases hv : GoMap.lookup st.visited y.State with
      | none => rfl
      | some b => exact absurd (by simp [AStarState.Vis, hv]) hnv
    have e5 : st.g c.State + 1 < MaxInt := by unfold MaxInt; omega
    simp only [dijkstrasAlgorithm.relax, dijkstrasAlgorithm.discover, aStar.relax,
      aStar.discover, AStarState.toDijkstra, hlk, f_zero, GoMap.get_set, GoMap.lookup_set,
      if_true, hne, if_false, e1, hwrap, hwrap2, wrapInt_maxInt, e5, e3, Option.isSome_none,
      Bool.false_eq_true, not_false_eq_true, and_self, Except.map]
  | some d =>
    have hyd : st.Disc y.State := by simp [AStarState.Disc, hlk]
    have e2 : GoMap.get st.distance y.State 0 = st.g y.State := rfl
    by_cases hlt : st.g c.State + 1 < st.g y.State
    · have hnv : ¬ st.Vis y.State := by
        intro hv
        obtain ⟨n, x, hx, hxc, hgn⟩ := hinv.reach c.State hcD
        obtain ⟨y', hy1, hy2⟩ := movesIn_succ_key hi hx hcS hxc hy
        have := hinv.copt y.State (Or.inl hv) (n + 1) y' hy1 hy2
        push_cast at this
        omega
      have e3 : GoMap.lookup st.visited y.State = none := by
        cases hv : GoMap.lookup st.visited y.State with
        | none => rfl
        | some b => exact absurd (by simp [AStarState.Vis, hv]) hnv
      obtain ⟨p, hp, _⟩ := hinv.pointer hyd
      simp only [dijkstrasAlgorithm.relax, dijkstrasAlgorithm.discover, aStar.relax,
        aStar.discover, AStarState.toDijkstra, hlk, f_zero, GoMap.get_set,
        if_true, e1, e2, hwrap, hwrap2, hlt, e3, hp, Option.isSome_none,
        Bool.false_eq_true, not_false_eq_true, and_self, Except.map]
    · simp only [dijkstrasAlgorithm.relax, dijkstrasAlgorithm.discover, aStar.relax,
        aStar.discover, AStarState.toDijkstra, hlk, e1, e2, hwrap, hlt, false_and,
        if_false, Except.map]

theorem relaxAll_agree {initial : MysticSquare3} {tk : String} (hi : IsState initial)
    {c : MysticSquare3} : ∀ (l : List MysticSquare3) (st : AStarState),
    AInv initial tk (fun _ => 0) (some c) st → (∀ y, y ∈ l → LegalMove c y) →
    dijkstrasAlgorithm.relaxAll c l st.toDijkstra
      = (aStar.relaxAll zeroHeuristic c l st).map AStarState.toDijkstra := by
  intro l
  induction l with
  | nil =>
    intro st _ _
    rfl
  | cons y rest ih =>
    intro st hinv hl
    have hy := hl y (List.mem_cons_self _ _)
    obtain ⟨st1, r1, r2, _⟩ := relax_spec zero_good hi hinv y hy
    have h1 := relax_agree hi hinv y hy
    rw [r1] at h1
    simp only [dijkstrasAlgorithm.relaxAll, aStar.relaxAll, h1, r1, Except.map]
    exact ih st1 r2 (fun z hz => hl z (List.mem_cons_of_mem _ hz))

theorem loop_agree {initial : MysticSquare3} {tk : String} (hi : IsState initial) :
    ∀ (fuel : Nat) (st : AStarState), AInv initial tk (fun _ => 0) none st →
    dijkstrasAlgorithm.loop tk fuel st.toDijkstra = aStar.loop zeroHeuristic tk fuel st := by
  intro fuel
  induction fuel with
  | zero =>
    intro st _
    rfl
  | succ fuel ih =>
    intro st hinv
    by_cases hne : st.q.pq = []
    · have hp := process_empty st.q hne
      simp [dijkstrasAlgorithm.loop, aStar.loop, AStarState.toDijkstra, hp]
    · obtain ⟨p, q', hp, p1, p2, p3, p4, p5, _, _⟩ := process_spec st.q hinv.heap hne
      have hinv1 := ainv_pop zero_good hi hinv p1 p2 p3 p4 p5
      by_cases htk : (q'.item p).Msquare.State = tk
      · simp [dijkstrasAlgorithm.loop, aStar.loop, AStarState.toDijkstra, hp, htk]
      · obtain ⟨st2, s1, s2, s3, s4, s5, s6⟩ := relaxAll_spec zero_good hi
          (adjacentSquares (q'.item p).Msquare) _ hinv1
          (fun y hy => (mem_adjacentSquares _ _).1 hy)
        have hsucc : ∀ y, LegalMove (q'.item p).Msquare y →
            st2.Disc y.State ∧ st2.g y.State ≤ st2.g (q'.item p).Msquare.State + 1 := by
          intro y hy
          rw [s5]
          exact s6 y ((mem_adjacentSquares _ _).2 hy)
        obtain ⟨hinv3, _⟩ := ainv_close s2 hsucc htk
        have ha := relaxAll_agree hi (adjacentSquares (q'.item p).Msquare) _ hinv1
          (fun y hy => (mem_adjacentSquares _ _).1 hy)
        rw [s1] at ha
        have hl : aStar.loop zeroHeuristic tk (fuel + 1) st = aStar.loop zeroHeuristic tk fuel
            { st2 with visited := GoMap.set st2.visited (q'.item p).Msquare.State true } := by
          simp [aStar.loop, hp, htk, s1]
        have hd : dijkstrasAlgorithm.loop tk (fuel + 1) st.toDijkstra
            = dijkstrasAlgorithm.loop tk fuel st2.toDijkstra := by
          have ha' : dijkstrasAlgorithm.relaxAll (q'.item p).Msquare
              (adjacentSquares (q'.item p).Msquare)
              { q := q', paths := st.paths, distance := st.distance, itemsMap := st.itemsMap }
              = .ok st2.toDijkstra := ha
          simp [dijkstrasAlgorithm.loop, AStarState.toDijkstra, hp, htk]
          rw [ha']
          rfl
        rw [hl, hd]
        exact ih _ hinv3

/-- The function `dijkstrasAlgorithm` returns what `aStar` returns with the heuristic
that is constantly zero. -/
theorem dijkstra_eq_aStar {initial : MysticSquare3} (hi : IsState initial)
    (target : MysticSquare3) (fuel : Nat) :
    dijkstrasAlgorithm fuel initial target = aStar fuel initial target zeroHeuristic := by
  obtain ⟨q1, q2, q3⟩ := initial_queue_spec initial (0 + 0)
  have hinv := @ainv_initial (fun _ => 0) initial target.State hi _ q1 q2 q3
  have h := loop_agree hi fuel _ hinv
  have e0 : GoMap.get (GoMap.set [] initial.State 0) initial.State 0 = (0 + 0 : Int) := by
    rw [GoMap.get_set]; simp
  have e1 : wrapInt (0 + 0 + 0) = 0 + 0 := by decide
  unfold dijkstrasAlgorithm aStar
  simp only [f_zero, e0, e1]
  exact h

/-! ## Breadth-first search: visiting one successor -/

/-- Visiting the successor `y` of the current state `c` keeps the invariant, with `y`
counted one move beyond `c` when it is new. -/
theorem binv_visit {initial : MysticSquare3} {tk : String} {g : String → Nat}
    (hi : IsState initial) {c : MysticSquare3} {st : BfsState}
    (hinv : BInv initial tk g (some c) st) (y : MysticSquare3) (hy : LegalMove c y) :
    ∃ g', BInv initial tk g' (some c) (bfs.visit c st y) ∧
      (∀ k, st.Vis k → g' k = g k ∧ (bfs.visit c st y).Vis k) ∧
      (bfs.visit c st y).Vis y.State ∧ g' y.State ≤ g' c.State + 1 ∧
      (bfs.visit c st y).visited.length + st.q.length
        = st.visited.length + (bfs.visit c st y).q.length := by
  obtain ⟨hcS, hcV, hcQ⟩ := hinv.curp c rfl
  have hyS : IsState y := legalMove_isState hy
  obtain ⟨xc, hxc, hxck⟩ := hinv.reach c.State hcV
  obtain ⟨y', hy1, hy2⟩ := movesIn_succ_key hi hxc hcS hxck hy
  cases hlk : GoMap.lookup st.visited y.State with
  | some b =>
    have hv : st.Vis y.State := by simp [BfsState.Vis, hlk]
    have he : bfs.visit c st y = st := by simp [bfs.visit, hlk]
    rw [he]
    refine ⟨g, hinv, fun k hk => ⟨rfl, hk⟩, hv, ?_, rfl⟩
    by_cases hq : st.InQ y.State
    · obtain ⟨u, hu, huk⟩ := hq
      rw [← huk]
      exact (hinv.cspan c rfl u hu).2
    · exact hinv.copt y.State hv hq _ y' hy1 hy2
  | none =>
    have hnv : ¬ st.Vis y.State := by simp [BfsState.Vis, hlk]
    have he : bfs.visit c st y = (⟨st.q ++ [y], GoMap.set st.visited y.State true,
          GoMap.set st.paths y.State (some c)⟩ : BfsState) := by
      simp [bfs.visit, hlk, Queue.Push]
    rw [he]
    have hnq : ¬ st.InQ y.State := by
      rintro ⟨u, hu, huk⟩
      exact hnv (huk ▸ (hinv.qstate u hu).2)
    have hnc : ¬ c.State = y.State := fun h => hnv (h ▸ hcV)
    have hni : ¬ initial.State = y.State := fun h => hnv (h ▸ hinv.vinit)
    have hnm : y.State ∉ GoMap.keys st.visited := (GoMap.lookup_eq_none_iff _ _).1 hlk
    have hset : GoMap.set st.visited y.State true = st.visited ++ [(y.State, true)] :=
      GoMap.set_of_not_mem _ _ _ hnm
    have hg : ∀ k, st.Vis k → (if k = y.State then g c.State + 1 else g k) = g k := by
      intro k hk
      have : ¬ k = y.State := fun h => hnv (h ▸ hk)
      simp [this]
    have hgy : (if y.State = y.State then g c.State + 1 else g y.State) = g c.State + 1 := by
      simp
    have hV : ∀ k, BfsState.Vis (⟨st.q ++ [y], GoMap.set st.visited y.State true,
          GoMap.set st.paths y.State (some c)⟩ : BfsState) k ↔ k = y.State ∨ st.Vis k := by
      intro k
      simp only [BfsState.Vis, GoMap.lookup_set]
      by_cases hk : y.State = k
      · simp [hk]
      · have : ¬ k = y.State := fun h => hk h.symm
        simp [hk, this]
    have hQ : ∀ k, BfsState.InQ (⟨st.q ++ [y], GoMap.set st.visited y.State true,
          GoMap.set st.paths y.State (some c)⟩ : BfsState) k ↔ st.InQ k ∨ k = y.State := by
      intro k
      simp only [BfsState.InQ, List.mem_append, List.mem_singleton]
      constructor
      · rintro ⟨u, hu | hu, huk⟩
        · exact Or.inl ⟨u, hu, huk⟩
        · subst hu; exact Or.inr huk.symm
      · rintro (⟨u, hu, huk⟩ | h)
        · exact ⟨u, Or.inl hu, huk⟩
        · exact ⟨y, Or.inr rfl, h.symm⟩
    have hgq : ∀ u, u ∈ st.q → (if u.State = y.State then g c.State + 1 else g u.State)
        = g u.State := fun u hu => hg _ (hinv.qstate u hu).2
    refine ⟨fun k => if k = y.State then g c.State + 1 else g k, ?_, ?_, ?_, ?_, ?_⟩
    · constructor
      · intro u hu
        rcases List.mem_append.1 hu with h | h
        · exact ⟨(hinv.qstate u h).1, (hV _).2 (Or.inr (hinv.qstate u h).2)⟩
        · simp only [List.mem_singleton] at h
          subst h
          exact ⟨hyS, (hV _).2 (Or.inl rfl)⟩
      · show ((st.q ++ [y]).map MysticSquare3.State).Nodup
        rw [List.map_append, List.nodup_append]
        refine ⟨hinv.qnodup, List.nodup_singleton _, ?_⟩
        intro a ha hb
        simp only [List.map_cons, List.map_nil, List.mem_singleton] at hb
        subst hb
        obtain ⟨u, hu, huk⟩ := List.mem_map.1 ha
        exact hnq ⟨u, hu, huk⟩
      · show ((st.q ++ [y]).map fun u => if u.State = y.State then g c.State + 1
          else g u.State).Pairwise (· ≤ ·)
        rw [List.map_append, List.pairwise_append]
        refine ⟨?_, List.pairwise_singleton _ _, ?_⟩
        · have : (st.q.map fun u => if u.State = y.State then g c.State + 1 else g u.State)
              = st.q.map fun u => g u.State := List.map_congr_left hgq
          rw [this]
          exact hinv.sorted
        · intro a ha b hb
          simp only [List.map_cons, List.map_nil, List.mem_singleton, if_true] at hb
          obtain ⟨u, hu, rfl⟩ := List.mem_map.1 ha
          rw [hb, hgq u hu]
          exact (hinv.cspan c rfl u hu).2
      · intro u hu w hw
        show (if w.State = y.State then g c.State + 1 else g w.State)
          ≤ (if u.State = y.State then g c.State + 1 else g u.State) + 1
        rcases List.mem_append.1 hu with h | h
        · rw [hgq u h]
          rcases List.mem_append.1 hw with h' | h'
          · rw [hgq w h']
            exact hinv.span u h w h'
          · simp only [List.mem_singleton] at h'
            subst h'
            rw [hgy]
            have := (hinv.cspan c rfl u h).1
            omega
        · simp only [List.mem_singleton] at h
          subst h
          rw [hgy]
          rcases List.mem_append.1 hw with h' | h'
          · rw [hgq w h']
            have := (hinv.cspan c rfl w h').2
            omega
          · simp only [List.mem_singleton] at h'
            subst h'
            rw [hgy]
            omega
      · intro c' hc' u hu
        simp only [Option.some.injEq] at hc'
        subst hc'
        show (if c.State = y.State then g c.State + 1 else g c.State)
            ≤ (if u.State = y.State then g c.State + 1 else g u.State) ∧
          (if u.State = y.State then g c.State + 1 else g u.State)
            ≤ (if c.State = y.State then g c.State + 1 else g c.State) + 1
        rw [hg _ hcV]
        rcases List.mem_append.1 hu with h | h
        · rw [hgq u h]
          exact hinv.cspan c rfl u h
        · simp only [List.mem_singleton] at h
          subst h
          rw [hgy]
          omega
      · intro k
        rw [hV]
        show _ ↔ (GoMap.lookup (GoMap.set st.paths y.State (some c)) k).isSome = true
        rw [GoMap.lookup_set]
        by_cases hk : y.State = k
        · simp [hk]
        · have : ¬ k = y.State := fun h => hk h.symm
          simp only [hk, this, if_false, false_or]
          exact hinv.vpaths k
      · exact (hV _).2 (Or.inr hinv.vinit)
      · show (if initial.State = y.State then g c.State + 1 else g initial.State) = 0
        rw [hg _ hinv.vinit]
        exact hinv.ginit
      · show GoMap.get (GoMap.set st.paths y.State (some c)) initial.State none = none
        rw [GoMap.get_set]
        have : ¬ y.State = initial.State := fun h => hni h.symm
        simp only [this, if_false]
        exact hinv.pinit
      · intro k hk hne
        show ∃ u, GoMap.get (GoMap.set st.paths y.State (some c)) k none = some u ∧ _
        rw [GoMap.get_set]
        rcases (hV k).1 hk with h | h
        · subst h
          refine ⟨c, by simp, hcS, (hV _).2 (Or.inr hcV), ⟨y, hy, rfl⟩, ?_⟩
          show (if y.State = y.State then g c.State + 1 else g y.State)
            = (if c.State = y.State then g c.State + 1 else g c.State) + 1
          rw [hgy, hg _ hcV]
        · have hky : ¬ y.State = k := fun h' => hnv (h' ▸ h)
          obtain ⟨u, h1, h2, h3, h4, h5⟩ := hinv.chain k h hne
          refine ⟨u, by simp only [hky, if_false]; exact h1, h2, (hV _).2 (Or.inr h3), h4, ?_⟩
          show (if k = y.State then g c.State + 1 else g k)
            = (if u.State = y.State then g c.State + 1 else g u.State) + 1
          rw [hg _ h, hg _ h3]
          exact h5
      · intro k hk
        show ∃ x, MovesIn (if k = y.State then g c.State + 1 else g k) initial x ∧ x.State = k
        rcases (hV k).1 hk with h | h
        · subst h
          rw [hgy]
          exact ⟨y', hy1, hy2⟩
        · rw [hg _ h]
          exact hinv.reach k h
      · intro k hk hq n x hx hxk
        have hq' : ¬ st.InQ k ∧ ¬ k = y.State := by
          rw [hQ] at hq
          exact not_or.1 hq
        have hvk : st.Vis k := by
          rcases (hV k).1 hk with h | h
          · exact absurd h hq'.2
          · exact h
        show (if k = y.State then g c.State + 1 else g k) ≤ n
        rw [hg _ hvk]
        exact hinv.copt k hvk hq'.1 n x hx hxk
      · intro k hk hq hcur x z hx hxk hxz
        have hq' : ¬ st.InQ k ∧ ¬ k = y.State := by
          rw [hQ] at hq
          exact not_or.1 hq
        have hvk : st.Vis k := by
          rcases (hV k).1 hk with h | h
          · exact absurd h hq'.2
          · exact h
        obtain ⟨h1, h2⟩ := hinv.closure k hvk hq'.1 hcur x z hx hxk hxz
        refine ⟨(hV _).2 (Or.inr h1), ?_⟩
        show (if z.State = y.State then g c.State + 1 else g z.State)
          ≤ (if k = y.State then g c.State + 1 else g k) + 1
        rw [hg _ h1, hg _ hvk]
        exact h2
      · show (GoMap.keys (GoMap.set st.visited y.State true)).Nodup
        rw [hset]
        simp only [GoMap.keys, List.map_append, List.map_cons, List.map_nil]
        rw [List.nodup_append]
        refine ⟨hinv.vnodup, List.nodup_singleton _, ?_⟩
        intro a ha hb
        simp only [List.mem_singleton] at hb
        subst hb
        exact hnm ha
      · intro k hk
        rcases (hV k).1 hk with h | h
        · subst h
          exact ⟨y, hyS, rfl⟩
        · exact hinv.vstate k h
      · intro c' hc'
        simp only [Option.some.injEq] at hc'
        subst hc'
        refine ⟨hcS, (hV _).2 (Or.inr hcV), ?_⟩
        rw [hQ]
        exact not_or.2 ⟨hcQ, hnc⟩
      · intro k hk hq hcur
        have hq' : ¬ st.InQ k ∧ ¬ k = y.State := by
          rw [hQ] at hq
          exact not_or.1 hq
        have hvk : st.Vis k := by
          rcases (hV k).1 hk with h | h
          · exact absurd h hq'.2
          · exact h
        exact hinv.ntarget k hvk hq'.1 hcur
    · intro k hk
      exact ⟨hg k hk, (hV k).2 (Or.inr hk)⟩
    · exact (hV _).2 (Or.inl rfl)
    · show (if y.State = y.State then g c.State + 1 else g y.State)
        ≤ (if c.State = y.State then g c.State + 1 else g c.State) + 1
      rw [hgy, hg _ hcV]
    · show (GoMap.set st.visited y.State true).length + st.q.length
        = st.visited.length + (st.q ++ [y]).length
      rw [hset]
      simp only [List.length_append, List.length_singleton]
      omega

/-! ## Breadth-first search: the main loop -/

theorem binv_visitAll {initial : MysticSquare3} {tk : String} (hi : IsState initial)
    {c : MysticSquare3} : ∀ (l : List MysticSquare3) (g : String → Nat) (st : BfsState),
    BInv initial tk g (some c) st → (∀ y, y ∈ l → LegalMove c y) →
    ∃ g', BInv initial tk g' (some c) (l.foldl (bfs.visit c) st) ∧
      (∀ k, st.Vis k → g' k = g k ∧ (l.foldl (bfs.visit c) st).Vis k) ∧
      (∀ y, y ∈ l → (l.foldl (bfs.visit c) st).Vis y.State ∧ g' y.State ≤ g' c.State + 1) ∧
      (l.foldl (bfs.visit c) st).visited.length + st.q.length
        = st.visited.length + (l.foldl (bfs.visit c) st).q.length := by
  intro l
  induction l with
  | nil =>
    intro g st hinv _
    exact ⟨g, hinv, fun k hk => ⟨rfl, hk⟩, fun y hy => by simp at hy, rfl⟩
  | cons y rest ih =>
    intro g st hinv hl
    obtain ⟨g1, r1, r2, r3, r4, r5⟩ := binv_visit hi hinv y (hl y (List.mem_cons_self _ _))
    obtain ⟨g2, s1, s2, s3, s4⟩ := ih g1 _ r1 (fun z hz => hl z (List.mem_cons_of_mem _ hz))
    have hcV := (hinv.curp c rfl).2.1
    refine ⟨g2, s1, ?_, ?_, ?_⟩
    · intro k hk
      obtain ⟨a1, a2⟩ := r2 k hk
      obtain ⟨b1, b2⟩ := s2 k a2
      exact ⟨b1.trans a1, b2⟩
    · intro z hz
      rcases List.mem_cons.1 hz with he | hz'
      · subst he
        obtain ⟨b1, b2⟩ := s2 z.State r3
        refine ⟨b2, ?_⟩
        have b3 := (s2 c.State (r2 c.State hcV).2).1
        rw [b1, b3]
        exact r4
      · exact s3 z hz'
    · simp only [List.foldl_cons]
      omega

/-- Taking the first state from the queue: the invariant holds with that state as the
current state. -/
theorem binv_pop {initial : MysticSquare3} {tk : String} {g : String → Nat}
    {st : BfsState} {c : MysticSquare3} {rest : Queue}
    (hinv : BInv initial tk g none st) (hq : st.q = c :: rest)
    (hfront : ∀ (n : Nat) (x : MysticSquare3), MovesIn n initial x →
      (st.Vis x.State ∧ ¬ st.InQ x.State) ∨ ∃ u m, u ∈ st.q ∧ m ≤ n ∧ g u.State ≤ m) :
    BInv initial tk g (some c) { st with q := rest } := by
  have hmem : ∀ u, u ∈ rest → u ∈ st.q := by
    intro u hu; rw [hq]; exact List.mem_cons_of_mem _ hu
  have hcm : c ∈ st.q := by rw [hq]; exact List.mem_cons_self _ _
  have hsorted := hinv.sorted
  have hnodup := hinv.qnodup
  rw [hq] at hsorted hnodup
  simp only [List.map_cons, List.pairwise_cons, List.nodup_cons] at hsorted hnodup
  have hle : ∀ u, u ∈ rest → g c.State ≤ g u.State := by
    intro u hu
    exact hsorted.1 _ (List.mem_map.2 ⟨u, hu, rfl⟩)
  have hQ : ∀ k, st.InQ k ↔ k = c.State ∨ BfsState.InQ { st with q := rest } k := by
    intro k
    simp only [BfsState.InQ, hq, List.mem_cons]
    constructor
    · rintro ⟨u, hu | hu, huk⟩
      · subst hu; exact Or.inl huk.symm
      · exact Or.inr ⟨u, hu, huk⟩
    · rintro (h | ⟨u, hu, huk⟩)
      · exact ⟨c, Or.inl rfl, h.symm⟩
      · exact ⟨u, Or.inr hu, huk⟩
  have hcnq : ¬ BfsState.InQ { st with q := rest } c.State := by
    rintro ⟨u, hu, huk⟩
    exact hnodup.1 (List.mem_map.2 ⟨u, hu, huk⟩)
  have hold : ∀ k, ¬ BfsState.InQ { st with q := rest } k → ¬ k = c.State → ¬ st.InQ k := by
    intro k h1 h2 h3
    rcases (hQ k).1 h3 with h | h
    · exact h2 h
    · exact h1 h
  constructor
  · intro u hu
    exact hinv.qstate u (hmem u hu)
  · exact hnodup.2
  · exact hsorted.2
  · intro u hu w hw
    exact hinv.span u (hmem u hu) w (hmem w hw)
  · intro c' hc' u hu
    simp only [Option.some.injEq] at hc'
    subst hc'
    exact ⟨hle u hu, hinv.span _ hcm u (hmem u hu)⟩
  · exact hinv.vpaths
  · exact hinv.vinit
  · exact hinv.ginit
  · exact hinv.pinit
  · exact hinv.chain
  · exact hinv.reach
  · intro k hk hnq n x hx hxk
    by_cases hkc : k = c.State
    · subst hkc
      rcases hfront n x hx with ⟨_, h2⟩ | ⟨u, m, h1, h2, h3⟩
      · rw [hxk] at h2
        exact absurd ⟨c, hcm, rfl⟩ h2
      · have : g c.State ≤ g u.State := by
          rw [hq] at h1
          rcases List.mem_cons.1 h1 with h | h
          · subst h; exact le_refl _
          · exact hle u h
        omega
    · exact hinv.copt k hk (hold k hnq hkc) n x hx hxk
  · intro k hk hnq hcur x y hx hxk hxy
    have hkc : ¬ k = c.State := fun h => hcur c rfl h.symm
    exact hinv.closure k hk (hold k hnq hkc) (fun c' hc' => by simp at hc') x y hx hxk hxy
  · exact hinv.vnodup
  · exact hinv.vstate
  · intro c' hc'
    simp only [Option.some.injEq] at hc'
    subst hc'
    exact ⟨(hinv.qstate _ hcm).1, (hinv.qstate _ hcm).2, hcnq⟩
  · intro k hk hnq hcur
    have hkc : ¬ k = c.State := fun h => hcur c rfl h.symm
    exact hinv.ntarget k hk (hold k hnq hkc) (fun c' hc' => by simp at hc')

/-- After all successors of the current state have been visited the invariant holds
again with no current state. -/
theorem binv_close {initial : MysticSquare3} {tk : String} {g : String → Nat}
    {st : BfsState} {c : MysticSquare3} (hinv : BInv initial tk g (some c) st)
    (hsucc : ∀ y, LegalMove c y → st.Vis y.State ∧ g y.State ≤ g c.State + 1)
    (hnt : c.State ≠ tk) : BInv initial tk g none st := by
  obtain ⟨hcS, hcV, hcQ⟩ := hinv.curp c rfl
  constructor
  · exact hinv.qstate
  · exact hinv.qnodup
  · exact hinv.sorted
  · exact hinv.span
  · intro c' hc'
    simp at hc'
  · exact hinv.vpaths
  · exact hinv.vinit
  · exact hinv.ginit
  · exact hinv.pinit
  · exact hinv.chain
  · exact hinv.reach
  · exact hinv.copt
  · intro k hk hnq _ x y hx hxk hxy
    by_cases hkc : c.State = k
    · subst hkc
      obtain ⟨y', h1, h2⟩ := legalMove_respects hx hcS hxk hxy
      have := hsucc y' h1
      rw [h2] at this
      exact this
    · refine hinv.closure k hk hnq ?_ x y hx hxk hxy
      intro c' hc'
      simp only [Option.some.injEq] at hc'
      subst hc'
      exact hkc
  · exact hinv.vnodup
  · exact hinv.vstate
  · intro c' hc'
    simp at hc'
  · intro k hk hnq _
    by_cases hkc : c.State = k
    · subst hkc
      exact hnt
    · refine hinv.ntarget k hk hnq ?_
      intro c' hc'
      simp only [Option.some.injEq] at hc'
      subst hc'
      exact hkc

section

variable {initial : MysticSquare3} {tk : String} {g : String → Nat}
  {cur : Option MysticSquare3} {st : BfsState}

/-- Every sequence of moves from the initial state ends at a state that has been
expanded, or passes a state of the queue that was reached by no more moves. -/
theorem BInv.queue_frontier (hinv : BInv initial tk g none st) (hi : IsState initial) :
    ∀ (n : Nat) (x : MysticSquare3), MovesIn n initial x →
      (st.Vis x.State ∧ ¬ st.InQ x.State) ∨ ∃ u m, u ∈ st.q ∧ m ≤ n ∧ g u.State ≤ m := by
  have main : ∀ n s x, MovesIn n s x → s = initial →
      (st.Vis x.State ∧ ¬ st.InQ x.State) ∨ ∃ u m, u ∈ st.q ∧ m ≤ n ∧ g u.State ≤ m := by
    intro n s x hx
    induction hx with
    | zero s =>
      intro hs
      subst hs
      by_cases hq : st.InQ s.State
      · obtain ⟨u, hu, huk⟩ := hq
        exact Or.inr ⟨u, 0, hu, le_refl _, by rw [huk, hinv.ginit]⟩
      · exact Or.inl ⟨hinv.vinit, hq⟩
    | succ hm hl ih =>
      rename_i n s x y
      intro hs
      subst hs
      rcases ih rfl with ⟨h1, h2⟩ | ⟨u, m, h1, h2, h3⟩
      · have hxS : IsState x := movesIn_isState hm hi
        obtain ⟨c1, c2⟩ := hinv.closure x.State h1 h2 (fun c hc => by simp at hc) x y hxS rfl hl
        have := hinv.copt x.State h1 h2 n x hm rfl
        by_cases hq : st.InQ y.State
        · obtain ⟨u, hu, huk⟩ := hq
          exact Or.inr ⟨u, n + 1, hu, le_refl _, by rw [huk]; omega⟩
        · exact Or.inl ⟨c1, hq⟩
      · exact Or.inr ⟨u, m, h1, by omega, h3⟩
  intro n x hx
  exact main n initial x hx rfl

theorem BInv.chain_of_vis (hinv : BInv initial tk g cur st) :
    ∀ (d : Nat) (k : String), st.Vis k → g k = d → Chain st.paths k d := by
  intro d
  induction d with
  | zero =>
    intro k hk hg
    by_cases hne : k = initial.State
    · subst hne
      exact Chain.stop hinv.pinit
    · obtain ⟨u, _, _, _, _, h5⟩ := hinv.chain k hk hne
      omega
  | succ d ih =>
    intro k hk hg
    by_cases hne : k = initial.State
    · subst hne
      have := hinv.ginit
      omega
    · obtain ⟨u, h1, _, h3, _, h5⟩ := hinv.chain k hk hne
      exact Chain.step h1 (ih u.State h3 (by omega))

theorem BInv.seen_bounded (hinv : BInv initial tk g cur st) :
    st.visited.length ≤ Nat.factorial 9 := by
  have h := keys_bounded (GoMap.keys st.visited) hinv.vnodup ?_
  · simpa [GoMap.keys] using h
  · intro k hk
    exact hinv.vstate k ((GoMap.isSome_lookup_iff _ _).2 hk)

end

theorem queue_process_nil : Queue.Process [] = ⟨none, false, []⟩ := rfl

theorem queue_process_cons (c : MysticSquare3) (rest : Queue) :
    Queue.Process (c :: rest) = ⟨some c, true, rest⟩ := by
  simp [Queue.Process, Queue.Empty, Queue.Len, Queue.Pop]

theorem bfs_loop_spec {initial : MysticSquare3} (hi : IsState initial) (target : MysticSquare3) :
    ∀ (fuel : Nat) (g : String → Nat) (st : BfsState), BInv initial target.State g none st →
      (st.q.length + (Nat.factorial 9 - st.visited.length) + 1 ≤ fuel →
        ∃ r, bfs.loop target fuel st = .ok r) ∧
      (∀ r, bfs.loop target fuel st = .ok r → SearchSpec initial target.State r) := by
  intro fuel
  induction fuel with
  | zero =>
    intro g st hinv
    refine ⟨fun hf => by omega, fun r hr => ?_⟩
    simp [bfs.loop] at hr
  | succ fuel ih =>
    intro g st hinv
    cases hq : st.q with
    | nil =>
      have hl : bfs.loop target (fuel + 1) st = .ok ⟨[], false⟩ := by
        simp [bfs.loop, hq, queue_process_nil]
      rw [hl]
      refine ⟨fun _ => ⟨_, rfl⟩, fun r hr => ?_⟩
      simp only [Except.ok.injEq] at hr
      subst hr
      refine Or.inr ⟨rfl, ?_⟩
      intro n x hx hxk
      rcases hinv.queue_frontier hi n x hx with ⟨h1, h2⟩ | ⟨u, _, hu, _⟩
      · exact hinv.ntarget _ h1 h2 (fun c hc => by simp at hc) hxk
      · rw [hq] at hu
        simp at hu
    | cons c rest =>
      have hinv1 := binv_pop hinv hq (hinv.queue_frontier hi)
      obtain ⟨hcS, hcV, hcQ⟩ := hinv1.curp c rfl
      by_cases htk : c.State = target.State
      · have hl : bfs.loop target (fuel + 1) st = .ok ⟨st.paths, true⟩ := by
          simp [bfs.loop, hq, queue_process_cons, htk]
        rw [hl]
        refine ⟨fun _ => ⟨_, rfl⟩, fun r hr => ?_⟩
        simp only [Except.ok.injEq] at hr
        subst hr
        have hv : st.Vis target.State := htk ▸ hcV
        refine Or.inl ⟨rfl, g target.State, hinv.chain_of_vis _ _ hv rfl, hinv.reach _ hv, ?_⟩
        intro n x hx hxk
        exact hinv1.copt target.State hv (htk ▸ hcQ) n x hx hxk
      · obtain ⟨g2, s1, s2, s3, s4⟩ := binv_visitAll hi (adjacentSquares c) g _ hinv1
          (fun y hy => (mem_adjacentSquares _ _).1 hy)
        have hinv3 := binv_close s1 (fun y hy => s3 y ((mem_adjacentSquares _ _).2 hy)) htk
        have hl : bfs.loop target (fuel + 1) st = bfs.loop target fuel
            ((adjacentSquares c).foldl (bfs.visit c) { st with q := rest }) := by
          simp [bfs.loop, hq, queue_process_cons, htk]
        rw [hl]
        obtain ⟨i1, i2⟩ := ih g2 _ hinv3
        refine ⟨fun hf => i1 ?_, i2⟩
        have hb := hinv3.seen_bounded
        have hb0 := hinv.seen_bounded
        have s4' : ((adjacentSquares c).foldl (bfs.visit c) { st with q := rest }).visited.length
            + rest.length = st.visited.length
            + ((adjacentSquares c).foldl (bfs.visit c) { st with q := rest }).q.length := s4
        simp only [List.length_cons] at hf
        omega

/-- The invariant holds when the main loop of `bfs` is entered. -/
theorem binv_initial {initial : MysticSquare3} (tk : String) (hi : IsState initial) :
    BInv initial tk (fun _ => 0) none
      ⟨[initial], GoMap.set [] initial.State true, GoMap.set [] initial.State none⟩ := by
  have hV : ∀ k, BfsState.Vis ⟨[initial], GoMap.set [] initial.State true,
      GoMap.set [] initial.State none⟩ k ↔ k = initial.State := by
    intro k
    simp only [BfsState.Vis, GoMap.lookup_set]
    by_cases hk : initial.State = k
    · simp [hk]
    · have : ¬ k = initial.State := fun h => hk h.symm
      simp [hk, this, GoMap.lookup]
  have hQ : ∀ k, BfsState.InQ ⟨[initial], GoMap.set [] initial.State true,
      GoMap.set [] initial.State none⟩ k ↔ k = initial.State := by
    intro k
    simp only [BfsState.InQ, List.mem_singleton]
    constructor
    · rintro ⟨u, hu, huk⟩
      subst hu; exact huk.symm
    · intro h
      exact ⟨initial, rfl, h.symm⟩
  constructor
  · intro u hu
    simp only [List.mem_singleton] at hu
    subst hu
    exact ⟨hi, (hV _).2 rfl⟩
  · simp
  · simp
  · intro u _ w _
    exact Nat.zero_le _
  · intro c hc
    simp at hc
  · intro k
    rw [hV]
    simp only [GoMap.lookup_set]
    by_cases hk : initial.State = k
    · simp [hk]
    · have : ¬ k = initial.State := fun h => hk h.symm
      simp [hk, this, GoMap.lookup]
  · exact (hV _).2 rfl
  · rfl
  · simp [GoMap.get_set]
  · intro k hk hne
    exact absurd ((hV k).1 hk) hne
  · intro k hk
    rw [hV] at hk
    subst hk
    exact ⟨initial, MovesIn.zero initial, rfl⟩
  · intro k hk hnq
    exact absurd ((hQ k).2 ((hV k).1 hk)) hnq
  · intro k hk hnq
    exact absurd ((hQ k).2 ((hV k).1 hk)) hnq
  · simp [GoMap.set, GoMap.keys]
  · intro k hk
    rw [hV] at hk
    subst hk
    exact ⟨initial, hi, rfl⟩
  · intro c hc
    simp at hc
  · intro k hk hnq
    exact absurd ((hQ k).2 ((hV k).1 hk)) hnq

/-- The function `bfs`: with 9! + 1 iterations allowed it returns, and whatever it
returns is right. -/
theorem bfs_spec {initial : MysticSquare3} (hi : IsState initial) (target : MysticSquare3) :
    (∀ fuel, Nat.factorial 9 + 1 ≤ fuel → ∃ r, bfs fuel initial target = .ok r) ∧
    (∀ fuel r, bfs fuel initial target = .ok r → SearchSpec initial target.State r) := by
  have hinv := binv_initial target.State hi
  have hl : ∀ fuel, bfs fuel initial target = bfs.loop target fuel
      ⟨[initial], GoMap.set [] initial.State true, GoMap.set [] initial.State none⟩ := by
    intro fuel
    rfl
  constructor
  · intro fuel hfuel
    rw [hl]
    refine (bfs_loop_spec hi target fuel _ _ hinv).1 ?_
    have : (GoMap.set ([] : GoMap String Bool) initial.State true).length = 1 := rfl
    show 1 + (Nat.factorial 9 - (GoMap.set ([] : GoMap String Bool) initial.State true).length)
      + 1 ≤ fuel
    rw [this, factorial_nine] at *
    omega
  · intro fuel r hr
    rw [hl] at hr
    exact (bfs_loop_spec hi target fuel _ _ hinv).2 r hr

/-! ## The three searches find shortest paths -/

/-- A search that meets its specification reports a reachable target as found, with a
predecessor map that leads back from the target in the least number of moves. -/
theorem found_of_reaches {initial target : MysticSquare3} {r : SearchResult}
    (hs : SearchSpec initial target.State r) {n : Nat} (hr : Reaches n initial target) :
    r.pathFound = true ∧ ∃ d, d ≤ n ∧ Chain r.paths target.State d ∧
      Reaches d initial target ∧ ∀ m, Reaches m initial target → d ≤ m := by
  obtain ⟨x, hx, hxk⟩ := hr
  rcases hs with ⟨h1, d, h2, h3, h4⟩ | ⟨_, h2⟩
  · refine ⟨h1, d, h4 n x hx hxk, h2, h3, ?_⟩
    rintro m ⟨z, hz, hzk⟩
    exact h4 m z hz hzk
  · exact absurd hxk (h2 n x hx)

/-- A search that meets its specification and reports the target as found returns a
predecessor map from which the path is reconstructed, in the least number of moves. -/
theorem shortest_of_found {initial target : MysticSquare3} {r : SearchResult}
    (hs : SearchSpec initial target.State r) (hfound : r.pathFound = true) :
    ∃ (path : List MysticSquare3) (d : Nat), path.length = d + 1 ∧
      (∀ fuel, d + 1 ≤ fuel → executeRun.path fuel r.paths initial target = .ok path) ∧
      Reaches d initial target ∧ ∀ n, Reaches n initial target → d ≤ n := by
  rcases hs with ⟨_, d, h2, h3, h4⟩ | ⟨h1, _⟩
  · obtain ⟨path, p1, p2⟩ := path_of_chain r.paths initial target h2
    refine ⟨path, d, p1, p2, h3, ?_⟩
    rintro m ⟨z, hz, hzk⟩
    exact h4 m z hz hzk
  · rw [hfound] at h1
    exact absurd h1 (by decide)

theorem dijkstra_spec {initial : MysticSquare3} (hi : IsState initial) (target : MysticSquare3) :
    (∀ fuel, Nat.factorial 9 + 1 ≤ fuel → ∃ r, dijkstrasAlgorithm fuel initial target = .ok r) ∧
    (∀ fuel r, dijkstrasAlgorithm fuel initial target = .ok r →
      SearchSpec initial target.State r) := by
  obtain ⟨h1, h2⟩ := aStar_spec zero_good hi target
  constructor
  · intro fuel hf
    rw [dijkstra_eq_aStar hi target fuel]
    exact h1 fuel hf
  · intro fuel r hr
    rw [dijkstra_eq_aStar hi target fuel] at hr
    exact h2 fuel r hr

/-- The initial state of the easy scenario. -/
theorem easy_isState :
    IsState ⟨easy.1, buildMysticSquare3StateString easy.1⟩ ∧
      IsState ⟨easy.2, buildMysticSquare3StateString easy.2⟩ := by
  decide

/-- C8: for valid states `initial` and `target` with `target` reachable from `initial`
by `n` legal moves, each of `bfs`, `dijkstrasAlgorithm` and `aStar` with the Manhattan
heuristic to `target` returns (once 9! + 1 iterations are allowed) with `pathFound`
set, the path reconstruction succeeds on each of the three predecessor maps (once
`n + 1` steps are allowed), and the three reconstructed paths have the same length. -/
theorem searches_agree (initial target : MysticSquare3) (hi : IsState initial)
    (ht : IsState target) (n : Nat) (hr : Reaches n initial target) (fuel : Nat)
    (hf : Nat.factorial 9 + 1 ≤ fuel) (hn : n + 1 ≤ fuel) :
    ∃ (rb rd ra : SearchResult) (pb pd pa : List MysticSquare3),
      bfs fuel initial target = .ok rb ∧
      dijkstrasAlgorithm fuel initial target = .ok rd ∧
      aStar fuel initial target (manhattanTo target) = .ok ra ∧
      rb.pathFound = true ∧ rd.pathFound = true ∧ ra.pathFound = true ∧
      executeRun.path fuel rb.paths initial target = .ok pb ∧
      executeRun.path fuel rd.paths initial target = .ok pd ∧
      executeRun.path fuel ra.paths initial target = .ok pa ∧
      pb.length = pd.length ∧ pd.length = pa.length := by
  obtain ⟨rb, hb⟩ := (bfs_spec hi target).1 fuel hf
  obtain ⟨rd, hd⟩ := (dijkstra_spec hi target).1 fuel hf
  obtain ⟨ra, ha⟩ := (aStar_spec (manhattan_good ht) hi target).1 fuel hf
  obtain ⟨fb, db, b1, b2, b3, b4⟩ := found_of_reaches ((bfs_spec hi target).2 fuel rb hb) hr
  obtain ⟨fd, dd, d1, d2, d3, d4⟩ :=
    found_of_reaches ((dijkstra_spec hi target).2 fuel rd hd) hr
  obtain ⟨fa, da, a1, a2, a3, a4⟩ :=
    found_of_reaches ((aStar_spec (manhattan_good ht) hi target).2 fuel ra ha) hr
  obtain ⟨pb, lb, wb⟩ := path_of_chain rb.paths initial target b2
  obtain ⟨pd, ld, wd⟩ := path_of_chain rd.paths initial target d2
  obtain ⟨pa, la, wa⟩ := path_of_chain ra.paths initial target a2
  have e1 : db = dd := le_antisymm (b4 dd d3) (d4 db b3)
  have e2 : dd = da := le_antisymm (d4 da a3) (a4 dd d3)
  exact ⟨rb, rd, ra, pb, pd, pa, hb, hd, ha, fb, fd, fa, wb fuel (by omega), wd fuel (by omega),
    wa fuel (by omega), by omega, by omega⟩

/-- C8 at the easy scenario, which six moves solve. -/
theorem searches_agree_witness :
    ∃ (rb rd ra : SearchResult) (pb pd pa : List MysticSquare3),
      bfs 362881 ⟨easy.1, buildMysticSquare3StateString easy.1⟩
        ⟨easy.2, buildMysticSquare3StateString easy.2⟩ = .ok rb ∧
      dijkstrasAlgorithm 362881 ⟨easy.1, buildMysticSquare3StateString easy.1⟩
        ⟨easy.2, buildMysticSquare3StateString easy.2⟩ = .ok rd ∧
      aStar 362881 ⟨easy.1, buildMysticSquare3StateString easy.1⟩
        ⟨easy.2, buildMysticSquare3StateString easy.2⟩
        (manhattanTo ⟨easy.2, buildMysticSquare3StateString easy.2⟩) = .ok ra ∧
      rb.pathFound = true ∧ rd.pathFound = true ∧ ra.pathFound = true ∧
      executeRun.path 362881 rb.paths ⟨easy.1, buildMysticSquare3StateString easy.1⟩
        ⟨easy.2, buildMysticSquare3StateString easy.2⟩ = .ok pb ∧
      executeRun.path 362881 rd.paths ⟨easy.1, buildMysticSquare3StateString easy.1⟩
        ⟨easy.2, buildMysticSquare3StateString easy.2⟩ = .ok pd ∧
      executeRun.path 362881 ra.paths ⟨easy.1, buildMysticSquare3StateString easy.1⟩
        ⟨easy.2, buildMysticSquare3StateString easy.2⟩ = .ok pa ∧
      pb.length = pd.length ∧ pd.length = pa.length :=
  searches_agree _ _ easy_isState.1 easy_isState.2 6 easy_reaches 362881
    (Nat.le_of_eq rfl) (by decide)

/-- C9: when `aStar`, run from a valid `initial` for a valid `target` with the heuristic
`h(x) = manhattanDistance(x, target)`, returns with `pathFound` set, the path
reconstruction on its predecessor map returns a path of `d + 1` states, `d` legal
moves lead from `initial` to `target`, and no sequence of legal moves from `initial`
to `target` is shorter than `d`. -/
theorem aStar_shortest (initial target : MysticSquare3) (hi : IsState initial)
    (ht : IsState target) (fuel : Nat) (r : SearchResult)
    (hrun : aStar fuel initial target (manhattanTo target) = .ok r)
    (hfound : r.pathFound = true) :
    ∃ (path : List MysticSquare3) (d : Nat), path.length = d + 1 ∧
      (∀ fuel', d + 1 ≤ fuel' → executeRun.path fuel' r.paths initial target = .ok path) ∧
      Reaches d initial target ∧ ∀ n, Reaches n initial target → d ≤ n :=
  shortest_of_found ((aStar_spec (manhattan_good ht) hi target).2 fuel r hrun) hfound

/-- C9 at the easy scenario: the informed search returns with the flag set, and the
path it leads to is a shortest one. -/
theorem aStar_shortest_witness :
    ∃ r, aStar 362881 ⟨easy.1, buildMysticSquare3StateString easy.1⟩
        ⟨easy.2, buildMysticSquare3StateString easy.2⟩
        (manhattanTo ⟨easy.2, buildMysticSquare3StateString easy.2⟩) = .ok r ∧
      r.pathFound = true ∧
      ∃ (path : List MysticSquare3) (d : Nat), path.length = d + 1 ∧
        (∀ fuel', d + 1 ≤ fuel' → executeRun.path fuel' r.paths
          ⟨easy.1, buildMysticSquare3StateString easy.1⟩
          ⟨easy.2, buildMysticSquare3StateString easy.2⟩ = .ok path) ∧
        Reaches d ⟨easy.1, buildMysticSquare3StateString easy.1⟩
          ⟨easy.2, buildMysticSquare3StateString easy.2⟩ ∧
        ∀ n, Reaches n ⟨easy.1, buildMysticSquare3StateString easy.1⟩
          ⟨easy.2, buildMysticSquare3StateString easy.2⟩ → d ≤ n := by
  obtain ⟨r, hr⟩ := (aStar_spec (manhattan_good easy_isState.2) easy_isState.1
    ⟨easy.2, buildMysticSquare3StateString easy.2⟩).1 362881 (Nat.le_of_eq rfl)
  have hfound := (found_of_reaches ((aStar_spec (manhattan_good easy_isState.2) easy_isState.1
    ⟨easy.2, buildMysticSquare3StateString easy.2⟩).2 362881 r hr) easy_reaches).1
  exact ⟨r, hr, hfound, aStar_shortest _ _ easy_isState.1 easy_isState.2 362881 r hr hfound⟩

/-- C10: when `bfs` or `dijkstrasAlgorithm`, run from a valid `initial`, returns with
`pathFound` set, the path reconstruction on its predecessor map returns a path of
`d + 1` states, `d` legal moves lead from `initial` to `target`, and no sequence of
legal moves from `initial` to `target` is shorter than `d`. -/
theorem bfs_dijkstra_shortest (initial target : MysticSquare3) (hi : IsState initial)
    (fuel : Nat) (r : SearchResult)
    (hrun : bfs fuel initial target = .ok r ∨ dijkstrasAlgorithm fuel initial target = .ok r)
    (hfound : r.pathFound = true) :
    ∃ (path : List MysticSquare3) (d : Nat), path.length = d + 1 ∧
      (∀ fuel', d + 1 ≤ fuel' → executeRun.path fuel' r.paths initial target = .ok path) ∧
      Reaches d initial target ∧ ∀ n, Reaches n initial target → d ≤ n := by
  rcases hrun with h | h
  · exact shortest_of_found ((bfs_spec hi target).2 fuel r h) hfound
  · exact shortest_of_found ((dijkstra_spec hi target).2 fuel r h) hfound

/-- C10 at the easy scenario: both searches return with the flag set, and the paths
they lead to are shortest ones. -/
theorem bfs_dijkstra_shortest_witness :
    (∃ r, bfs 362881 ⟨easy.1, buildMysticSquare3StateString easy.1⟩
        ⟨easy.2, buildMysticSquare3StateString easy.2⟩ = .ok r ∧ r.pathFound = true ∧
      ∃ (path : List MysticSquare3) (d : Nat), path.length = d + 1 ∧
        (∀ fuel', d + 1 ≤ fuel' → executeRun.path fuel' r.paths
          ⟨easy.1, buildMysticSquare3StateString easy.1⟩
          ⟨easy.2, buildMysticSquare3StateString easy.2⟩ = .ok path) ∧
        Reaches d ⟨easy.1, buildMysticSquare3StateString easy.1⟩
          ⟨easy.2, buildMysticSquare3StateString easy.2⟩ ∧
        ∀ n, Reaches n ⟨easy.1, buildMysticSquare3StateString easy.1⟩
          ⟨easy.2, buildMysticSquare3StateString easy.2⟩ → d ≤ n) ∧
    (∃ r, dijkstrasAlgorithm 362881 ⟨easy.1, buildMysticSquare3StateString easy.1⟩
        ⟨easy.2, buildMysticSquare3StateString easy.2⟩ = .ok r ∧ r.pathFound = true ∧
      ∃ (path : List MysticSquare3) (d : Nat), path.length = d + 1 ∧
        (∀ fuel', d + 1 ≤ fuel' → executeRun.path fuel' r.paths
          ⟨easy.1, buildMysticSquare3StateString easy.1⟩
          ⟨easy.2, buildMysticSquare3StateString easy.2⟩ = .ok path) ∧
        Reaches d ⟨easy.1, buildMysticSquare3StateString easy.1⟩
          ⟨easy.2, buildMysticSquare3StateString easy.2⟩ ∧
        ∀ n, Reaches n ⟨easy.1, buildMysticSquare3StateString easy.1⟩
          ⟨easy.2, buildMysticSquare3StateString easy.2⟩ → d ≤ n) := by
  obtain ⟨rb, hb⟩ := (bfs_spec easy_isState.1
    ⟨easy.2, buildMysticSquare3StateString easy.2⟩).1 362881 (Nat.le_of_eq rfl)
  obtain ⟨rd, hd⟩ := (dijkstra_spec easy_isState.1
    ⟨easy.2, buildMysticSquare3StateString easy.2⟩).1 362881 (Nat.le_of_eq rfl)
  have fb := (found_of_reaches ((bfs_spec easy_isState.1
    ⟨easy.2, buildMysticSquare3StateString easy.2⟩).2 362881 rb hb) easy_reaches).1
  have fd := (found_of_reaches ((dijkstra_spec easy_isState.1
    ⟨easy.2, buildMysticSquare3StateString easy.2⟩).2 362881 rd hd) easy_reaches).1
  exact ⟨⟨rb, hb, fb, bfs_dijkstra_shortest _ _ easy_isState.1 362881 rb (Or.inl hb) fb⟩,
    ⟨rd, hd, fd, bfs_dijkstra_shortest _ _ easy_isState.1 362881 rd (Or.inr hd) fd⟩⟩

/-! ## Informed search: the state in which the main loop ends -/

/-- The body of the loop over the successors leaves the predecessor map as it is or
enters the current state for the neighbour. -/
theorem relax_paths {h : MysticSquare3 → Except String Int} {c y : MysticSquare3}
    {st st' : AStarState} (hr : aStar.relax h c st y = .ok st') :
    st'.paths = st.paths ∨ st'.paths = GoMap.set st.paths y.State (some c) := by
  unfold aStar.relax at hr
  cases hd : aStar.discover h st y with
  | error e => simp [hd] at hr
  | ok st1 =>
    have hp1 : st1.paths = st.paths := by
      unfold aStar.discover at hd
      simp only at hd
      split at hd
      · simp only [Except.ok.injEq] at hd
        rw [← hd]
      · split at hd
        · simp only [Except.ok.injEq] at hd
          rw [← hd]
        · simp at hd
    simp only [hd] at hr
    split at hr
    · split at hr
      · split at hr
        · simp only [Except.ok.injEq] at hr
          right
          rw [← hr, hp1]
        · simp at hr
      · simp at hr
    · simp only [Except.ok.injEq] at hr
      left
      rw [← hr, hp1]

theorem relax_pinv {h : MysticSquare3 → Except String Int} {H : MysticSquare3 → Int}
    (hH : GoodHeuristic h H) {initial : MysticSquare3} {tk : String} (hi : IsState initial)
    {c : MysticSquare3} {st : AStarState} (hinv : AInv initial tk H (some c) st)
    (y : MysticSquare3) (hy : LegalMove c y) (hp : PInv initial st) :
    ∃ st', aStar.relax h c st y = .ok st' ∧ PInv initial st' := by
  obtain ⟨st', r1, r2, r3, r4, r5, r6, r7⟩ := relax_spec hH hi hinv y hy
  refine ⟨st', r1, ?_⟩
  rcases relax_paths r1 with hp' | hp'
  · constructor
    · intro k hk
      rw [hp'] at hk
      exact (r4 k (hp.pkeys k hk)).1
    · rw [hp']
      exact hp.proot
  · have hne : ¬ y.State = initial.State := by
      intro he
      have := r2.pinit
      rw [hp', GoMap.get_set] at this
      simp [he] at this
    constructor
    · intro k hk
      rw [hp', GoMap.lookup_set] at hk
      by_cases hky : y.State = k
      · rw [← hky]
        exact r6
      · simp only [hky, if_false] at hk
        exact (r4 k (hp.pkeys k hk)).1
    · rw [hp', GoMap.lookup_set]
      simp only [hne, if_false]
      exact hp.proot

theorem relaxAll_pinv {h : MysticSquare3 → Except String Int} {H : MysticSquare3 → Int}
    (hH : GoodHeuristic h H) {initial : MysticSquare3} {tk : String} (hi : IsState initial)
    {c : MysticSquare3} : ∀ (l : List MysticSquare3) (st : AStarState),
    AInv initial tk H (some c) st → (∀ y, y ∈ l → LegalMove c y) → PInv initial st →
    ∃ st', aStar.relaxAll h c l st = .ok st' ∧ PInv initial st' := by
  intro l
  induction l with
  | nil =>
    intro st _ _ hp
    exact ⟨st, rfl, hp⟩
  | cons y rest ih =>
    intro st hinv hl hp
    have hy := hl y (List.mem_cons_self _ _)
    obtain ⟨st1, r1, r2, _⟩ := relax_spec hH hi hinv y hy
    obtain ⟨st1', r1', p1⟩ := relax_pinv hH hi hinv y hy hp
    rw [r1] at r1'
    simp only [Except.ok.injEq] at r1'
    subst r1'
    obtain ⟨st2, s1, s2⟩ := ih st1 r2 (fun z hz => hl z (List.mem_cons_of_mem _ hz)) p1
    exact ⟨st2, by simp only [aStar.relaxAll, r1]; exact s1, s2⟩

/-- Whatever the main loop of `aStar` returns, it returns the predecessor map of a
state of the search in which the invariant holds: with the flag set the target has
just been taken from the queue, without it the queue is empty. -/
theorem aStar_loop_final {h : MysticSquare3 → Except String Int} {H : MysticSquare3 → Int}
    (hH : GoodHeuristic h H) {initial : MysticSquare3} {tk : String} (hi : IsState initial) :
    ∀ (fuel : Nat) (st : AStarState), AInv initial tk H none st → PInv initial st →
      ∀ r, aStar.loop h tk fuel st = .ok r →
      ∃ st', PInv initial st' ∧ r.paths = st'.paths ∧
        ((r.pathFound = true ∧ ∃ c, c.State = tk ∧ AInv initial tk H (some c) st') ∨
         (r.pathFound = false ∧ AInv initial tk H none st' ∧ st'.q.pq = [])) := by
  intro fuel
  induction fuel with
  | zero =>
    intro st _ _ r hr
    simp [aStar.loop] at hr
  | succ fuel ih =>
    intro st hinv hp r hr
    by_cases hne : st.q.pq = []
    · have hpe := process_empty st.q hne
      have hl : aStar.loop h tk (fuel + 1) st = .ok ⟨st.paths, false⟩ := by
        simp [aStar.loop, hpe]
      rw [hl] at hr
      simp only [Except.ok.injEq] at hr
      subst hr
      exact ⟨st, hp, rfl, Or.inr ⟨rfl, hinv, hne⟩⟩
    · obtain ⟨p, q', hpr, p1, p2, p3, p4, p5, _, _⟩ := process_spec st.q hinv.heap hne
      have hinv1 := ainv_pop hH hi hinv p1 p2 p3 p4 p5
      have hp1 : PInv initial { st with q := q' } := ⟨hp.pkeys, hp.proot⟩
      by_cases htk : (q'.item p).Msquare.State = tk
      · have hl : aStar.loop h tk (fuel + 1) st = .ok ⟨st.paths, true⟩ := by
          simp [aStar.loop, hpr, htk]
        rw [hl] at hr
        simp only [Except.ok.injEq] at hr
        subst hr
        exact ⟨{ st with q := q' }, hp1, rfl, Or.inl ⟨rfl, _, htk, hinv1⟩⟩
      · obtain ⟨st2, s1, s2, s3, s4, s5, s6⟩ := relaxAll_spec hH hi
          (adjacentSquares (q'.item p).Msquare) _ hinv1
          (fun y hy => (mem_adjacentSquares _ _).1 hy)
        obtain ⟨st2', s1', hp2⟩ := relaxAll_pinv hH hi
          (adjacentSquares (q'.item p).Msquare) _ hinv1
          (fun y hy => (mem_adjacentSquares _ _).1 hy) hp1
        rw [s1] at s1'
        simp only [Except.ok.injEq] at s1'
        subst s1'
        have hsucc : ∀ y, LegalMove (q'.item p).Msquare y →
            st2.Disc y.State ∧ st2.g y.State ≤ st2.g (q'.item p).Msquare.State + 1 := by
          intro y hy
          rw [s5]
          exact s6 y ((mem_adjacentSquares _ _).2 hy)
        obtain ⟨hinv3, _⟩ := ainv_close s2 hsucc htk
        have hl : aStar.loop h tk (fuel + 1) st = aStar.loop h tk fuel
            { st2 with visited := GoMap.set st2.visited (q'.item p).Msquare.State true } := by
          simp [aStar.loop, hpr, htk, s1]
        rw [hl] at hr
        exact ih _ hinv3 ⟨hp2.pkeys, hp2.proot⟩ r hr

theorem pinv_initial (Q : PriorityQueue) (initial : MysticSquare3) :
    PInv initial (aStar.start Q initial) := by
  constructor
  · intro k hk
    simp only [aStar.start, GoMap.lookup_set] at hk
    simp only [AStarState.Disc, aStar.start, GoMap.lookup_set]
    by_cases hki : initial.State = k
    · simp [hki]
    · simp [hki, GoMap.lookup] at hk
  · simp [aStar.start, GoMap.lookup_set]

/-- The function `aStar` with a consistent heuristic returns the predecessor map of a
state of the search in which the invariant holds. -/
theorem aStar_final {h : MysticSquare3 → Except String Int} {H : MysticSquare3 → Int}
    (hH : GoodHeuristic h H) {initial : MysticSquare3} (hi : IsState initial)
    (target : MysticSquare3) (fuel : Nat) (r : SearchResult)
    (hr : aStar fuel initial target h = .ok r) :
    ∃ st', PInv initial st' ∧ r.paths = st'.paths ∧
      ((r.pathFound = true ∧ ∃ c, c.State = target.State ∧
          AInv initial target.State H (some c) st') ∨
       (r.pathFound = false ∧ AInv initial target.State H none st' ∧ st'.q.pq = [])) := by
  have hf : aStar.f h (GoMap.set [] initial.State 0) initial = .ok (0 + H initial) := by
    have := f_ok hH hi (GoMap.set [] initial.State 0) (by rw [GoMap.get_set]; simp)
    rw [this, GoMap.get_set]
    simp
  obtain ⟨q1, q2, q3⟩ := initial_queue_spec initial (0 + H initial)
  have hinv := @ainv_initial H initial target.State hi _ q1 q2 q3
  have hl : aStar fuel initial target h = aStar.loop h target.State fuel
      (aStar.start (heap.Init ((NewMysticSquareItem NewMysticSquarePriorityQueue initial
          (0 + H initial)).2.Push 0)) initial) := by
    unfold aStar
    simp only [hf]
    rfl
  rw [hl] at hr
  exact aStar_loop_final hH hi fuel _ hinv (pinv_initial _ _) r hr

/-! ## The reconstructed path -/

theorem sameMapping_of_cells {a b : MysticSquare3} (ha : a.ValidateState = true)
    (hb : b.ValidateState = true) (h : cells a.state = cells b.state) :
    SameMapping a.state b.state := by
  intro k
  by_cases hk : k ∈ tiles
  · rw [valid_get_lookup ha hk, valid_get_lookup hb hk, (cells_eq_iff _ _).1 h k hk]
  · rw [valid_lookup_none ha hk, valid_lookup_none hb hk]

theorem cells_of_sameMapping {a b : GoMap Int Int} (h : SameMapping a b) : cells a = cells b := by
  rw [cells_eq_iff]
  intro k _
  unfold GoMap.get
  rw [h k]

/-- A state with the key of a successor of `a` has the mapping of a move result on `a`. -/
theorem moveStep_of_keyStep {a b : MysticSquare3} (hb : IsState b) (h : KeyStep a b) :
    MoveStep a b := by
  obtain ⟨x, ⟨m, hm, hnew⟩, hxk⟩ := h
  have hx := isState_of_new (congrArg Prod.fst hnew)
  refine ⟨m, hm, ?_⟩
  rw [RealState_eq hb.1, ← hx.2]
  exact sameMapping_of_cells hb.1 hx.1.1 ((state_eq_iff_cells hb hx.1).1 hxk.symm)

section

variable {initial : MysticSquare3} {tk : String}

theorem AInv.lineage_of_disc {H : MysticSquare3 → Int} {cur : Option MysticSquare3}
    {st : AStarState} (hinv : AInv initial tk H cur st) :
    ∀ (d : Nat) (k : String), st.Disc k → st.g k = d → Lineage st.paths initial k d := by
  intro d
  induction d with
  | zero =>
    intro k hk hg
    by_cases hne : k = initial.State
    · subst hne
      exact Lineage.root hinv.pinit
    · obtain ⟨u, _, _, h3, _, h5⟩ := hinv.chain k hk hne
      have := hinv.g_nonneg (hinv.closed_disc h3)
      simp only [Nat.cast_zero] at hg
      omega
  | succ d ih =>
    intro k hk hg
    by_cases hne : k = initial.State
    · subst hne
      have : st.g initial.State = 0 := by
        simp [AStarState.g, GoMap.get, hinv.init]
      rw [this] at hg
      push_cast at hg
      omega
    · obtain ⟨u, h1, h2, h3, h4, h5⟩ := hinv.chain k hk hne
      refine Lineage.step h1 h2 h4 (ih u.State (hinv.closed_disc h3) ?_)
      push_cast at hg
      omega

theorem BInv.lineage_of_vis {g : String → Nat} {cur : Option MysticSquare3} {st : BfsState}
    (hinv : BInv initial tk g cur st) :
    ∀ (d : Nat) (k : String), st.Vis k → g k = d → Lineage st.paths initial k d := by
  intro d
  induction d with
  | zero =>
    intro k hk hg
    by_cases hne : k = initial.State
    · subst hne
      exact Lineage.root hinv.pinit
    · obtain ⟨u, _, _, _, _, h5⟩ := hinv.chain k hk hne
      omega
  | succ d ih =>
    intro k hk hg
    by_cases hne : k = initial.State
    · subst hne
      have := hinv.ginit
      omega
    · obtain ⟨u, h1, h2, h3, h4, h5⟩ := hinv.chain k hk hne
      exact Lineage.step h1 h2 h4 (ih u.State h3 (by omega))

end

/-- The lineage of a key is what the predecessor walk follows; its steps are steps of
`Chain`. -/
theorem chain_of_lineage {paths : GoMap String (Option MysticSquare3)} {initial : MysticSquare3}
    {k : String} {d : Nat} (hl : Lineage paths initial k d) : Chain paths k d := by
  induction hl with
  | root h => exact Chain.stop h
  | step h1 _ _ _ ih => exact Chain.step h1 ih

/-- The walk from a state with a lineage of `d` steps collects `d` states, each of them
a move away from the one collected after it, the last a move away from `initial`. -/
theorem walk_of_lineage (paths : GoMap String (Option MysticSquare3)) {initial : MysticSquare3}
    (hi : IsState initial) {k : String} {d : Nat} (hl : Lineage paths initial k d) :
    ∀ (c : MysticSquare3) (acc : List MysticSquare3) (fuel : Nat), c.State = k → IsState c →
      d + 1 ≤ fuel →
      ∃ l, executeRun.walk paths fuel c acc = .ok (acc ++ l) ∧ l.length = d ∧
        List.Chain' (fun b a => MoveStep a b) (l ++ [initial]) ∧
        (∀ y, y ∈ (l ++ [initial]).head? → y.State = k ∧ IsState y) ∧
        (0 < d → l.head? = some c) := by
  induction hl with
  | root h =>
    intro c acc fuel hc _ hf
    obtain ⟨f, rfl⟩ : ∃ f, fuel = f + 1 := ⟨fuel - 1, by omega⟩
    refine ⟨[], ?_, rfl, ?_, ?_, fun h0 => absurd h0 (by decide)⟩
    · simp [executeRun.walk, hc, h]
    · simp
    · intro y hy
      simp only [List.nil_append, List.head?_cons, Option.mem_def, Option.some.injEq] at hy
      subst hy
      exact ⟨rfl, hi⟩
  | @step k u d h1 h2 h3 _ ih =>
    intro c acc fuel hc hcS hf
    obtain ⟨f, rfl⟩ : ∃ f, fuel = f + 1 := ⟨fuel - 1, by omega⟩
    obtain ⟨l, w1, w2, w3, w4, _⟩ := ih u (acc ++ [c]) f rfl h2 (by omega)
    refine ⟨c :: l, ?_, by simp [w2], ?_, ?_, fun _ => rfl⟩
    · simp only [executeRun.walk, hc, h1, w1]
      simp
    · show List.Chain' (fun b a => MoveStep a b) (c :: (l ++ [initial]))
      refine List.Chain'.cons' w3 ?_
      intro y hy
      obtain ⟨hyk, hyS⟩ := w4 y hy
      obtain ⟨x, hx, hxk⟩ := h3
      obtain ⟨x', hx', hxk'⟩ := legalMove_respects h2 hyS hyk.symm hx
      exact moveStep_of_keyStep hcS ⟨x', hx', by rw [hxk', hxk, hc]⟩
    · intro y hy
      simp only [List.cons_append, List.head?_cons, Option.mem_def, Option.some.injEq] at hy
      subst hy
      exact ⟨hc, hcS⟩

/-- The path reconstructed from a predecessor map in which the target has a lineage:
it starts with `initial`, ends with a state of the target key (the target itself when
there is a move at all), and each state is a move away from the one before it. -/
theorem path_of_lineage (paths : GoMap String (Option MysticSquare3))
    {initial target : MysticSquare3} (hi : IsState initial) (ht : IsState target) {d : Nat}
    (hl : Lineage paths initial target.State d) :
    ∃ path, path.length = d + 1 ∧
      (∀ fuel, d + 1 ≤ fuel → executeRun.path fuel paths initial target = .ok path) ∧
      path.head? = some initial ∧
      (∃ e, path.getLast? = some e ∧ e.State = target.State ∧ (0 < d → e = target)) ∧
      List.Chain' MoveStep path := by
  obtain ⟨l, w1, w2, w3, w4, w5⟩ :=
    walk_of_lineage paths hi hl target [] (d + 1) rfl ht (le_refl _)
  obtain ⟨path, p1, p2⟩ := path_of_chain paths initial target (chain_of_lineage hl)
  have hp := p2 (d + 1) (le_refl _)
  simp only [executeRun.path, w1, List.nil_append, Except.ok.injEq] at hp
  subst hp
  refine ⟨_, p1, p2, ?_, ?_, ?_⟩
  · simp
  · rw [List.getLast?_reverse]
    cases l with
    | nil =>
      refine ⟨initial, rfl, (w4 initial rfl).1, ?_⟩
      intro h0
      simp only [List.length_nil] at w2
      omega
    | cons a l' =>
      have ha : a = target := by
        have := w5 (by simp only [List.length_cons] at w2; omega)
        simpa using this
      exact ⟨a, rfl, by rw [ha], fun _ => ha⟩
  · rw [List.chain'_reverse]
    exact w3

/-! ## Breadth-first search: the state in which the main loop ends -/

/-- Whatever the main loop of `bfs` returns with the flag set is the predecessor map
of a state of the search in which the target has just been taken from the queue;
without the flag it returns the nil map. -/
theorem bfs_loop_final {initial : MysticSquare3} (hi : IsState initial) (target : MysticSquare3) :
    ∀ (fuel : Nat) (g : String → Nat) (st : BfsState), BInv initial target.State g none st →
      ∀ r, bfs.loop target fuel st = .ok r →
      (r.pathFound = true ∧ ∃ (g' : String → Nat) (st' : BfsState) (c : MysticSquare3),
          c.State = target.State ∧ BInv initial target.State g' (some c) st' ∧
          r.paths = st'.paths) ∨
        (r.pathFound = false ∧ r.paths = []) := by
  intro fuel
  induction fuel with
  | zero =>
    intro g st _ r hr
    simp [bfs.loop] at hr
  | succ fuel ih =>
    intro g st hinv r hr
    cases hq : st.q with
    | nil =>
      have hl : bfs.loop target (fuel + 1) st = .ok ⟨[], false⟩ := by
        simp [bfs.loop, hq, queue_process_nil]
      rw [hl] at hr
      simp only [Except.ok.injEq] at hr
      subst hr
      exact Or.inr ⟨rfl, rfl⟩
    | cons c rest =>
      have hinv1 := binv_pop hinv hq (hinv.queue_frontier hi)
      by_cases htk : c.State = target.State
      · have hl : bfs.loop target (fuel + 1) st = .ok ⟨st.paths, true⟩ := by
          simp [bfs.loop, hq, queue_process_cons, htk]
        rw [hl] at hr
        simp only [Except.ok.injEq] at hr
        subst hr
        exact Or.inl ⟨rfl, g, _, c, htk, hinv1, rfl⟩
      · obtain ⟨g2, s1, s2, s3, s4⟩ := binv_visitAll hi (adjacentSquares c) g _ hinv1
          (fun y hy => (mem_adjacentSquares _ _).1 hy)
        have hinv3 := binv_close s1 (fun y hy => s3 y ((mem_adjacentSquares _ _).2 hy)) htk
        have hl : bfs.loop target (fuel + 1) st = bfs.loop target fuel
            ((adjacentSquares c).foldl (bfs.visit c) { st with q := rest }) := by
          simp [bfs.loop, hq, queue_process_cons, htk]
        rw [hl] at hr
        exact ih g2 _ hinv3 r hr

theorem bfs_final {initial : MysticSquare3} (hi : IsState initial) (target : MysticSquare3)
    (fuel : Nat) (r : SearchResult) (hr : bfs fuel initial target = .ok r) :
    (r.pathFound = true ∧ ∃ (g' : String → Nat) (st' : BfsState) (c : MysticSquare3),
        c.State = target.State ∧ BInv initial target.State g' (some c) st' ∧
        r.paths = st'.paths) ∨
      (r.pathFound = false ∧ r.paths = []) :=
  bfs_loop_final hi target fuel _ _ (binv_initial target.State hi) r hr

/-! ## What the three searches return -/

/-- The three searches as `executeRun` may call them. -/
theorem lineage_of_found {initial target : MysticSquare3} (hi : IsState initial)
    (ht : IsState target) {fuel : Nat} {r : SearchResult}
    (hrun : bfs fuel initial target = .ok r ∨ dijkstrasAlgorithm fuel initial target = .ok r ∨
      aStar fuel initial target (manhattanTo target) = .ok r)
    (hfound : r.pathFound = true) :
    ∃ d, Lineage r.paths initial target.State d ∧
      (GoMap.lookup r.paths target.State).isSome = true := by
  have astar : ∀ {h : MysticSquare3 → Except String Int} {H : MysticSquare3 → Int},
      GoodHeuristic h H → aStar fuel initial target h = .ok r →
      ∃ d, Lineage r.paths initial target.State d ∧
        (GoMap.lookup r.paths target.State).isSome = true := by
    intro h H hH hr
    obtain ⟨st', hp, e, h1 | h1⟩ := aStar_final hH hi target fuel r hr
    · obtain ⟨_, c, hc, hinv⟩ := h1
      have hd : st'.Disc target.State := hc ▸ (hinv.curp c rfl).2.1
      obtain ⟨n, _, _, _, hg⟩ := hinv.reach _ hd
      have hl := hinv.lineage_of_disc n _ hd hg
      refine ⟨n, e ▸ hl, ?_⟩
      rw [e]
      by_cases hk : target.State = initial.State
      · rw [hk, hp.proot]
        rfl
      · obtain ⟨u, hu, _⟩ := hinv.chain _ hd hk
        cases hlk : GoMap.lookup st'.paths target.State with
        | none => simp [GoMap.get, hlk] at hu
        | some v => rfl
    · rw [hfound] at h1
      exact absurd h1.1 (by decide)
  rcases hrun with hb | hd | ha
  · rcases bfs_final hi target fuel r hb with ⟨_, g', st', c, hc, hinv, e⟩ | ⟨h1, _⟩
    · have hv : st'.Vis target.State := hc ▸ (hinv.curp c rfl).2.1
      exact ⟨g' target.State, e ▸ hinv.lineage_of_vis _ _ hv rfl, by
        rw [e]; exact (hinv.vpaths _).1 hv⟩
    · rw [hfound] at h1
      exact absurd h1 (by decide)
  · rw [dijkstra_eq_aStar hi target fuel] at hd
    exact astar zero_good hd
  · exact astar (manhattan_good ht) ha

/-- A search that does not set the flag returns a predecessor map without the key of
the target. -/
theorem absent_of_not_found {initial target : MysticSquare3} (hi : IsState initial)
    (ht : IsState target) {fuel : Nat} {r : SearchResult}
    (hrun : bfs fuel initial target = .ok r ∨ dijkstrasAlgorithm fuel initial target = .ok r ∨
      aStar fuel initial target (manhattanTo target) = .ok r)
    (hfound : r.pathFound = false) :
    GoMap.lookup r.paths target.State = none := by
  have astar : ∀ {h : MysticSquare3 → Except String Int} {H : MysticSquare3 → Int},
      GoodHeuristic h H → aStar fuel initial target h = .ok r →
      GoMap.lookup r.paths target.State = none := by
    intro h H hH hr
    obtain ⟨st', hp, e, h1 | h1⟩ := aStar_final hH hi target fuel r hr
    · rw [hfound] at h1
      exact absurd h1.1 (by decide)
    · obtain ⟨_, hinv, hq⟩ := h1
      cases hlk : GoMap.lookup r.paths target.State with
      | none => rfl
      | some v =>
        exfalso
        have hd : st'.Disc target.State := hp.pkeys _ (by rw [← e, hlk]; rfl)
        obtain ⟨n, x, hx, hxk, _⟩ := hinv.reach _ hd
        rcases hinv.frontier hH.cons hH.resp hi hx with hv | ⟨p, _, hp', _⟩
        · exact hinv.ntarget _ hv hxk
        · rw [hq] at hp'
          simp at hp'
  rcases hrun with hb | hd | ha
  · rcases bfs_final hi target fuel r hb with ⟨h1, _⟩ | ⟨_, e⟩
    · rw [hfound] at h1
      exact absurd h1 (by decide)
    · rw [e]
      rfl
  · rw [dijkstra_eq_aStar hi target fuel] at hd
    exact astar zero_good hd
  · exact astar (manhattan_good ht) ha

/-! ## The parity of a state -/

theorem exists_isPermOf {s : MysticSquare3} (hv : s.ValidateState = true) :
    ∃ σ : Equiv.Perm (Fin 9), IsPermOf σ s.state := by
  have hmem : ∀ j : Fin 9, GoMap.get s.state ((j : Nat) + 1 : Int) 0 ∈ tiles := by
    intro j
    apply valid_get_mem hv
    rw [mem_tiles_iff]
    have := j.2
    omega
  have hrange : ∀ j : Fin 9, (GoMap.get s.state ((j : Nat) + 1 : Int) 0 - 1).toNat < 9 := by
    intro j
    have := (mem_tiles_iff _).1 (hmem j)
    omega
  obtain ⟨f, hf⟩ : ∃ f : Fin 9 → Fin 9,
      ∀ j : Fin 9, (((f j : Nat) : Int) + 1) = GoMap.get s.state ((j : Nat) + 1 : Int) 0 := by
    refine ⟨fun j => ⟨(GoMap.get s.state ((j : Nat) + 1 : Int) 0 - 1).toNat, hrange j⟩, ?_⟩
    intro j
    have := (mem_tiles_iff _).1 (hmem j)
    show (((GoMap.get s.state ((j : Nat) + 1 : Int) 0 - 1).toNat : Nat) : Int) + 1 = _
    omega
  have hinj : Function.Injective f := by
    intro a b hab
    have h1 := hf a
    have h2 := hf b
    rw [hab] at h1
    have h3 := h1.symm.trans h2
    have ha : ((a : Nat) + 1 : Int) ∈ tiles := by rw [mem_tiles_iff]; have := a.2; omega
    have hb : ((b : Nat) + 1 : Int) ∈ tiles := by rw [mem_tiles_iff]; have := b.2; omega
    have := valid_get_inj hv ha hb h3
    apply Fin.ext
    omega
  refine ⟨Equiv.ofBijective f (Finite.injective_iff_bijective.1 hinj), ?_⟩
  intro i
  simp only [Equiv.ofBijective_apply]
  exact hf i

theorem isPermOf_unique {σ τ : Equiv.Perm (Fin 9)} {m : GoMap Int Int} (h1 : IsPermOf σ m)
    (h2 : IsPermOf τ m) : σ = τ := by
  apply Equiv.ext
  intro i
  have a := h1 i
  have b := h2 i
  apply Fin.ext
  omega

theorem fin_pos_mem (i : Fin 9) : ((i : Nat) + 1 : Int) ∈ tiles := by
  rw [mem_tiles_iff]
  have := i.2
  omega

theorem isPermOf_congr {σ : Equiv.Perm (Fin 9)} {a b : GoMap Int Int} (h : cells a = cells b)
    (ha : IsPermOf σ a) : IsPermOf σ b := by
  intro i
  rw [ha i]
  exact (cells_eq_iff _ _).1 h _ (fin_pos_mem i)

theorem signature_unique {m : GoMap Int Int} {e e' : ℤˣ} (h : Signature m e)
    (h' : Signature m e') : e = e' := by
  obtain ⟨σ, h1, rfl⟩ := h
  obtain ⟨τ, h2, rfl⟩ := h'
  rw [isPermOf_unique h1 h2]

theorem exists_signature {s : MysticSquare3} (hv : s.ValidateState = true) :
    ∃ e, Signature s.state e := by
  obtain ⟨σ, h⟩ := exists_isPermOf hv
  exact ⟨_, σ, h, rfl⟩

theorem signature_congr {a b : GoMap Int Int} {e : ℤˣ} (h : cells a = cells b)
    (ha : Signature a e) : Signature b e := by
  obtain ⟨σ, h1, h2⟩ := ha
  exact ⟨σ, isPermOf_congr h h1, h2⟩

/-- The cells after an exchange of the contents of two cells. -/
theorem isPermOf_swap {σ : Equiv.Perm (Fin 9)} {m r : GoMap Int Int} {i j : Fin 9}
    {p q : Int} (hi : ((i : Nat) + 1 : Int) = p) (hj : ((j : Nat) + 1 : Int) = q)
    (h : IsPermOf σ m)
    (hr : ∀ k ∈ tiles, GoMap.get r k 0 =
      if k = p then GoMap.get m q 0 else if k = q then GoMap.get m p 0 else GoMap.get m k 0) :
    IsPermOf (σ * Equiv.swap i j) r := by
  subst hi
  subst hj
  intro k
  rw [Equiv.Perm.mul_apply, hr _ (fin_pos_mem k), Equiv.swap_apply_def]
  by_cases hki : k = i
  · subst hki
    simp only [if_true]
    exact h j
  · have h1 : ¬ ((k : Nat) + 1 : Int) = ((i : Nat) + 1 : Int) := by
      intro he
      apply hki
      apply Fin.ext
      omega
    simp only [hki, h1, if_false]
    by_cases hkj : k = j
    · subst hkj
      simp only [if_true]
      exact h i
    · have h2 : ¬ ((k : Nat) + 1 : Int) = ((j : Nat) + 1 : Int) := by
        intro he
        apply hkj
        apply Fin.ext
        omega
      simp only [hkj, h2, if_false]
      exact h k

theorem cellParity_adj : ∀ i j : Fin 9, Adj ((i : Nat) + 1 : Int) ((j : Nat) + 1 : Int) →
    cellParity j = - cellParity i := by
  decide

theorem fin_of_tile {p : Int} (hp : p ∈ tiles) : ∃ i : Fin 9, ((i : Nat) + 1 : Int) = p := by
  rw [mem_tiles_iff] at hp
  exact ⟨⟨(p - 1).toNat, by omega⟩, by show (((p - 1).toNat : Nat) : Int) + 1 = p; omega⟩

theorem swap_of_isSwap {m r : GoMap Int Int} {p q : Int} (h : IsSwapOf m r p q) (hpq : p ≠ q) :
    ∀ k ∈ tiles, GoMap.get r k 0 =
      if k = p then GoMap.get m q 0 else if k = q then GoMap.get m p 0 else GoMap.get m k 0 := by
  intro k _
  rw [get_of_isSwap h k, Equiv.swap_apply_def]
  by_cases h1 : k = p
  · simp [h1]
  · by_cases h2 : k = q
    · subst h2
      simp [h1]
    · simp [h1, h2]

/-- A legal move keeps the signature: the exchange changes the sign of the cells, and
the blank goes to a cell of the other parity. -/
theorem signature_legalMove {a b : MysticSquare3} {e : ℤˣ} (h : LegalMove a b)
    (ha : Signature a.state e) : Signature b.state e := by
  obtain ⟨hv, q, hadj, rfl⟩ := legalMove_iff.1 h
  have hp := FindEmptySpace_mem hv
  obtain ⟨hq, hpq⟩ := adj_mem_tiles hp hadj
  obtain ⟨i, hi⟩ := fin_of_tile hp
  obtain ⟨j, hj⟩ := fin_of_tile hq
  obtain ⟨σ, h1, rfl⟩ := ha
  have hsw := swap_of_isSwap (swapInCopy_isSwap hv hp hq) hpq
  have h2 := isPermOf_swap hi hj h1 hsw
  have hij : i ≠ j := by
    intro he
    apply hpq
    rw [← hi, ← hj, he]
  have hblank : GoMap.get a.state ((i : Nat) + 1 : Int) 0 = 9 := by
    rw [hi]
    simp [GoMap.get, FindEmptySpace_lookup hv]
  have hσi : σ i = 8 := by
    have := h1 i
    rw [hblank] at this
    apply Fin.ext
    show (σ i : Nat) = 8
    omega
  have hb1 : σ.symm 8 = i := by
    rw [Equiv.symm_apply_eq, hσi]
  have hb2 : (σ * Equiv.swap i j).symm 8 = j := by
    rw [Equiv.symm_apply_eq, Equiv.Perm.mul_apply, Equiv.swap_apply_right, hσi]
  refine ⟨σ * Equiv.swap i j, h2, ?_⟩
  rw [hb1, hb2, Equiv.Perm.sign_mul, Equiv.Perm.sign_swap hij,
    cellParity_adj i j (by rw [hi, hj]; exact hadj)]
  simp

/-- Exchanging two tiles, neither of them the blank, changes the signature. -/
theorem signature_tileSwap {a b : GoMap Int Int} {p q : Int} {e : ℤˣ} (h : TileSwap a b p q)
    (ha : Signature a e) : Signature b (-e) := by
  obtain ⟨hp, hq, hpq, hnp, hnq, hsw⟩ := h
  obtain ⟨i, hi⟩ := fin_of_tile hp
  obtain ⟨j, hj⟩ := fin_of_tile hq
  obtain ⟨σ, h1, rfl⟩ := ha
  have h2 := isPermOf_swap hi hj h1 hsw
  have hij : i ≠ j := by
    intro he
    apply hpq
    rw [← hi, ← hj, he]
  have hbi : σ.symm 8 ≠ i := by
    intro he
    rw [Equiv.symm_apply_eq] at he
    have := h1 i
    rw [← he, hi] at this
    exact hnp this.symm
  have hbj : σ.symm 8 ≠ j := by
    intro he
    rw [Equiv.symm_apply_eq] at he
    have := h1 j
    rw [← he, hj] at this
    exact hnq this.symm
  have hb2 : (σ * Equiv.swap i j).symm 8 = σ.symm 8 := by
    rw [Equiv.symm_apply_eq, Equiv.Perm.mul_apply, Equiv.swap_apply_of_ne_of_ne hbi hbj,
      Equiv.apply_symm_apply]
  refine ⟨σ * Equiv.swap i j, h2, ?_⟩
  rw [hb2, Equiv.Perm.sign_mul, Equiv.Perm.sign_swap hij]
  simp

theorem signature_movesIn {n : Nat} {a x : MysticSquare3} {e : ℤˣ} (h : MovesIn n a x)
    (ha : Signature a.state e) : Signature x.state e := by
  induction h with
  | zero => exact ha
  | succ _ hm ih => exact signature_legalMove hm (ih ha)

theorem units_ne_neg (e : ℤˣ) : e ≠ -e := by
  rcases Int.units_eq_one_or e with h | h <;> rw [h] <;> decide

/-- No sequence of legal moves leads from a state to the state in which two of its
tiles are exchanged. -/
theorem unreachable_of_tileSwap {a b : MysticSquare3} (ha : IsState a) (hb : IsState b)
    {p q : Int} (h : TileSwap a.state b.state p q) (n : Nat) : ¬ Reaches n a b := by
  rintro ⟨x, hx, hxk⟩
  obtain ⟨e, he⟩ := exists_signature ha.1
  have h1 := signature_movesIn hx he
  have hxS := movesIn_isState hx ha
  have h2 := signature_congr ((state_eq_iff_cells hxS hb).1 hxk) h1
  exact units_ne_neg e (signature_unique h2 (signature_tileSwap h he))

/-! ## The heuristic is the reference sum -/

theorem cells_perm {s : MysticSquare3} (hv : s.ValidateState = true) :
    (cells s.state).Perm tiles := by
  have hnd : (cells s.state).Nodup := by
    unfold cells
    rw [List.nodup_map_iff_inj_on tiles_nodup]
    intro i hi j hj h
    exact valid_get_inj hv hi hj h
  have hsub : (cells s.state).Subperm tiles := by
    apply List.subperm_of_subset hnd
    intro v hvm
    unfold cells at hvm
    obtain ⟨k, hk, rfl⟩ := List.mem_map.1 hvm
    exact valid_get_mem hv hk
  exact hsub.perm_of_length_le (by simp [cells])

/-- The sum over the cells of the current state is the sum over the tile values. -/
theorem mdCells_eq_reference {s t : MysticSquare3} (hs : s.ValidateState = true) :
    mdCells s.state t.state = manhattanReference s.state t.state := by
  have h1 : mdCells s.state t.state = ((cells s.state).map fun v =>
      if v = 9 then 0 else gridDist (posOf s.state v) (posOf t.state v)).sum := by
    unfold mdCells cells
    rw [List.map_map]
    congr 1
    apply List.map_congr_left
    intro k hk
    simp only [Function.comp, cellCost, posOf_get hs hk]
  rw [h1, ((cells_perm hs).map _).sum_eq]
  simp [tiles, manhattanReference, gridDist]

/-! ## Validity, and the key as an identity -/

theorem bijection_of_valid {sq : MysticSquare3} (hv : sq.ValidateState = true) :
    IsBijection19 sq.state := by
  obtain ⟨hk, hvals⟩ := (ValidateState_iff sq).1 hv
  refine ⟨fun k h => hk.mem_iff.1 h, fun k h => hk.mem_iff.2 h, fun v hv => ?_⟩
  rw [hvals.count_eq]
  exact List.count_eq_one_of_mem tiles_nodup hv

theorem move_valid {s : MysticSquare3} (hs : s.ValidateState = true) {m : GoMap Int Int}
    (hm : s.MoveUp = some m ∨ s.MoveDown = some m ∨ s.MoveLeft = some m ∨ s.MoveRight = some m) :
    (MysticSquare3.mk m "").ValidateState = true := by
  have hp := FindEmptySpace_mem hs
  have key : ∀ q, Adj s.FindEmptySpace q →
      m = (swapInCopy s.state s.FindEmptySpace q).newSquare →
      (MysticSquare3.mk m "").ValidateState = true := by
    intro q hq he
    rw [he]
    exact valid_swapInCopy hs hp (adj_mem_tiles hp hq).1 ""
  rw [MoveUp_eq hs, MoveDown_eq hs, MoveLeft_eq hs, MoveRight_eq hs] at hm
  rcases hm with h | h | h | h
  · split at h
    · simp at h
    · rename_i hn
      simp only [Option.some.injEq] at h
      exact key _ (Or.inl ⟨rfl, hn⟩) h.symm
  · split at h
    · simp at h
    · rename_i hn
      simp only [Option.some.injEq] at h
      exact key _ (Or.inr (Or.inl ⟨rfl, hn⟩)) h.symm
  · split at h
    · simp at h
    · rename_i hn
      simp only [Option.some.injEq] at h
      exact key _ (Or.inr (Or.inr (Or.inl ⟨rfl, hn⟩))) h.symm
  · split at h
    · simp at h
    · rename_i hn
      simp only [Option.some.injEq] at h
      exact key _ (Or.inr (Or.inr (Or.inr ⟨rfl, hn⟩))) h.symm

theorem sameMapping_iff_cells {a b : MysticSquare3} (ha : a.ValidateState = true)
    (hb : b.ValidateState = true) :
    SameMapping a.state b.state ↔ cells a.state = cells b.state :=
  ⟨cells_of_sameMapping, sameMapping_of_cells ha hb⟩

/-! ## Sequences of moves depend on the key only -/

theorem movesIn_respects {n : Nat} {a x : MysticSquare3} (h : MovesIn n a x) :
    ∀ {a' : MysticSquare3}, IsState a → IsState a' → a.State = a'.State →
      ∃ x', MovesIn n a' x' ∧ x'.State = x.State := by
  induction h with
  | zero s =>
    intro a' _ _ hk
    exact ⟨a', MovesIn.zero a', hk.symm⟩
  | succ hm hl ih =>
    intro a' ha ha' hk
    obtain ⟨u', h1, h2⟩ := ih ha ha' hk
    obtain ⟨v', h3, h4⟩ := legalMove_respects (movesIn_isState hm ha)
      (movesIn_isState h1 ha') h2.symm hl
    exact ⟨v', MovesIn.succ h1 h3, h4⟩

theorem reaches_respects {n : Nat} {a b a' b' : MysticSquare3} (h : Reaches n a b)
    (ha : IsState a) (ha' : IsState a') (hk : a.State = a'.State) (hk' : b.State = b'.State) :
    Reaches n a' b' := by
  obtain ⟨x, hx, hxk⟩ := h
  obtain ⟨x', h1, h2⟩ := movesIn_respects hx ha ha' hk
  exact ⟨x', h1, by rw [h2, hxk, hk']⟩

/-! ## Initial and target state with the same key -/

theorem f_returns {h : MysticSquare3 → Except String Int} {s : MysticSquare3} {v : Int}
    (hv : h s = .ok v) (distance : GoMap String Int) : ∃ P, aStar.f h distance s = .ok P := by
  unfold aStar.f
  rw [hv]
  simp only
  split
  · exact ⟨_, rfl⟩
  · exact ⟨_, rfl⟩

/-- With the key of the target at the initial state, `aStar` stops at the first item. -/
theorem aStar_same_key {h : MysticSquare3 → Except String Int} {initial target : MysticSquare3}
    {v : Int} (hv : h initial = .ok v) (hk : initial.State = target.State) (fuel : Nat) :
    aStar (fuel + 1) initial target h = .ok ⟨[(initial.State, none)], true⟩ := by
  obtain ⟨P, hP⟩ := f_returns hv (GoMap.set [] initial.State 0)
  obtain ⟨q1, q2, q3⟩ := initial_queue_spec initial P
  have hne : (heap.Init ((NewMysticSquareItem NewMysticSquarePriorityQueue initial P).2.Push 0)).pq
      ≠ [] := by
    rw [q2]; simp
  obtain ⟨p, q', hpr, p1, _, _, p4, _⟩ := process_spec _ q1 hne
  rw [q2] at p1
  simp only [List.mem_singleton] at p1
  subst p1
  have hitem : (q'.item 0).Msquare = initial := by
    rw [(p4.2 0).1]
    simp [PriorityQueue.item, q3]
  have hproc : (heap.Init ((NewMysticSquareItem NewMysticSquarePriorityQueue initial P).2.Push
      (NewMysticSquareItem NewMysticSquarePriorityQueue initial P).1)).Process
      = ⟨some 0, true, q'⟩ := hpr
  unfold aStar
  simp only [hP]
  simp only [aStar.loop, hproc, hitem, ↓reduceIte]
  rw [if_pos hk]
  rfl

theorem bfs_same_key {initial target : MysticSquare3} (hk : initial.State = target.State)
    (fuel : Nat) : bfs (fuel + 1) initial target = .ok ⟨[(initial.State, none)], true⟩ := by
  simp [bfs, bfs.loop, NewMysticSquareQueue, Queue.Push, queue_process_cons, hk]
  rfl

theorem path_same_key {initial target : MysticSquare3} (hk : initial.State = target.State)
    (fuel : Nat) :
    executeRun.path (fuel + 1) [(initial.State, none)] initial target = .ok [initial] := by
  simp [executeRun.path, executeRun.walk, GoMap.get, GoMap.lookup, hk]

theorem mdCells_le_moves {s t : MysticSquare3} (hs : IsState s) (ht : IsState t) {n : Nat}
    (h : Reaches n s t) : mdCells s.state t.state ≤ n := by
  obtain ⟨x, hmoves, hkey⟩ := h
  have hx := movesIn_isState hmoves hs
  have h1 := movesIn_mdCells_le hmoves ht.1
  have h2 : mdCells x.state t.state = 0 := by
    rw [mdCells_congr t.state ((state_eq_iff_cells hx ht).1 hkey)]
    exact mdCells_self ht.1
  omega

set_option maxRecDepth 100000 in
theorem easy_mdCells : mdCells easy.1 easy.2 = 6 := by decide

theorem easy_lower (n : Nat) (h : Reaches n easyInitial easyTarget) : 6 ≤ n := by
  have h1 : mdCells easy.1 easy.2 ≤ n := mdCells_le_moves easy_isState.1 easy_isState.2 h
  rw [easy_mdCells] at h1
  omega

/-- A state with the cells of `m` has the key of the state that the constructor makes
of `m`. -/
theorem key_of_sameMapping {s : MysticSquare3} {m : GoMap Int Int} (hs : IsState s)
    (hm : IsState ⟨m, buildMysticSquare3StateString m⟩) (h : SameMapping s.state m) :
    s.State = (MysticSquare3.mk m (buildMysticSquare3StateString m)).State :=
  (state_eq_iff_cells hs hm).2 (cells_of_sameMapping h)

/-! ## The states in the predecessor map -/

/-- Every state that one of the searches records as a predecessor is a valid state
with its key. -/
theorem recorded_isState {initial target : MysticSquare3} (hi : IsState initial)
    (ht : IsState target) {fuel : Nat} {r : SearchResult}
    (hrun : bfs fuel initial target = .ok r ∨ dijkstrasAlgorithm fuel initial target = .ok r ∨
      aStar fuel initial target (manhattanTo target) = .ok r)
    {k : String} {u : MysticSquare3} (hk : GoMap.lookup r.paths k = some (some u)) :
    IsState u := by
  have hget : ∀ (paths : GoMap String (Option MysticSquare3)),
      GoMap.lookup paths k = some (some u) → GoMap.get paths k none = some u := by
    intro paths h
    simp [GoMap.get, h]
  have astar : ∀ {h : MysticSquare3 → Except String Int} {H : MysticSquare3 → Int},
      GoodHeuristic h H → aStar fuel initial target h = .ok r → IsState u := by
    intro h H hH hr
    obtain ⟨st', hp, e, h1⟩ := aStar_final hH hi target fuel r hr
    rw [e] at hk
    have hd : st'.Disc k := hp.pkeys k (by rw [hk]; rfl)
    have hne : k ≠ initial.State := by
      intro he
      rw [he, hp.proot] at hk
      simp at hk
    have main : ∀ cur, AInv initial target.State H cur st' → IsState u := by
      intro cur hinv
      obtain ⟨u', h2, h3, _⟩ := hinv.chain k hd hne
      rw [hget _ hk] at h2
      simp only [Option.some.injEq] at h2
      exact h2 ▸ h3
    rcases h1 with ⟨_, c, _, hinv⟩ | ⟨_, hinv, _⟩
    · exact main _ hinv
    · exact main _ hinv
  rcases hrun with hb | hd | ha
  · rcases bfs_final hi target fuel r hb with ⟨_, g', st', c, _, hinv, e⟩ | ⟨_, e⟩
    · rw [e] at hk
      have hv : st'.Vis k := (hinv.vpaths k).2 (by rw [hk]; rfl)
      have hne : k ≠ initial.State := by
        intro he
        have := hinv.pinit
        rw [← he, hget _ hk] at this
        simp at this
      obtain ⟨u', h2, h3, _⟩ := hinv.chain k hv hne
      rw [hget _ hk] at h2
      simp only [Option.some.injEq] at h2
      exact h2 ▸ h3
    · rw [e] at hk
      simp [GoMap.lookup] at hk
  · rw [dijkstra_eq_aStar hi target fuel] at hd
    exact astar zero_good hd
  · exact astar (manhattan_good ht) ha

/-- A search that meets its specification does not set the flag for a target that no
sequence of moves reaches. -/
theorem not_found_of_unreachable {initial target : MysticSquare3} {r : SearchResult}
    (hs : SearchSpec initial target.State r) (hu : ∀ n, ¬ Reaches n initial target) :
    r.pathFound = false := by
  rcases hs with ⟨_, d, _, ⟨x, hx, hxk⟩, _⟩ | ⟨h1, _⟩
  · exact absurd ⟨x, hx, hxk⟩ (hu d)
  · exact h1

theorem noPath_isState : IsState noPathInitial ∧ IsState noPathTarget := by decide

theorem noPath_tileSwap : TileSwap noPathInitial.state noPathTarget.state 1 2 := by decide

/-! ## The reconstructed path, the scenarios, and the result contract -/

/-- C11: when one of the three searches (`aStar` with the Manhattan heuristic), run from
a valid `initial` for a valid `target`, returns with `pathFound` set, the path
reconstruction returns a path that starts with `initial`, ends with a state that has
the key of `target` (the target itself as soon as there is a move), and in which the
mapping of every state is a result, not absent, of `MoveUp`, `MoveDown`, `MoveLeft` or
`MoveRight` on the state before it. -/
theorem path_is_chain (initial target : MysticSquare3) (hi : IsState initial)
    (ht : IsState target) (fuel : Nat) (r : SearchResult)
    (hrun : bfs fuel initial target = .ok r ∨ dijkstrasAlgorithm fuel initial target = .ok r ∨
      aStar fuel initial target (manhattanTo target) = .ok r)
    (hfound : r.pathFound = true) :
    ∃ (path : List MysticSquare3) (d : Nat), path.length = d + 1 ∧
      (∀ fuel', d + 1 ≤ fuel' → executeRun.path fuel' r.paths initial target = .ok path) ∧
      path.head? = some initial ∧
      (∃ e, path.getLast? = some e ∧ e.State = target.State ∧ (0 < d → e = target)) ∧
      List.Chain' MoveStep path := by
  obtain ⟨d, hl, _⟩ := lineage_of_found hi ht hrun hfound
  obtain ⟨path, h⟩ := path_of_lineage r.paths hi ht hl
  exact ⟨path, d, h⟩

/-- C11 at the easy scenario, searched breadth first. -/
theorem path_is_chain_witness :
    ∃ r, bfs 362881 easyInitial easyTarget = .ok r ∧ r.pathFound = true ∧
      ∃ (path : List MysticSquare3) (d : Nat), path.length = d + 1 ∧
        (∀ fuel', d + 1 ≤ fuel' →
          executeRun.path fuel' r.paths easyInitial easyTarget = .ok path) ∧
        path.head? = some easyInitial ∧
        (∃ e, path.getLast? = some e ∧ e.State = easyTarget.State ∧ (0 < d → e = easyTarget)) ∧
        List.Chain' MoveStep path := by
  obtain ⟨r, hr⟩ := (bfs_spec easy_isState.1 easyTarget).1 362881 (Nat.le_of_eq rfl)
  have hfound :=
    (found_of_reaches ((bfs_spec easy_isState.1 easyTarget).2 362881 r hr) easy_reaches).1
  exact ⟨r, hr, hfound,
    path_is_chain easyInitial easyTarget easy_isState.1 easy_isState.2 362881 r (Or.inl hr) hfound⟩

/-- C12: from a valid initial state with the mapping `{1:2, 2:1, 3:3, ..., 9:9}` for a
valid target with the identity mapping, each of `bfs`, `dijkstrasAlgorithm` and `aStar`
with the Manhattan heuristic returns (once 9! + 1 iterations are allowed) with
`pathFound` not set; and no sequence of legal moves leads from a valid state to a valid
state that is the first with two tiles, neither of them the blank, exchanged. -/
theorem noPath_unsolvable (initial target : MysticSquare3) (hi : IsState initial)
    (ht : IsState target) (him : SameMapping initial.state noPath.1)
    (htm : SameMapping target.state noPath.2) (fuel : Nat) (hf : Nat.factorial 9 + 1 ≤ fuel) :
    (∃ rb rd ra : SearchResult,
      bfs fuel initial target = .ok rb ∧
      dijkstrasAlgorithm fuel initial target = .ok rd ∧
      aStar fuel initial target (manhattanTo target) = .ok ra ∧
      rb.pathFound = false ∧ rd.pathFound = false ∧ ra.pathFound = false) ∧
    (∀ (a b : MysticSquare3) (p q : Int), IsState a → IsState b →
      TileSwap a.state b.state p q → ∀ n, ¬ Reaches n a b) := by
  have hu : ∀ n, ¬ Reaches n initial target := by
    intro n hn
    exact unreachable_of_tileSwap noPath_isState.1 noPath_isState.2 noPath_tileSwap n
      (reaches_respects hn hi noPath_isState.1 (key_of_sameMapping hi noPath_isState.1 him)
        (key_of_sameMapping ht noPath_isState.2 htm))
  obtain ⟨rb, hb⟩ := (bfs_spec hi target).1 fuel hf
  obtain ⟨rd, hd⟩ := (dijkstra_spec hi target).1 fuel hf
  obtain ⟨ra, ha⟩ := (aStar_spec (manhattan_good ht) hi target).1 fuel hf
  exact ⟨⟨rb, rd, ra, hb, hd, ha,
    not_found_of_unreachable ((bfs_spec hi target).2 fuel rb hb) hu,
    not_found_of_unreachable ((dijkstra_spec hi target).2 fuel rd hd) hu,
    not_found_of_unreachable ((aStar_spec (manhattan_good ht) hi target).2 fuel ra ha) hu⟩,
    fun a b p q ha' hb' h n => unreachable_of_tileSwap ha' hb' h n⟩

/-- C12 at the two states as `noPath` writes them. -/
theorem noPath_unsolvable_witness :
    (∃ rb rd ra : SearchResult,
      bfs 362881 noPathInitial noPathTarget = .ok rb ∧
      dijkstrasAlgorithm 362881 noPathInitial noPathTarget = .ok rd ∧
      aStar 362881 noPathInitial noPathTarget (manhattanTo noPathTarget) = .ok ra ∧
      rb.pathFound = false ∧ rd.pathFound = false ∧ ra.pathFound = false) ∧
    (∀ (a b : MysticSquare3) (p q : Int), IsState a → IsState b →
      TileSwap a.state b.state p q → ∀ n, ¬ Reaches n a b) :=
  noPath_unsolvable noPathInitial noPathTarget noPath_isState.1 noPath_isState.2
    (fun _ => rfl) (fun _ => rfl) 362881 (Nat.le_of_eq rfl)

/-- C13: for valid states `initial` and `target` with the same key, each of `bfs`,
`dijkstrasAlgorithm` and `aStar` with the Manhattan heuristic returns, in its first
iteration, with `pathFound` set and a predecessor map whose only entry maps that key to
nil, and the path reconstruction on this map returns the path of the one state
`initial`. -/
theorem same_key_found (initial target : MysticSquare3) (hi : IsState initial)
    (ht : IsState target) (hk : initial.State = target.State) (fuel : Nat) :
    bfs (fuel + 1) initial target = .ok ⟨[(initial.State, none)], true⟩ ∧
    dijkstrasAlgorithm (fuel + 1) initial target = .ok ⟨[(initial.State, none)], true⟩ ∧
    aStar (fuel + 1) initial target (manhattanTo target)
      = .ok ⟨[(initial.State, none)], true⟩ ∧
    executeRun.path (fuel + 1) [(initial.State, none)] initial target = .ok [initial] := by
  refine ⟨bfs_same_key hk fuel, ?_, ?_, path_same_key hk fuel⟩
  · rw [dijkstra_eq_aStar hi target (fuel + 1)]
    exact aStar_same_key (zero_good.ok initial hi) hk fuel
  · exact aStar_same_key ((manhattan_good ht).ok initial hi) hk fuel

/-- C13 at the target of the easy scenario, the identity, taken as initial state too. -/
theorem same_key_found_witness :
    bfs 1 easyTarget easyTarget = .ok ⟨[(easyTarget.State, none)], true⟩ ∧
    dijkstrasAlgorithm 1 easyTarget easyTarget = .ok ⟨[(easyTarget.State, none)], true⟩ ∧
    aStar 1 easyTarget easyTarget (manhattanTo easyTarget)
      = .ok ⟨[(easyTarget.State, none)], true⟩ ∧
    executeRun.path 1 [(easyTarget.State, none)] easyTarget easyTarget = .ok [easyTarget] :=
  same_key_found easyTarget easyTarget easy_isState.2 easy_isState.2 rfl 0

/-- C14: from a valid initial state with the mapping `{1:9, 2:1, 3:2, 4:4, 5:6, 6:3, 7:7,
8:5, 9:8}` for a valid target with the identity mapping, each of `bfs`,
`dijkstrasAlgorithm` and `aStar` with the Manhattan heuristic returns (once 9! + 1
iterations are allowed) with `pathFound` set, each of the three reconstructed paths
has 7 states, that is 6 moves, and no sequence of legal moves from the initial state to
the target has fewer than 6 moves. -/
theorem easy_minimal (initial target : MysticSquare3) (hi : IsState initial)
    (ht : IsState target) (him : SameMapping initial.state easy.1)
    (htm : SameMapping target.state easy.2) (fuel : Nat) (hf : Nat.factorial 9 + 1 ≤ fuel) :
    ∃ (rb rd ra : SearchResult) (pb pd pa : List MysticSquare3),
      bfs fuel initial target = .ok rb ∧
      dijkstrasAlgorithm fuel initial target = .ok rd ∧
      aStar fuel initial target (manhattanTo target) = .ok ra ∧
      rb.pathFound = true ∧ rd.pathFound = true ∧ ra.pathFound = true ∧
      executeRun.path fuel rb.paths initial target = .ok pb ∧
      executeRun.path fuel rd.paths initial target = .ok pd ∧
      executeRun.path fuel ra.paths initial target = .ok pa ∧
      pb.length = 7 ∧ pd.length = 7 ∧ pa.length = 7 ∧
      ∀ n, Reaches n initial target → 6 ≤ n := by
  have hik := key_of_sameMapping hi easy_isState.1 him
  have htk := key_of_sameMapping ht easy_isState.2 htm
  have hr : Reaches 6 initial target :=
    reaches_respects easy_reaches easy_isState.1 hi hik.symm htk.symm
  have hlow : ∀ n, Reaches n initial target → 6 ≤ n := fun n hn =>
    easy_lower n (reaches_respects hn hi easy_isState.1 hik htk)
  have hfuel : 7 ≤ fuel := by
    rw [factorial_nine] at hf
    omega
  obtain ⟨rb, hb⟩ := (bfs_spec hi target).1 fuel hf
  obtain ⟨rd, hd⟩ := (dijkstra_spec hi target).1 fuel hf
  obtain ⟨ra, ha⟩ := (aStar_spec (manhattan_good ht) hi target).1 fuel hf
  obtain ⟨fb, db, b1, b2, b3, _⟩ := found_of_reaches ((bfs_spec hi target).2 fuel rb hb) hr
  obtain ⟨fd, dd, d1, d2, d3, _⟩ :=
    found_of_reaches ((dijkstra_spec hi target).2 fuel rd hd) hr
  obtain ⟨fa, da, a1, a2, a3, _⟩ :=
    found_of_reaches ((aStar_spec (manhattan_good ht) hi target).2 fuel ra ha) hr
  obtain ⟨pb, lb, wb⟩ := path_of_chain rb.paths initial target b2
  obtain ⟨pd, ld, wd⟩ := path_of_chain rd.paths initial target d2
  obtain ⟨pa, la, wa⟩ := path_of_chain ra.paths initial target a2
  have eb := hlow db b3
  have ed := hlow dd d3
  have ea := hlow da a3
  exact ⟨rb, rd, ra, pb, pd, pa, hb, hd, ha, fb, fd, fa, wb fuel (by omega), wd fuel (by omega),
    wa fuel (by omega), by omega, by omega, by omega, hlow⟩

/-- C14 at the two states as `easy` writes them. -/
theorem easy_minimal_witness :
    ∃ (rb rd ra : SearchResult) (pb pd pa : List MysticSquare3),
      bfs 362881 easyInitial easyTarget = .ok rb ∧
      dijkstrasAlgorithm 362881 easyInitial easyTarget = .ok rd ∧
      aStar 362881 easyInitial easyTarget (manhattanTo easyTarget) = .ok ra ∧
      rb.pathFound = true ∧ rd.pathFound = true ∧ ra.pathFound = true ∧
      executeRun.path 362881 rb.paths easyInitial easyTarget = .ok pb ∧
      executeRun.path 362881 rd.paths easyInitial easyTarget = .ok pd ∧
      executeRun.path 362881 ra.paths easyInitial easyTarget = .ok pa ∧
      pb.length = 7 ∧ pd.length = 7 ∧ pa.length = 7 ∧
      ∀ n, Reaches n easyInitial easyTarget → 6 ≤ n :=
  easy_minimal easyInitial easyTarget easy_isState.1 easy_isState.2 (fun _ => rfl)
    (fun _ => rfl) 362881 (Nat.le_of_eq rfl)

/-- C15: whatever one of the three searches (`aStar` with the Manhattan heuristic)
returns from a valid `initial` for a valid `target`: `pathFound` is set if and only if
the predecessor map returned has an entry for the key of `target`. -/
theorem found_iff_key (initial target : MysticSquare3) (hi : IsState initial)
    (ht : IsState target) (fuel : Nat) (r : SearchResult)
    (hrun : bfs fuel initial target = .ok r ∨ dijkstrasAlgorithm fuel initial target = .ok r ∨
      aStar fuel initial target (manhattanTo target) = .ok r) :
    r.pathFound = true ↔ (GoMap.lookup r.paths target.State).isSome = true := by
  constructor
  · intro hfound
    obtain ⟨_, _, h⟩ := lineage_of_found hi ht hrun hfound
    exact h
  · intro hkey
    cases hfound : r.pathFound with
    | true => rfl
    | false =>
      rw [absent_of_not_found hi ht hrun hfound] at hkey
      simp at hkey

/-- C15 at the scenario without a path, searched by `dijkstrasAlgorithm`. -/
theorem found_iff_key_witness :
    ∃ r, dijkstrasAlgorithm 362881 noPathInitial noPathTarget = .ok r ∧
      (r.pathFound = true ↔ (GoMap.lookup r.paths noPathTarget.State).isSome = true) := by
  obtain ⟨r, hr⟩ := (dijkstra_spec noPath_isState.1 noPathTarget).1 362881 (Nat.le_of_eq rfl)
  exact ⟨r, hr, found_iff_key noPathInitial noPathTarget noPath_isState.1 noPath_isState.2
    362881 r (Or.inr (Or.inl hr))⟩

/-- C17: the closure `f` of `aStar` never wraps.  For a state whose best-known distance
`g` is between 0 and `math.MaxInt` and whose heuristic value `hv` is an `int`, `f`
returns `g + hv` when that is at most `math.MaxInt` and `math.MaxInt` otherwise; in
particular it returns `math.MaxInt` when `g` is `math.MaxInt` and `hv` is not negative. -/
theorem f_never_wraps (h : MysticSquare3 → Except String Int) (distance : GoMap String Int)
    (state : MysticSquare3) (hv : Int) (hh : h state = .ok hv)
    (hg : 0 ≤ GoMap.get distance state.State 0 ∧ GoMap.get distance state.State 0 ≤ MaxInt)
    (hr : -MaxInt - 1 ≤ hv ∧ hv ≤ MaxInt) :
    aStar.f h distance state
      = .ok (if GoMap.get distance state.State 0 + hv ≤ MaxInt
          then GoMap.get distance state.State 0 + hv else MaxInt) ∧
    (GoMap.get distance state.State 0 = MaxInt → 0 ≤ hv →
      aStar.f h distance state = .ok MaxInt) := by
  have main : aStar.f h distance state
      = .ok (if GoMap.get distance state.State 0 + hv ≤ MaxInt
          then GoMap.get distance state.State 0 + hv else MaxInt) := by
    unfold aStar.f
    rw [hh]
    simp only
    unfold MaxInt at hg hr ⊢
    by_cases hc : hv > 0 ∧ GoMap.get distance state.State 0 > 2 ^ 63 - 1 - hv
    · have h2 : ¬ GoMap.get distance state.State 0 + hv ≤ 2 ^ 63 - 1 := by omega
      simp only [hc, and_self, if_true, h2, if_false]
    · have h2 : GoMap.get distance state.State 0 + hv ≤ 2 ^ 63 - 1 := by omega
      simp only [hc, if_false, h2, if_true]
      congr 1
      unfold wrapInt
      omega
  refine ⟨main, ?_⟩
  intro hmax h0
  rw [main, hmax]
  congr 1
  unfold MaxInt
  split <;> omega

/-- C17 at a newly discovered state, whose distance is still `math.MaxInt`, with the
heuristic value 5. -/
theorem f_never_wraps_witness :
    aStar.f (fun _ => .ok 5) [("k", MaxInt)] ⟨[], "k"⟩
      = .ok (if GoMap.get [("k", MaxInt)] (MysticSquare3.mk [] "k").State 0 + 5 ≤ MaxInt
          then GoMap.get [("k", MaxInt)] (MysticSquare3.mk [] "k").State 0 + 5 else MaxInt) ∧
    (GoMap.get [("k", MaxInt)] (MysticSquare3.mk [] "k").State 0 = MaxInt → (0 : Int) ≤ 5 →
      aStar.f (fun _ => .ok 5) [("k", MaxInt)] ⟨[], "k"⟩ = .ok MaxInt) :=
  f_never_wraps (fun _ => .ok 5) [("k", MaxInt)] ⟨[], "k"⟩ 5 rfl (by decide) (by decide)

/-- C18: for mappings `a` and `b` that pass the validation, the constructor makes
squares of both, the `State` of each is the key built from its mapping, and the two
keys are equal if and only if `a` and `b` are the same mapping, whatever the order of
their entries. -/
theorem key_identity (a b : GoMap Int Int) (ha : (MysticSquare3.mk a "").ValidateState = true)
    (hb : (MysticSquare3.mk b "").ValidateState = true) :
    ∃ sa sb, NewMysticSquare a = (MysticSquare.ptr (some sa), none) ∧ NewMysticSquare b = (MysticSquare.ptr (some sb), none) ∧
      sa.State = buildMysticSquare3StateString a ∧ sb.State = buildMysticSquare3StateString b ∧
      (sa.State = sb.State ↔ SameMapping a b) := by
  refine ⟨⟨a, buildMysticSquare3StateString a⟩, ⟨b, buildMysticSquare3StateString b⟩,
    isState_new (isState_mk ha), isState_new (isState_mk hb), rfl, rfl, ?_⟩
  rw [state_eq_iff_cells (isState_mk ha) (isState_mk hb)]
  exact (@sameMapping_iff_cells ⟨a, ""⟩ ⟨b, ""⟩ ha hb).symm

/-- C18 at the initial mapping of the easy scenario, written in two orders. -/
theorem key_identity_witness :
    ∃ sa sb, NewMysticSquare easy.1 = (MysticSquare.ptr (some sa), none) ∧
      NewMysticSquare [(9, 8), (8, 5), (7, 7), (6, 3), (5, 6), (4, 4), (3, 2), (2, 1), (1, 9)]
        = (MysticSquare.ptr (some sb), none) ∧
      sa.State = buildMysticSquare3StateString easy.1 ∧
      sb.State = buildMysticSquare3StateString
        [(9, 8), (8, 5), (7, 7), (6, 3), (5, 6), (4, 4), (3, 2), (2, 1), (1, 9)] ∧
      (sa.State = sb.State ↔ SameMapping easy.1
        [(9, 8), (8, 5), (7, 7), (6, 3), (5, 6), (4, 4), (3, 2), (2, 1), (1, 9)]) :=
  key_identity easy.1 [(9, 8), (8, 5), (7, 7), (6, 3), (5, 6), (4, 4), (3, 2), (2, 1), (1, 9)]
    (by decide) (by decide)

/-- C19: for valid states `current` and `target`, `manhattanDistance current target`
returns the reference sum of their mappings: over the tile values 1..8, the row
distance plus the column distance between the position of the tile in `current` and
its position in `target`. -/
theorem manhattanDistance_reference (current target : MysticSquare3)
    (hc : current.ValidateState = true) (ht : target.ValidateState = true) :
    manhattanDistance current target
      = .ok (manhattanReference current.RealState target.RealState) := by
  rw [manhattanDistance_eq hc ht, RealState_eq hc, RealState_eq ht, mdCells_eq_reference hc]

/-- C19 at the easy scenario, where the sum is 6. -/
theorem manhattanDistance_reference_witness :
    manhattanDistance easyInitial easyTarget
      = .ok (manhattanReference easyInitial.RealState easyTarget.RealState) ∧
    manhattanReference easy.1 easy.2 = 6 :=
  ⟨manhattanDistance_reference easyInitial easyTarget easy_isState.1.1 easy_isState.2.1,
    by decide⟩

/-- C20: moves preserve validity.  For a valid state `s`, every result of `MoveUp`,
`MoveDown`, `MoveLeft` and `MoveRight` that is not absent is a bijection on 1..9,
`NewMysticSquare` makes a square of it without an error, every state among the
successors that the searches build is valid, and every state that one of the three
searches records in its predecessor map is valid. -/
theorem moves_preserve_validity (s : MysticSquare3) (hs : s.ValidateState = true) :
    (∀ m, (s.MoveUp = some m ∨ s.MoveDown = some m ∨ s.MoveLeft = some m ∨
        s.MoveRight = some m) →
      IsBijection19 m ∧ ∃ b, NewMysticSquare m = (MysticSquare.ptr (some b), none) ∧ b.ValidateState = true) ∧
    (∀ y, y ∈ adjacentSquares s → y.ValidateState = true) ∧
    (∀ (target : MysticSquare3) (fuel : Nat) (r : SearchResult) (k : String)
      (u : MysticSquare3), IsState s → IsState target →
      (bfs fuel s target = .ok r ∨ dijkstrasAlgorithm fuel s target = .ok r ∨
        aStar fuel s target (manhattanTo target) = .ok r) →
      GoMap.lookup r.paths k = some (some u) → u.ValidateState = true) := by
  refine ⟨?_, ?_, ?_⟩
  · intro m hm
    have hv := move_valid hs hm
    exact ⟨@bijection_of_valid ⟨m, ""⟩ hv, _, isState_new (isState_mk hv), hv⟩
  · intro y hy
    exact (legalMove_isState ((mem_adjacentSquares s y).1 hy)).1
  · intro target fuel r k u hi ht hrun hk
    exact (recorded_isState hi ht hrun hk).1

/-- C20 at the initial state of the hard scenario, whose blank is in the middle. -/
theorem moves_preserve_validity_witness :
    (∀ m, ((MysticSquare3.mk hard.1 (buildMysticSquare3StateString hard.1)).MoveUp = some m ∨
        (MysticSquare3.mk hard.1 (buildMysticSquare3StateString hard.1)).MoveDown = some m ∨
        (MysticSquare3.mk hard.1 (buildMysticSquare3StateString hard.1)).MoveLeft = some m ∨
        (MysticSquare3.mk hard.1 (buildMysticSquare3StateString hard.1)).MoveRight = some m) →
      IsBijection19 m ∧ ∃ b, NewMysticSquare m = (MysticSquare.ptr (some b), none) ∧ b.ValidateState = true) ∧
    (∀ y, y ∈ adjacentSquares (MysticSquare3.mk hard.1 (buildMysticSquare3StateString hard.1)) → y.ValidateState = true) ∧
    (∀ (target : MysticSquare3) (fuel : Nat) (r : SearchResult) (k : String)
      (u : MysticSquare3), IsState (MysticSquare3.mk hard.1 (buildMysticSquare3StateString hard.1)) → IsState target →
      (bfs fuel (MysticSquare3.mk hard.1 (buildMysticSquare3StateString hard.1)) target = .ok r ∨
        dijkstrasAlgorithm fuel (MysticSquare3.mk hard.1 (buildMysticSquare3StateString hard.1)) target = .ok r ∨
        aStar fuel (MysticSquare3.mk hard.1 (buildMysticSquare3StateString hard.1)) target (manhattanTo target) = .ok r) →
      GoMap.lookup r.paths k = some (some u) → u.ValidateState = true) :=
  moves_preserve_validity ⟨hard.1, buildMysticSquare3StateString hard.1⟩ (by decide)

/-! ## Every queue that can be built is well formed -/

theorem empty_wf : HeapWF NewMysticSquarePriorityQueue := by
  refine ⟨⟨?_, ?_⟩, ?_⟩
  · intro i hi
    simp [NewMysticSquarePriorityQueue] at hi
  · intro p hp
    simp [NewMysticSquarePriorityQueue] at hp
  · intro c _ hc
    simp [NewMysticSquarePriorityQueue] at hc

theorem process_wf {q : PriorityQueue} (hq : HeapWF q) : HeapWF q.Process.queue := by
  by_cases hne : q.pq = []
  · rw [process_empty q hne]
    exact hq
  · obtain ⟨p, q', hp, _, _, h, _⟩ := process_spec q hq hne
    rw [hp]
    exact h

theorem update_wf {q : PriorityQueue} (hq : HeapWF q) {p : Nat} (hp : p < q.items.length)
    (pr : Int) : HeapWF (q.Update p pr) := by
  by_cases hmem : p ∈ q.pq
  · exact (update_spec q hq hmem pr).1
  · rw [update_not_mem q hq.1 hp hmem pr]
    exact hq

/-- Pushing with `heap.Push` an item that was made with the queue and is not in it
keeps the queue well formed. -/
theorem push_old_wf (q : PriorityQueue) (hq : HeapWF q) {x : Nat} (hx : x < q.items.length)
    (hxnot : x ∉ q.pq) : HeapWF (heap.Push q x) := by
  obtain ⟨items, pq⟩ := q
  obtain ⟨⟨hw1, hw3⟩, hord⟩ := hq
  simp only at hw1 hw3 hord hx hxnot
  let q0 : PriorityQueue := ⟨items, pq⟩
  let q2 : PriorityQueue := q0.Push x
  have hq2pq : q2.pq = pq ++ [x] := rfl
  have hq2len : q2.pq.length = pq.length + 1 := by simp [hq2pq]
  have hq2items : q2.items.length = items.length := by
    simp [q2, q0, PriorityQueue.Push]
  have hitem : ∀ p, q2.item p =
      if p = x then { q0.item x with index := (pq.length : Int) } else q0.item p := by
    intro p
    have e2 : q2.item p = (q0.setIndex x pq.length).item p := rfl
    rw [e2, item_setIndex]
    by_cases hp : p = x
    · subst hp
      have : p < q0.items.length := hx
      simp only [this, and_self, if_true]
    · simp only [hp, false_and, if_false]
  have hat : ∀ i, i < pq.length → q2.at i = q0.at i := by
    intro i hi
    unfold PriorityQueue.at
    simp only [List.getD_eq_getElem?_getD, hq2pq]
    rw [List.getElem?_append_left hi]
  have hatx : q2.at pq.length = x := by
    unfold PriorityQueue.at
    simp [hq2pq]
  have hne : ∀ i, i < pq.length → ¬ q0.at i = x := by
    intro i hi he
    exact hxnot (he ▸ at_mem q0 hi)
  have hidx2 : HeapIdx q2 := by
    constructor
    · intro i hi
      rw [hq2len] at hi
      by_cases hil : i < pq.length
      · rw [hat i hil, hq2items, hitem]
        have h1 := hw1 i hil
        simp only [hne i hil, if_false]
        exact h1
      · have : i = pq.length := by omega
        subst this
        rw [hatx, hq2items, hitem]
        simp [hx]
    · intro p hp hmem
      rw [hq2items] at hp
      rw [hq2pq] at hmem
      simp only [List.mem_append, List.mem_singleton, not_or] at hmem
      rw [hitem]
      simp only [hmem.2, if_false]
      exact hw3 p hp hmem.1
  have hprio : ∀ i, i < pq.length → q2.prioAt i = q0.prioAt i := by
    intro i hi
    unfold PriorityQueue.prioAt
    rw [hat i hi, hitem]
    simp [hne i hi]
  have hup := up_spec pq.length q2 hidx2 (by omega) ?_ ?_
  · rw [hq2len] at hup
    obtain ⟨u1, u2, _, u5, _⟩ := hup
    have hres : heap.Push ⟨items, pq⟩ x = heap.up q2 pq.length := by
      show heap.up q2 (q2.Len - 1) = heap.up q2 pq.length
      simp [PriorityQueue.Len, hq2len]
    rw [hres]
    refine ⟨u1, ?_⟩
    rw [u5, hq2len]
    exact u2
  · intro c hc0 hcn hcne
    rw [hq2len] at hcn
    have hc : c < pq.length := by omega
    rw [hprio c hc, hprio _ (by omega)]
    exact hord c hc0 hc
  · intro _ c hc0 hcn hcp
    rw [hq2len] at hcn
    omega

theorem built_wf {q : PriorityQueue} (h : Built q) : HeapWF q := by
  induction h with
  | empty => exact empty_wf
  | init sq pr => exact (initial_queue_spec sq pr).1
  | push sq pr _ ih => exact (push_new_spec _ ih sq pr).2.1
  | again p _ hp hn ih => exact push_old_wf _ ih hp hn
  | process _ ih => exact process_wf ih
  | update p pr _ hp ih => exact update_wf ih hp pr

/-! ## The number of iterations of the main loops -/

/-- While a state is being expanded it is not marked visited, so fewer than 9! states
are. -/
theorem AInv.cur_bounded {initial : MysticSquare3} {tk : String} {H : MysticSquare3 → Int}
    {c : MysticSquare3} {st : AStarState} (hinv : AInv initial tk H (some c) st) :
    st.visited.length + 1 ≤ Nat.factorial 9 := by
  obtain ⟨hcS, _, hcV⟩ := hinv.curp c rfl
  have h := keys_bounded (c.State :: GoMap.keys st.visited) ?_ ?_
  · simpa [GoMap.keys] using h
  · rw [List.nodup_cons]
    exact ⟨fun hm => hcV ((GoMap.isSome_lookup_iff _ _).2 hm), hinv.vnodup⟩
  · intro k hk
    rcases List.mem_cons.1 hk with he | hm
    · exact ⟨c, hcS, he.symm⟩
    · exact hinv.vstate k ((GoMap.isSome_lookup_iff _ _).2 hm)

/-- A run of the main loop of `aStar` that ends with the target taken from the queue
needs one iteration less than the bound that holds for every run. -/
theorem aStar_loop_found_fuel {h : MysticSquare3 → Except String Int} {H : MysticSquare3 → Int}
    (hH : GoodHeuristic h H) {initial : MysticSquare3} {tk : String} (hi : IsState initial) :
    ∀ (fuel : Nat) (st : AStarState), AInv initial tk H none st →
      Nat.factorial 9 - st.visited.length ≤ fuel →
      ∀ r, aStar.loop h tk (fuel + 1) st = .ok r → r.pathFound = true →
        aStar.loop h tk fuel st = .ok r := by
  intro fuel
  induction fuel with
  | zero =>
    intro st hinv hf r hr hfound
    exfalso
    by_cases hne : st.q.pq = []
    · have hpe := process_empty st.q hne
      have hl : aStar.loop h tk 1 st = .ok ⟨st.paths, false⟩ := by
        simp [aStar.loop, hpe]
      rw [hl] at hr
      simp only [Except.ok.injEq] at hr
      subst hr
      exact absurd hfound Bool.false_ne_true
    · obtain ⟨p, q', _, p1, p2, p3, p4, p5, _, _⟩ := process_spec st.q hinv.heap hne
      have hinv1 := ainv_pop hH hi hinv p1 p2 p3 p4 p5
      have hb := hinv1.cur_bounded
      have hb' : st.visited.length + 1 ≤ Nat.factorial 9 := hb
      omega
  | succ fuel ih =>
    intro st hinv hf r hr hfound
    by_cases hne : st.q.pq = []
    · have hpe := process_empty st.q hne
      have hl : aStar.loop h tk (fuel + 1 + 1) st = .ok ⟨st.paths, false⟩ := by
        simp [aStar.loop, hpe]
      rw [hl] at hr
      simp only [Except.ok.injEq] at hr
      subst hr
      exact absurd hfound Bool.false_ne_true
    · obtain ⟨p, q', hpr, p1, p2, p3, p4, p5, _, _⟩ := process_spec st.q hinv.heap hne
      have hinv1 := ainv_pop hH hi hinv p1 p2 p3 p4 p5
      by_cases htk : (q'.item p).Msquare.State = tk
      · have hl : ∀ f, aStar.loop h tk (f + 1) st = .ok ⟨st.paths, true⟩ := by
          intro f
          simp [aStar.loop, hpr, htk]
        rw [hl] at hr
        rw [hl]
        exact hr
      · obtain ⟨st2, s1, s2, s3, s4, s5, s6⟩ := relaxAll_spec hH hi
          (adjacentSquares (q'.item p).Msquare) _ hinv1
          (fun y hy => (mem_adjacentSquares _ _).1 hy)
        have hsucc : ∀ y, LegalMove (q'.item p).Msquare y →
            st2.Disc y.State ∧ st2.g y.State ≤ st2.g (q'.item p).Msquare.State + 1 := by
          intro y hy
          rw [s5]
          exact s6 y ((mem_adjacentSquares _ _).2 hy)
        obtain ⟨hinv3, hlen⟩ := ainv_close s2 hsucc htk
        have hl : ∀ f, aStar.loop h tk (f + 1) st = aStar.loop h tk f
            { st2 with visited := GoMap.set st2.visited (q'.item p).Msquare.State true } := by
          intro f
          simp [aStar.loop, hpr, htk, s1]
        rw [hl] at hr
        rw [hl]
        refine ih _ hinv3 ?_ r hr hfound
        show Nat.factorial 9 - (GoMap.set st2.visited (q'.item p).Msquare.State true).length
          ≤ fuel
        have s3' : st2.visited.length = st.visited.length := by rw [s3]
        rw [hlen, s3']
        omega

theorem aStar_found_fuel {h : MysticSquare3 → Except String Int} {H : MysticSquare3 → Int}
    (hH : GoodHeuristic h H) {initial : MysticSquare3} (hi : IsState initial)
    (target : MysticSquare3) (r : SearchResult)
    (hr : aStar (Nat.factorial 9 + 1) initial target h = .ok r) (hfound : r.pathFound = true) :
    aStar (Nat.factorial 9) initial target h = .ok r := by
  have hf : aStar.f h (GoMap.set [] initial.State 0) initial = .ok (0 + H initial) := by
    have := f_ok hH hi (GoMap.set [] initial.State 0) (by rw [GoMap.get_set]; simp)
    rw [this, GoMap.get_set]
    simp
  obtain ⟨q1, q2, q3⟩ := initial_queue_spec initial (0 + H initial)
  have hinv := @ainv_initial H initial target.State hi _ q1 q2 q3
  have hl : ∀ fuel, aStar fuel initial target h = aStar.loop h target.State fuel
      (aStar.start (heap.Init ((NewMysticSquareItem NewMysticSquarePriorityQueue initial
          (0 + H initial)).2.Push 0)) initial) := by
    intro fuel
    unfold aStar
    simp only [hf]
    rfl
  rw [hl] at hr ⊢
  exact aStar_loop_found_fuel hH hi _ _ hinv (Nat.sub_le _ _) r hr hfound

theorem bfs_loop_found_fuel {initial : MysticSquare3} (hi : IsState initial)
    (target : MysticSquare3) :
    ∀ (fuel : Nat) (g : String → Nat) (st : BfsState), BInv initial target.State g none st →
      st.q.length + (Nat.factorial 9 - st.visited.length) ≤ fuel →
      ∀ r, bfs.loop target (fuel + 1) st = .ok r → r.pathFound = true →
        bfs.loop target fuel st = .ok r := by
  intro fuel
  induction fuel with
  | zero =>
    intro g st hinv hf r hr hfound
    exfalso
    have hq : st.q = [] := List.length_eq_zero.1 (by omega)
    have hl : bfs.loop target 1 st = .ok ⟨[], false⟩ := by
      simp [bfs.loop, hq, queue_process_nil]
    rw [hl] at hr
    simp only [Except.ok.injEq] at hr
    subst hr
    exact absurd hfound Bool.false_ne_true
  | succ fuel ih =>
    intro g st hinv hf r hr hfound
    cases hq : st.q with
    | nil =>
      exfalso
      have hl : bfs.loop target (fuel + 1 + 1) st = .ok ⟨[], false⟩ := by
        simp [bfs.loop, hq, queue_process_nil]
      rw [hl] at hr
      simp only [Except.ok.injEq] at hr
      subst hr
      exact absurd hfound Bool.false_ne_true
    | cons c rest =>
      have hinv1 := binv_pop hinv hq (hinv.queue_frontier hi)
      by_cases htk : c.State = target.State
      · have hl : ∀ f, bfs.loop target (f + 1) st = .ok ⟨st.paths, true⟩ := by
          intro f
          simp [bfs.loop, hq, queue_process_cons, htk]
        rw [hl] at hr
        rw [hl]
        exact hr
      · obtain ⟨g2, s1, s2, s3, s4⟩ := binv_visitAll hi (adjacentSquares c) g _ hinv1
          (fun y hy => (mem_adjacentSquares _ _).1 hy)
        have hinv3 := binv_close s1 (fun y hy => s3 y ((mem_adjacentSquares _ _).2 hy)) htk
        have hl : ∀ f, bfs.loop target (f + 1) st = bfs.loop target f
            ((adjacentSquares c).foldl (bfs.visit c) { st with q := rest }) := by
          intro f
          simp [bfs.loop, hq, queue_process_cons, htk]
        rw [hl] at hr
        rw [hl]
        refine ih g2 _ hinv3 ?_ r hr hfound
        have hb := hinv3.seen_bounded
        have hb0 := hinv.seen_bounded
        have s4' : ((adjacentSquares c).foldl (bfs.visit c) { st with q := rest }).visited.length
            + rest.length = st.visited.length
            + ((adjacentSquares c).foldl (bfs.visit c) { st with q := rest }).q.length := s4
        rw [hq] at hf
        simp only [List.length_cons] at hf
        omega

theorem bfs_found_fuel {initial : MysticSquare3} (hi : IsState initial)
    (target : MysticSquare3) (r : SearchResult)
    (hr : bfs (Nat.factorial 9 + 1) initial target = .ok r) (hfound : r.pathFound = true) :
    bfs (Nat.factorial 9) initial target = .ok r := by
  have hinv := binv_initial target.State hi
  have hl : ∀ fuel, bfs fuel initial target = bfs.loop target fuel
      ⟨[initial], GoMap.set [] initial.State true, GoMap.set [] initial.State none⟩ := by
    intro fuel
    rfl
  rw [hl] at hr ⊢
  refine bfs_loop_found_fuel hi target _ _ _ hinv ?_ r hr hfound
  have : (GoMap.set ([] : GoMap String Bool) initial.State true).length = 1 := rfl
  show 1 + (Nat.factorial 9 - (GoMap.set ([] : GoMap String Bool) initial.State true).length)
    ≤ Nat.factorial 9
  rw [this, factorial_nine]

/-! ## A state enters the frontier when it is first met, and only then -/

theorem visit_seen (c : MysticSquare3) (st : BfsState) (y : MysticSquare3)
    (h : st.Vis y.State) : bfs.visit c st y = st := by
  unfold BfsState.Vis at h
  cases hlk : GoMap.lookup st.visited y.State with
  | none => rw [hlk] at h; simp at h
  | some b => simp [bfs.visit, hlk]

theorem visit_new (c : MysticSquare3) (st : BfsState) (y : MysticSquare3)
    (h : ¬ st.Vis y.State) :
    (bfs.visit c st y).q = st.q ++ [y] ∧ (bfs.visit c st y).Vis y.State := by
  have hlk : GoMap.lookup st.visited y.State = none := by
    cases hl : GoMap.lookup st.visited y.State with
    | none => rfl
    | some b => exact absurd (by simp [BfsState.Vis, hl]) h
  simp [bfs.visit, hlk, Queue.Push, BfsState.Vis, GoMap.lookup_set]

theorem visit_keeps (c : MysticSquare3) (st : BfsState) (y : MysticSquare3) (k : String)
    (h : st.Vis k) : (bfs.visit c st y).Vis k := by
  by_cases hy : st.Vis y.State
  · rw [visit_seen c st y hy]
    exact h
  · have hlk : GoMap.lookup st.visited y.State = none := by
      cases hl : GoMap.lookup st.visited y.State with
      | none => rfl
      | some b => exact absurd (by simp [BfsState.Vis, hl]) hy
    unfold BfsState.Vis at h ⊢
    simp only [bfs.visit, hlk, GoMap.lookup_set]
    split
    · rfl
    · exact h

/-! ## The best-first searches push a state when it gets its distance, and only then -/

theorem discover_known (h : MysticSquare3 → Except String Int) (st : AStarState)
    (y : MysticSquare3) (hd : st.Disc y.State) : aStar.discover h st y = .ok st := by
  unfold AStarState.Disc at hd
  cases hlk : GoMap.lookup st.distance y.State with
  | none => rw [hlk] at hd; simp at hd
  | some d => simp [aStar.discover, hlk]

theorem discover_new {h : MysticSquare3 → Except String Int} {st st1 : AStarState}
    {y : MysticSquare3} (hd : ¬ st.Disc y.State) (hr : aStar.discover h st y = .ok st1) :
    ∃ P, st1.q = heap.Push (NewMysticSquareItem st.q y P).2 (NewMysticSquareItem st.q y P).1 := by
  have hlk : GoMap.lookup st.distance y.State = none := by
    cases hl : GoMap.lookup st.distance y.State with
    | none => rfl
    | some b => exact absurd (by simp [AStarState.Disc, hl]) hd
  unfold aStar.discover at hr
  simp only [hlk] at hr
  split at hr
  · rename_i P _
    simp only [Except.ok.injEq] at hr
    exact ⟨P, by rw [← hr]⟩
  · simp at hr

theorem discover_disc {h : MysticSquare3 → Except String Int} {st st1 : AStarState}
    {y : MysticSquare3} (hr : aStar.discover h st y = .ok st1) :
    st1.Disc y.State ∧ ∀ k, st.Disc k → st1.Disc k := by
  unfold aStar.discover at hr
  simp only at hr
  split at hr
  · rename_i d hlk
    simp only [Except.ok.injEq] at hr
    subst hr
    exact ⟨by simp [AStarState.Disc, hlk], fun k hk => hk⟩
  · split at hr
    · simp only [Except.ok.injEq] at hr
      subst hr
      refine ⟨by simp [AStarState.Disc, GoMap.lookup_set], ?_⟩
      intro k hk
      unfold AStarState.Disc at hk ⊢
      simp only [GoMap.lookup_set]
      split
      · rfl
      · exact hk
    · simp at hr

/-- The body of the loop over the successors pushes nothing after `discover`: it
leaves the queue or calls `Update`; and no key loses its distance. -/
theorem relax_frontier {h : MysticSquare3 → Except String Int} {c y : MysticSquare3}
    {st st1 st2 : AStarState} (hd : aStar.discover h st y = .ok st1)
    (hr : aStar.relax h c st y = .ok st2) :
    (st2.q = st1.q ∨ ∃ p P, st2.q = st1.q.Update p P) ∧ st2.Disc y.State ∧
      ∀ k, st.Disc k → st2.Disc k := by
  obtain ⟨d1, d2⟩ := discover_disc hd
  unfold aStar.relax at hr
  simp only [hd] at hr
  split at hr
  · split at hr
    · rename_i p _
      split at hr
      · rename_i P _
        simp only [Except.ok.injEq] at hr
        subst hr
        refine ⟨Or.inr ⟨p, P, rfl⟩, by simp [AStarState.Disc, GoMap.lookup_set], ?_⟩
        intro k hk
        have := d2 k hk
        unfold AStarState.Disc at this ⊢
        simp only [GoMap.lookup_set]
        split
        · rfl
        · exact this
      · simp at hr
    · simp at hr
  · simp only [Except.ok.injEq] at hr
    subst hr
    exact ⟨Or.inl rfl, d1, d2⟩

theorem dijkstra_discover_known (st : DijkstraState) (y : MysticSquare3)
    (hd : (GoMap.lookup st.distance y.State).isSome = true) :
    dijkstrasAlgorithm.discover st y = st := by
  cases hlk : GoMap.lookup st.distance y.State with
  | none => rw [hlk] at hd; simp at hd
  | some d => simp [dijkstrasAlgorithm.discover, hlk]

theorem dijkstra_discover_new (st : DijkstraState) (y : MysticSquare3)
    (hd : ¬ (GoMap.lookup st.distance y.State).isSome = true) :
    (dijkstrasAlgorithm.discover st y).q
      = heap.Push (NewMysticSquareItem st.q y MaxInt).2 (NewMysticSquareItem st.q y MaxInt).1 := by
  have hlk : GoMap.lookup st.distance y.State = none := by
    cases hl : GoMap.lookup st.distance y.State with
    | none => rfl
    | some b => rw [hl] at hd; simp at hd
  simp [dijkstrasAlgorithm.discover, hlk, GoMap.get_set]

theorem dijkstra_discover_disc (st : DijkstraState) (y : MysticSquare3) :
    (GoMap.lookup (dijkstrasAlgorithm.discover st y).distance y.State).isSome = true ∧
    ∀ k, (GoMap.lookup st.distance k).isSome = true →
      (GoMap.lookup (dijkstrasAlgorithm.discover st y).distance k).isSome = true := by
  cases hlk : GoMap.lookup st.distance y.State with
  | some d =>
    have : dijkstrasAlgorithm.discover st y = st := by simp [dijkstrasAlgorithm.discover, hlk]
    rw [this]
    exact ⟨by rw [hlk]; rfl, fun k hk => hk⟩
  | none =>
    simp only [dijkstrasAlgorithm.discover, hlk, GoMap.lookup_set]
    refine ⟨by simp, ?_⟩
    intro k hk
    split
    · rfl
    · exact hk

theorem dijkstra_relax_frontier {c y : MysticSquare3} {st st2 : DijkstraState}
    (hr : dijkstrasAlgorithm.relax c st y = .ok st2) :
    (st2.q = (dijkstrasAlgorithm.discover st y).q ∨
      ∃ p P, st2.q = (dijkstrasAlgorithm.discover st y).q.Update p P) ∧
    (GoMap.lookup st2.distance y.State).isSome = true ∧
    ∀ k, (GoMap.lookup st.distance k).isSome = true →
      (GoMap.lookup st2.distance k).isSome = true := by
  obtain ⟨d1, d2⟩ := dijkstra_discover_disc st y
  unfold dijkstrasAlgorithm.relax at hr
  simp only at hr
  split at hr
  · split at hr
    · rename_i p _
      simp only [Except.ok.injEq] at hr
      subst hr
      refine ⟨Or.inr ⟨p, _, rfl⟩, by simp [GoMap.lookup_set], ?_⟩
      intro k hk
      have := d2 k hk
      simp only [GoMap.lookup_set]
      split
      · rfl
      · exact this
    · simp at hr
  · simp only [Except.ok.injEq] at hr
    subst hr
    exact ⟨Or.inl rfl, d1, d2⟩

/-! ## A queue as the searches build it -/

theorem sampleQueue_built : Built sampleQueue := by
  unfold sampleQueue
  have b0 := Built.init easyInitial 6
  have l0 := (initial_queue_spec easyInitial 6).2.2
  have b1 := Built.push easyTarget 9 b0
  obtain ⟨n1, _, n3, _⟩ := push_new_spec _ (built_wf b0) easyTarget 9
  have b2 := Built.push noPathInitial 7 b1
  obtain ⟨_, _, m3, _⟩ := push_new_spec _ (built_wf b1) noPathInitial 7
  refine Built.update _ 3 b2 ?_
  rw [m3, n3, n1]
  omega

theorem sampleQueue_nonempty : sampleQueue.pq ≠ [] := by
  unfold sampleQueue
  have b0 := Built.init easyInitial 6
  have b1 := Built.push easyTarget 9 b0
  obtain ⟨n1, _, _, _, _, _, n7⟩ := push_new_spec _ (built_wf b0) easyTarget 9
  have b2 := Built.push noPathInitial 7 b1
  obtain ⟨_, _, _, _, _, _, m7⟩ := push_new_spec _ (built_wf b1) noPathInitial 7
  have hmem := (m7 _).2 (Or.inl ((n7 _).2 (Or.inr n1)))
  obtain ⟨_, _, _, u4, _⟩ := update_spec _ (built_wf b2) hmem 3
  intro he
  have := (u4 _).2 hmem
  rw [he] at this
  simp at this


/-! ## A queue on which an item is pushed twice -/

theorem built_anyBuilt {q : PriorityQueue} (h : Built q) : AnyBuilt q := by
  induction h with
  | empty => exact AnyBuilt.empty
  | init sq pr => exact AnyBuilt.init sq pr
  | push sq pr _ ih => exact AnyBuilt.push sq pr ih
  | again p _ hp _ ih => exact AnyBuilt.again p ih hp
  | process _ ih => exact AnyBuilt.process ih
  | update p pr _ hp ih => exact AnyBuilt.update p pr ih hp

theorem up_stop (h : PriorityQueue) (j : Nat)
    (hst : (j - 1) / 2 = j ∨ ¬ h.Less j ((j - 1) / 2) = true) : heap.up h j = h := by
  rw [heap.up]
  exact dif_pos hst

theorem down_loop_stop (h : PriorityQueue) (i n : Nat) (hst : 2 * i + 1 ≥ n) :
    heap.down.loop h i n = (h, i) := by
  rw [heap.down.loop]
  exact dif_pos hst

theorem down_loop_keep (h : PriorityQueue) (i n : Nat) (hn : ¬ 2 * i + 1 ≥ n)
    (hst : ¬ h.Less (if 2 * i + 1 + 1 < n ∧ h.Less (2 * i + 1 + 1) (2 * i + 1) = true
      then 2 * i + 1 + 1 else 2 * i + 1) i = true) :
    heap.down.loop h i n = (h, i) := by
  rw [heap.down.loop]
  simp only []
  rw [dif_neg hn, if_pos hst]

theorem push_first :
    heap.Push (NewMysticSquareItem NewMysticSquarePriorityQueue easyInitial 5).2
      (NewMysticSquareItem NewMysticSquarePriorityQueue easyInitial 5).1
      = ⟨[⟨easyInitial, 5, 0⟩], [0]⟩ := by
  unfold heap.Push
  exact up_stop _ _ (Or.inl (by decide))

theorem push_again :
    heap.Push ⟨[⟨easyInitial, 5, 0⟩], [0]⟩
      (NewMysticSquareItem NewMysticSquarePriorityQueue easyInitial 5).1
      = ⟨[⟨easyInitial, 5, 1⟩], [0, 0]⟩ := by
  unfold heap.Push
  exact up_stop _ _ (Or.inr (by decide))

theorem twicePushed_eq : twicePushed = ⟨[⟨easyInitial, 5, 1⟩], [0, 0]⟩ := by
  unfold twicePushed
  simp only []
  rw [push_first, push_again]

theorem push_third : heap.Push (NewMysticSquareItem ⟨[⟨easyInitial, 5, 1⟩], [0, 0]⟩ easyTarget 7).2
    (NewMysticSquareItem ⟨[⟨easyInitial, 5, 1⟩], [0, 0]⟩ easyTarget 7).1
    = ⟨[⟨easyInitial, 5, 1⟩, ⟨easyTarget, 7, 2⟩], [0, 0, 1]⟩ := by
  unfold heap.Push
  exact up_stop _ _ (Or.inr (by decide))

theorem update_stale : PriorityQueue.Update ⟨[⟨easyInitial, 5, 1⟩, ⟨easyTarget, 7, 2⟩], [0, 0, 1]⟩ 0 10
    = ⟨[⟨easyInitial, 10, 1⟩, ⟨easyTarget, 7, 2⟩], [0, 0, 1]⟩ := by
  unfold PriorityQueue.Update
  rw [if_pos (by decide)]
  unfold PriorityQueue.update heap.Fix heap.down
  simp only []
  rw [down_loop_stop _ _ _ (by decide)]
  simp only []
  rw [if_pos (by decide)]
  exact up_stop _ _ (Or.inr (by decide))

theorem misordered_eq : misordered = ⟨[⟨easyInitial, 10, 1⟩, ⟨easyTarget, 7, 2⟩], [0, 0, 1]⟩ := by
  unfold misordered
  rw [twicePushed_eq]
  simp only []
  rw [push_third, update_stale]

theorem misordered_process :
    misordered.Process = ⟨some 0, true, ⟨[⟨easyInitial, 10, -1⟩, ⟨easyTarget, 7, 0⟩], [1, 0]⟩⟩ := by
  rw [misordered_eq]
  unfold PriorityQueue.Process
  simp only []
  rw [if_pos (by decide)]
  unfold heap.Pop heap.down
  simp only []
  rw [down_loop_keep _ _ _ (by decide) (by decide)]
  rfl

theorem twicePushed_anyBuilt : AnyBuilt twicePushed := by
  unfold twicePushed
  refine AnyBuilt.again _ (AnyBuilt.push easyInitial 5 AnyBuilt.empty) ?_
  rw [push_first]
  decide

theorem misordered_anyBuilt : AnyBuilt misordered := by
  unfold misordered
  refine AnyBuilt.update 0 10 (AnyBuilt.push easyTarget 7 twicePushed_anyBuilt) ?_
  rw [twicePushed_eq, push_third]
  decide

/-! ## Termination, the priority queue, and uniform-cost search -/

/-- C21: from a valid `initial` for a valid `target`, each of `bfs`, `dijkstrasAlgorithm`
and `aStar` with the Manhattan heuristic terminates within 9! iterations of its main loop.
The fuel counts the calls of `Process`, one per iteration and a last one that finds the
frontier empty: with 9! + 1 calls allowed each search returns, and a run that ends with
the target taken from the frontier returns with 9! calls allowed.  A state enters the
frontier at most once: `bfs` pushes a successor exactly when its key is not marked
visited and marks it with the push; the best-first searches push it, in `discover`,
exactly when its key has no distance and give it one, the rest of the loop body only
calls `Update`; and no mark or distance is ever removed. -/
theorem searches_terminate (initial target : MysticSquare3) (hi : IsState initial)
    (ht : IsState target) :
    (∀ fuel, Nat.factorial 9 + 1 ≤ fuel → ∃ rb rd ra : SearchResult,
      bfs fuel initial target = .ok rb ∧ dijkstrasAlgorithm fuel initial target = .ok rd ∧
      aStar fuel initial target (manhattanTo target) = .ok ra) ∧
    (∀ r : SearchResult, r.pathFound = true →
      (bfs (Nat.factorial 9 + 1) initial target = .ok r →
        bfs (Nat.factorial 9) initial target = .ok r) ∧
      (dijkstrasAlgorithm (Nat.factorial 9 + 1) initial target = .ok r →
        dijkstrasAlgorithm (Nat.factorial 9) initial target = .ok r) ∧
      (aStar (Nat.factorial 9 + 1) initial target (manhattanTo target) = .ok r →
        aStar (Nat.factorial 9) initial target (manhattanTo target) = .ok r)) ∧
    (∀ (c : MysticSquare3) (st : BfsState) (y : MysticSquare3),
      (st.Vis y.State → bfs.visit c st y = st) ∧
      (¬ st.Vis y.State →
        (bfs.visit c st y).q = st.q ++ [y] ∧ (bfs.visit c st y).Vis y.State) ∧
      ∀ k, st.Vis k → (bfs.visit c st y).Vis k) ∧
    (∀ (h : MysticSquare3 → Except String Int) (c : MysticSquare3) (st : AStarState)
      (y : MysticSquare3) (st1 st2 : AStarState),
      aStar.discover h st y = .ok st1 → aStar.relax h c st y = .ok st2 →
      (st.Disc y.State → st1 = st) ∧
      (¬ st.Disc y.State → ∃ P, st1.q
        = heap.Push (NewMysticSquareItem st.q y P).2 (NewMysticSquareItem st.q y P).1) ∧
      (st2.q = st1.q ∨ ∃ p P, st2.q = st1.q.Update p P) ∧ st2.Disc y.State ∧
      ∀ k, st.Disc k → st2.Disc k) ∧
    (∀ (c : MysticSquare3) (st : DijkstraState) (y : MysticSquare3) (st2 : DijkstraState),
      dijkstrasAlgorithm.relax c st y = .ok st2 →
      ((GoMap.lookup st.distance y.State).isSome = true →
        dijkstrasAlgorithm.discover st y = st) ∧
      (¬ (GoMap.lookup st.distance y.State).isSome = true →
        (dijkstrasAlgorithm.discover st y).q = heap.Push
          (NewMysticSquareItem st.q y MaxInt).2 (NewMysticSquareItem st.q y MaxInt).1) ∧
      (st2.q = (dijkstrasAlgorithm.discover st y).q ∨
        ∃ p P, st2.q = (dijkstrasAlgorithm.discover st y).q.Update p P) ∧
      (GoMap.lookup st2.distance y.State).isSome = true ∧
      ∀ k, (GoMap.lookup st.distance k).isSome = true →
        (GoMap.lookup st2.distance k).isSome = true) := by
  refine ⟨?_, ?_, ?_, ?_, ?_⟩
  · intro fuel hf
    obtain ⟨rb, hb⟩ := (bfs_spec hi target).1 fuel hf
    obtain ⟨rd, hd⟩ := (dijkstra_spec hi target).1 fuel hf
    obtain ⟨ra, ha⟩ := (aStar_spec (manhattan_good ht) hi target).1 fuel hf
    exact ⟨rb, rd, ra, hb, hd, ha⟩
  · intro r hfound
    refine ⟨fun hr => bfs_found_fuel hi target r hr hfound, ?_,
      fun hr => aStar_found_fuel (manhattan_good ht) hi target r hr hfound⟩
    intro hr
    rw [dijkstra_eq_aStar hi target] at hr ⊢
    exact aStar_found_fuel zero_good hi target r hr hfound
  · intro c st y
    exact ⟨visit_seen c st y, visit_new c st y, fun k => visit_keeps c st y k⟩
  · intro h c st y st1 st2 hd hr
    obtain ⟨f1, f2, f3⟩ := relax_frontier hd hr
    refine ⟨fun hk => ?_, fun hk => discover_new hk hd, f1, f2, f3⟩
    rw [discover_known h st y hk] at hd
    simp only [Except.ok.injEq] at hd
    exact hd.symm
  · intro c st y st2 hr
    obtain ⟨f1, f2, f3⟩ := dijkstra_relax_frontier hr
    exact ⟨dijkstra_discover_known st y, dijkstra_discover_new st y, f1, f2, f3⟩

/-- C21 at the easy scenario: the three searches return within the bound. -/
theorem searches_terminate_witness :
    ∃ rb rd ra : SearchResult,
      bfs (Nat.factorial 9 + 1) easyInitial easyTarget = .ok rb ∧
      dijkstrasAlgorithm (Nat.factorial 9 + 1) easyInitial easyTarget = .ok rd ∧
      aStar (Nat.factorial 9 + 1) easyInitial easyTarget (manhattanTo easyTarget) = .ok ra ∧
      (rb.pathFound = true → bfs (Nat.factorial 9) easyInitial easyTarget = .ok rb) ∧
      (rd.pathFound = true →
        dijkstrasAlgorithm (Nat.factorial 9) easyInitial easyTarget = .ok rd) ∧
      (ra.pathFound = true →
        aStar (Nat.factorial 9) easyInitial easyTarget (manhattanTo easyTarget) = .ok ra) := by
  obtain ⟨h1, h2, _⟩ := searches_terminate easyInitial easyTarget easy_isState.1 easy_isState.2
  obtain ⟨rb, rd, ra, hb, hd, ha⟩ := h1 (Nat.factorial 9 + 1) (le_refl _)
  exact ⟨rb, rd, ra, hb, hd, ha, fun hf => (h2 rb hf).1 hb, fun hf => (h2 rd hf).2.1 hd,
    fun hf => (h2 ra hf).2.2 ha⟩

/-- C23, as the claim has it, fails on a queue on which an item is pushed twice: after
`heap.Push` of a new item of priority 5, `heap.Push` of the same item once more,
`heap.Push` of a second new item of priority 7 and `Update` of the first item to the
priority 10, `Process` returns the first item, of priority 10, while the second item,
of priority 7, remains in the queue. -/
theorem double_push_process_not_min :
    AnyBuilt misordered ∧ misordered.pq ≠ [] ∧
    misordered.Process
      = ⟨some 0, true, ⟨[⟨easyInitial, 10, -1⟩, ⟨easyTarget, 7, 0⟩], [1, 0]⟩⟩ ∧
    ¬ ∀ q, AnyBuilt q → q.pq ≠ [] → ∃ p q', q.Process = ⟨some p, true, q'⟩ ∧
      ∀ p', p' ∈ q'.pq → (q'.item p).priority ≤ (q'.item p').priority := by
  have hne : misordered.pq ≠ [] := by rw [misordered_eq]; decide
  refine ⟨misordered_anyBuilt, hne, misordered_process, fun h => ?_⟩
  obtain ⟨p, q', hp, hmin⟩ := h misordered misordered_anyBuilt hne
  rw [misordered_process] at hp
  simp only [Processed.mk.injEq, Option.some.injEq, true_and] at hp
  obtain ⟨hp1, hp2⟩ := hp
  subst hp1 hp2
  exact absurd (hmin 1 (by decide)) (by decide)

/-- C23: minimum extraction.  On a priority queue built from the empty queue without
pushing an item that is in the queue, and that is not empty, `Process` returns an item
of the queue and the flag true; the priority of the item is less than or equal to the
priority of every item that remains; the queue after the call holds the items it held
before except that one, one fewer, each with the square and the priority it had.  On an
empty queue `Process` returns nil and the flag false and leaves the queue as it is. -/
theorem process_extracts_min (q : PriorityQueue) (hq : Built q) :
    (q.pq ≠ [] → ∃ p q', q.Process = ⟨some p, true, q'⟩ ∧ p ∈ q.pq ∧
      (∀ p', p' ∈ q'.pq → (q'.item p).priority ≤ (q'.item p').priority) ∧
      (∀ p', p' ∈ q'.pq ↔ p' ∈ q.pq ∧ p' ≠ p) ∧ q'.pq.length + 1 = q.pq.length ∧
      (∀ p', (q'.item p').Msquare = (q.item p').Msquare ∧
        (q'.item p').priority = (q.item p').priority)) ∧
    (q.pq = [] → q.Process = ⟨none, false, q⟩) := by
  refine ⟨?_, process_empty q⟩
  intro hne
  obtain ⟨p, q', hpr, p1, p2, _, p4, p5, _, p7⟩ := process_spec q (built_wf hq) hne
  refine ⟨p, q', hpr, p1, ?_, p5, p7, p4.2⟩
  intro p' hp'
  rw [(p4.2 p).2, (p4.2 p').2]
  exact p2 p' ((p5 p').1 hp').1

/-- C23 at a queue built as the searches build theirs, which holds three items. -/
theorem process_extracts_min_witness :
    Built sampleQueue ∧ sampleQueue.pq ≠ [] ∧
    ∃ p q', sampleQueue.Process = ⟨some p, true, q'⟩ ∧ p ∈ sampleQueue.pq ∧
      (∀ p', p' ∈ q'.pq → (q'.item p).priority ≤ (q'.item p').priority) ∧
      (∀ p', p' ∈ q'.pq ↔ p' ∈ sampleQueue.pq ∧ p' ≠ p) ∧
      q'.pq.length + 1 = sampleQueue.pq.length ∧
      (∀ p', (q'.item p').Msquare = (sampleQueue.item p').Msquare ∧
        (q'.item p').priority = (sampleQueue.item p').priority) :=
  ⟨sampleQueue_built, sampleQueue_nonempty,
    (process_extracts_min sampleQueue sampleQueue_built).1 sampleQueue_nonempty⟩

/-- C24: uniform-cost search is informed search with the heuristic that is constantly
zero.  From a valid `initial`, `dijkstrasAlgorithm` returns what `aStar` returns with
that heuristic, the same flag and the same predecessor map, whatever number of
iterations is allowed; with 9! + 1 allowed both return.  The test for a visited
neighbour in the loop body of `aStar`, which `dijkstrasAlgorithm` does not have, thus
never decides anything. -/
theorem dijkstra_is_zero_aStar (initial target : MysticSquare3) (hi : IsState initial)
    (fuel : Nat) :
    dijkstrasAlgorithm fuel initial target = aStar fuel initial target zeroHeuristic ∧
    (Nat.factorial 9 + 1 ≤ fuel → ∃ r, dijkstrasAlgorithm fuel initial target = .ok r ∧
      aStar fuel initial target zeroHeuristic = .ok r) := by
  have heq := dijkstra_eq_aStar hi target fuel
  refine ⟨heq, fun hf => ?_⟩
  obtain ⟨r, hr⟩ := (dijkstra_spec hi target).1 fuel hf
  exact ⟨r, hr, heq ▸ hr⟩

/-- C24 at the easy scenario. -/
theorem dijkstra_is_zero_aStar_witness :
    dijkstrasAlgorithm 362881 easyInitial easyTarget
      = aStar 362881 easyInitial easyTarget zeroHeuristic ∧
    (Nat.factorial 9 + 1 ≤ 362881 →
      ∃ r, dijkstrasAlgorithm 362881 easyInitial easyTarget = .ok r ∧
        aStar 362881 easyInitial easyTarget zeroHeuristic = .ok r) :=
  dijkstra_is_zero_aStar easyInitial easyTarget easy_isState.1 362881

end Mystic
